import Mathlib

/-!
# grew: a verification development

Shallow embedding of the installation pipeline of `homegrew/grew` and machine-checked
statements about it.

* `internal/depgraph/resolver.go`: `Resolve`, `topoSort`, `findCycle`, `traceCycle`.
* `internal/validation/validation.go`: `IsValidName`, `IsValidVersion`.
* `internal/downloader/extractor.go`: `stripPath`, `withinDir`, `extractFile`, the loops of
  `extractTarGz` and `extractZip`.
* `internal/fsutil/fsutil.go`: `SanitizeMode`.
* `internal/cellar/cellar.go`: `KegPath`.
* The functions of `path/filepath`, `strings` and `os` that these call, on Unix paths.

Conventions of the embedding.

* A Go `map[string]V` is a `GoMap V`: the list of its keys (in insertion order) and a
  total value function (the zero value off the keys).
* Go leaves the order of a `range` over a map unspecified.  Every such loop of the
  source takes its enumeration order from a `RangeOrder`, and the statements quantify
  over all of them.
* Loops whose termination is not structural run on fuel; running out of fuel is the
  outer `none` of a result, and the theorems show that it does not happen.
* Go strings are Lean strings; names are compared by code point, which is the order of
  Go's `<` on UTF-8 text.
* The file system is a value of type `Os.FS` that the operations pass along; an error
  return is the `error` of an `Except`.

The file has three parts: the definitions (the program, then the vocabulary of the
statements and the example inputs), the lemmas, and the theorems that settle the claims.
-/

namespace Grew

/-! ## Strings -/

/-- Lexicographic comparison of two character sequences by code point: the order of
Go's `<` on strings (byte-wise on UTF-8, which agrees with code-point order). -/
def leChars : List Char → List Char → Bool
  | [], _ => true
  | _ :: _, [] => false
  | a :: as, b :: bs =>
    if a.toNat < b.toNat then true
    else if a.toNat = b.toNat then leChars as bs
    else false

/-- The order `a <= b` on names used by `sort.Strings`. -/
def nameLe (a b : String) : Prop := leChars a.data b.data = true

instance nameLeDecidable : DecidableRel nameLe := fun a b => by
  unfold nameLe; infer_instance

/-- The strict order `a < b` on names. -/
def nameLt (a b : String) : Prop := nameLe a b ∧ a ≠ b

instance nameLtDecidable : DecidableRel nameLt := fun a b => by
  unfold nameLt; infer_instance

/-- Go's `sort.Strings`: the ascending rearrangement of the slice. -/
def sortStrings (l : List String) : List String := List.insertionSort nameLe l

/-! ## Go maps -/

/-- A Go `map[string]V`: its keys in insertion order and its values. -/
structure GoMap (V : Type) where
  keys : List String
  val : String → V

namespace GoMap

variable {V : Type}

/-- The empty map; `zero` is the zero value of `V`, read at absent keys. -/
def empty (zero : V) : GoMap V := ⟨[], fun _ => zero⟩

/-- The read `m[k]`. -/
def get (m : GoMap V) (k : String) : V := m.val k

/-- The write `m[k] = v`. -/
def set (m : GoMap V) (k : String) (v : V) : GoMap V :=
  ⟨if k ∈ m.keys then m.keys else m.keys ++ [k], Function.update m.val k v⟩

end GoMap

/-- The orders in which the `range` loops over maps enumerate the keys: `graph` is the
loop of `topoSort` over `graph` (line 75), `ready` its loop over `inDegree` (line 86),
`start` and `remaining` the two loops of `findCycle` over `inDegree` (lines 122, 140).
Each field sends the key list of the map to the order of enumeration. -/
structure RangeOrder where
  graph : List String → List String
  ready : List String → List String
  start : List String → List String
  remaining : List String → List String

/-- A `RangeOrder` is valid when each loop enumerates every key exactly once. -/
def RangeOrder.Valid (o : RangeOrder) : Prop :=
  ∀ ks : List String, (o.graph ks).Perm ks ∧ (o.ready ks).Perm ks ∧
    (o.start ks).Perm ks ∧ (o.remaining ks).Perm ks

/-- The enumeration in insertion order. -/
def RangeOrder.insertion : RangeOrder := ⟨id, id, id, id⟩

/-- The enumeration in reverse insertion order. -/
def RangeOrder.reversed : RangeOrder := ⟨List.reverse, List.reverse, List.reverse, List.reverse⟩

/-! ## internal/formula: the catalog -/

/-- Model of `formula.InstallSpec`; the field `Typ` is the field `Type` of the source. -/
structure InstallSpec where
  Typ : String := ""
  BinaryName : String := ""
  StripComponents : Int := 0
  deriving DecidableEq

/-- The fields of `formula.Formula` that the sources read.  The maps `URL` and `SHA256` are
lists of pairs of a platform key and a value, read by lookup. -/
structure Formula where
  Name : String
  Dependencies : List String
  Version : String := ""
  URL : List (String × String) := []
  SHA256 : List (String × String) := []
  Install : InstallSpec := {}
  KegOnly : Bool := false
  deriving DecidableEq

/-- The catalog behind a `formula.Loader`: the definitions that `LoadByName` can find,
by lookup name (the name of the file); the first entry for a name wins, as the first tap
that parses the file does. -/
structure Loader where
  entries : List (String × Formula)

/-- Model of `Loader.LoadByName`: the formula stored under `name`, or `none` for the error
`formula not found`. -/
def Loader.LoadByName (l : Loader) (name : String) : Option Formula :=
  l.entries.lookup name

/-! ## internal/depgraph -/

namespace Depgraph

/-- Model of `CycleError`. -/
structure CycleError where
  Chain : List String
  deriving DecidableEq

/-- The errors of `Resolve`: the wrapped loader error of line 43, with the two names it
formats (`dependency %q required by %q not found`), or a `*CycleError`. -/
inductive ResolveError where
  | notFound (dependency requiredBy : String)
  | cycle (e : CycleError)
  deriving DecidableEq

deriving instance DecidableEq for Except

/-- The tables built by the first loop of `topoSort`. -/
structure Tables where
  inDegree : GoMap Int
  reverse : GoMap (List String)

/-- The body of the loop over `deps` (lines 80-81). -/
def addDep (node : String) (t : Tables) (dep : String) : Tables :=
  { reverse := t.reverse.set dep (t.reverse.get dep ++ [node])
    inDegree := t.inDegree.set node (t.inDegree.get node + 1) }

/-- The body of the loop over `graph` (lines 76-82). -/
def addNode (graph : GoMap (List String)) (t : Tables) (node : String) : Tables :=
  let t1 : Tables :=
    if node ∈ t.inDegree.keys then t else { t with inDegree := t.inDegree.set node 0 }
  (graph.get node).foldl (addDep node) t1

/-- The first loop of `topoSort` (lines 71-83), enumerating the nodes in `order`. -/
def buildTables (graph : GoMap (List String)) (order : List String) : Tables :=
  order.foldl (addNode graph) ⟨GoMap.empty 0, GoMap.empty []⟩

/-- The body of the loop over `reverse[node]` (lines 101-104). -/
def relaxStep (s : GoMap Int × List String) (dependent : String) : GoMap Int × List String :=
  let inDegree := s.1.set dependent (s.1.get dependent - 1)
  if inDegree.get dependent = 0 then (inDegree, s.2 ++ [dependent]) else (inDegree, s.2)

/-- The loop over `reverse[node]` (lines 99-105): the new `inDegree` and `newReady`. -/
def relax (dependents : List String) (inDegree : GoMap Int) : GoMap Int × List String :=
  dependents.foldl relaxStep (inDegree, [])

/-- The main loop of `topoSort` (lines 94-110) on fuel: the final `inDegree` and
`sorted`, or `none` when the fuel runs out with `ready` not empty. -/
def kahnLoop (reverse : GoMap (List String)) :
    Nat → GoMap Int → List String → List String → Option (GoMap Int × List String)
  | _, inDegree, [], sorted => some (inDegree, sorted)
  | 0, _, _ :: _, _ => none
  | fuel + 1, inDegree, node :: ready, sorted =>
    let r := relax (reverse.get node) inDegree
    kahnLoop reverse fuel r.1 (ready ++ sortStrings r.2) (sorted ++ [node])

/-- The loop over `graph[node]` of `traceCycle` (lines 162-166), `visit` being the
recursive call. -/
def traceDeps (visit : String → List String → List String → Option (Bool × List String × List String)) :
    List String → List String → List String → Option (Bool × List String × List String)
  | [], visited, path => some (false, visited, path)
  | dep :: deps, visited, path =>
    match visit dep visited path with
    | none => none
    | some (true, visited1, path1) => some (true, visited1, path1)
    | some (false, visited1, path1) => traceDeps visit deps visited1 path1

/-- Model of `traceCycle` on fuel (the depth of the recursion).  The set `visited` and the slice
`*path` are passed through; the result is the returned flag with their final values. -/
def traceCycle (graph : GoMap (List String)) :
    Nat → String → List String → List String → Option (Bool × List String × List String)
  | 0, _, _, _ => none
  | fuel + 1, node, visited, path =>
    if node ∈ visited then
      if node ∈ path then
        some (true, visited, path.dropWhile (fun n => decide (n ≠ node)) ++ [node])
      else some (false, visited, path)
    else
      match traceDeps (traceCycle graph fuel) (graph.get node) (node :: visited) (path ++ [node]) with
      | none => none
      | some (true, visited1, path1) => some (true, visited1, path1)
      | some (false, visited1, path1) => some (false, visited1, path1.dropLast)

/-- Model of `findCycle`. -/
def findCycle (o : RangeOrder) (graph : GoMap (List String)) (inDegree : GoMap Int) :
    Option (List String) :=
  let start := ((o.start inDegree.keys).find? (fun n => decide (inDegree.get n > 0))).getD ""
  if start = "" then some []
  else
    match traceCycle graph (graph.keys.length + 2) start [] [] with
    | none => none
    | some (true, _, path) => some path
    | some (false, _, _) =>
      some (sortStrings ((o.remaining inDegree.keys).filter (fun n => decide (inDegree.get n > 0))))

/-- Model of `topoSort`. -/
def topoSort (o : RangeOrder) (graph : GoMap (List String)) :
    Option (Except CycleError (List String)) :=
  let t := buildTables graph (o.graph graph.keys)
  let ready := sortStrings ((o.ready t.inDegree.keys).filter (fun n => decide (t.inDegree.get n = 0)))
  match kahnLoop t.reverse graph.keys.length t.inDegree ready [] with
  | none => none
  | some (inDegree, sorted) =>
    if sorted.length ≠ graph.keys.length then
      match findCycle o graph inDegree with
      | none => none
      | some chain => some (.error ⟨chain⟩)
    else some (.ok sorted)

/-- The maps `graph` and `formulas` that the first loop of `Resolve` fills. -/
structure Loaded where
  graph : GoMap (List String)
  formulas : GoMap (Option Formula)

/-- The first loop of `Resolve` (lines 33-53) on fuel. -/
def loadLoop (l : Loader) (name : String) :
    Nat → List String → List String → Loaded → Option (Except ResolveError Loaded)
  | _, [], _, s => some (.ok s)
  | 0, _ :: _, _, _ => none
  | fuel + 1, current :: queue, visited, s =>
    if current ∈ visited then loadLoop l name fuel queue visited s
    else
      match l.LoadByName current with
      | none => some (.error (.notFound current name))
      | some f =>
        loadLoop l name fuel
          (queue ++ f.Dependencies.filter (fun dep => decide (dep ∉ current :: visited)))
          (current :: visited)
          ⟨s.graph.set current f.Dependencies, s.formulas.set current (some f)⟩

/-- Fuel that suffices for the first loop of `Resolve`. -/
def loadFuel (l : Loader) : Nat :=
  l.entries.length + (l.entries.map (fun e => e.2.Dependencies.length)).sum + 1

/-- Model of `Resolver.Resolve`.  A `*formula.Formula` is an `Option Formula` (`none` is nil). -/
def Resolve (l : Loader) (o : RangeOrder) (name : String) :
    Option (Except ResolveError (List (Option Formula))) :=
  match loadLoop l name (loadFuel l) [name] [] ⟨GoMap.empty [], GoMap.empty none⟩ with
  | none => none
  | some (.error e) => some (.error e)
  | some (.ok s) =>
    match topoSort o s.graph with
    | none => none
    | some (.error e) => some (.error (.cycle e))
    | some (.ok sorted) => some (.ok (sorted.map s.formulas.get))

end Depgraph

/-! ## internal/validation -/

namespace Validation

/-- The class `[a-z0-9]`. -/
def isNameStart (c : Char) : Bool := c.isLower || c.isDigit

/-- The class `[a-z0-9@_-]`. -/
def isNameChar (c : Char) : Bool :=
  c.isLower || c.isDigit || c == '@' || c == '_' || c == '-'

/-- The class `[a-zA-Z0-9]`. -/
def isVersionStart (c : Char) : Bool := c.isLower || c.isUpper || c.isDigit

/-- The class `[a-zA-Z0-9._-]`. -/
def isVersionChar (c : Char) : Bool :=
  c.isLower || c.isUpper || c.isDigit || c == '.' || c == '_' || c == '-'

/-- Model of `IsValidName`: a match of `^[a-z0-9][a-z0-9@_-]*$` (in Go's `regexp`, `$` without the
`m` flag matches at the end of the text only). -/
def IsValidName (name : String) : Bool :=
  match name.data with
  | [] => false
  | c :: cs => isNameStart c && cs.all isNameChar

/-- Model of `IsValidVersion`: a match of `^[a-zA-Z0-9][a-zA-Z0-9._-]*$`. -/
def IsValidVersion (version : String) : Bool :=
  match version.data with
  | [] => false
  | c :: cs => isVersionStart c && cs.all isVersionChar

end Validation

/-! ## path/filepath and strings (Unix)

The functions of the Go standard library that the sources call, on paths with the
separator `/`. -/

namespace Filepath

/-- Model of `strings.Split(s, "/")` on the characters of `s`. -/
def splitSlash : List Char → List (List Char)
  | [] => [[]]
  | c :: cs =>
    if c = '/' then [] :: splitSlash cs
    else
      match splitSlash cs with
      | [] => [[c]]
      | s :: ss => (c :: s) :: ss

/-- Model of `strings.Join(parts, "/")`. -/
def joinSlash : List (List Char) → List Char
  | [] => []
  | [a] => a
  | a :: b :: rest => a ++ '/' :: joinSlash (b :: rest)

/-- The treatment of one path element by `Clean`: empty elements and `.` are dropped, `..`
removes the element before it (at the root it is dropped, at the start of a relative path
or after another `..` it is kept), any other element is appended. -/
def cleanStep (rooted : Bool) (stack : List (List Char)) (seg : List Char) : List (List Char) :=
  if seg = [] ∨ seg = ['.'] then stack
  else if seg = ['.', '.'] then
    match stack.getLast? with
    | some top => if top = ['.', '.'] then stack ++ [seg] else stack.dropLast
    | none => if rooted then stack else stack ++ [seg]
  else stack ++ [seg]

/-- Whether the path begins with a separator (`IsAbs` on Unix). -/
def IsAbs (path : String) : Bool := path.data.head? == some '/'

/-- The elements of the cleaned path. -/
def cleanParts (path : String) : List (List Char) :=
  (splitSlash path.data).foldl (cleanStep (IsAbs path)) []

/-- The cleaned path with the given elements: `/` before the elements of a rooted path,
and `.` for a relative path without elements. -/
def ofParts (rooted : Bool) (parts : List (List Char)) : String :=
  if rooted then ⟨'/' :: joinSlash parts⟩
  else if parts = [] then "." else ⟨joinSlash parts⟩

/-- Model of `filepath.Clean`. -/
def Clean (path : String) : String := ofParts (IsAbs path) (cleanParts path)

/-- Model of `filepath.Join`: the elements from the first non-empty one on, joined by separators
and cleaned; the empty string when there is no such element. -/
def Join (elem : List String) : String :=
  match elem.dropWhile (fun e => e == "") with
  | [] => ""
  | es => Clean ⟨joinSlash (es.map String.data)⟩

/-- The part of the path up to and including its last separator. -/
def dirPrefix (s : List Char) : List Char :=
  (s.reverse.dropWhile (fun c => c != '/')).reverse

/-- Model of `filepath.Dir`. -/
def Dir (path : String) : String := Clean ⟨dirPrefix path.data⟩

/-- Model of `filepath.Abs`; `wd` is the result of `os.Getwd` (`none` when it fails). -/
def Abs (wd : Option String) (path : String) : Option String :=
  if IsAbs path then some (Clean path)
  else
    match wd with
    | none => none
    | some w => some (Join [w, path])

/-- Model of `strings.HasPrefix`. -/
def HasPrefix (s pre : String) : Bool := pre.data.isPrefixOf s.data

/-- Model of `strings.SplitN(s, "/", n)` for `n > 0`: at most `n` parts, the last one unsplit. -/
def splitN : Nat → List Char → List (List Char)
  | 0, _ => []
  | 1, s => [s]
  | n + 2, s =>
    if '/' ∈ s then s.takeWhile (fun c => c != '/') :: splitN (n + 1) ((s.dropWhile (fun c => c != '/')).drop 1)
    else [s]

/-- The elements of a path: its parts between separators, without the empty ones. -/
def segments (path : String) : List (List Char) :=
  (splitSlash path.data).filter (fun s => s ≠ [])

/-- Model of `strings.HasSuffix`. -/
def HasSuffix (s suffix : String) : Bool := suffix.data.reverse.isPrefixOf s.data.reverse

/-- Model of `strings.ToLower` on the letters `A` to `Z`. -/
def ToLower (s : String) : String := ⟨s.data.map Char.toLower⟩

/-- The part of the characters from the first occurrence of `sub` on, when there is one
(`s[strings.Index(s, sub):]`). -/
def fromIndex (sub : List Char) : List Char → Option (List Char)
  | [] => if sub = [] then some [] else none
  | c :: cs => if sub.isPrefixOf (c :: cs) then some (c :: cs) else fromIndex sub cs

/-- Model of `filepath.Base`. -/
def Base (path : String) : String :=
  if path = "" then "."
  else
    let stripped := (path.data.reverse.dropWhile (fun c => c == '/')).reverse
    let last := (stripped.reverse.takeWhile (fun c => c != '/')).reverse
    if last = [] then "/" else ⟨last⟩

/-- Model of `filepath.Ext`: the suffix of the last element from its last dot on. -/
def Ext (path : String) : String :=
  let last := (path.data.reverse.takeWhile (fun c => c != '/')).reverse
  if '.' ∈ last then ⟨'.' :: (last.reverse.takeWhile (fun c => c != '.')).reverse⟩ else ""

/-- The elements that two lists have in common at their start, dropped from both. -/
def dropCommon : List (List Char) → List (List Char) → List (List Char) × List (List Char)
  | a :: as, b :: bs => if a = b then dropCommon as bs else (a :: as, b :: bs)
  | as, bs => (as, bs)

/-- Model of `filepath.Rel`: `none` when `targpath` cannot be made relative to `basepath`. -/
def Rel (basepath targpath : String) : Option String :=
  if Clean targpath = Clean basepath then some "."
  else if IsAbs basepath ≠ IsAbs targpath then none
  else
    let r := dropCommon (cleanParts basepath) (cleanParts targpath)
    if r.1.head? = some ['.', '.'] then none
    else some ⟨joinSlash (r.1.map (fun _ => ['.', '.']) ++ r.2)⟩

end Filepath

/-! ## os: the file system

A model of the part of the operating system that the sources use.  Objects are stored by
location (the names from the root to the object); a path is resolved to a location by
walking its elements and following symbolic links, as the kernel does.  Permission checks
and the umask are left out: every operation is allowed when the objects it needs exist. -/

namespace Os

/-- The error numbers that the model distinguishes. -/
inductive Errno where
  | ENOENT
  | ENOTDIR
  | EEXIST
  | EISDIR
  | ELOOP
  | ENOTEMPTY
  | EINVAL
  | ENAMETOOLONG
  deriving DecidableEq

/-- An object of the file system. -/
inductive Node where
  | dir (perm : Nat)
  | file (perm : Nat) (data : String)
  | symlink (target : String)
  deriving DecidableEq, Inhabited

/-- A file system: its objects by location, and the location of the working directory.
The root `[]` is a directory and is not listed. -/
structure FS where
  nodes : List (List String × Node)
  cwd : List String
  deriving DecidableEq

/-- Model of `os.FileMode` bits. -/
def ModeDir : Nat := 2 ^ 31

/-- The bit `os.ModeSymlink`. -/
def ModeSymlink : Nat := 2 ^ 27

/-- The bit `os.ModeSetuid`. -/
def ModeSetuid : Nat := 2 ^ 23

/-- The bit `os.ModeSetgid`. -/
def ModeSetgid : Nat := 2 ^ 22

/-- The bit `os.ModeSticky`. -/
def ModeSticky : Nat := 2 ^ 20

/-- The conversion `os.FileMode(x)` of an `int64` to the 32-bit `FileMode`. -/
def FileMode (x : Int) : Nat := (x % 2 ^ 32).toNat

/-- The operation `mode &^ mask` on a 32-bit `FileMode`. -/
def clearBits (mode mask : Nat) : Nat := mode &&& ((2 ^ 32 - 1) ^^^ mask)

/-- The permission bits with which `os.OpenFile` and `os.Mkdir` create an object
(`syscallMode`). -/
def syscallMode (mode : Nat) : Nat :=
  (mode &&& 0o777) ||| (if mode &&& ModeSetuid ≠ 0 then 0o4000 else 0) |||
    (if mode &&& ModeSetgid ≠ 0 then 0o2000 else 0) |||
    (if mode &&& ModeSticky ≠ 0 then 0o1000 else 0)

namespace FS

/-- The object at a location. -/
def find (fs : FS) (loc : List String) : Option Node :=
  if loc = [] then some (.dir 0o755) else fs.nodes.lookup loc

/-- The file system with `node` at `loc`, in place of what was there. -/
def put (fs : FS) (loc : List String) (node : Node) : FS :=
  { fs with nodes := (loc, node) :: fs.nodes.filter (fun e => e.1 ≠ loc) }

/-- The file system without the object at `loc`. -/
def erase (fs : FS) (loc : List String) : FS :=
  { fs with nodes := fs.nodes.filter (fun e => e.1 ≠ loc) }

/-- The path of a location. -/
def pathOf (loc : List String) : String :=
  ⟨'/' :: Filepath.joinSlash (loc.map String.data)⟩

/-- Model of `os.Getwd`. -/
def Getwd (fs : FS) : Option String := some (pathOf fs.cwd)

end FS

/-- The elements of a path. -/
def names (path : String) : List String := (Filepath.segments path).map String.mk

/-- The walk of the kernel along the elements of a path, from the location `cur`, up to
the first symbolic link that has to be followed: there `follow` takes over, with the
location from which the link text is read and the elements that remain.  A link met as
the last element is followed when `followLast` is set.  The result is the location of the
object, or the location at which the last element would be created when only that element
is missing. -/
def walkFrom (fs : FS) (followLast : Bool)
    (follow : List String → List String → Except Errno (List String)) :
    List String → List String → Except Errno (List String)
  | cur, [] => .ok cur
  | cur, c :: rest =>
    if c = "." then walkFrom fs followLast follow cur rest
    else if c = ".." then walkFrom fs followLast follow cur.dropLast rest
    else
      match fs.find (cur ++ [c]) with
      | none => if rest = [] then .ok (cur ++ [c]) else .error .ENOENT
      | some (.dir _) => walkFrom fs followLast follow (cur ++ [c]) rest
      | some (.file _ _) => if rest = [] then .ok (cur ++ [c]) else .error .ENOTDIR
      | some (.symlink t) =>
        if rest = [] ∧ followLast = false then .ok (cur ++ [c])
        else follow (if Filepath.IsAbs t then [] else cur) (names t ++ rest)

/-- The walk of the kernel along the elements of a path, following symbolic links.  The
fuel bounds the number of links followed, so that a cycle of links ends in `ELOOP`. -/
def walk (fs : FS) : Nat → List String → List String → Bool → Except Errno (List String)
  | 0, cur, comps, followLast => walkFrom fs followLast (fun _ _ => .error .ELOOP) cur comps
  | fuel + 1, cur, comps, followLast =>
    walkFrom fs followLast (fun c r => walk fs fuel c r followLast) cur comps

/-- The number of links that a walk follows before it gives up. -/
def walkFuel : Nat := 256

/-- The location that a path designates. -/
def resolve (fs : FS) (path : String) (followLast : Bool) : Except Errno (List String) :=
  if path = "" then .error .ENOENT
  else walk fs walkFuel (if Filepath.IsAbs path then [] else fs.cwd) (names path) followLast

/-- Model of `os.Stat`. -/
def Stat (fs : FS) (path : String) : Except Errno Node :=
  match resolve fs path true with
  | .error e => .error e
  | .ok loc =>
    match fs.find loc with
    | some n => .ok n
    | none => .error .ENOENT

/-- Model of `os.Lstat`. -/
def Lstat (fs : FS) (path : String) : Except Errno Node :=
  match resolve fs path false with
  | .error e => .error e
  | .ok loc =>
    match fs.find loc with
    | some n => .ok n
    | none => .error .ENOENT

/-- Model of `os.Mkdir`. -/
def Mkdir (fs : FS) (path : String) (perm : Nat) : Except Errno FS :=
  match resolve fs path false with
  | .error e => .error e
  | .ok loc =>
    match fs.find loc with
    | some _ => .error .EEXIST
    | none => .ok (fs.put loc (.dir (syscallMode perm)))

/-- The parent that `os.MkdirAll` takes from a path: the path without its trailing
separators and its last element. -/
def parentPrefix (path : List Char) : List Char :=
  ((path.reverse.dropWhile (fun c => c == '/')).dropWhile (fun c => c != '/')).reverse

/-- Model of `os.MkdirAll` on fuel (the length of the path suffices). -/
def mkdirAll : Nat → FS → String → Nat → Except Errno FS
  | 0, _, _, _ => .error .EINVAL
  | fuel + 1, fs, path, perm =>
    match Stat fs path with
    | .ok (.dir _) => .ok fs
    | .ok _ => .error .ENOTDIR
    | .error _ =>
      match (if parentPrefix path.data = [] then .ok fs
          else mkdirAll fuel fs ⟨parentPrefix path.data⟩ perm) with
      | .error e => .error e
      | .ok fs1 =>
        match Mkdir fs1 path perm with
        | .ok fs2 => .ok fs2
        | .error e =>
          match Lstat fs1 path with
          | .ok (.dir _) => .ok fs1
          | _ => .error e

/-- Model of `os.MkdirAll`. -/
def MkdirAll (fs : FS) (path : String) (perm : Nat) : Except Errno FS :=
  mkdirAll (path.data.length + 1) fs path perm

/-- Model of `os.OpenFile(path, O_CREATE|O_WRONLY|O_TRUNC, mode)`, the writing of `data` and
`Close`: an existing file is truncated and keeps its permissions, a missing one is
created; a link in the last element is followed. -/
def WriteFile (fs : FS) (path : String) (data : String) (mode : Nat) : Except Errno FS :=
  match resolve fs path true with
  | .error e => .error e
  | .ok loc =>
    match fs.find loc with
    | some (.dir _) => .error .EISDIR
    | some (.file perm _) => .ok (fs.put loc (.file perm data))
    | some (.symlink _) => .error .ELOOP
    | none => .ok (fs.put loc (.file (syscallMode mode) data))

/-- Model of `os.Remove`: removes a file, a link or an empty directory. -/
def Remove (fs : FS) (path : String) : Except Errno FS :=
  match resolve fs path false with
  | .error e => .error e
  | .ok loc =>
    match fs.find loc with
    | none => .error .ENOENT
    | some (.dir _) =>
      if loc = [] then .error .EINVAL
      else if fs.nodes.any (fun e => loc.isPrefixOf e.1 && e.1 != loc) then .error .ENOTEMPTY
      else .ok (fs.erase loc)
    | some _ => .ok (fs.erase loc)

/-- The call `os.Remove(path)` whose error is dropped. -/
def removeIgnoringError (fs : FS) (path : String) : FS :=
  match Remove fs path with
  | .ok fs1 => fs1
  | .error _ => fs

/-- Model of `os.Symlink(oldname, newname)`. -/
def Symlink (fs : FS) (oldname newname : String) : Except Errno FS :=
  match resolve fs newname false with
  | .error e => .error e
  | .ok loc =>
    match fs.find loc with
    | some _ => .error .EEXIST
    | none => .ok (fs.put loc (.symlink oldname))

/-- Model of `filepath.EvalSymlinks`: the path of the location that `path` designates, which must
exist.  (For a relative path Go returns a path relative to the working directory; the
sources make it absolute with `filepath.Abs` before use, which gives this result.) -/
def EvalSymlinks (fs : FS) (path : String) : Except Errno String :=
  match resolve fs path true with
  | .error e => .error e
  | .ok loc =>
    match fs.find loc with
    | some _ => .ok (FS.pathOf loc)
    | none => .error .ENOENT

/-- Model of `os.Readlink`. -/
def Readlink (fs : FS) (path : String) : Except Errno String :=
  match resolve fs path false with
  | .error e => .error e
  | .ok loc =>
    match fs.find loc with
    | some (.symlink t) => .ok t
    | some _ => .error .EINVAL
    | none => .error .ENOENT

/-- The name under which an object is listed in the directory at `loc`, when it lies
directly inside it. -/
def childName (loc : List String) (e : List String × Node) : Option String :=
  if e.1.dropLast = loc then e.1.getLast? else none

/-- The names in the directory at `loc`, sorted (as `os.ReadDir` returns them). -/
def FS.children (fs : FS) (loc : List String) : List String :=
  sortStrings (fs.nodes.filterMap (childName loc)).dedup

/-- Model of `os.ReadDir`: the entries of the directory, by name, each with the object
that `Lstat` would show. -/
def ReadDir (fs : FS) (path : String) : Except Errno (List (String × Node)) :=
  match resolve fs path true with
  | .error e => .error e
  | .ok loc =>
    match fs.find loc with
    | some (.dir _) =>
      .ok ((fs.children loc).filterMap (fun n => (fs.find (loc ++ [n])).map (fun nd => (n, nd))))
    | some _ => .error .ENOTDIR
    | none => .error .ENOENT

/-- Model of `os.RemoveAll`: removes the object and everything below it; a path that does
not exist is no error, and a link is removed, not followed. -/
def RemoveAll (fs : FS) (path : String) : Except Errno FS :=
  if path = "" then .ok fs
  else
    match resolve fs path false with
    | .error .ENOENT => .ok fs
    | .error e => .error e
    | .ok loc =>
      if loc = [] then .error .EINVAL
      else .ok { fs with nodes := fs.nodes.filter (fun e => !loc.isPrefixOf e.1) }

/-- The call `os.RemoveAll(path)` whose error is dropped. -/
def removeAllIgnoringError (fs : FS) (path : String) : FS :=
  match RemoveAll fs path with
  | .ok fs1 => fs1
  | .error _ => fs

/-- Model of `os.Rename`: the object at `oldpath`, with everything below it, is moved to
`newpath`; a file or link there is replaced by a file or link, an empty directory by a
directory. -/
def Rename (fs : FS) (oldpath newpath : String) : Except Errno FS :=
  match resolve fs oldpath false with
  | .error e => .error e
  | .ok o =>
    match fs.find o with
    | none => .error .ENOENT
    | some n =>
      match resolve fs newpath false with
      | .error e => .error e
      | .ok d =>
        let moved : FS := { fs with nodes := fs.nodes.filterMap (fun e =>
          if o.isPrefixOf e.1 then some (d ++ e.1.drop o.length, e.2)
          else if e.1 = d then none else some e) }
        if o = d then .ok fs
        else if o = [] ∨ d = [] ∨ o.isPrefixOf d then .error .EINVAL
        else
          match fs.find d, n with
          | some (.dir _), .dir _ =>
            if fs.nodes.any (fun e => d.isPrefixOf e.1 && e.1 != d) then .error .ENOTEMPTY
            else .ok moved
          | some (.dir _), _ => .error .EISDIR
          | some _, .dir _ => .error .ENOTDIR
          | _, _ => .ok moved

/-- Model of `os.Open` followed by reading to the end: the content of a file; a directory
can be opened, but reading from it fails (`none`). -/
def Open (fs : FS) (path : String) : Except Errno (Option String) :=
  match resolve fs path true with
  | .error e => .error e
  | .ok loc =>
    match fs.find loc with
    | some (.file _ data) => .ok (some data)
    | some (.dir _) => .ok none
    | some (.symlink _) => .error .ELOOP
    | none => .error .ENOENT

/-- Model of `os.ReadFile`. -/
def ReadFile (fs : FS) (path : String) : Except Errno String :=
  match Open fs path with
  | .error e => .error e
  | .ok none => .error .EISDIR
  | .ok (some data) => .ok data

/-- The `os.FileMode` that `Lstat` reports for permission bits stored by the kernel. -/
def permMode (perm : Nat) : Nat :=
  (perm &&& 0o777) ||| (if perm &&& 0o4000 ≠ 0 then ModeSetuid else 0) |||
    (if perm &&& 0o2000 ≠ 0 then ModeSetgid else 0) |||
    (if perm &&& 0o1000 ≠ 0 then ModeSticky else 0)

/-- The `Mode()` of the `os.FileInfo` of an object. -/
def Node.Mode : Node → Nat
  | .dir perm => ModeDir ||| permMode perm
  | .file perm _ => permMode perm
  | .symlink _ => ModeSymlink ||| 0o777

/-- The `IsDir()` of the `os.FileInfo` of an object. -/
def Node.IsDir : Node → Bool
  | .dir _ => true
  | _ => false

end Os

/-! ## internal/fsutil -/

namespace Fsutil

/-- Model of `SanitizeMode`. -/
def SanitizeMode (mode : Nat) (isDir : Bool) : Nat :=
  let mode1 := Os.clearBits mode (Os.ModeSetuid ||| Os.ModeSetgid ||| Os.ModeSticky)
  let mode2 := Os.clearBits mode1 0o002
  if isDir then
    if mode2 = 0 then 0o755 else mode2 ||| 0o700
  else if mode2 = 0 then 0o644
  else mode2

end Fsutil

/-! ## internal/downloader: extractor.go -/

namespace Downloader

open Filepath Os

/-- The constant `maxExtractSize`: 512 MB. -/
def maxExtractSize : Nat := 512 <<< 20

/-- The flag `tar.TypeReg`. -/
def TypeReg : Char := '0'

/-- The flag `tar.TypeSymlink`. -/
def TypeSymlink : Char := '2'

/-- The flag `tar.TypeDir`. -/
def TypeDir : Char := '5'

/-- The fields of `tar.Header` that the extractor reads. -/
structure TarHeader where
  Name : String
  Typeflag : Char
  Mode : Int
  Linkname : String
  deriving DecidableEq

/-- What `tr.Next()` yields: a member (its header and content), or an error of the
reader. -/
inductive TarItem where
  | member (header : TarHeader) (data : String)
  | corrupt
  deriving DecidableEq

/-- A member of a zip archive: its name, its `Mode()` and its content (`none` when
`Open` fails). -/
structure ZipFile where
  Name : String
  Mode : Nat
  data : Option String
  deriving DecidableEq

/-- The errors of the extractor: an error of the file system, an error of the archive
reader, an archive name without a known suffix, an install type other than `binary` and
`archive`. -/
inductive ExtractError where
  | os (e : Errno)
  | read
  | unsupportedFormat
  | unknownType
  deriving DecidableEq

/-- The decoders of the standard library, as functions of the content of the archive file:
the members that `tar.NewReader(gzip.NewReader(f))` yields (`none` when the gzip header is
not accepted) and the members that `zip.OpenReader` finds (`none` when it fails). -/
structure Codec where
  gunzipTar : String → Option (List TarItem)
  unzip : String → Option (List ZipFile)

/-- Model of `stripPath`. -/
def stripPath (name : String) (strip : Int) : String :=
  if strip ≤ 0 then name
  else
    let parts := splitN (strip.toNat + 1) name.data
    if parts.length ≤ strip.toNat then "" else ⟨parts.getD strip.toNat []⟩

/-- Model of `withinDir`; `wd` is the result of `os.Getwd`. -/
def withinDir (wd : Option String) (destDir target : String) : Bool :=
  match Abs wd destDir with
  | none => false
  | some absDir =>
    match Abs wd target with
    | none => false
    | some absTarget => HasPrefix absTarget (absDir ++ "/") || absTarget == absDir

/-- Model of `extractFile`: the content, cut at `maxExtractSize`, written to `path`. -/
def extractFile (fs : FS) (data : String) (path : String) (mode : Nat) : Except Errno FS :=
  WriteFile fs path ⟨data.data.take maxExtractSize⟩ mode

/-- The loop of `extractTarGz` (lines 121-166) over the members that the tar reader
yields from the archive.  An error comes with the state in which the loop stopped. -/
def extractTarGz (destDir : String) (stripComponents : Int) :
    List TarItem → FS → Except (ExtractError × FS) FS
  | [], fs => .ok fs
  | .corrupt :: _, fs => .error (.read, fs)
  | .member header data :: rest, fs =>
    let name := stripPath header.Name stripComponents
    if name = "" then extractTarGz destDir stripComponents rest fs
    else
      let target := Join [destDir, name]
      if withinDir fs.Getwd destDir target = false then
        extractTarGz destDir stripComponents rest fs
      else if header.Typeflag = TypeDir then
        match MkdirAll fs target (Fsutil.SanitizeMode (FileMode header.Mode) true) with
        | .error e => .error (.os e, fs)
        | .ok fs1 => extractTarGz destDir stripComponents rest fs1
      else if header.Typeflag = TypeReg then
        match MkdirAll fs (Dir target) 0o755 with
        | .error e => .error (.os e, fs)
        | .ok fs1 =>
          match extractFile fs1 data target (Fsutil.SanitizeMode (FileMode header.Mode) false) with
          | .error e => .error (.os e, fs1)
          | .ok fs2 => extractTarGz destDir stripComponents rest fs2
      else if header.Typeflag = TypeSymlink then
        let linkTarget := Join [Dir target, header.Linkname]
        if withinDir fs.Getwd destDir linkTarget = false then
          extractTarGz destDir stripComponents rest fs
        else
          match MkdirAll fs (Dir target) 0o755 with
          | .error e => .error (.os e, fs)
          | .ok fs1 =>
            match Symlink (removeIgnoringError fs1 target) header.Linkname target with
            | .error e => .error (.os e, removeIgnoringError fs1 target)
            | .ok fs2 => extractTarGz destDir stripComponents rest fs2
      else extractTarGz destDir stripComponents rest fs

/-- The loop of `extractZip` (lines 202-271) over the members of the archive. -/
def extractZipLoop (destDir realDestDir : String) (stripComponents : Int) :
    List ZipFile → FS → Except (ExtractError × FS) FS
  | [], fs => .ok fs
  | f :: rest, fs =>
    let name := stripPath f.Name stripComponents
    if name = "" then extractZipLoop destDir realDestDir stripComponents rest fs
    else
      let target := Join [destDir, name]
      if withinDir fs.Getwd destDir target = false then
        extractZipLoop destDir realDestDir stripComponents rest fs
      else if f.Mode &&& ModeDir ≠ 0 then
        match MkdirAll fs target (Fsutil.SanitizeMode f.Mode true) with
        | .error e => .error (.os e, fs)
        | .ok fs1 => extractZipLoop destDir realDestDir stripComponents rest fs1
      else
        match MkdirAll fs (Dir target) 0o755 with
        | .error e => .error (.os e, fs)
        | .ok fs1 =>
          match f.data with
          | none => .error (.read, fs1)
          | some data =>
            if f.Mode &&& ModeSymlink ≠ 0 then
              match EvalSymlinks fs1 (Dir target) with
              | .error _ => extractZipLoop destDir realDestDir stripComponents rest fs1
              | .ok realParentDir =>
                match EvalSymlinks fs1 (Join [realParentDir, data]) with
                | .error _ => extractZipLoop destDir realDestDir stripComponents rest fs1
                | .ok realLinkTarget =>
                  if withinDir fs1.Getwd realDestDir realLinkTarget = false then
                    extractZipLoop destDir realDestDir stripComponents rest fs1
                  else
                    match Symlink (removeIgnoringError fs1 target) data target with
                    | .error e => .error (.os e, removeIgnoringError fs1 target)
                    | .ok fs2 => extractZipLoop destDir realDestDir stripComponents rest fs2
            else
              match extractFile fs1 data target (Fsutil.SanitizeMode f.Mode false) with
              | .error e => .error (.os e, fs1)
              | .ok fs2 => extractZipLoop destDir realDestDir stripComponents rest fs2

/-- Model of `extractZip` on the members of the opened archive (lines 190-272). -/
def extractZip (destDir : String) (stripComponents : Int) (files : List ZipFile) (fs : FS) :
    Except (ExtractError × FS) FS :=
  match EvalSymlinks fs destDir with
  | .ok realDestDir => extractZipLoop destDir realDestDir stripComponents files fs
  | .error _ =>
    match Abs fs.Getwd destDir with
    | none => .error (.os .ENOENT, fs)
    | some realDestDir => extractZipLoop destDir realDestDir stripComponents files fs

/-- Model of `extractTarGz` from the opening of the archive on (lines 108-120). -/
def extractTarGzFile (codec : Codec) (archivePath destDir : String) (stripComponents : Int)
    (fs : FS) : Except (ExtractError × FS) FS :=
  match Open fs archivePath with
  | .error e => .error (.os e, fs)
  | .ok none => .error (.read, fs)
  | .ok (some content) =>
    match codec.gunzipTar content with
    | none => .error (.read, fs)
    | some items => extractTarGz destDir stripComponents items fs

/-- Model of `extractZip` from the opening of the archive on (lines 184-189). -/
def extractZipFile (codec : Codec) (archivePath destDir : String) (stripComponents : Int)
    (fs : FS) : Except (ExtractError × FS) FS :=
  match Open fs archivePath with
  | .error e => .error (.os e, fs)
  | .ok none => .error (.read, fs)
  | .ok (some content) =>
    match codec.unzip content with
    | none => .error (.read, fs)
    | some files => extractZip destDir stripComponents files fs

/-- Model of `extractArchive`. -/
def extractArchive (codec : Codec) (archivePath destDir : String) (stripComponents : Int)
    (fs : FS) : Except (ExtractError × FS) FS :=
  let lower := ToLower archivePath
  if HasSuffix lower ".tar.gz" || HasSuffix lower ".tgz" then
    extractTarGzFile codec archivePath destDir stripComponents fs
  else if HasSuffix lower ".zip" then
    extractZipFile codec archivePath destDir stripComponents fs
  else .error (.unsupportedFormat, fs)

/-- Model of `installBinary`: the destination is created or truncated (`os.OpenFile`), then
the content of the source, as it is at that moment, is copied into it. -/
def installBinary (srcPath destDir binaryName : String) (fs : FS) :
    Except (ExtractError × FS) FS :=
  let binaryName := if binaryName = "" then Base srcPath else binaryName
  let binDir := Join [destDir, "bin"]
  match MkdirAll fs binDir 0o755 with
  | .error e => .error (.os e, fs)
  | .ok fs1 =>
    let destPath := Join [binDir, binaryName]
    match Open fs1 srcPath with
    | .error e => .error (.os e, fs1)
    | .ok _ =>
      match WriteFile fs1 destPath "" 0o755 with
      | .error e => .error (.os e, fs1)
      | .ok fs2 =>
        match Open fs2 srcPath with
        | .ok (some content) =>
          match WriteFile fs2 destPath content 0o755 with
          | .error e => .error (.os e, fs2)
          | .ok fs3 => .ok fs3
        | _ => .error (.os .EISDIR, fs2)

/-- Model of `Extract`. -/
def Extract (codec : Codec) (archivePath destDir : String) (spec : InstallSpec) (fs : FS) :
    Except (ExtractError × FS) FS :=
  match MkdirAll fs destDir 0o755 with
  | .error e => .error (.os e, fs)
  | .ok fs1 =>
    if spec.Typ = "binary" then installBinary archivePath destDir spec.BinaryName fs1
    else if spec.Typ = "archive" then
      match extractArchive codec archivePath destDir spec.StripComponents fs1 with
      | .error e => .error e
      | .ok fs2 =>
        if spec.BinaryName ≠ "" then
          let rootBin := Join [destDir, spec.BinaryName]
          let binDir := Join [destDir, "bin"]
          match Stat fs2 rootBin with
          | .ok info =>
            if info.IsDir then .ok fs2
            else
              match Stat fs2 binDir with
              | .error .ENOENT =>
                match MkdirAll fs2 binDir 0o755 with
                | .error e => .error (.os e, fs2)
                | .ok fs3 =>
                  match Rename fs3 rootBin (Join [binDir, spec.BinaryName]) with
                  | .error e => .error (.os e, fs3)
                  | .ok fs4 => .ok fs4
              | _ => .ok fs2
          | .error _ => .ok fs2
        else .ok fs2
    else .error (.unknownType, fs1)

end Downloader

/-! ## internal/cellar -/

namespace Cellar

/-- Model of `Cellar.KegPath`: the path `filepath.Join(c.Path, name, version)`, which `Install`
(line 27) and `Linker.LinkWithOpts` (line 34) build after validating `name` and
`version`. -/
def KegPath (path name version : String) : String := Filepath.Join [path, name, version]

end Cellar

/-! ## encoding/hex and crypto/sha256 -/

namespace Hex

/-- The digit of `hex.EncodeToString` for a value below 16. -/
def digit (n : Nat) : Char := if n < 10 then Char.ofNat (48 + n) else Char.ofNat (87 + n)

/-- Model of `hex.EncodeToString`: two lowercase digits for every byte. -/
def EncodeToString (bytes : List Nat) : String :=
  ⟨bytes.flatMap (fun b => [digit (b / 16 % 16), digit (b % 16)])⟩

/-- The value of a hexadecimal digit, of either case. -/
def fromHexChar (c : Char) : Option Nat :=
  if '0' ≤ c ∧ c ≤ '9' then some (c.toNat - 48)
  else if 'a' ≤ c ∧ c ≤ 'f' then some (c.toNat - 87)
  else if 'A' ≤ c ∧ c ≤ 'F' then some (c.toNat - 55)
  else none

/-- The bytes that pairs of hexadecimal digits denote. -/
def decode : List Char → Option (List Nat)
  | [] => some []
  | [_] => none
  | a :: b :: rest =>
    match fromHexChar a, fromHexChar b, decode rest with
    | some x, some y, some bs => some ((16 * x + y) :: bs)
    | _, _, _ => none

/-- Model of `hex.DecodeString`: `none` for a string of odd length or with a character that
is no hexadecimal digit. -/
def DecodeString (s : String) : Option (List Nat) := decode s.data

end Hex

namespace Sha256

/-- A value as a 32-bit word. -/
def w32 (x : Nat) : Nat := x % 2 ^ 32

/-- Rotation of a 32-bit word to the right. -/
def rotr (x n : Nat) : Nat := (x >>> n) ||| w32 (x <<< (32 - n))

/-- The round constants. -/
def K : List Nat := [
  0x428a2f98, 0x71374491, 0xb5c0fbcf, 0xe9b5dba5, 0x3956c25b, 0x59f111f1, 0x923f82a4, 0xab1c5ed5,
  0xd807aa98, 0x12835b01, 0x243185be, 0x550c7dc3, 0x72be5d74, 0x80deb1fe, 0x9bdc06a7, 0xc19bf174,
  0xe49b69c1, 0xefbe4786, 0x0fc19dc6, 0x240ca1cc, 0x2de92c6f, 0x4a7484aa, 0x5cb0a9dc, 0x76f988da,
  0x983e5152, 0xa831c66d, 0xb00327c8, 0xbf597fc7, 0xc6e00bf3, 0xd5a79147, 0x06ca6351, 0x14292967,
  0x27b70a85, 0x2e1b2138, 0x4d2c6dfc, 0x53380d13, 0x650a7354, 0x766a0abb, 0x81c2c92e, 0x92722c85,
  0xa2bfe8a1, 0xa81a664b, 0xc24b8b70, 0xc76c51a3, 0xd192e819, 0xd6990624, 0xf40e3585, 0x106aa070,
  0x19a4c116, 0x1e376c08, 0x2748774c, 0x34b0bcb5, 0x391c0cb3, 0x4ed8aa4a, 0x5b9cca4f, 0x682e6ff3,
  0x748f82ee, 0x78a5636f, 0x84c87814, 0x8cc70208, 0x90befffa, 0xa4506ceb, 0xbef9a3f7, 0xc67178f2]

/-- The initial hash value. -/
def H0 : List Nat :=
  [0x6a09e667, 0xbb67ae85, 0x3c6ef372, 0xa54ff53a, 0x510e527f, 0x9b05688c, 0x1f83d9ab, 0x5be0cd19]

/-- The message with its padding: a bit 1, zeros, and the length in bits as 64-bit number. -/
def pad (msg : List Nat) : List Nat :=
  msg ++ 0x80 :: List.replicate ((119 - msg.length % 64) % 64) 0 ++
    (List.range 8).map (fun i => (msg.length * 8) >>> (8 * (7 - i)) % 256)

/-- Bytes as big-endian 32-bit words. -/
def words : List Nat → List Nat
  | a :: b :: c :: d :: rest => (a <<< 24 ||| b <<< 16 ||| c <<< 8 ||| d) :: words rest
  | _ => []

/-- The message schedule, latest word first, extended by `n` words. -/
def schedule : Nat → List Nat → List Nat
  | 0, w => w
  | n + 1, w =>
    let w2 := w.getD 1 0
    let w15 := w.getD 14 0
    let s0 := rotr w15 7 ^^^ rotr w15 18 ^^^ (w15 >>> 3)
    let s1 := rotr w2 17 ^^^ rotr w2 19 ^^^ (w2 >>> 10)
    schedule n (w32 (w.getD 15 0 + s0 + w.getD 6 0 + s1) :: w)

/-- The working variables of the compression function. -/
structure Vars where
  a : Nat
  b : Nat
  c : Nat
  d : Nat
  e : Nat
  f : Nat
  g : Nat
  h : Nat

/-- One round of the compression function, with a round constant and a schedule word. -/
def round (s : Vars) (kw : Nat × Nat) : Vars :=
  let S1 := rotr s.e 6 ^^^ rotr s.e 11 ^^^ rotr s.e 25
  let ch := (s.e &&& s.f) ^^^ ((s.e ^^^ 0xffffffff) &&& s.g)
  let t1 := s.h + S1 + ch + kw.1 + kw.2
  let S0 := rotr s.a 2 ^^^ rotr s.a 13 ^^^ rotr s.a 22
  let maj := (s.a &&& s.b) ^^^ (s.a &&& s.c) ^^^ (s.b &&& s.c)
  ⟨w32 (t1 + (S0 + maj)), s.a, s.b, s.c, w32 (s.d + t1), s.e, s.f, s.g⟩

/-- The compression of one block of 64 bytes into the hash value. -/
def compress (h : List Nat) (block : List Nat) : List Nat :=
  let w := (schedule 48 (words block).reverse).reverse
  let s0 : Vars := ⟨h.getD 0 0, h.getD 1 0, h.getD 2 0, h.getD 3 0, h.getD 4 0, h.getD 5 0,
    h.getD 6 0, h.getD 7 0⟩
  let s := (K.zip w).foldl round s0
  List.zipWith (fun x y => w32 (x + y)) h [s.a, s.b, s.c, s.d, s.e, s.f, s.g, s.h]

/-- The hash value after `n` blocks of the padded message. -/
def blocks : Nat → List Nat → List Nat → List Nat
  | 0, h, _ => h
  | n + 1, h, m => if m = [] then h else blocks n (compress h (m.take 64)) (m.drop 64)

/-- Model of `sha256.Sum256` (FIPS 180-4) on a list of bytes: the 32 bytes of the digest. -/
def Sum256 (msg : List Nat) : List Nat :=
  (blocks ((pad msg).length / 64) H0 (pad msg)).flatMap
    (fun w => [w >>> 24 % 256, w >>> 16 % 256, w >>> 8 % 256, w % 256])

/-- The UTF-8 encoding of a character. -/
def utf8 (c : Char) : List Nat :=
  let n := c.toNat
  if n < 0x80 then [n]
  else if n < 0x800 then [0xc0 + n / 64, 0x80 + n % 64]
  else if n < 0x10000 then [0xe0 + n / 4096, 0x80 + n / 64 % 64, 0x80 + n % 64]
  else [0xf0 + n / 262144, 0x80 + n / 4096 % 64, 0x80 + n / 64 % 64, 0x80 + n % 64]

/-- The bytes of the content of a file. -/
def bytes (content : String) : List Nat := content.data.flatMap utf8

end Sha256

/-! ## internal/validation: digests -/

namespace Validation

/-- Model of `ValidateSHA256`: whether it returns no error, which is the case for a string
of 64 bytes that `hex.DecodeString` accepts. -/
def ValidateSHA256 (s : String) : Bool :=
  if (Sha256.bytes s).length ≠ 64 then false
  else (Hex.DecodeString s).isSome

end Validation

/-! ## internal/formula: formula.go and loader.go -/

namespace Formula

/-- The errors of `GetURL`, `GetSHA256` and `Validate`. -/
inductive Error where
  | unsupportedPlatform
  | insecureURL
  | noDigest
  | invalidDigest
  | missingName
  | invalidName
  | missingVersion
  | invalidVersion
  | missingURL
  | missingInstallType
  | invalidInstallType
  | invalidDependency (dep : String)
  deriving DecidableEq

/-- Model of `GetURL`; `platform` is the result of `PlatformKey()`. -/
def GetURL (f : Formula) (platform : String) : Except Error String :=
  match f.URL.lookup platform with
  | none => .error .unsupportedPlatform
  | some u => if Filepath.HasPrefix u "https://" = false then .error .insecureURL else .ok u

/-- Model of `GetSHA256`; `platform` is the result of `PlatformKey()`. -/
def GetSHA256 (f : Formula) (platform : String) : Except Error String :=
  match f.SHA256.lookup platform with
  | none => .error .noDigest
  | some s => if Validation.ValidateSHA256 s = false then .error .invalidDigest else .ok s

/-- Model of `Validate`: the first error, or `none`.  (The error for a URL names one of the
URLs that do not begin with `https://`.) -/
def Validate (f : Formula) : Option Error :=
  if f.Name = "" then some .missingName
  else if Validation.IsValidName f.Name = false then some .invalidName
  else if f.Version = "" then some .missingVersion
  else if Validation.IsValidVersion f.Version = false then some .invalidVersion
  else if f.URL.length = 0 then some .missingURL
  else if f.URL.any (fun pu => Filepath.HasPrefix pu.2 "https://" = false) then some .insecureURL
  else if f.Install.Typ = "" then some .missingInstallType
  else if f.Install.Typ ≠ "binary" ∧ f.Install.Typ ≠ "archive" then some .invalidInstallType
  else
    match f.Dependencies.find? (fun dep => Validation.IsValidName dep = false) with
    | some dep => some (.invalidDependency dep)
    | none => none

/-- Model of `Parse`; `unmarshal` is `yaml.Unmarshal` into a `Formula`. -/
def Parse (unmarshal : String → Option Formula) (data : String) : Option Formula :=
  match unmarshal data with
  | none => none
  | some f => if f.Validate = none then some f else none

/-- Model of `formula.Loader`. -/
structure Loader where
  TapDir : String

/-- Model of `loadFromFile`. -/
def Loader.loadFromFile (unmarshal : String → Option Formula) (fs : Os.FS) (path : String) :
    Option Formula :=
  match Os.ReadFile fs path with
  | .error _ => none
  | .ok data => Parse unmarshal data

/-- The paths that `LoadByName` tries, in order: one for every directory in `TapDir`. -/
def Loader.candidates (l : Loader) (fs : Os.FS) (name : String) : Option (List String) :=
  match Os.ReadDir fs l.TapDir with
  | .error _ => none
  | .ok taps =>
    some ((taps.filter (fun tap => tap.2.IsDir)).map
      (fun tap => Filepath.Join [l.TapDir, tap.1, name ++ ".yaml"]))

/-- Model of `Loader.LoadByName` on the file system: the first of the candidate files that
can be read and parsed; `none` for an error. -/
def Loader.LoadByName (unmarshal : String → Option Formula) (l : Loader) (fs : Os.FS)
    (name : String) : Option Formula :=
  match l.candidates fs name with
  | none => none
  | some paths => paths.findSome? (Loader.loadFromFile unmarshal fs)

end Formula

/-! ## internal/downloader: downloader.go -/

namespace Downloader

open Filepath Os

/-- What `http.Get` yields for a URL: an error, or a response with its status code and
its body, which is read to the end (`complete`) or up to an error of the connection. -/
inductive Response where
  | failed
  | answer (status : Nat) (body : String) (complete : Bool)
  deriving DecidableEq

/-- The state that a command works on: the file system, and the URLs for which a request
was made, in order. -/
structure World where
  fs : FS
  requests : List String
  deriving DecidableEq

/-- The errors of `Download`. -/
inductive DownloadError where
  | get
  | status (code : Nat)
  | create (e : Errno)
  | copy
  deriving DecidableEq

/-- Model of `Downloader.Download`; `tmpDir` is the field `TmpDir`, and `get` is the answer
of the network to `http.Get`. -/
def Download (get : String → Response) (tmpDir url filename : String) (w : World) :
    Except (DownloadError × World) (String × World) :=
  let destPath := Join [tmpDir, filename]
  let w1 : World := { w with requests := w.requests ++ [url] }
  match get url with
  | .failed => .error (.get, w1)
  | .answer status body complete =>
    if status ≠ 200 then .error (.status status, w1)
    else
      match WriteFile w1.fs destPath "" 0o666 with
      | .error e => .error (.create e, w1)
      | .ok fs1 =>
        match WriteFile fs1 destPath body 0o666 with
        | .error _ => .error (.copy, { w1 with fs := removeIgnoringError fs1 destPath })
        | .ok fs2 =>
          if complete then .ok (destPath, { w1 with fs := fs2 })
          else .error (.copy, { w1 with fs := removeIgnoringError fs2 destPath })

/-- The errors of `VerifySHA256`. -/
inductive VerifyError where
  | openFile (e : Errno)
  | compute
  | mismatch
  deriving DecidableEq

/-- Model of `VerifySHA256`: `none` when it returns no error. -/
def VerifySHA256 (fs : FS) (filepath expected : String) : Option VerifyError :=
  match Open fs filepath with
  | .error e => some (.openFile e)
  | .ok none => some .compute
  | .ok (some content) =>
    let actual := Hex.EncodeToString (Sha256.Sum256 (Sha256.bytes content))
    if actual ≠ expected then some .mismatch else none

end Downloader

/-! ## internal/config -/

namespace Config

/-- Model of `config.Paths`. -/
structure Paths where
  Root : String
  Cellar : String
  Opt : String
  Bin : String
  Lib : String
  Include : String
  Taps : String
  CoreTap : String
  CaskTap : String
  Caskroom : String
  AppDir : String
  Tmp : String
  deriving DecidableEq

/-- The value that `Default` returns for a root and an application directory (lines
36-49). -/
def layout (root appDir : String) : Paths :=
  { Root := root
    Cellar := Filepath.Join [root, "Cellar"]
    Opt := Filepath.Join [root, "opt"]
    Bin := Filepath.Join [root, "bin"]
    Lib := Filepath.Join [root, "lib"]
    Include := Filepath.Join [root, "include"]
    Taps := Filepath.Join [root, "Taps"]
    CoreTap := Filepath.Join [root, "Taps", "core"]
    CaskTap := Filepath.Join [root, "Taps", "cask"]
    Caskroom := Filepath.Join [root, "Caskroom"]
    AppDir := appDir
    Tmp := Filepath.Join [root, "tmp"] }

/-- Model of `Default`; `home` is the result of `os.UserHomeDir` (`none` for an error),
`rootEnv` and `appDirEnv` are the values of `HOMEGREW_PREFIX` and `HOMEGREW_APPDIR`. -/
def Default (home : Option String) (rootEnv appDirEnv : String) : Paths :=
  let home := home.getD "."
  layout (if rootEnv = "" then Filepath.Join [home, ".grew"] else rootEnv)
    (if appDirEnv = "" then Filepath.Join [home, "Applications"] else appDirEnv)

end Config

/-! ## internal/fsutil: CopyTree -/

namespace Fsutil

open Filepath Os

/-- The errors of `CopyTree`: an error of the file system, or of `filepath.Rel`. -/
inductive CopyError where
  | os (e : Errno)
  | rel
  deriving DecidableEq

/-- Model of `CopyFile`: the destination is created or truncated, then the content of the
source is copied into it. -/
def CopyFile (src dst : String) (mode : Nat) (fs : FS) : Except (Errno × FS) FS :=
  match Open fs src with
  | .error e => .error (e, fs)
  | .ok _ =>
    match WriteFile fs dst "" mode with
    | .error e => .error (e, fs)
    | .ok fs1 =>
      match Open fs1 src with
      | .ok (some content) =>
        match WriteFile fs1 dst content mode with
        | .error e => .error (e, fs1)
        | .ok fs2 => .ok fs2
      | _ => .error (.EISDIR, fs1)

/-- The function that `CopyTree` passes to `filepath.Walk` (lines 19-58), for a path that
`Walk` could examine; `info` is what `Lstat` shows there. -/
def copyNode (src dst absDst path : String) (info : Node) (fs : FS) :
    Except (CopyError × FS) FS :=
  match Rel src path with
  | none => .error (.rel, fs)
  | some rel =>
    let target := Join [dst, rel]
    match Lstat fs path with
    | .error e => .error (.os e, fs)
    | .ok linfo =>
      if linfo.Mode &&& ModeSymlink ≠ 0 then
        match Readlink fs path with
        | .error e => .error (.os e, fs)
        | .ok link =>
          let linkAbs := Clean (if IsAbs link then link else Join [Dir target, link])
          if HasPrefix linkAbs (absDst ++ "/") = false ∧ linkAbs ≠ absDst then .ok fs
          else
            match Symlink fs link target with
            | .error e => .error (.os e, fs)
            | .ok fs1 => .ok fs1
      else if info.IsDir then
        match MkdirAll fs target (SanitizeMode info.Mode true) with
        | .error e => .error (.os e, fs)
        | .ok fs1 => .ok fs1
      else
        match CopyFile path target (SanitizeMode info.Mode false) fs with
        | .error (e, fs1) => .error (.os e, fs1)
        | .ok fs1 => .ok fs1

/-- The loop of `walk` in `path/filepath` over the names in a directory; `down` is the walk
of one entry. -/
def walkNames (down : String → Node → FS → Except (CopyError × FS) FS) (path : String) :
    List String → FS → Except (CopyError × FS) FS
  | [], fs => .ok fs
  | name :: rest, fs =>
    match Lstat fs (Join [path, name]) with
    | .error e => .error (.os e, fs)
    | .ok fileInfo =>
      match down (Join [path, name]) fileInfo fs with
      | .error e => .error e
      | .ok fs1 => walkNames down path rest fs1

/-- Model of `walk` in `path/filepath` for a function `fn` that returns the error it is
given, as the one of `CopyTree` does: the names in a directory are read before `fn` is
called for it, then the entries are walked in the order of their names.  The fuel bounds
the depth; at a greater depth the path becomes too long for the system. -/
def walk (fn : String → Node → FS → Except (CopyError × FS) FS) :
    Nat → String → Node → FS → Except (CopyError × FS) FS
  | 0, _, _, fs => .error (.os .ENAMETOOLONG, fs)
  | fuel + 1, path, info, fs =>
    if info.IsDir = false then fn path info fs
    else
      match ReadDir fs path with
      | .error e => .error (.os e, fs)
      | .ok entries =>
        match fn path info fs with
        | .error e => .error e
        | .ok fs1 => walkNames (walk fn fuel) path (entries.map (fun e => e.1)) fs1

/-- Model of `filepath.Walk`, for such a function. -/
def Walk (fn : String → Node → FS → Except (CopyError × FS) FS) (root : String) (fs : FS) :
    Except (CopyError × FS) FS :=
  match Lstat fs root with
  | .error e => .error (.os e, fs)
  | .ok info => walk fn (fs.nodes.length + 1) root info fs

/-- Model of `CopyTree`. -/
def CopyTree (src dst : String) (fs : FS) : Except (CopyError × FS) FS :=
  match Abs fs.Getwd dst with
  | none => .error (.os .ENOENT, fs)
  | some absDst => Walk (copyNode src dst absDst) src fs

end Fsutil

/-! ## internal/cellar: the operations on the store -/

namespace Cellar

open Filepath Os

/-- The errors of the store. -/
inductive Error where
  | invalid
  | createDir (e : Errno)
  | copy (e : Fsutil.CopyError)
  | notInstalled
  | noVersion
  | os (e : Errno)
  deriving DecidableEq

/-- Model of `Cellar.Install`; `path` is the field `Path` of the store. -/
def Install (path name version stagingDir : String) (fs : FS) : Except (Error × FS) FS :=
  if Validation.IsValidName name = false ∨ Validation.IsValidVersion version = false then
    .error (.invalid, fs)
  else
    let kegPath := Join [path, name, version]
    match MkdirAll fs (Dir kegPath) 0o755 with
    | .error e => .error (.createDir e, fs)
    | .ok fs1 =>
      match Fsutil.CopyTree stagingDir kegPath (removeAllIgnoringError fs1 kegPath) with
      | .error (e, fs2) => .error (.copy e, removeAllIgnoringError fs2 kegPath)
      | .ok fs2 => .ok fs2

/-- Model of `Cellar.Uninstall`. -/
def Uninstall (path name : String) (fs : FS) : Except (Error × FS) FS :=
  if Validation.IsValidName name = false then .error (.invalid, fs)
  else
    let kegDir := Join [path, name]
    match Stat fs kegDir with
    | .error .ENOENT => .error (.notInstalled, fs)
    | _ =>
      match RemoveAll fs kegDir with
      | .error e => .error (.os e, fs)
      | .ok fs1 => .ok fs1

/-- Model of `Cellar.IsInstalled`. -/
def IsInstalled (path name : String) (fs : FS) : Bool :=
  if Validation.IsValidName name = false then false
  else
    match Stat fs (Join [path, name]) with
    | .ok info => info.IsDir
    | .error _ => false

/-- Model of `Cellar.InstalledVersion`. -/
def InstalledVersion (path name : String) (fs : FS) : Except Error String :=
  if Validation.IsValidName name = false then .error .invalid
  else
    match ReadDir fs (Join [path, name]) with
    | .error _ => .error .notInstalled
    | .ok entries =>
      match entries.find? (fun e => e.2.IsDir) with
      | some e => .ok e.1
      | none => .error .noVersion

/-- Model of `Cellar.InstalledVersions`. -/
def InstalledVersions (path name : String) (fs : FS) : Except Error (List String) :=
  if Validation.IsValidName name = false then .error .invalid
  else
    match ReadDir fs (Join [path, name]) with
    | .error _ => .error .notInstalled
    | .ok entries => .ok (sortStrings ((entries.filter (fun e => e.2.IsDir)).map (fun e => e.1)))

end Cellar

namespace Cellar

open Filepath Os

/-- Model of `InstalledPackage`. -/
structure InstalledPackage where
  Name : String
  Version : String
  Path : String
  deriving DecidableEq

/-- Model of `Cellar.List` (named `ListInstalled` here, `List` being the type of lists).
The names in a directory differ, so the result of `sort.Slice` by `Name` is the one sorted
list of the packages. -/
def ListInstalled (path : String) (fs : FS) : Except Error (List InstalledPackage) :=
  match ReadDir fs path with
  | .error .ENOENT => .ok []
  | .error e => .error (.os e)
  | .ok entries =>
    .ok (List.insertionSort (fun a b => nameLe a.Name b.Name)
      (entries.filterMap (fun e =>
        if e.2.IsDir = false then none
        else
          match InstalledVersion path e.1 fs with
          | .error _ => none
          | .ok ver => some ⟨e.1, ver, Join [path, e.1, ver]⟩)))

end Cellar

/-! ## internal/linker -/

namespace Linker

open Filepath Os

/-- Model of `LinkOpts`. -/
structure LinkOpts where
  KegOnly : Bool := false
  Overwrite : Bool := false
  DryRun : Bool := false
  Force : Bool := false
  deriving DecidableEq

/-- Model of `UnlinkOpts`. -/
structure UnlinkOpts where
  DryRun : Bool := false
  deriving DecidableEq

/-- The errors of the linker; `linkedByOther` and `notSymlink` are the two conflict errors
of `linkDirWithOpts` (lines 182 and 192), with the name of the entry. -/
inductive Error where
  | invalid
  | kegNotFound
  | cellarInvalid (e : Errno)
  | outsideCellar
  | optLink (e : Errno)
  | readDir (e : Errno)
  | linkedByOther (name : String)
  | notSymlink (name : String)
  | symlink (e : Errno)
  deriving DecidableEq

/-- Model of `resolveLink`. -/
def resolveLink (dir target : String) : String :=
  Clean (if IsAbs target = false then Join [dir, target] else target)

/-- Model of `isOwnedBy`. -/
def isOwnedBy (cellarPath formulaName destDir symlinkTarget : String) : Bool :=
  HasPrefix (resolveLink destDir symlinkTarget) (Join [cellarPath, formulaName] ++ "/")

/-- The body of the loop of `linkDirWithOpts` (lines 166-205) for the entry `entry` of the
source directory. -/
def linkEntry (srcDir destDir cellarPath formulaName : String) (opts : LinkOpts)
    (entry : String) (fs : FS) : Except (Error × FS) FS :=
  let srcPath := Join [srcDir, entry]
  let destPath := Join [destDir, entry]
  let cleared : Except (Error × FS) FS :=
    match Lstat fs destPath with
    | .error _ => .ok fs
    | .ok info =>
      if info.Mode &&& ModeSymlink ≠ 0 then
        let target := match Readlink fs destPath with
          | .ok t => t
          | .error _ => ""
        if isOwnedBy cellarPath formulaName destDir target then
          if opts.DryRun = false then .ok (removeIgnoringError fs destPath) else .ok fs
        else if opts.Overwrite then
          if opts.DryRun then .ok fs else .ok (removeIgnoringError fs destPath)
        else .error (.linkedByOther entry, fs)
      else if opts.Overwrite then
        if opts.DryRun then .ok fs else .ok (removeIgnoringError fs destPath)
      else .error (.notSymlink entry, fs)
  match cleared with
  | .error e => .error e
  | .ok fs1 =>
    if opts.DryRun then .ok fs1
    else
      match Symlink fs1 srcPath destPath with
      | .error e => .error (.symlink e, fs1)
      | .ok fs2 => .ok fs2

/-- The loop of `linkDirWithOpts` over the names of the entries. -/
def linkEntries (srcDir destDir cellarPath formulaName : String) (opts : LinkOpts) :
    List String → FS → Except (Error × FS) FS
  | [], fs => .ok fs
  | entry :: rest, fs =>
    match linkEntry srcDir destDir cellarPath formulaName opts entry fs with
    | .error e => .error e
    | .ok fs1 => linkEntries srcDir destDir cellarPath formulaName opts rest fs1

/-- Model of `linkDirWithOpts`. -/
def linkDirWithOpts (srcDir destDir cellarPath formulaName : String) (opts : LinkOpts)
    (fs : FS) : Except (Error × FS) FS :=
  match ReadDir fs srcDir with
  | .error .ENOENT => .ok fs
  | .error e => .error (.readDir e, fs)
  | .ok entries =>
    linkEntries srcDir destDir cellarPath formulaName opts (entries.map (fun e => e.1)) fs

/-- The loop of `LinkWithOpts` over the pairs of a directory of the keg and a shared
directory (lines 74-78). -/
def linkSubdirs (cellarPath formulaName : String) (opts : LinkOpts) :
    List (String × String) → FS → Except (Error × FS) FS
  | [], fs => .ok fs
  | sd :: rest, fs =>
    match linkDirWithOpts sd.1 sd.2 cellarPath formulaName opts fs with
    | .error e => .error e
    | .ok fs1 => linkSubdirs cellarPath formulaName opts rest fs1

/-- Model of `Linker.LinkWithOpts`; `paths` is the field `Paths`.  (`EvalSymlinks` yields
absolute paths here, for the keg and for the store alike.) -/
def LinkWithOpts (paths : Config.Paths) (name version : String) (opts : LinkOpts) (fs : FS) :
    Except (Error × FS) FS :=
  if Validation.IsValidName name = false ∨ Validation.IsValidVersion version = false then
    .error (.invalid, fs)
  else
    let kegPath := Join [paths.Cellar, name, version]
    match EvalSymlinks fs kegPath with
    | .error _ => .error (.kegNotFound, fs)
    | .ok realKeg =>
      match EvalSymlinks fs paths.Cellar with
      | .error e => .error (.cellarInvalid e, fs)
      | .ok realCellar =>
        if HasPrefix realKeg (realCellar ++ "/") = false then .error (.outsideCellar, fs)
        else
          let optLink := Join [paths.Opt, name]
          let linked : Except (Error × FS) FS :=
            if opts.DryRun then .ok fs
            else
              match Symlink (removeIgnoringError fs optLink) kegPath optLink with
              | .error e => .error (.optLink e, removeIgnoringError fs optLink)
              | .ok fs1 => .ok fs1
          match linked with
          | .error e => .error e
          | .ok fs1 =>
            if opts.KegOnly ∧ opts.Force = false then .ok fs1
            else
              linkSubdirs paths.Cellar name opts
                [(Join [kegPath, "bin"], paths.Bin), (Join [kegPath, "lib"], paths.Lib),
                  (Join [kegPath, "include"], paths.Include)] fs1

/-- Model of `Linker.Link`. -/
def Link (paths : Config.Paths) (name version : String) (kegOnly : Bool) (fs : FS) :
    Except (Error × FS) FS :=
  LinkWithOpts paths name version { KegOnly := kegOnly } fs

/-- The body of the inner loop of `UnlinkWithOpts` (lines 111-125) for an entry of `dir`. -/
def unlinkEntry (cellarPrefix dir : String) (opts : UnlinkOpts) (entry : String) (fs : FS) :
    FS :=
  let fullPath := Join [dir, entry]
  match Readlink fs fullPath with
  | .error _ => fs
  | .ok target =>
    if HasPrefix (resolveLink dir target) cellarPrefix then
      if opts.DryRun then fs else removeIgnoringError fs fullPath
    else fs

/-- The body of the outer loop of `UnlinkWithOpts` (lines 106-126) for a shared directory. -/
def unlinkDir (cellarPrefix : String) (opts : UnlinkOpts) (fs : FS) (dir : String) : FS :=
  match ReadDir fs dir with
  | .error _ => fs
  | .ok entries =>
    (entries.map (fun e => e.1)).foldl (fun fs1 entry => unlinkEntry cellarPrefix dir opts entry fs1)
      fs

/-- Model of `Linker.UnlinkWithOpts`. -/
def UnlinkWithOpts (paths : Config.Paths) (name : String) (opts : UnlinkOpts) (fs : FS) :
    Except (Error × FS) FS :=
  if Validation.IsValidName name = false then .error (.invalid, fs)
  else
    let optLink := Join [paths.Opt, name]
    let fs1 := if opts.DryRun then fs else removeIgnoringError fs optLink
    let cellarPrefix := Join [paths.Cellar, name] ++ "/"
    .ok ([paths.Bin, paths.Lib, paths.Include].foldl (unlinkDir cellarPrefix opts) fs1)

/-- Model of `Linker.Unlink`. -/
def Unlink (paths : Config.Paths) (name : String) (fs : FS) : Except (Error × FS) FS :=
  UnlinkWithOpts paths name {} fs

/-- Model of `Linker.IsLinked`. -/
def IsLinked (paths : Config.Paths) (name : String) (fs : FS) : Bool :=
  if Validation.IsValidName name = false then false
  else
    match Readlink fs (Join [paths.Opt, name]) with
    | .ok _ => true
    | .error _ => false

end Linker

/-! ## internal/cmd: install.go -/

namespace Cmd

open Filepath Os Downloader

/-- What the commands take from outside: the platform key, the answers of the network, the
parser of URLs (`url.Parse(rawURL).Path`, `none` for an error) and the decoders of
archives. -/
structure Env where
  platform : String
  get : String → Response
  urlPath : String → Option String
  codec : Codec

/-- Model of `urlExt`. -/
def urlExt (env : Env) (rawURL : String) : String :=
  match env.urlPath rawURL with
  | none => ""
  | some path =>
    match fromIndex ".tar.".data (Base path).data with
    | some ext => ⟨ext⟩
    | none => Ext (Base path)

/-- The errors of `installFormula`, by the step that failed. -/
inductive InstallError where
  | formula (e : Formula.Error)
  | download (e : DownloadError)
  | verify (e : VerifyError)
  | extract (e : ExtractError)
  | cellar (e : Cellar.Error)
  | link (e : Linker.Error)
  deriving DecidableEq

/-- Model of `installFormula`; the store is the one at `paths.Cellar`, the linker the one
with `paths`, and the downloader the one with `paths.Tmp`, as `runInstall` sets them up. -/
def installFormula (env : Env) (f : Formula) (paths : Config.Paths) (w : World) :
    Except (InstallError × World) World :=
  match f.GetURL env.platform with
  | .error e => .error (.formula e, w)
  | .ok dlURL =>
    match f.GetSHA256 env.platform with
    | .error e => .error (.formula e, w)
    | .ok sha =>
      let filename := f.Name ++ "-" ++ f.Version ++ urlExt env dlURL
      match Download env.get paths.Tmp dlURL filename w with
      | .error (e, w1) => .error (.download e, w1)
      | .ok (localFile, w1) =>
        match VerifySHA256 w1.fs localFile sha with
        | some e => .error (.verify e, { w1 with fs := removeIgnoringError w1.fs localFile })
        | none =>
          let stageDir := Join [paths.Tmp, f.Name ++ "-" ++ f.Version ++ "-stage"]
          let cleanup := fun (fs : FS) => removeIgnoringError (removeAllIgnoringError fs stageDir) localFile
          match Extract env.codec localFile stageDir f.Install (removeAllIgnoringError w1.fs stageDir) with
          | .error (e, fs3) => .error (.extract e, { w1 with fs := cleanup fs3 })
          | .ok fs3 =>
            match Cellar.Install paths.Cellar f.Name f.Version stageDir fs3 with
            | .error (e, fs4) => .error (.cellar e, { w1 with fs := cleanup fs4 })
            | .ok fs4 =>
              match Linker.Link paths f.Name f.Version f.KegOnly fs4 with
              | .error (e, fs5) => .error (.link e, { w1 with fs := fs5 })
              | .ok fs5 => .ok { w1 with fs := cleanup fs5 }

end Cmd

/-! ## internal/cmd: cleanup.go -/

namespace Cmd

open Filepath Os

/-- The body of the loop of `runCleanup` over the installed packages (lines 50-69): every
version but the last of `InstalledVersions` is removed.  (The sizes that `dirSize` adds up
only go into the printed report.) -/
def cleanVersions (cellar name : String) (dryRun : Bool) (fs : FS) : FS :=
  match Cellar.InstalledVersions cellar name fs with
  | .error _ => fs
  | .ok versions =>
    if versions.length ≤ 1 then fs
    else
      (versions.take (versions.length - 1)).foldl (fun fs1 ver =>
        if dryRun then fs1 else removeAllIgnoringError fs1 (Cellar.KegPath cellar name ver)) fs

/-- The loop of `runCleanup` over the entries of the tmp directory (lines 73-90). -/
def cleanTmp (tmp : String) (dryRun : Bool) (fs : FS) : FS :=
  match ReadDir fs tmp with
  | .error _ => fs
  | .ok entries =>
    entries.foldl (fun fs1 e =>
      if dryRun then fs1 else removeAllIgnoringError fs1 (Join [tmp, e.1])) fs

/-- Model of `runCleanup`; `paths` is the result of `config.Default()`. -/
def runCleanup (paths : Config.Paths) (args : List String) (fs : FS) :
    Except Cellar.Error FS :=
  let dryRun := args.any (fun a => decide (a = "-n" ∨ a = "--dry-run"))
  let targets := args.filter (fun a => decide (¬ (a = "-n" ∨ a = "--dry-run")))
  match Cellar.ListInstalled paths.Cellar fs with
  | .error e => .error e
  | .ok installed =>
    let chosen :=
      if targets.length > 0 then installed.filter (fun pkg => decide (pkg.Name ∈ targets))
      else installed
    .ok (cleanTmp paths.Tmp dryRun
      (chosen.foldl (fun fs1 pkg => cleanVersions paths.Cellar pkg.Name dryRun fs1) fs))

end Cmd

/-! ## Specification vocabulary

The notions in which the statements below are phrased, and the invariants of the loops. -/

namespace Depgraph

/-- What the first loop of `topoSort` has built after the nodes `seen`. -/
structure TablesOf (graph : GoMap (List String)) (seen : List String) (t : Tables) : Prop where
  keys : t.inDegree.keys = seen
  inDegree : ∀ x, t.inDegree.get x = if x ∈ seen then ((graph.get x).length : Int) else 0
  reverse : ∀ d m, (t.reverse.get d).count m = if m ∈ seen then (graph.get m).count d else 0

/-- The table `reverse` lists, for every dependency `d`, the nodes that depend on it, each
as often as it names `d`. -/
def ReverseOf (graph : GoMap (List String)) (reverse : GoMap (List String)) : Prop :=
  ∀ d m, (reverse.get d).count m = if m ∈ graph.keys then (graph.get m).count d else 0

/-- The number of entries of `graph[n]` that are not in `sorted`. -/
def unmet (graph : GoMap (List String)) (sorted : List String) (n : String) : Nat :=
  (graph.get n).countP (fun d => decide (d ∉ sorted))

/-- The moment at which `n` becomes ready with respect to the order `out`: one more than
the position of the last of its dependencies, and `0` when it has none. -/
def readyAt (graph : GoMap (List String)) (out : List String) (n : String) : Nat :=
  ((graph.get n).map (fun d => out.indexOf d + 1)).foldr max 0

/-- The order of the ready queue: first by the moment of becoming ready, then by name. -/
def QueueOrder (graph : GoMap (List String)) (out : List String) (a b : String) : Prop :=
  readyAt graph out a < readyAt graph out b ∨
    (readyAt graph out a = readyAt graph out b ∧ nameLt a b)

/-- The invariant of the main loop of `topoSort`. -/
structure KahnInv (graph : GoMap (List String)) (inDegree : GoMap Int)
    (ready sorted : List String) : Prop where
  keys : inDegree.keys.Perm graph.keys
  nodup : (sorted ++ ready).Nodup
  sub : ∀ x ∈ sorted ++ ready, x ∈ graph.keys
  deg : ∀ n ∈ graph.keys, inDegree.get n = (unmet graph sorted n : Int)
  queued : ∀ n ∈ graph.keys, inDegree.get n = 0 → n ∈ sorted ++ ready
  zero : ∀ n ∈ sorted ++ ready, inDegree.get n = 0
  depFirst : ∀ n ∈ sorted, ∀ d ∈ graph.get n, sorted.indexOf d < sorted.indexOf n
  fifo : (sorted ++ ready).Pairwise (QueueOrder graph sorted)
  bound : ∀ x ∈ sorted ++ ready, readyAt graph sorted x ≤ sorted.length

/-- The package `a` depends on `b`: the definition loaded for `a` lists `b`. -/
def DependsOn (l : Loader) (a b : String) : Prop :=
  ∃ f, l.LoadByName a = some f ∧ b ∈ f.Dependencies

/-- The name `n` is reachable from `root` through dependency edges (`root` included). -/
def Reachable (l : Loader) (root n : String) : Prop :=
  Relation.ReflTransGen (DependsOn l) root n

/-- Every name reachable from `root` can be loaded. -/
def FullyLoadable (l : Loader) (root : String) : Prop :=
  ∀ n, Reachable l root n → ∃ f, l.LoadByName n = some f

/-- The dependency graph reachable from `root` contains a cycle. -/
def HasCycle (l : Loader) (root : String) : Prop :=
  ∃ n, Reachable l root n ∧ Relation.TransGen (DependsOn l) n n

/-- The direct dependencies of `n` in the catalog (none when `n` cannot be loaded). -/
def depsOf (l : Loader) (n : String) : List String :=
  match l.LoadByName n with
  | some f => f.Dependencies
  | none => []

/-- The work left for the first loop of `Resolve`: one unit and one per dependency for
every catalog entry that is not visited yet. -/
def loadWeight : List (String × Formula) → List String → Nat
  | [], _ => 0
  | e :: es, visited =>
    (if e.1 ∈ visited then 0 else e.2.Dependencies.length + 1) + loadWeight es visited

/-- The invariant of the first loop of `Resolve`. -/
structure LoadInv (l : Loader) (root : String) (queue visited : List String) (s : Loaded) :
    Prop where
  keys : s.graph.keys = visited.reverse
  nodup : visited.Nodup
  loaded : ∀ n ∈ visited, ∃ f, l.LoadByName n = some f ∧ s.graph.get n = f.Dependencies ∧
    s.formulas.get n = some f
  reach : ∀ n, n ∈ visited ∨ n ∈ queue → Reachable l root n
  closed : ∀ n ∈ visited, ∀ d, DependsOn l n d → d ∈ visited ∨ d ∈ queue
  root : root ∈ visited ∨ root ∈ queue

/-- The maps that the first loop of `Resolve` leaves behind when every reachable name can
be loaded: the keys of `graph` are the reachable names, each once, with the dependency
list and the definition loaded for them. -/
structure GraphOf (l : Loader) (root : String) (s : Loaded) : Prop where
  nodup : s.graph.keys.Nodup
  keys : ∀ n, n ∈ s.graph.keys ↔ Reachable l root n
  loaded : ∀ n ∈ s.graph.keys, ∃ f, l.LoadByName n = some f ∧
    s.graph.get n = f.Dependencies ∧ s.formulas.get n = some f

/-- A call that returns `false` leaves the path as it was, and every call keeps the
visited names visited. -/
def TraceFrame
    (visit : String → List String → List String → Option (Bool × List String × List String)) :
    Prop :=
  ∀ node visited path b visited1 path1, visit node visited path = some (b, visited1, path1) →
    visited ⊆ visited1 ∧ (b = false → path1 = path)

/-- The dependency edges of `graph` as a relation. -/
def Edge (graph : GoMap (List String)) (a b : String) : Prop := b ∈ graph.get a

/-- The slice `chain` closes a cycle on a depth-first visit path that begins with `stem`:
there are a path of dependency edges without repetition and a dependency `node` of its last
element that already occurs on it, and `chain` is the part of the path from that
occurrence on, followed by `node`. -/
def VisitCycle (graph : GoMap (List String)) (stem chain : List String) : Prop :=
  ∃ path node, stem <+: path ++ [node] ∧ List.Chain' (Edge graph) (path ++ [node]) ∧
    path.Nodup ∧ node ∈ path ∧
    chain = path.dropWhile (fun n => decide (n ≠ node)) ++ [node]

/-- A call that returns `true` returns a cycle closed on its visit path. -/
def TraceSound (graph : GoMap (List String))
    (visit : String → List String → List String → Option (Bool × List String × List String)) :
    Prop :=
  ∀ node visited path visited1 path1, visit node visited path = some (true, visited1, path1) →
    List.Chain' (Edge graph) (path ++ [node]) → path.Nodup → path ⊆ visited →
    VisitCycle graph (path ++ [node]) path1

/-- A call that returns `false` has only met names outside `R`, when the names visited
before and no longer on the path are outside `R`. -/
def TraceComplete (R : String → Prop)
    (visit : String → List String → List String → Option (Bool × List String × List String)) :
    Prop :=
  ∀ node visited path visited1 path1, visit node visited path = some (false, visited1, path1) →
    path ⊆ visited → (∀ x ∈ visited, x ∈ path ∨ ¬ R x) →
    ¬ R node ∧ ∀ x ∈ visited1, x ∈ path ∨ ¬ R x

/-- The number of keys that are not visited yet. -/
def unvisited (keys visited : List String) : Nat :=
  (keys.filter (fun x => decide (x ∉ visited))).length

/-- The moment at which `n` becomes ready with respect to the order `out`, in terms of
the catalog: one more than the position of the last of its dependencies, `0` without any. -/
def readyTime (l : Loader) (out : List String) (n : String) : Nat :=
  ((depsOf l n).map (fun d => out.indexOf d + 1)).foldr max 0

/-- What a run of `Resolve` that reaches `topoSort` has computed: the maps of the first
loop, the final state of the main loop of `topoSort`, and the result in their terms. -/
structure ResolveRun (l : Loader) (o : RangeOrder) (root : String) (s : Loaded)
    (inDegree : GoMap Int) (sorted : List String) : Prop where
  graph : GraphOf l root s
  inv : KahnInv s.graph inDegree [] sorted
  result : Resolve l o root =
    if sorted.length ≠ s.graph.keys.length then
      (findCycle o s.graph inDegree).map (fun c => Except.error (ResolveError.cycle ⟨c⟩))
    else some (.ok (sorted.map l.LoadByName))

end Depgraph

namespace Downloader

open Filepath Os

/-- The path `target`, made absolute and cleaned, is `destDir` itself or nested under it:
the elements of `destDir` are the first elements of `target`.  (A sibling whose name only
begins with the name of `destDir` is not nested: its last element differs.) -/
def nestedOrEqual (wd : Option String) (destDir target : String) : Bool :=
  match Abs wd destDir, Abs wd target with
  | some d, some t => (segments d).isPrefixOf (segments t)
  | _, _ => false

/-- The location that the text of a symbolic link designates: the text itself when it
is an absolute path, otherwise the text resolved against the directory of the link. -/
def linkDesignation (linkDir linkText : String) : String :=
  if IsAbs linkText then Clean linkText else Join [linkDir, linkText]

/-- Nothing outside the directory at `dest` differs between the two file systems: no
object was created, overwritten or deleted there. -/
def ConfinedTo (dest : List String) (before after : FS) : Prop :=
  ∀ loc, ¬ dest <+: loc → after.find loc = before.find loc

end Downloader

/-! ## Vocabulary of the claims on the linker -/

namespace Os

/-- A proper name of a directory entry: not empty, without separator, and neither `.` nor
`..`. -/
def Proper (n : String) : Prop := n.data ≠ [] ∧ '/' ∉ n.data ∧ n ≠ "." ∧ n ≠ ".."

instance Proper.decidable (n : String) : Decidable (Proper n) := by
  unfold Proper
  infer_instance

/-- Whether the object at a location is a directory. -/
def FS.isDirAt (fs : FS) (loc : List String) : Bool :=
  match fs.find loc with
  | some (.dir _) => true
  | _ => false

/-- The location is a directory that is reached from the root through directories only
(no symbolic link lies on the way). -/
def FS.PlainDir (fs : FS) (loc : List String) : Prop := ∀ p ∈ loc.inits, fs.isDirAt p = true

instance FS.PlainDir.decidable (fs : FS) (loc : List String) : Decidable (fs.PlainDir loc) := by
  unfold FS.PlainDir
  infer_instance

/-- Whether an object lies inside the directory at `loc`. -/
def FS.hasChildren (fs : FS) (loc : List String) : Bool :=
  fs.nodes.any (fun e => loc.isPrefixOf e.1 && e.1 != loc)

/-- The file system after a list of objects was put at their locations, in order. -/
def FS.putAll (fs : FS) (ps : List (List String × Node)) : FS :=
  ps.foldl (fun fs1 p => fs1.put p.1 p.2) fs

end Os

namespace Os

/-- The file system without the object at `loc` and everything below it. -/
def FS.prune (fs : FS) (loc : List String) : FS :=
  { fs with nodes := fs.nodes.filter (fun e => !loc.isPrefixOf e.1) }

end Os

namespace Os

/-- The file system in which the object at `o`, with everything below it, lies at `d`, in
place of what was at `d`. -/
def FS.move (fs : FS) (o d : List String) : FS :=
  { fs with nodes := fs.nodes.filterMap (fun e =>
      if o.isPrefixOf e.1 then some (d ++ e.1.drop o.length, e.2)
      else if e.1 = d then none else some e) }

end Os

/-! ## Vocabulary of the claims on the linker: the prefix -/

namespace Os

/-- What lies at the location can be removed by `os.Remove`: nothing lies there (then
nothing has to be removed), or a file, a link or an empty directory. -/
def FS.Removable (fs : FS) (loc : List String) : Prop :=
  fs.isDirAt loc = true → fs.hasChildren loc = false

instance FS.Removable.decidable (fs : FS) (loc : List String) : Decidable (fs.Removable loc) := by
  unfold FS.Removable
  infer_instance

end Os

namespace Linker

open Os

/-- The prefix lies at the location `R`: the store, `opt` and the shared directories are
the entries `Cellar`, `opt`, `bin`, `lib` and `include` of `R`, as `config.Default` lays
them out below an absolute root. -/
structure Standard (paths : Config.Paths) (R : List String) : Prop where
  proper : ∀ n ∈ R, Proper n
  cellar : paths.Cellar = FS.pathOf (R ++ ["Cellar"])
  opt : paths.Opt = FS.pathOf (R ++ ["opt"])
  bin : paths.Bin = FS.pathOf (R ++ ["bin"])
  lib : paths.Lib = FS.pathOf (R ++ ["lib"])
  incl : paths.Include = FS.pathOf (R ++ ["include"])

/-- The names of the directories of a keg that are linked into the shared directories of
the same names (lines 64-72). -/
def subdirs : List String := ["bin", "lib", "include"]

/-- The names that `os.ReadDir` yields for the location: the entries of a directory, and
none when nothing lies there. -/
def entriesAt (fs : FS) (loc : List String) : List String :=
  if fs.isDirAt loc then fs.children loc else []

/-- The links that `linkDirWithOpts` creates for the entries `es` of the directory `S` of
a keg in the shared directory `B`. -/
def linksOf (B S : List String) (es : List String) : List (List String × Node) :=
  es.map (fun e => (B ++ [e], Node.symlink (FS.pathOf (S ++ [e]))))

/-- The links that `LinkWithOpts` creates in the shared directories `subs` of the prefix
at `R` for the keg at `K`. -/
def sharedLinks (fs : FS) (R K : List String) (subs : List String) : List (List String × Node) :=
  subs.flatMap (fun sub => linksOf (R ++ [sub]) (K ++ [sub]) (entriesAt fs (K ++ [sub])))

end Linker

namespace Os

/-- Every name in the file system is a proper name. -/
def FS.ProperNames (fs : FS) : Prop := ∀ e ∈ fs.nodes, ∀ n ∈ e.1, Proper n

instance FS.ProperNames.decidable (fs : FS) : Decidable fs.ProperNames := by
  unfold FS.ProperNames
  infer_instance

end Os

namespace Linker

open Os

/-- The links that `LinkWithOpts` creates for the keg of `name` and `version` in the
prefix at `R`: the one in `opt`, and those in the shared directories unless the package is
keg-only and linking is not forced. -/
def linkPlan (fs : FS) (R : List String) (name version : String) (opts : LinkOpts) :
    List (List String × Node) :=
  (R ++ ["opt", name], Node.symlink (FS.pathOf (R ++ ["Cellar", name, version]))) ::
    (if opts.KegOnly ∧ opts.Force = false then []
      else sharedLinks fs R (R ++ ["Cellar", name, version]) subdirs)

end Linker

namespace Os

/-- The file system after the objects at the locations were erased, in order. -/
def FS.eraseAll (fs : FS) (locs : List (List String)) : FS := locs.foldl FS.erase fs

end Os

namespace Linker

open Os

/-- Whether the entry `e` of the shared directory `B` is a link whose text, resolved as
`resolveLink` does, begins with `cellarPrefix`: the test of `UnlinkWithOpts` (lines
113-118). -/
def pointsInto (fs : FS) (B : List String) (cellarPrefix : String) (e : String) : Bool :=
  match fs.find (B ++ [e]) with
  | some (.symlink t) => Filepath.HasPrefix (resolveLink (FS.pathOf B) t) cellarPrefix
  | _ => false

/-- The locations of the entries of the shared directory `B` that point into the store
under `cellarPrefix`. -/
def unlinked (fs : FS) (B : List String) (cellarPrefix : String) : List (List String) :=
  ((fs.children B).filter (pointsInto fs B cellarPrefix)).map (fun e => B ++ [e])

end Linker

namespace Linker

open Os

/-- Whether the name of the entry `e` is taken in the shared directory `B` by something
that is not a link of the package `name`: a link for which `isOwnedBy` does not hold, or
an object that is no link (the cases of lines 176-195). -/
def conflictAt (fs : FS) (B : List String) (cellarPath name : String) (e : String) : Bool :=
  match fs.find (B ++ [e]) with
  | none => false
  | some (.symlink t) => !isOwnedBy cellarPath name (FS.pathOf B) t
  | some _ => true

/-- Whether `linkDirWithOpts` stops at the entry `e`: its name is taken by something that
is not a link of the package, and `Overwrite` is not set or a directory that is not empty
lies there (which `os.Remove` does not remove). -/
def blockedAt (fs : FS) (B : List String) (cellarPath name : String) (opts : LinkOpts)
    (e : String) : Bool :=
  conflictAt fs B cellarPath name e &&
    (!opts.Overwrite || (fs.isDirAt (B ++ [e]) && fs.hasChildren (B ++ [e])))

end Linker

namespace Linker

/-- The errors that `LinkWithOpts` returns before it creates or removes anything (lines
30-47): an invalid name or version, a missing keg, a store path that does not resolve, a
keg that resolves outside the store. -/
def Error.beforeLinks : Error → Bool
  | .invalid => true
  | .kegNotFound => true
  | .cellarInvalid _ => true
  | .outsideCellar => true
  | _ => false

end Linker

/-! ## Vocabulary of the claims on the store -/

namespace Fsutil

open Os Filepath

/-- What `CopyTree` puts at the location `K ++ r` of the destination `K` for the object
found at the same relative location of the source (lines 36-58): a directory or a file
with the sanitized permissions, a link with the same text unless the check of line 47
skips it. -/
def copyOf (K r : List String) (n : Node) : Option Node :=
  match n with
  | .dir perm => some (.dir (syscallMode (SanitizeMode (Node.dir perm).Mode true)))
  | .file perm data =>
    some (.file (syscallMode (SanitizeMode (Node.file perm data).Mode false)) data)
  | .symlink link =>
    if HasPrefix (Clean (if IsAbs link then link else Join [Dir (FS.pathOf (K ++ r)), link]))
        (FS.pathOf K ++ "/") = false ∧
      Clean (if IsAbs link then link else Join [Dir (FS.pathOf (K ++ r)), link]) ≠ FS.pathOf K
    then none
    else some (.symlink link)

/-- The copy of the tree at `S` into `K`, at the relative location `r`: the copy of the
object at `S ++ r` when it is reached from `S` through directories, and nothing
otherwise. -/
def mirror (fs : FS) (S K r : List String) : Option Node :=
  if fs.PlainDir (S ++ r.dropLast) then (fs.find (S ++ r)).bind (copyOf K r) else none

end Fsutil

namespace Fsutil

open Os Filepath

/-- The walk of `filepath.Walk` with the function of `CopyTree` and the given fuel copies
every entry of a directory of the tree at `S` of `fs0` into a directory of the destination
`K` in which nothing lies under its name: it returns a file system with the copy of the
entry and of what lies below it, and changes nothing elsewhere. -/
def CopiesEntries (fs0 : FS) (S K : List String) (fuel : Nat) : Prop :=
  ∀ (l : List String) (n : String) (fs1 : FS) (info : Node),
    (∀ x ∈ l, Proper x) → Proper n →
    (∀ loc, ¬ K <+: loc → fs1.find loc = fs0.find loc) →
    fs0.PlainDir (S ++ l) → fs0.find (S ++ l ++ [n]) = some info →
    fs1.PlainDir (K ++ l) → (∀ m, fs1.find (K ++ l ++ [n] ++ m) = none) →
    fs0.nodes.length + 1 + S.length ≤ fuel + (S.length + l.length + 1) →
    ∃ fs2, walk (copyNode (FS.pathOf S) (FS.pathOf K) (FS.pathOf K)) fuel
        (FS.pathOf (S ++ l ++ [n])) info fs1 = .ok fs2 ∧
      (∀ loc, ¬ (K ++ l ++ [n]) <+: loc → fs2.find loc = fs1.find loc) ∧
      (∀ m, fs2.find (K ++ l ++ [n] ++ m) = mirror fs0 S K (l ++ [n] ++ m))

end Fsutil

/-! ## Example catalogs -/

namespace Depgraph

/-- A catalog entry stored under its own name. -/
def entry (name : String) (deps : List String) : String × Formula :=
  (name, { Name := name, Dependencies := deps })

/-- The catalog of `TestResolve_Diamond`. -/
def diamondCatalog : Loader :=
  ⟨[entry "a" ["b", "c"], entry "b" ["d"], entry "c" ["d"], entry "d" []]⟩

/-- A catalog in which a dependency list names a package twice. -/
def repeatCatalog : Loader :=
  ⟨[entry "a" ["b", "b", "c"], entry "b" ["c"], entry "c" []]⟩

/-- The catalog of `TestResolve_LinearChain`. -/
def chainCatalog : Loader :=
  ⟨[entry "a" ["b"], entry "b" ["c"], entry "c" []]⟩

/-- A catalog in which `a` becomes ready while `c` still waits in the queue. -/
def queueCatalog : Loader :=
  ⟨[entry "r" ["b", "c", "a"], entry "a" ["b"], entry "b" [], entry "c" []]⟩

/-- The catalog of `TestResolve_CircularDependency`. -/
def circularCatalog : Loader :=
  ⟨[entry "x" ["y"], entry "y" ["x"]]⟩

/-- A catalog with a longer cycle behind an acyclic part. -/
def knotCatalog : Loader :=
  ⟨[entry "r" ["a", "x"], entry "a" ["b"], entry "b" [], entry "x" ["y", "a"],
    entry "y" ["a", "z"], entry "z" ["b", "x"]]⟩

/-- A catalog with a definition stored under the empty name (a file `.yaml`). -/
def emptyNameCatalog : Loader :=
  ⟨[entry "" ["x"], entry "x" ["x"]]⟩

/-- The property "at every position the emitted package is the smallest name among the
packages not emitted yet whose dependencies all occur before that position". -/
def SmallestReadyFirst (l : Loader) (sorted : List String) : Prop :=
  ∀ i, i < sorted.length → ∀ x ∈ sorted.drop i,
    (∀ d ∈ depsOf l x, d ∈ sorted.take i) → nameLe (sorted.getD i "") x

instance smallestReadyFirstDecidable (l : Loader) (sorted : List String) :
    Decidable (SmallestReadyFirst l sorted) := by
  unfold SmallestReadyFirst; infer_instance

/-- The order of emission of `topoSort` between two packages, in terms of the catalog:
`a` becomes ready before `b`, or at the same moment and has the smaller name. -/
def EmittedBefore (l : Loader) (sorted : List String) (a b : String) : Prop :=
  readyTime l sorted a < readyTime l sorted b ∨
    (readyTime l sorted a = readyTime l sorted b ∧ nameLt a b)

end Depgraph

namespace Downloader

open Os

/-- A host with the directories `/tmp/dest` and `/etc` and the file `/etc/passwd`. -/
def hostFS : FS :=
  ⟨[(["tmp"], .dir 0o755), (["tmp", "dest"], .dir 0o755), (["etc"], .dir 0o755),
    (["etc", "passwd"], .file 0o644 "root")], []⟩

/-- A tar archive with a link `l` to `/etc` and then a file `l/passwd`. -/
def absoluteLinkArchive : List TarItem :=
  [.member ⟨"l", TypeSymlink, 0o777, "/etc"⟩ "", .member ⟨"l/passwd", TypeReg, 0o644, ""⟩ "evil"]

/-- A tar archive with relative links only: `a` to `.`, then `a/b` to `..`, then a file
`b/evil`. -/
def relativeLinkArchive : List TarItem :=
  [.member ⟨"a", TypeSymlink, 0o777, "."⟩ "", .member ⟨"a/b", TypeSymlink, 0o777, ".."⟩ "",
    .member ⟨"b/evil", TypeReg, 0o644, ""⟩ "evil"]

/-- A zip archive with a directory `etc/`, a link `l` to `/etc` and a file `l/passwd`. -/
def absoluteLinkZip : List ZipFile :=
  [⟨"etc/", ModeDir + 0o755, some ""⟩, ⟨"l", ModeSymlink + 0o777, some "/etc"⟩,
    ⟨"l/passwd", 0o644, some "evil"⟩]

/-- A tar archive whose first member climbs out of the destination. -/
def traversalArchive : List TarItem :=
  [.member ⟨"../../etc/passwd", TypeReg, 0o644, ""⟩ "evil",
    .member ⟨"bin/tool", TypeReg, 0o755, ""⟩ "tool"]

end Downloader

namespace Downloader

open Os

/-- A tar archive with the single member `l`, a link to `/etc`. -/
def etcLinkArchive : List TarItem :=
  [.member ⟨"l", TypeSymlink, 0o777, "/etc"⟩ ""]

/-- A zip archive with a directory `etc/` and a link `l` to `/etc`. -/
def etcLinkZip : List ZipFile :=
  [⟨"etc/", ModeDir + 0o755, some ""⟩, ⟨"l", ModeSymlink + 0o777, some "/etc"⟩]

end Downloader

namespace Depgraph

/-- A catalog in which `b`, a dependency of `a`, requires a package that is not there. -/
def missingCatalog : Loader :=
  ⟨[entry "a" ["b"], entry "b" ["missing"]]⟩

end Depgraph

/-! ## Example inputs: installation -/

namespace Cmd

open Os Downloader

/-- A prefix `/r` with its directories, and a file `/r/secret.yaml` beside them. -/
def prefixFS : FS :=
  ⟨[(["r"], .dir 0o755), (["r", "Cellar"], .dir 0o755), (["r", "opt"], .dir 0o755),
    (["r", "bin"], .dir 0o755), (["r", "lib"], .dir 0o755), (["r", "include"], .dir 0o755),
    (["r", "tmp"], .dir 0o755), (["r", "Taps"], .dir 0o755), (["r", "Taps", "core"], .dir 0o755),
    (["r", "secret.yaml"], .file 0o600 "secret")], []⟩

/-- The paths of the prefix `/r`. -/
def prefixPaths : Config.Paths := Config.layout "/r" "/r/Applications"

/-- Decoders that accept nothing. -/
def noCodec : Codec := ⟨fun _ => none, fun _ => none⟩

/-- A network that answers one URL with the content `payload`. -/
def toolEnv : Env :=
  { platform := "linux_amd64"
    get := fun url => if url = "https://example.org/tool" then .answer 200 "payload" true else .failed
    urlPath := fun _ => some "/tool"
    codec := noCodec }

/-- The SHA-256 digest of `hello world` in lowercase digits. -/
def helloDigest : String := "b94d27b9934d3e08a52e52d7da7dabfac484efe37a5380ee9088f7ace2efcde9"

/-- The SHA-256 digest of `hello world` in uppercase digits. -/
def helloDigestUpper : String := "B94D27B9934D3E08A52E52D7DA7DABFAC484EFE37A5380EE9088F7ACE2EFCDE9"

/-- A file system with the file `/tmp/hello`, whose content is `hello world`. -/
def helloFS : FS := ⟨[(["tmp"], .dir 0o755), (["tmp", "hello"], .file 0o644 "hello world")], []⟩

/-- A formula for a binary whose declared digest is not the one of the content that the
network delivers. -/
def toolFormula : Formula :=
  { Name := "tool", Dependencies := [], Version := "1.0"
    URL := [("linux_amd64", "https://example.org/tool")]
    SHA256 := [("linux_amd64", helloDigest)]
    Install := { Typ := "binary" } }

/-- A formula that passes `Validate` and whose `BinaryName` leads out of `bin`. -/
def escapingFormula : Formula :=
  { Name := "tool", Dependencies := [], Version := "1.0"
    URL := [("linux_amd64", "https://example.org/tool")]
    SHA256 := [("linux_amd64", helloDigest)]
    Install := { Typ := "binary", BinaryName := "../../evil" } }

/-- The prefix `/r` with a downloaded artifact `/r/tmp/tool-1.0`. -/
def downloadedFS : FS := prefixFS.put ["r", "tmp", "tool-1.0"] (.file 0o666 "payload")

/-- A formula with a plaintext URL for one platform. -/
def plainFormula : Formula :=
  { Name := "tool", Dependencies := [], Version := "1.0"
    URL := [("linux_amd64", "https://example.org/tool"), ("darwin_arm64", "http://example.org/tool")]
    SHA256 := [("linux_amd64", helloDigest)]
    Install := { Typ := "binary" } }

/-- A parser of definitions that reads the content `secret` as a formula. -/
def secretUnmarshal (data : String) : Option Formula :=
  if data = "secret" then some toolFormula else none

end Cmd

namespace Cmd

open Os Downloader

/-- A network that answers one URL with the content `hello world`. -/
def helloEnv : Env :=
  { platform := "linux_amd64"
    get := fun url =>
      if url = "https://example.org/tool" then .answer 200 "hello world" true else .failed
    urlPath := fun _ => some "/tool"
    codec := noCodec }

/-- A formula for a binary `tool` whose declared digest is the one of `hello world`. -/
def helloFormula : Formula :=
  { Name := "tool", Dependencies := [], Version := "1.0"
    URL := [("linux_amd64", "https://example.org/tool")]
    SHA256 := [("linux_amd64", helloDigest)]
    Install := { Typ := "binary", BinaryName := "tool" } }

/-- The prefix `/r` in which the name `bin/tool` is taken by a file. -/
def takenFS : FS := prefixFS.put ["r", "bin", "tool"] (.file 0o755 "other")

/-- The file system that an installation leaves, whether it succeeds or fails. -/
def finalFS (r : Except (InstallError × World) World) : FS :=
  match r with
  | .ok w => w.fs
  | .error (_, w) => w.fs

/-- The error of an installation; `none` when it succeeds. -/
def failure (r : Except (InstallError × World) World) : Option InstallError :=
  match r with
  | .ok _ => none
  | .error (e, _) => some e

end Cmd

namespace Cmd

open Os

/-- The prefix `/r` with two versions of `foo` in the store, 1.9.0 and 1.10.0. -/
def versionsFS : FS :=
  ⟨[(["r"], .dir 0o755), (["r", "Cellar"], .dir 0o755), (["r", "opt"], .dir 0o755),
    (["r", "bin"], .dir 0o755), (["r", "lib"], .dir 0o755), (["r", "include"], .dir 0o755),
    (["r", "tmp"], .dir 0o755),
    (["r", "Cellar", "foo"], .dir 0o755),
    (["r", "Cellar", "foo", "1.9.0"], .dir 0o755),
    (["r", "Cellar", "foo", "1.9.0", "bin"], .dir 0o755),
    (["r", "Cellar", "foo", "1.9.0", "bin", "foo"], .file 0o755 "old"),
    (["r", "Cellar", "foo", "1.10.0"], .dir 0o755),
    (["r", "Cellar", "foo", "1.10.0", "bin"], .dir 0o755),
    (["r", "Cellar", "foo", "1.10.0", "bin", "foo"], .file 0o755 "new")], []⟩

end Cmd

namespace Cmd

open Os Downloader

/-- The members of an archive that brings a directory `bin/` with a file `helper`, and a
file `tool` beside it. -/
def binArchive : List TarItem :=
  [.member ⟨"bin/", TypeDir, 0o755, ""⟩ "", .member ⟨"bin/helper", TypeReg, 0o755, ""⟩ "h",
    .member ⟨"tool", TypeReg, 0o755, ""⟩ "t"]

/-- The members of an archive that brings only a file `tool`. -/
def flatArchive : List TarItem := [.member ⟨"tool", TypeReg, 0o755, ""⟩ "t"]

/-- Decoders that read the content `with-bin` as `binArchive` and the content `flat` as
`flatArchive`. -/
def demoCodec : Codec :=
  ⟨fun content =>
    if content = "with-bin" then some binArchive
    else if content = "flat" then some flatArchive else none, fun _ => none⟩

/-- The prefix `/r` with the archives `/r/tmp/a.tar.gz` (with a `bin/`) and
`/r/tmp/b.tar.gz` (without). -/
def archivesFS : FS :=
  (prefixFS.put ["r", "tmp", "a.tar.gz"] (.file 0o644 "with-bin")).put ["r", "tmp", "b.tar.gz"]
    (.file 0o644 "flat")

/-- An install spec for an archive with the executable `tool`. -/
def toolSpec : InstallSpec := { Typ := "archive", BinaryName := "tool" }

end Cmd

/-! ## Example inputs: the linker -/

namespace Linker

open Os

/-- The prefix `/r` with the keg of `foo` 1.0: two programs in `bin` and a library in
`lib`. -/
def kegFS : FS :=
  ⟨[(["r"], .dir 0o755), (["r", "Cellar"], .dir 0o755), (["r", "opt"], .dir 0o755),
    (["r", "bin"], .dir 0o755), (["r", "lib"], .dir 0o755), (["r", "include"], .dir 0o755),
    (["r", "Cellar", "foo"], .dir 0o755), (["r", "Cellar", "foo", "1.0"], .dir 0o755),
    (["r", "Cellar", "foo", "1.0", "bin"], .dir 0o755),
    (["r", "Cellar", "foo", "1.0", "bin", "foo"], .file 0o755 "x"),
    (["r", "Cellar", "foo", "1.0", "bin", "bar"], .file 0o755 "y"),
    (["r", "Cellar", "foo", "1.0", "lib"], .dir 0o755),
    (["r", "Cellar", "foo", "1.0", "lib", "libfoo.a"], .file 0o644 "z")], []⟩

/-- The paths of the prefix `/r`. -/
def kegPaths : Config.Paths := Config.layout "/r" "/r/Applications"

/-- The prefix after `foo` 1.0 was linked. -/
def linkedFS : FS :=
  kegFS.putAll [(["r", "opt", "foo"], .symlink "/r/Cellar/foo/1.0"),
    (["r", "bin", "bar"], .symlink "/r/Cellar/foo/1.0/bin/bar"),
    (["r", "bin", "foo"], .symlink "/r/Cellar/foo/1.0/bin/foo"),
    (["r", "lib", "libfoo.a"], .symlink "/r/Cellar/foo/1.0/lib/libfoo.a")]

/-- The prefix with a directory `/r/bin/foo` that is not empty. -/
def occupiedFS : FS :=
  (kegFS.put ["r", "bin", "foo"] (.dir 0o755)).put ["r", "bin", "foo", "notes"] (.file 0o644 "n")

/-- The prefix with a file `/r/bin/foo`. -/
def fileFS : FS := kegFS.put ["r", "bin", "foo"] (.file 0o755 "other")

/-- The prefix after `foo` 1.0 was linked, with links of a package `foo-extra`, a file and
a link that leads out of the store in the shared directories. -/
def sharedFS : FS :=
  linkedFS.putAll [(["r", "bin", "extra"], .symlink "/r/Cellar/foo-extra/2.0/bin/extra"),
    (["r", "bin", "script"], .file 0o755 "s"), (["r", "lib", "out"], .symlink "/usr/lib/out"),
    (["r", "opt", "foo-extra"], .symlink "/r/Cellar/foo-extra/2.0")]

end Linker


/-! ## Example inputs: staging trees -/

namespace Cellar

open Os

/-- The prefix `/r` with the keg of `foo` 1.0 and a staging directory `/r/tmp/stage` that
holds a new `bin/foo` and an empty directory `share`. -/
def stagedFS : FS :=
  Linker.kegFS.putAll [(["r", "tmp"], .dir 0o755), (["r", "tmp", "stage"], .dir 0o700),
    (["r", "tmp", "stage", "bin"], .dir 0o755),
    (["r", "tmp", "stage", "bin", "foo"], .file 0o755 "new"),
    (["r", "tmp", "stage", "share"], .dir 0o755)]

/-- A staging directory `/s` with a file `a`, in which a store lies, at `/s/c`. -/
def nestedFS : FS := ⟨[(["s"], .dir 0o755), (["s", "a"], .file 0o644 "a"), (["s", "c"], .dir 0o755)], []⟩

end Cellar

namespace Cellar

open Os

/-- The state in which the copy of `/s` into the keg `/s/c/foo/1.0` stops: the keg holds
copies of itself down to the depth at which the path is too long. -/
def nestedFailFS : FS :=
  nestedFS.putAll [(["s", "c", "foo"], .dir 0o755), (["s", "c", "foo", "1.0"], .dir 0o755),
    (["s", "c", "foo", "1.0", "a"], .file 0o644 "a"),
    (["s", "c", "foo", "1.0", "c"], .dir 0o755),
    (["s", "c", "foo", "1.0", "c", "foo"], .dir 0o755),
    (["s", "c", "foo", "1.0", "c", "foo", "1.0"], .dir 0o755),
    (["s", "c", "foo", "1.0", "c", "foo", "1.0", "a"], .file 0o644 "a"),
    (["s", "c", "foo", "1.0", "c", "foo", "1.0", "c"], .dir 0o755)]

end Cellar

/-! ## Example inputs: links at the paths of downloads, of `opt` and of staging -/

namespace Cmd

open Os

/-- The prefix `/r` in which a link lies at the path of the download, `/r/tmp/tool-1.0`,
and leads to `/r/tmp/kept`. -/
def plantedFS : FS := prefixFS.put ["r", "tmp", "tool-1.0"] (.symlink "/r/tmp/kept")

/-- The prefix with the link at the path of the download after the download wrote through
it. -/
def plantedDownloadedFS : FS := plantedFS.put ["r", "tmp", "kept"] (.file 0o666 "payload")

end Cmd

namespace Linker

open Os

/-- The prefix with the keg of `foo` in which a directory that is not empty lies at
`/r/opt/foo`. -/
def optDirFS : FS :=
  kegFS.putAll [(["r", "opt", "foo"], .dir 0o755), (["r", "opt", "foo", "notes"], .file 0o644 "n")]

/-- The prefix after `foo` 1.0 was linked, with a link `/r/bin/x` that leads into the keg
by way of `/r/opt/foo`. -/
def viaOptFS : FS := linkedFS.put ["r", "bin", "x"] (.symlink "/r/opt/foo/bin/foo")

end Linker

namespace Cellar

open Os

/-- The prefix `/r` with the keg of `foo` 1.0 and the staging directory `/r/tmp/stage`, to
which the link `/r/tmp/cur` leads. -/
def curFS : FS := stagedFS.put ["r", "tmp", "cur"] (.symlink "/r/tmp/stage")

end Cellar

/-! ## The order on names -/

theorem char_eq_of_toNat_eq {a b : Char} (h : a.toNat = b.toNat) : a = b := by
  apply Char.ext
  apply UInt32.ext
  exact h

theorem leChars_total : ∀ a b : List Char, leChars a b = true ∨ leChars b a = true
  | [], _ => by simp [leChars]
  | _ :: _, [] => by simp [leChars]
  | a :: as, b :: bs => by
    rcases Nat.lt_trichotomy a.toNat b.toNat with h | h | h
    · left; simp [leChars, h]
    · rcases leChars_total as bs with h1 | h1
      · left; simp [leChars, h, h1]
      · right; simp [leChars, h, h1]
    · right; simp [leChars, h]

theorem leChars_trans : ∀ a b c : List Char,
    leChars a b = true → leChars b c = true → leChars a c = true
  | [], _, _ => by simp [leChars]
  | _ :: _, [], _ => by simp [leChars]
  | _ :: _, _ :: _, [] => by simp [leChars]
  | a :: as, b :: bs, c :: cs => by
    intro h1 h2
    simp only [leChars] at h1 h2 ⊢
    by_cases hab : a.toNat < b.toNat
    · by_cases hbc : b.toNat < c.toNat
      · have : a.toNat < c.toNat := by omega
        simp [this]
      · simp only [hbc, if_false] at h2
        by_cases hbc2 : b.toNat = c.toNat
        · have : a.toNat < c.toNat := by omega
          simp [this]
        · simp [hbc2] at h2
    · simp only [hab, if_false] at h1
      by_cases hab2 : a.toNat = b.toNat
      · rw [if_pos hab2] at h1
        by_cases hbc : b.toNat < c.toNat
        · have : a.toNat < c.toNat := by omega
          simp [this]
        · simp only [hbc, if_false] at h2
          by_cases hbc2 : b.toNat = c.toNat
          · rw [if_pos hbc2] at h2
            have h3 : ¬ a.toNat < c.toNat := by omega
            have h4 : a.toNat = c.toNat := by omega
            rw [if_neg h3, if_pos h4]
            exact leChars_trans as bs cs h1 h2
          · simp [hbc2] at h2
      · simp [hab2] at h1

theorem leChars_antisymm : ∀ a b : List Char,
    leChars a b = true → leChars b a = true → a = b
  | [], [] => by simp
  | [], _ :: _ => by simp [leChars]
  | _ :: _, [] => by simp [leChars]
  | a :: as, b :: bs => by
    intro h1 h2
    simp only [leChars] at h1 h2
    by_cases hab : a.toNat < b.toNat
    · have hba : ¬ b.toNat < a.toNat := by omega
      have hba2 : ¬ b.toNat = a.toNat := by omega
      simp [hba, hba2] at h2
    · simp only [hab, if_false] at h1
      by_cases hab2 : a.toNat = b.toNat
      · rw [if_pos hab2] at h1
        have hba : ¬ b.toNat < a.toNat := by omega
        rw [if_neg hba, if_pos hab2.symm] at h2
        rw [char_eq_of_toNat_eq hab2, leChars_antisymm as bs h1 h2]
      · simp [hab2] at h1

instance nameLe_isTotal : IsTotal String nameLe := ⟨fun a b => leChars_total a.data b.data⟩
instance nameLe_isTrans : IsTrans String nameLe :=
  ⟨fun a b c h1 h2 => leChars_trans a.data b.data c.data h1 h2⟩
instance nameLe_isAntisymm : IsAntisymm String nameLe :=
  ⟨fun a b h1 h2 => String.ext (leChars_antisymm a.data b.data h1 h2)⟩

theorem sortStrings_perm (l : List String) : (sortStrings l).Perm l :=
  List.perm_insertionSort nameLe l

theorem sortStrings_sorted (l : List String) : List.Sorted nameLe (sortStrings l) :=
  List.sorted_insertionSort nameLe l

theorem sortStrings_congr {l1 l2 : List String} (h : l1.Perm l2) :
    sortStrings l1 = sortStrings l2 :=
  List.eq_of_perm_of_sorted
    (((sortStrings_perm l1).trans h).trans (sortStrings_perm l2).symm)
    (sortStrings_sorted l1) (sortStrings_sorted l2)

theorem mem_sortStrings {l : List String} {x : String} : x ∈ sortStrings l ↔ x ∈ l :=
  (sortStrings_perm l).mem_iff

theorem sortStrings_nodup {l : List String} (h : l.Nodup) : (sortStrings l).Nodup :=
  (sortStrings_perm l).nodup_iff.mpr h

theorem sortStrings_length (l : List String) : (sortStrings l).length = l.length :=
  (sortStrings_perm l).length_eq

/-- A duplicate-free sorted list is strictly ascending. -/
theorem sortStrings_pairwise_lt {l : List String} (h : l.Nodup) :
    (sortStrings l).Pairwise nameLt := by
  have h1 : (sortStrings l).Pairwise nameLe := sortStrings_sorted l
  have h2 : (sortStrings l).Pairwise (· ≠ ·) := sortStrings_nodup h
  exact (h1.and h2).imp (fun h => h)

/-! ## Enumeration orders -/

theorem RangeOrder.insertion_valid : RangeOrder.insertion.Valid := by
  intro ks
  exact ⟨List.Perm.refl _, List.Perm.refl _, List.Perm.refl _, List.Perm.refl _⟩

theorem RangeOrder.reversed_valid : RangeOrder.reversed.Valid := by
  intro ks
  exact ⟨List.reverse_perm _, List.reverse_perm _, List.reverse_perm _, List.reverse_perm _⟩


/-! ## Paths -/

namespace Filepath

theorem splitSlash_ne_nil (s : List Char) : splitSlash s ≠ [] := by
  cases s with
  | nil => simp [splitSlash]
  | cons c cs =>
    simp only [splitSlash]
    split
    · simp
    · split <;> simp

theorem splitSlash_append (a b : List Char) :
    splitSlash (a ++ '/' :: b) = splitSlash a ++ splitSlash b := by
  induction a with
  | nil => simp [splitSlash]
  | cons c cs ih =>
    by_cases hc : c = '/'
    · simp [splitSlash, hc, ih]
    · simp only [List.cons_append, splitSlash, hc, if_false]
      have ih2 : splitSlash (cs.append ('/' :: b)) = splitSlash cs ++ splitSlash b := ih
      rw [ih2]
      cases h : splitSlash cs with
      | nil => exact absurd h (splitSlash_ne_nil cs)
      | cons s ss => simp

theorem splitSlash_of_not_mem (s : List Char) (h : '/' ∉ s) : splitSlash s = [s] := by
  induction s with
  | nil => simp [splitSlash]
  | cons c cs ih =>
    have hc : c ≠ '/' := fun e => h (e ▸ List.mem_cons_self _ _)
    have hcs : '/' ∉ cs := fun e => h (List.mem_cons_of_mem _ e)
    simp [splitSlash, hc, ih hcs]

theorem segments_append (a b : String) :
    segments ⟨a.data ++ '/' :: b.data⟩ = segments a ++ segments b := by
  simp only [segments, splitSlash_append, List.filter_append]

/-- An element that is not empty, `.` or `..` is appended by `Clean`. -/
theorem cleanStep_real (rooted : Bool) (stack : List (List Char)) (seg : List Char)
    (h1 : seg ≠ []) (h2 : seg ≠ ['.']) (h3 : seg ≠ ['.', '.']) :
    cleanStep rooted stack seg = stack ++ [seg] := by
  simp [cleanStep, h1, h2, h3]

theorem joinSlash_length_append (parts : List (List Char)) (x : List Char) :
    (joinSlash (parts ++ [x])).length =
      (joinSlash parts).length + x.length + (if parts = [] then 0 else 1) := by
  induction parts with
  | nil => simp [joinSlash]
  | cons p ps ih =>
    cases ps with
    | nil => simp [joinSlash]; omega
    | cons q qs =>
      simp only [List.cons_append, joinSlash, List.length_append, List.length_cons] at ih ⊢
      simp at ih ⊢
      omega

theorem ofParts_append_ne (rooted : Bool) (parts : List (List Char)) (x y : List Char)
    (hx : x ≠ []) : ofParts rooted (parts ++ [x, y]) ≠ ofParts rooted parts := by
  have hxl : 0 < x.length := List.length_pos.mpr hx
  have h1 := joinSlash_length_append (parts ++ [x]) y
  have h2 := joinSlash_length_append parts x
  have h3 : parts ++ [x, y] = (parts ++ [x]) ++ [y] := by simp
  have hlen : (joinSlash parts).length + 1 < (joinSlash (parts ++ [x, y])).length := by
    rw [h3, h1, h2]
    simp
    omega
  intro h
  have hd := congrArg (fun s : String => s.data.length) h
  cases rooted with
  | true =>
    simp only [ofParts, if_true, List.length_cons] at hd
    omega
  | false =>
    have hne : parts ++ [x, y] ≠ [] := by simp
    by_cases hp : parts = []
    · subst hp
      simp [ofParts, joinSlash] at hd
      omega
    · simp only [ofParts, hne, hp, if_false, Bool.false_eq_true] at hd
      omega

end Filepath

namespace Validation

theorem isNameChar_ne {c : Char} (h : isNameChar c = true) : c ≠ '/' ∧ c ≠ '.' := by
  constructor
  · intro e; subst e; revert h; decide
  · intro e; subst e; revert h; decide

theorem isNameStart_isNameChar {c : Char} (h : isNameStart c = true) : isNameChar c = true := by
  unfold isNameStart at h
  unfold isNameChar
  simp only [Bool.or_eq_true] at h ⊢
  rcases h with h | h
  · exact Or.inl (Or.inl (Or.inl (Or.inl h)))
  · exact Or.inl (Or.inl (Or.inl (Or.inr h)))

theorem isVersionChar_ne {c : Char} (h : isVersionChar c = true) : c ≠ '/' := by
  intro e; subst e; revert h; decide

theorem isVersionStart_ne {c : Char} (h : isVersionStart c = true) : c ≠ '/' ∧ c ≠ '.' := by
  constructor
  · intro e; subst e; revert h; decide
  · intro e; subst e; revert h; decide

theorem isVersionStart_isVersionChar {c : Char} (h : isVersionStart c = true) :
    isVersionChar c = true := by
  unfold isVersionStart at h
  unfold isVersionChar
  simp only [Bool.or_eq_true] at h ⊢
  rcases h with (h | h) | h
  · exact Or.inl (Or.inl (Or.inl (Or.inl (Or.inl h))))
  · exact Or.inl (Or.inl (Or.inl (Or.inl (Or.inr h))))
  · exact Or.inl (Or.inl (Or.inl (Or.inr h)))

/-- A valid name: it begins with a character that is neither a separator nor a dot, and
contains no separator. -/
theorem isValidName_shape {name : String} (h : IsValidName name = true) :
    ∃ c cs, name.data = c :: cs ∧ c ≠ '/' ∧ c ≠ '.' ∧ '/' ∉ name.data := by
  unfold IsValidName at h
  cases hd : name.data with
  | nil => rw [hd] at h; simp at h
  | cons c cs =>
    rw [hd] at h
    simp only [Bool.and_eq_true, List.all_eq_true] at h
    have h1 := isNameChar_ne (isNameStart_isNameChar h.1)
    refine ⟨c, cs, rfl, h1.1, h1.2, ?_⟩
    intro hm
    rcases List.mem_cons.mp hm with e | e
    · exact h1.1 e.symm
    · exact (isNameChar_ne (h.2 _ e)).1 rfl

/-- A valid version: it begins with a character that is neither a separator nor a dot,
and contains no separator. -/
theorem isValidVersion_shape {version : String} (h : IsValidVersion version = true) :
    ∃ c cs, version.data = c :: cs ∧ c ≠ '/' ∧ c ≠ '.' ∧ '/' ∉ version.data := by
  unfold IsValidVersion at h
  cases hd : version.data with
  | nil => rw [hd] at h; simp at h
  | cons c cs =>
    rw [hd] at h
    simp only [Bool.and_eq_true, List.all_eq_true] at h
    have h1 := isVersionStart_ne h.1
    refine ⟨c, cs, rfl, h1.1, h1.2, ?_⟩
    intro hm
    rcases List.mem_cons.mp hm with e | e
    · exact h1.1 e.symm
    · exact (isVersionChar_ne (h.2 _ e)) rfl

end Validation

namespace Filepath

theorem cleanParts_empty : cleanParts "" = [] := by decide

/-- Cleaning `p/n/v`, where `n` and `v` are proper elements: the elements of the cleaned
`p`, followed by `n` and `v`. -/
theorem cleanParts_two (p : String) (n v : List Char) (rooted : Bool)
    (hn1 : n ≠ []) (hn2 : n ≠ ['.']) (hn3 : n ≠ ['.', '.']) (hn4 : '/' ∉ n)
    (hv1 : v ≠ []) (hv2 : v ≠ ['.']) (hv3 : v ≠ ['.', '.']) (hv4 : '/' ∉ v) :
    (splitSlash (p.data ++ '/' :: (n ++ '/' :: v))).foldl (cleanStep rooted) [] =
      (splitSlash p.data).foldl (cleanStep rooted) [] ++ [n, v] := by
  rw [splitSlash_append, splitSlash_append, splitSlash_of_not_mem n hn4,
    splitSlash_of_not_mem v hv4, List.foldl_append, List.foldl_append]
  simp only [List.foldl_cons, List.foldl_nil]
  rw [cleanStep_real _ _ n hn1 hn2 hn3, cleanStep_real _ _ v hv1 hv2 hv3]
  simp

theorem proper_of_head {s : List Char} {c : Char} {cs : List Char} (h : s = c :: cs)
    (hc : c ≠ '.') : s ≠ [] ∧ s ≠ ['.'] ∧ s ≠ ['.', '.'] := by
  subst h
  refine ⟨by simp, ?_, ?_⟩
  · intro e; simp at e; exact hc e.1
  · intro e; simp at e; exact hc e.1

/-- The path `Join(store, name, version)` for a name and a version that begin with a
character other than a separator or a dot and contain no separator. -/
theorem Join_three (store name version : String) (c d : Char) (cs ds : List Char)
    (hn : name.data = c :: cs) (hc1 : c ≠ '/') (hc2 : c ≠ '.') (hn4 : '/' ∉ name.data)
    (hv : version.data = d :: ds) (hd2 : d ≠ '.') (hv4 : '/' ∉ version.data) :
    Join [store, name, version] =
      ofParts (IsAbs store) (cleanParts store ++ [name.data, version.data]) := by
  obtain ⟨pn1, pn2, pn3⟩ := proper_of_head hn hc2
  obtain ⟨pv1, pv2, pv3⟩ := proper_of_head hv hd2
  have hne : name ≠ "" := by intro e; rw [e] at hn; simp at hn
  by_cases hs : store = ""
  · subst hs
    have hdrop : List.dropWhile (fun e => e == "") ["", name, version] = [name, version] := by
      have hb : (name == "") = false := beq_eq_false_iff_ne.mpr hne
      simp [List.dropWhile, hb]
    have habs : IsAbs ⟨name.data ++ '/' :: version.data⟩ = false := by
      simp [IsAbs, hn, hc1]
    have habs0 : IsAbs "" = false := by decide
    unfold Join
    rw [hdrop]
    simp only [List.map, joinSlash]
    unfold Clean
    rw [habs, habs0, cleanParts_empty]
    unfold cleanParts
    rw [habs]
    simp only [splitSlash_append, splitSlash_of_not_mem _ hn4, splitSlash_of_not_mem _ hv4,
      List.singleton_append, List.foldl_cons, List.foldl_nil, List.nil_append]
    rw [cleanStep_real _ _ _ pn1 pn2 pn3, cleanStep_real _ _ _ pv1 pv2 pv3]
    simp
  · have hsd : store.data ≠ [] := by
      intro e
      apply hs
      apply String.ext
      rw [e]
    have hdrop : List.dropWhile (fun e => e == "") [store, name, version] =
        [store, name, version] := by
      have hb : (store == "") = false := beq_eq_false_iff_ne.mpr hs
      simp [List.dropWhile, hb]
    have habs : IsAbs ⟨store.data ++ '/' :: (name.data ++ '/' :: version.data)⟩ =
        IsAbs store := by
      unfold IsAbs
      cases h : store.data with
      | nil => exact absurd h hsd
      | cons x xs => simp
    unfold Join
    rw [hdrop]
    simp only [List.map, joinSlash]
    unfold Clean
    rw [habs]
    congr 1
    unfold cleanParts
    rw [habs]
    exact cleanParts_two store name.data version.data _ pn1 pn2 pn3 hn4 pv1 pv2 pv3 hv4

end Filepath

namespace Downloader

open Filepath Os

/-- The check of `withinDir` is at least as strict as nesting by path elements: a target
that passes it is `destDir` itself or nested under it. -/
theorem withinDir_nested (wd : Option String) (destDir target : String)
    (h : withinDir wd destDir target = true) : nestedOrEqual wd destDir target = true := by
  unfold withinDir at h
  unfold nestedOrEqual
  cases hd : Abs wd destDir with
  | none => rw [hd] at h; simp at h
  | some d =>
    cases ht : Abs wd target with
    | none => rw [hd, ht] at h; simp at h
    | some t =>
      rw [hd, ht] at h
      simp only [Bool.or_eq_true, beq_iff_eq] at h ⊢
      rw [List.isPrefixOf_iff_prefix]
      rcases h with hp | he
      · unfold HasPrefix at hp
        rw [List.isPrefixOf_iff_prefix] at hp
        obtain ⟨rest, hrest⟩ := hp
        have ht2 : t = ⟨d.data ++ '/' :: (String.mk rest).data⟩ := by
          apply String.ext
          rw [← hrest]
          simp [String.data_append]
        rw [ht2, segments_append]
        exact List.prefix_append _ _
      · rw [he]

end Downloader

/-! ## Mode bits -/

namespace Os

/-- A value in which bit `k` is not set has nothing in common with `2 ^ k`. -/
theorem and_two_pow_eq_zero {x k : Nat} (h : x.testBit k = false) : x &&& 2 ^ k = 0 := by
  apply Nat.eq_of_testBit_eq
  intro i
  rw [Nat.testBit_and, Nat.testBit_two_pow, Nat.zero_testBit]
  by_cases hk : k = i
  · subst hk; simp [h]
  · simp [hk]

/-- The operation `mode &^ mask` clears every bit of the mask (of the 32 bits of a mode). -/
theorem clearBits_testBit (mode mask k : Nat) (h32 : (2 ^ 32 - 1).testBit k = true)
    (hk : mask.testBit k = true) : (clearBits mode mask).testBit k = false := by
  unfold clearBits
  rw [Nat.testBit_and, Nat.testBit_xor, hk, h32]
  simp

/-- The operation `mode &^ mask` sets no bit. -/
theorem clearBits_testBit_of_false (mode mask k : Nat) (hk : mode.testBit k = false) :
    (clearBits mode mask).testBit k = false := by
  unfold clearBits
  rw [Nat.testBit_and, hk]
  simp

end Os

/-! ## The file system: walks -/

namespace Os

theorem walkFrom_nil (fs : FS) (b : Bool) (f : List String → List String → Except Errno (List String))
    (cur : List String) : walkFrom fs b f cur [] = .ok cur := by
  simp [walkFrom]

theorem walkFrom_cons (fs : FS) (b : Bool)
    (f : List String → List String → Except Errno (List String)) (cur : List String) (c : String)
    (rest : List String) :
    walkFrom fs b f cur (c :: rest) =
      if c = "." then walkFrom fs b f cur rest
      else if c = ".." then walkFrom fs b f cur.dropLast rest
      else
        match fs.find (cur ++ [c]) with
        | none => if rest = [] then .ok (cur ++ [c]) else .error .ENOENT
        | some (.dir _) => walkFrom fs b f (cur ++ [c]) rest
        | some (.file _ _) => if rest = [] then .ok (cur ++ [c]) else .error .ENOTDIR
        | some (.symlink t) =>
          if rest = [] ∧ b = false then .ok (cur ++ [c])
          else f (if Filepath.IsAbs t then [] else cur) (names t ++ rest) := by
  rw [walkFrom]

theorem walk_zero (fs : FS) (cur comps : List String) (b : Bool) :
    walk fs 0 cur comps b = walkFrom fs b (fun _ _ => .error .ELOOP) cur comps := by
  rw [walk]

theorem walk_succ (fs : FS) (fuel : Nat) (cur comps : List String) (b : Bool) :
    walk fs (fuel + 1) cur comps b = walkFrom fs b (fun c r => walk fs fuel c r b) cur comps := by
  rw [walk]

/-- A walk that ends at a file without following a link in the last element ends there
as well when such a link would be followed. -/
theorem walkFrom_follow_of_file (fs : FS)
    (f g : List String → List String → Except Errno (List String)) (loc : List String)
    (perm : Nat) (data : String) (hloc : fs.find loc = some (.file perm data))
    (hfg : ∀ c r, f c r = .ok loc → g c r = .ok loc) :
    ∀ (comps cur : List String), walkFrom fs false f cur comps = .ok loc →
      walkFrom fs true g cur comps = .ok loc := by
  intro comps
  induction comps with
  | nil => intro cur h; simpa [walkFrom_nil] using h
  | cons c rest ih =>
    intro cur h
    rw [walkFrom_cons] at h ⊢
    by_cases h1 : c = "."
    · rw [if_pos h1] at h ⊢; exact ih _ h
    · rw [if_neg h1] at h ⊢
      by_cases h2 : c = ".."
      · rw [if_pos h2] at h ⊢; exact ih _ h
      · rw [if_neg h2] at h ⊢
        cases hf : fs.find (cur ++ [c]) with
        | none => rw [hf] at h; exact h
        | some n =>
          rw [hf] at h
          cases n with
          | dir p => exact ih _ h
          | file p d => exact h
          | symlink t =>
            simp only at h ⊢
            by_cases hr : rest = []
            · simp only [hr, true_and, if_true] at h
              have hl : cur ++ [c] = loc := by
                injection h
              rw [hl, hloc] at hf
              cases hf
            · simp only [hr, false_and, if_false] at h ⊢
              exact hfg _ _ h

theorem walk_follow_of_file (fs : FS) (loc : List String) (perm : Nat) (data : String)
    (hloc : fs.find loc = some (.file perm data)) :
    ∀ (fuel : Nat) (cur comps : List String), walk fs fuel cur comps false = .ok loc →
      walk fs fuel cur comps true = .ok loc := by
  intro fuel
  induction fuel with
  | zero =>
    intro cur comps h
    rw [walk_zero] at h ⊢
    exact walkFrom_follow_of_file fs _ _ loc perm data hloc (fun _ _ x => x) comps cur h
  | succ n ih =>
    intro cur comps h
    rw [walk_succ] at h ⊢
    exact walkFrom_follow_of_file fs _ _ loc perm data hloc (fun c r x => ih c r x) comps cur h

/-- A path that designates a file designates it also when a link in its last element is
followed. -/
theorem resolve_follow_of_file (fs : FS) (path : String) (loc : List String) (perm : Nat)
    (data : String) (h : resolve fs path false = .ok loc)
    (hloc : fs.find loc = some (.file perm data)) : resolve fs path true = .ok loc := by
  unfold resolve at h ⊢
  by_cases hp : path = ""
  · rw [if_pos hp] at h; cases h
  · rw [if_neg hp] at h ⊢
    exact walk_follow_of_file fs loc perm data hloc _ _ _ h

/-- What `Lstat` shows as a file can be opened and read. -/
theorem open_of_lstat_file (fs : FS) (path : String) (perm : Nat) (data : String)
    (h : Lstat fs path = .ok (.file perm data)) : Open fs path = .ok (some data) := by
  unfold Lstat at h
  cases hr : resolve fs path false with
  | error e => rw [hr] at h; cases h
  | ok loc =>
    rw [hr] at h
    simp only at h
    cases hf : fs.find loc with
    | none => rw [hf] at h; cases h
    | some n =>
      rw [hf] at h
      have hn : n = .file perm data := by injection h
      subst hn
      unfold Open
      rw [resolve_follow_of_file fs path loc perm data hr hf]
      simp only [hf]

end Os

/-! ## The file system: objects by location -/

namespace Os

theorem lookup_filter_self (nodes : List (List String × Node)) (loc : List String) :
    (nodes.filter (fun e => e.1 ≠ loc)).lookup loc = none := by
  induction nodes with
  | nil => rfl
  | cons e es ih =>
    obtain ⟨k, v⟩ := e
    by_cases h : k = loc
    · rw [List.filter_cons_of_neg (by simpa using h)]
      exact ih
    · have hne : (loc == k) = false := beq_eq_false_iff_ne.mpr (fun x => h x.symm)
      rw [List.filter_cons_of_pos (by simpa using h), List.lookup_cons, hne]
      exact ih

theorem lookup_filter_ne (nodes : List (List String × Node)) (loc l : List String)
    (hl : l ≠ loc) : (nodes.filter (fun e => e.1 ≠ loc)).lookup l = nodes.lookup l := by
  induction nodes with
  | nil => rfl
  | cons e es ih =>
    obtain ⟨k, v⟩ := e
    by_cases h : k = loc
    · have hne : (l == k) = false := beq_eq_false_iff_ne.mpr (fun x => hl (x.trans h))
      rw [List.filter_cons_of_neg (by simpa using h), List.lookup_cons, hne]
      exact ih
    · rw [List.filter_cons_of_pos (by simpa using h), List.lookup_cons, List.lookup_cons, ih]

namespace FS

theorem find_nil (fs : FS) : fs.find [] = some (.dir 0o755) := by simp [find]

theorem find_erase_self (fs : FS) (loc : List String) (h : loc ≠ []) :
    (fs.erase loc).find loc = none := by
  simp only [find, erase, h, if_false]
  exact lookup_filter_self _ _

theorem find_erase_ne (fs : FS) (loc l : List String) (h : l ≠ loc) :
    (fs.erase loc).find l = fs.find l := by
  simp only [find, erase]
  by_cases hl : l = []
  · simp [hl]
  · simp only [hl, if_false]
    exact lookup_filter_ne _ _ _ h

theorem find_put_self (fs : FS) (loc : List String) (n : Node) (h : loc ≠ []) :
    (fs.put loc n).find loc = some n := by
  simp [find, put, h, List.lookup_cons]

theorem find_put_ne (fs : FS) (loc l : List String) (n : Node) (h : l ≠ loc) :
    (fs.put loc n).find l = fs.find l := by
  simp only [find, put]
  by_cases hl : l = []
  · simp [hl]
  · have hne : (l == loc) = false := beq_eq_false_iff_ne.mpr h
    simp only [hl, if_false, List.lookup_cons, hne]
    exact lookup_filter_ne _ _ _ h

theorem erase_cwd (fs : FS) (loc : List String) : (fs.erase loc).cwd = fs.cwd := rfl

theorem put_cwd (fs : FS) (loc : List String) (n : Node) : (fs.put loc n).cwd = fs.cwd := rfl

/-- Putting an object where one was erased is putting it there. -/
theorem put_erase (fs : FS) (loc : List String) (n : Node) :
    (fs.erase loc).put loc n = fs.put loc n := by
  simp [put, erase, List.filter_filter]

end FS

/-- An object that `Lstat` shows lies at a location other than the root when it is no
directory. -/
theorem ne_nil_of_find_file (fs : FS) (loc : List String) (perm : Nat) (data : String)
    (h : fs.find loc = some (.file perm data)) : loc ≠ [] := by
  intro e
  rw [e, FS.find_nil] at h
  cases h

end Os

/-! ## The installation of a formula -/

namespace Downloader

open Os

/-- A call of `Download` makes one request, for the URL it is given. -/
theorem Download_requests (get : String → Response) (tmpDir url filename : String) (w : World) :
    (∀ p w1, Download get tmpDir url filename w = .ok (p, w1) →
      w1.requests = w.requests ++ [url]) ∧
    (∀ e w1, Download get tmpDir url filename w = .error (e, w1) →
      w1.requests = w.requests ++ [url]) := by
  unfold Download
  cases get url with
  | failed =>
    constructor
    · intro p w1 h; cases h
    · intro e w1 h; simp only at h; injection h with h; injection h with _ h; rw [← h]
  | answer status body complete =>
    simp only
    split
    · constructor
      · intro p w1 h; cases h
      · intro e w1 h; injection h with h; injection h with _ h; rw [← h]
    · split
      · constructor
        · intro p w1 h; cases h
        · intro e w1 h; injection h with h; injection h with _ h; rw [← h]
      · split
        · constructor
          · intro p w1 h; cases h
          · intro e w1 h; injection h with h; injection h with _ h; rw [← h]
        · split
          · constructor
            · intro p w1 h; injection h with h; injection h with _ h; rw [← h]
            · intro e w1 h; cases h
          · constructor
            · intro p w1 h; cases h
            · intro e w1 h; injection h with h; injection h with _ h; rw [← h]

end Downloader

namespace Formula

/-- A URL that `GetURL` returns begins with `https://`. -/
theorem GetURL_secure (f : Formula) (platform u : String) (h : f.GetURL platform = .ok u) :
    Filepath.HasPrefix u "https://" = true := by
  unfold GetURL at h
  cases hl : f.URL.lookup platform with
  | none => rw [hl] at h; cases h
  | some v =>
    rw [hl] at h
    simp only at h
    split at h
    · cases h
    · injection h with h
      subst h
      simpa using ‹¬ Filepath.HasPrefix v "https://" = false›

end Formula

namespace Cmd

open Os Downloader

/-- The requests that `installFormula` makes: none, or one for the URL that `GetURL`
returned. -/
theorem installFormula_requests (env : Env) (f : Formula) (paths : Config.Paths) (w w2 : World)
    (h : installFormula env f paths w = .ok w2 ∨
      ∃ e, installFormula env f paths w = .error (e, w2)) :
    w2.requests = w.requests ∨
      ∃ u, f.GetURL env.platform = .ok u ∧ w2.requests = w.requests ++ [u] := by
  unfold installFormula at h
  cases hu : f.GetURL env.platform with
  | error e =>
    rw [hu] at h
    left
    rcases h with h | ⟨e2, h⟩
    · cases h
    · injection h with h; injection h with _ h; rw [← h]
  | ok dlURL =>
    rw [hu] at h
    simp only at h
    cases hs : f.GetSHA256 env.platform with
    | error e =>
      rw [hs] at h
      left
      rcases h with h | ⟨e2, h⟩
      · cases h
      · injection h with h; injection h with _ h; rw [← h]
    | ok sha =>
      rw [hs] at h
      simp only at h
      right
      refine ⟨dlURL, rfl, ?_⟩
      have hd := Download_requests env.get paths.Tmp dlURL
        (f.Name ++ "-" ++ f.Version ++ urlExt env dlURL) w
      cases hdl : Download env.get paths.Tmp dlURL
          (f.Name ++ "-" ++ f.Version ++ urlExt env dlURL) w with
      | error ew =>
        obtain ⟨e, w1⟩ := ew
        rw [hdl] at h
        have hr := hd.2 e w1 hdl
        rcases h with h | ⟨e2, h⟩
        · cases h
        · injection h with h; injection h with _ h; rw [← h]; exact hr
      | ok pw =>
        obtain ⟨localFile, w1⟩ := pw
        rw [hdl] at h
        have hr := hd.1 localFile w1 hdl
        simp only at h
        split at h
        · rcases h with h | ⟨e2, h⟩
          · cases h
          · injection h with h; injection h with _ h; rw [← h]; exact hr
        · split at h
          · rcases h with h | ⟨e2, h⟩
            · cases h
            · injection h with h; injection h with _ h; rw [← h]; exact hr
          · split at h
            · rcases h with h | ⟨e2, h⟩
              · cases h
              · injection h with h; injection h with _ h; rw [← h]; exact hr
            · split at h
              · rcases h with h | ⟨e2, h⟩
                · cases h
                · injection h with h; injection h with _ h; rw [← h]; exact hr
              · rcases h with h | ⟨e2, h⟩
                · injection h with h; rw [← h]; exact hr
                · cases h

end Cmd

/-! ## Paths of locations -/

namespace Filepath

theorem splitSlash_cons_slash (s : List Char) : splitSlash ('/' :: s) = [] :: splitSlash s := by
  simp [splitSlash]

/-- Splitting what was joined from parts without separator gives the parts. -/
theorem splitSlash_joinSlash (parts : List (List Char)) (hne : parts ≠ [])
    (h : ∀ p ∈ parts, '/' ∉ p) : splitSlash (joinSlash parts) = parts := by
  induction parts with
  | nil => exact absurd rfl hne
  | cons a rest ih =>
    cases rest with
    | nil => simpa [joinSlash] using splitSlash_of_not_mem a (h a (List.mem_cons_self _ _))
    | cons b rest2 =>
      rw [joinSlash, splitSlash_append, splitSlash_of_not_mem a (h a (List.mem_cons_self _ _)),
        ih (by simp) (fun p hp => h p (List.mem_cons_of_mem _ hp))]
      rfl

/-- Cleaning keeps proper elements as they are. -/
theorem foldl_cleanStep_proper (rooted : Bool) (parts stack : List (List Char))
    (h : ∀ p ∈ parts, p ≠ [] ∧ p ≠ ['.'] ∧ p ≠ ['.', '.']) :
    parts.foldl (cleanStep rooted) stack = stack ++ parts := by
  induction parts generalizing stack with
  | nil => simp
  | cons p rest ih =>
    obtain ⟨h1, h2, h3⟩ := h p (List.mem_cons_self _ _)
    rw [List.foldl_cons, cleanStep_real _ _ _ h1 h2 h3,
      ih _ (fun q hq => h q (List.mem_cons_of_mem _ hq))]
    simp

theorem cleanStep_nil (rooted : Bool) (stack : List (List Char)) :
    cleanStep rooted stack [] = stack := by
  simp [cleanStep]

end Filepath

namespace Os

open Filepath

theorem Proper.data_ne {n : String} (h : Proper n) :
    n.data ≠ [] ∧ n.data ≠ ['.'] ∧ n.data ≠ ['.', '.'] := by
  obtain ⟨h1, _, h3, h4⟩ := h
  refine ⟨h1, ?_, ?_⟩
  · intro e; exact h3 (String.ext e)
  · intro e; exact h4 (String.ext e)

theorem data_proper (L : List String) (h : ∀ n ∈ L, Proper n) :
    ∀ p ∈ L.map String.data, p ≠ [] ∧ p ≠ ['.'] ∧ p ≠ ['.', '.'] := by
  intro p hp
  obtain ⟨n, hn, rfl⟩ := List.mem_map.mp hp
  exact (h n hn).data_ne

theorem data_no_slash (L : List String) (h : ∀ n ∈ L, Proper n) :
    ∀ p ∈ L.map String.data, '/' ∉ p := by
  intro p hp
  obtain ⟨n, hn, rfl⟩ := List.mem_map.mp hp
  exact (h n hn).2.1

/-- The parts of the path of a location. -/
theorem splitSlash_pathOf (L : List String) (h : ∀ n ∈ L, Proper n) :
    (splitSlash (FS.pathOf L).data).filter (fun s => s ≠ []) = L.map String.data := by
  unfold FS.pathOf
  simp only
  rw [splitSlash_cons_slash]
  by_cases hL : L = []
  · subst hL
    decide
  · have hne : L.map String.data ≠ [] := by simpa using hL
    rw [splitSlash_joinSlash _ hne (data_no_slash L h)]
    rw [List.filter_cons_of_neg (by simp)]
    apply List.filter_eq_self.mpr
    intro p hp
    simpa using (data_proper L h p hp).1

/-- The elements of the path of a location are the names of the location. -/
theorem names_pathOf (L : List String) (h : ∀ n ∈ L, Proper n) : names (FS.pathOf L) = L := by
  unfold names segments
  rw [splitSlash_pathOf L h, List.map_map]
  have : (String.mk ∘ String.data) = id := by
    funext s
    rfl
  rw [this, List.map_id]

theorem pathOf_ne_empty (L : List String) : FS.pathOf L ≠ "" := by
  intro h
  have := congrArg String.data h
  simp [FS.pathOf] at this

theorem isAbs_pathOf (L : List String) : IsAbs (FS.pathOf L) = true := by
  simp [IsAbs, FS.pathOf]

theorem pathOf_eq_ofParts (L : List String) : FS.pathOf L = ofParts true (L.map String.data) := by
  simp [FS.pathOf, ofParts]

/-- The cleaned parts of the path of a location followed by further proper names. -/
theorem cleanParts_pathOf_append (L M : List String) (hL : ∀ n ∈ L, Proper n)
    (hM : ∀ n ∈ M, Proper n) (hne : M ≠ []) :
    (splitSlash ((FS.pathOf L).data ++ '/' :: joinSlash (M.map String.data))).foldl
      (cleanStep true) [] = (L ++ M).map String.data := by
  have hMne : M.map String.data ≠ [] := by simpa using hne
  rw [splitSlash_append, splitSlash_joinSlash _ hMne (data_no_slash M hM), List.foldl_append]
  have h1 : (splitSlash (FS.pathOf L).data).foldl (cleanStep true) [] = L.map String.data := by
    unfold FS.pathOf
    simp only
    rw [splitSlash_cons_slash, List.foldl_cons, cleanStep_nil]
    by_cases hL0 : L = []
    · subst hL0
      decide
    · have hne2 : L.map String.data ≠ [] := by simpa using hL0
      rw [splitSlash_joinSlash _ hne2 (data_no_slash L hL),
        foldl_cleanStep_proper _ _ _ (data_proper L hL)]
      simp
  rw [h1, foldl_cleanStep_proper _ _ _ (data_proper M hM)]
  simp

/-- Joining a proper name to the path of a location gives the path of the location of
the entry. -/
theorem Join_pathOf (L : List String) (e : String) (hL : ∀ n ∈ L, Proper n) (he : Proper e) :
    Join [FS.pathOf L, e] = FS.pathOf (L ++ [e]) := by
  have hb : (FS.pathOf L == "") = false := beq_eq_false_iff_ne.mpr (pathOf_ne_empty L)
  have hdrop : List.dropWhile (fun x => x == "") [FS.pathOf L, e] = [FS.pathOf L, e] := by
    simp [List.dropWhile, hb]
  have habs : IsAbs ⟨(FS.pathOf L).data ++ '/' :: e.data⟩ = true := by
    simp [IsAbs, FS.pathOf]
  unfold Join
  rw [hdrop]
  simp only [List.map, joinSlash]
  unfold Clean cleanParts
  rw [habs, pathOf_eq_ofParts (L ++ [e])]
  congr 1
  have := cleanParts_pathOf_append L [e] hL (by simpa using he) (by simp)
  simpa [joinSlash] using this

/-- The path of a location is clean. -/
theorem Clean_pathOf (L : List String) (hL : ∀ n ∈ L, Proper n) :
    Clean (FS.pathOf L) = FS.pathOf L := by
  unfold Clean cleanParts
  rw [isAbs_pathOf, pathOf_eq_ofParts L]
  congr 1
  rw [← pathOf_eq_ofParts L]
  unfold FS.pathOf
  simp only
  rw [splitSlash_cons_slash, List.foldl_cons, cleanStep_nil]
  by_cases hL0 : L = []
  · subst hL0
    decide
  · have hne2 : L.map String.data ≠ [] := by simpa using hL0
    rw [splitSlash_joinSlash _ hne2 (data_no_slash L hL),
      foldl_cleanStep_proper _ _ _ (data_proper L hL)]
    simp

end Os

/-! ## The file system: operations in plain directories -/

namespace Os

open Filepath

theorem isDirAt_iff (fs : FS) (loc : List String) :
    fs.isDirAt loc = true ↔ ∃ perm, fs.find loc = some (.dir perm) := by
  unfold FS.isDirAt
  cases h : fs.find loc with
  | none => simp
  | some n => cases n <;> simp

theorem FS.PlainDir.isDirAt {fs : FS} {D : List String} (h : fs.PlainDir D) : fs.isDirAt D = true :=
  h D ((List.mem_inits _ _).mpr (List.prefix_refl D))

theorem FS.PlainDir.ofInit {fs : FS} {D P : List String} (h : fs.PlainDir D) (hp : P <+: D) :
    fs.PlainDir P := by
  intro q hq
  exact h q ((List.mem_inits _ _).mpr (((List.mem_inits _ _).mp hq).trans hp))

theorem FS.PlainDir.nil (fs : FS) : fs.PlainDir [] := by
  intro p hp
  simp at hp
  subst hp
  simp [FS.isDirAt, FS.find]

/-- A directory inside a plain directory is a plain directory. -/
theorem FS.PlainDir.child {fs : FS} {D : List String} (h : fs.PlainDir D) (e : String)
    (he : fs.isDirAt (D ++ [e]) = true) : fs.PlainDir (D ++ [e]) := by
  intro p hp
  rw [List.mem_inits] at hp
  rcases List.prefix_concat_iff.mp hp with h1 | h1
  · rw [h1]; exact he
  · exact h p ((List.mem_inits _ _).mpr h1)

/-- A walk goes through directories element by element. -/
theorem walkFrom_plain (fs : FS) (b : Bool)
    (f : List String → List String → Except Errno (List String)) :
    ∀ (comps cur rest : List String), (∀ n ∈ comps, Proper n) →
      (∀ p, p <+: comps → fs.isDirAt (cur ++ p) = true) →
      walkFrom fs b f cur (comps ++ rest) = walkFrom fs b f (cur ++ comps) rest := by
  intro comps
  induction comps with
  | nil => intro cur rest _ _; simp
  | cons c cs ih =>
    intro cur rest hp hd
    have hc := hp c (List.mem_cons_self _ _)
    have h1 : c ≠ "." := hc.2.2.1
    have h2 : c ≠ ".." := hc.2.2.2
    have hdir := hd [c] (by simp [List.prefix_cons_iff])
    obtain ⟨perm, hfind⟩ := (isDirAt_iff fs _).mp hdir
    rw [List.cons_append, walkFrom_cons, if_neg h1, if_neg h2, hfind]
    simp only
    rw [ih (cur ++ [c]) rest (fun n hn => hp n (List.mem_cons_of_mem _ hn))]
    · simp
    · intro p hpp
      have := hd (c :: p) (by simpa [List.prefix_cons_iff] using hpp)
      simpa using this

/-- The walk to an entry of a plain directory: what is found there decides. -/
theorem walk_child (fs : FS) (fuel : Nat) (D : List String) (e : String) (b : Bool)
    (hD : fs.PlainDir D) (hp : ∀ n ∈ D, Proper n) (he : Proper e) :
    walk fs (fuel + 1) [] (D ++ [e]) b =
      match fs.find (D ++ [e]) with
      | some (.symlink t) =>
        if b = false then .ok (D ++ [e])
        else walk fs fuel (if IsAbs t then [] else D) (names t) b
      | _ => .ok (D ++ [e]) := by
  rw [walk_succ, walkFrom_plain fs b _ D [] [e] hp
    (fun p hpp => by simpa using hD p ((List.mem_inits _ _).mpr hpp))]
  rw [List.nil_append, walkFrom_cons, if_neg he.2.2.1, if_neg he.2.2.2]
  cases h : fs.find (D ++ [e]) with
  | none => simp
  | some n =>
    cases n with
    | dir p => simp [walkFrom_nil]
    | file p d => simp
    | symlink t => simp

theorem walk_plain (fs : FS) (fuel : Nat) (D : List String) (b : Bool) (hD : fs.PlainDir D)
    (hp : ∀ n ∈ D, Proper n) : walk fs fuel [] D b = .ok D := by
  have key : ∀ f, walkFrom fs b f [] D = .ok D := by
    intro f
    have := walkFrom_plain fs b f D [] [] hp
      (fun p hpp => by simpa using hD p ((List.mem_inits _ _).mpr hpp))
    rw [List.append_nil] at this
    rw [this, walkFrom_nil, List.nil_append]
  cases fuel with
  | zero => rw [walk_zero]; exact key _
  | succ n => rw [walk_succ]; exact key _

/-- The path of a plain directory designates it. -/
theorem resolve_plain (fs : FS) (D : List String) (b : Bool) (hD : fs.PlainDir D)
    (hp : ∀ n ∈ D, Proper n) : resolve fs (FS.pathOf D) b = .ok D := by
  unfold resolve
  rw [if_neg (pathOf_ne_empty D), isAbs_pathOf, names_pathOf D hp, if_pos rfl]
  exact walk_plain fs _ D b hD hp

theorem proper_append {D : List String} {e : String} (hp : ∀ n ∈ D, Proper n) (he : Proper e) :
    ∀ n ∈ D ++ [e], Proper n := by
  intro n hn
  rw [List.mem_append, List.mem_singleton] at hn
  rcases hn with h | h
  · exact hp n h
  · rw [h]; exact he

/-- The path of an entry of a plain directory designates the entry itself when a link
there is not followed. -/
theorem resolve_child (fs : FS) (D : List String) (e : String) (hD : fs.PlainDir D)
    (hp : ∀ n ∈ D, Proper n) (he : Proper e) :
    resolve fs (FS.pathOf (D ++ [e])) false = .ok (D ++ [e]) := by
  unfold resolve
  rw [if_neg (pathOf_ne_empty _), isAbs_pathOf, names_pathOf _ (proper_append hp he), if_pos rfl]
  have := walk_child fs 255 D e false hD hp he
  rw [show walkFuel = 255 + 1 from rfl, this]
  cases fs.find (D ++ [e]) with
  | none => rfl
  | some n => cases n <;> rfl

/-- The path of an entry of a plain directory designates the entry when no link lies
there. -/
theorem resolve_child_follow (fs : FS) (D : List String) (e : String) (hD : fs.PlainDir D)
    (hp : ∀ n ∈ D, Proper n) (he : Proper e)
    (hn : ∀ t, fs.find (D ++ [e]) ≠ some (.symlink t)) :
    resolve fs (FS.pathOf (D ++ [e])) true = .ok (D ++ [e]) := by
  unfold resolve
  rw [if_neg (pathOf_ne_empty _), isAbs_pathOf, names_pathOf _ (proper_append hp he), if_pos rfl]
  have := walk_child fs 255 D e true hD hp he
  rw [show walkFuel = 255 + 1 from rfl, this]
  cases h : fs.find (D ++ [e]) with
  | none => rfl
  | some n =>
    cases n with
    | dir p => rfl
    | file p d => rfl
    | symlink t => exact absurd h (hn t)

theorem Lstat_child (fs : FS) (D : List String) (e : String) (n : Node) (hD : fs.PlainDir D)
    (hp : ∀ n ∈ D, Proper n) (he : Proper e) (h : fs.find (D ++ [e]) = some n) :
    Lstat fs (FS.pathOf (D ++ [e])) = .ok n := by
  unfold Lstat
  simp only [resolve_child fs D e hD hp he, h]

theorem Lstat_child_none (fs : FS) (D : List String) (e : String) (hD : fs.PlainDir D)
    (hp : ∀ n ∈ D, Proper n) (he : Proper e) (h : fs.find (D ++ [e]) = none) :
    Lstat fs (FS.pathOf (D ++ [e])) = .error .ENOENT := by
  unfold Lstat
  simp only [resolve_child fs D e hD hp he, h]

theorem Readlink_child (fs : FS) (D : List String) (e t : String) (hD : fs.PlainDir D)
    (hp : ∀ n ∈ D, Proper n) (he : Proper e) (h : fs.find (D ++ [e]) = some (.symlink t)) :
    Readlink fs (FS.pathOf (D ++ [e])) = .ok t := by
  unfold Readlink
  simp only [resolve_child fs D e hD hp he, h]

/-- Where no link lies, `Readlink` fails. -/
theorem Readlink_child_error (fs : FS) (D : List String) (e : String) (hD : fs.PlainDir D)
    (hp : ∀ n ∈ D, Proper n) (he : Proper e) (h : ∀ t, fs.find (D ++ [e]) ≠ some (.symlink t)) :
    ∃ err, Readlink fs (FS.pathOf (D ++ [e])) = .error err := by
  unfold Readlink
  simp only [resolve_child fs D e hD hp he]
  cases hf : fs.find (D ++ [e]) with
  | none => exact ⟨_, rfl⟩
  | some n =>
    cases n with
    | dir p => exact ⟨_, rfl⟩
    | file p d => exact ⟨_, rfl⟩
    | symlink t => exact absurd hf (h t)

/-- A file or a link in a plain directory is removed by `Remove`. -/
theorem Remove_child (fs : FS) (D : List String) (e : String) (n : Node) (hD : fs.PlainDir D)
    (hp : ∀ n ∈ D, Proper n) (he : Proper e) (h : fs.find (D ++ [e]) = some n)
    (hn : n.IsDir = false) : Remove fs (FS.pathOf (D ++ [e])) = .ok (fs.erase (D ++ [e])) := by
  unfold Remove
  simp only [resolve_child fs D e hD hp he, h]
  cases n with
  | dir p => cases hn
  | file p d => rfl
  | symlink t => rfl

/-- A directory in a plain directory is removed by `Remove` when it is empty. -/
theorem Remove_child_dir (fs : FS) (D : List String) (e : String) (perm : Nat)
    (hD : fs.PlainDir D) (hp : ∀ n ∈ D, Proper n) (he : Proper e)
    (h : fs.find (D ++ [e]) = some (.dir perm)) :
    Remove fs (FS.pathOf (D ++ [e])) =
      if fs.hasChildren (D ++ [e]) then .error .ENOTEMPTY else .ok (fs.erase (D ++ [e])) := by
  unfold Remove
  simp only [resolve_child fs D e hD hp he, h]
  rw [if_neg (by simp)]
  rfl

theorem Remove_child_none (fs : FS) (D : List String) (e : String) (hD : fs.PlainDir D)
    (hp : ∀ n ∈ D, Proper n) (he : Proper e) (h : fs.find (D ++ [e]) = none) :
    Remove fs (FS.pathOf (D ++ [e])) = .error .ENOENT := by
  unfold Remove
  simp only [resolve_child fs D e hD hp he, h]

theorem Symlink_child (fs : FS) (D : List String) (e target : String) (hD : fs.PlainDir D)
    (hp : ∀ n ∈ D, Proper n) (he : Proper e) (h : fs.find (D ++ [e]) = none) :
    Symlink fs target (FS.pathOf (D ++ [e])) = .ok (fs.put (D ++ [e]) (.symlink target)) := by
  unfold Symlink
  simp only [resolve_child fs D e hD hp he, h]

theorem Symlink_child_exists (fs : FS) (D : List String) (e target : String) (n : Node)
    (hD : fs.PlainDir D) (hp : ∀ n ∈ D, Proper n) (he : Proper e)
    (h : fs.find (D ++ [e]) = some n) :
    Symlink fs target (FS.pathOf (D ++ [e])) = .error .EEXIST := by
  unfold Symlink
  simp only [resolve_child fs D e hD hp he, h]

/-- The path of a plain directory evaluates to itself. -/
theorem EvalSymlinks_plain (fs : FS) (D : List String) (hD : fs.PlainDir D)
    (hp : ∀ n ∈ D, Proper n) : EvalSymlinks fs (FS.pathOf D) = .ok (FS.pathOf D) := by
  unfold EvalSymlinks
  obtain ⟨perm, h⟩ := (isDirAt_iff fs D).mp hD.isDirAt
  simp only [resolve_plain fs D true hD hp, h]

end Os

/-! ## The file system: changes elsewhere -/

namespace Os

open Filepath

theorem isDirAt_put_ne (fs : FS) (loc l : List String) (n : Node) (h : l ≠ loc) :
    (fs.put loc n).isDirAt l = fs.isDirAt l := by
  unfold FS.isDirAt
  rw [FS.find_put_ne fs loc l n h]

theorem isDirAt_erase_ne (fs : FS) (loc l : List String) (h : l ≠ loc) :
    (fs.erase loc).isDirAt l = fs.isDirAt l := by
  unfold FS.isDirAt
  rw [FS.find_erase_ne fs loc l h]

/-- A plain directory stays one when an object is put at a location that is not on the
way to it. -/
theorem FS.PlainDir.put {fs : FS} {D : List String} (h : fs.PlainDir D) (loc : List String)
    (n : Node) (hn : ¬ loc <+: D) : (fs.put loc n).PlainDir D := by
  intro p hp
  have hne : p ≠ loc := fun e => hn (e ▸ (List.mem_inits _ _).mp hp)
  rw [isDirAt_put_ne fs loc p n hne]
  exact h p hp

/-- A plain directory stays one when an object is removed at a location that is not on
the way to it. -/
theorem FS.PlainDir.erase {fs : FS} {D : List String} (h : fs.PlainDir D) (loc : List String)
    (hn : ¬ loc <+: D) : (fs.erase loc).PlainDir D := by
  intro p hp
  have hne : p ≠ loc := fun e => hn (e ▸ (List.mem_inits _ _).mp hp)
  rw [isDirAt_erase_ne fs loc p hne]
  exact h p hp

/-- An entry of a directory is not on the way to the directory. -/
theorem not_prefix_child (D : List String) (e : String) : ¬ (D ++ [e]) <+: D := by
  intro h
  have := h.length_le
  simp at this

/-- Two entries with different names of the same directory: neither is on the way to the
other, whatever follows. -/
theorem not_prefix_of_ne (R : List String) (a b : String) (xs ys : List String) (h : a ≠ b) :
    ¬ (R ++ a :: xs) <+: (R ++ b :: ys) := by
  intro hp
  rw [List.prefix_append_right_inj] at hp
  rw [List.cons_prefix_cons] at hp
  exact h hp.1

theorem childName_eq_some (loc : List String) (e : List String × Node) (n : String) :
    childName loc e = some n ↔ e.1 = loc ++ [n] := by
  unfold childName
  constructor
  · intro h
    split at h
    · rename_i hd
      have := List.dropLast_append_getLast? n (by simpa using h)
      rw [hd] at this
      exact this.symm
    · cases h
  · intro h
    rw [h]
    simp

theorem childName_of_parent_ne (loc l : List String) (n : Node) (h : l.dropLast ≠ loc) :
    childName loc (l, n) = none := by
  unfold childName
  rw [if_neg h]

/-- The names listed in a directory are those of the objects stored directly inside it. -/
theorem mem_children (fs : FS) (loc : List String) (n : String) :
    n ∈ fs.children loc ↔ ∃ x, (loc ++ [n], x) ∈ fs.nodes := by
  unfold FS.children sortStrings
  rw [(List.perm_insertionSort _ _).mem_iff, List.mem_dedup, List.mem_filterMap]
  constructor
  · rintro ⟨e, he, hc⟩
    rw [childName_eq_some] at hc
    exact ⟨e.2, by rw [← hc]; exact he⟩
  · rintro ⟨x, hx⟩
    exact ⟨(loc ++ [n], x), hx, (childName_eq_some _ _ _).mpr rfl⟩

theorem lookup_isSome_of_mem (nodes : List (List String × Node)) (l : List String) (x : Node)
    (h : (l, x) ∈ nodes) : (nodes.lookup l).isSome = true := by
  induction nodes with
  | nil => cases h
  | cons e es ih =>
    obtain ⟨k, v⟩ := e
    rw [List.lookup_cons]
    by_cases hk : l = k
    · simp [hk]
    · have hne : (l == k) = false := beq_eq_false_iff_ne.mpr hk
      rw [hne]
      rcases List.mem_cons.mp h with h1 | h1
      · exact absurd (congrArg Prod.fst h1) hk
      · exact ih h1

theorem mem_of_lookup_eq_some (nodes : List (List String × Node)) (l : List String) (x : Node)
    (h : nodes.lookup l = some x) : (l, x) ∈ nodes := by
  induction nodes with
  | nil => cases h
  | cons e es ih =>
    obtain ⟨k, v⟩ := e
    rw [List.lookup_cons] at h
    by_cases hk : l = k
    · simp only [hk, beq_self_eq_true] at h
      injection h with h
      rw [hk, h]
      exact List.mem_cons_self _ _
    · have hne : (l == k) = false := beq_eq_false_iff_ne.mpr hk
      rw [hne] at h
      exact List.mem_cons_of_mem _ (ih h)

/-- A name is listed in a directory exactly when an object is found under it. -/
theorem mem_children_iff_find (fs : FS) (loc : List String) (n : String) :
    n ∈ fs.children loc ↔ (fs.find (loc ++ [n])).isSome = true := by
  rw [mem_children]
  have hne : loc ++ [n] ≠ [] := by simp
  constructor
  · rintro ⟨x, hx⟩
    unfold FS.find
    rw [if_neg hne]
    exact lookup_isSome_of_mem _ _ _ hx
  · intro h
    unfold FS.find at h
    rw [if_neg hne] at h
    obtain ⟨x, hx⟩ := Option.isSome_iff_exists.mp h
    exact ⟨x, mem_of_lookup_eq_some _ _ _ hx⟩

theorem children_sorted (fs : FS) (loc : List String) : (fs.children loc).Sorted nameLe :=
  List.sorted_insertionSort _ _

theorem children_nodup (fs : FS) (loc : List String) : (fs.children loc).Nodup := by
  unfold FS.children sortStrings
  exact (List.perm_insertionSort _ _).nodup_iff.mpr (List.nodup_dedup _)

/-- Two file systems in which the same names are found in a directory list the same names
there. -/
theorem children_congr (fs1 fs2 : FS) (loc : List String)
    (h : ∀ n, (fs1.find (loc ++ [n])).isSome = (fs2.find (loc ++ [n])).isSome) :
    fs1.children loc = fs2.children loc := by
  apply List.eq_of_perm_of_sorted _ (children_sorted fs1 loc) (children_sorted fs2 loc)
  rw [List.perm_ext_iff_of_nodup (children_nodup fs1 loc) (children_nodup fs2 loc)]
  intro n
  rw [mem_children_iff_find, mem_children_iff_find, h]

end Os

namespace Os

open Filepath

theorem map_fst_filterMap_find (fs : FS) (loc : List String) (l : List String)
    (h : ∀ n ∈ l, (fs.find (loc ++ [n])).isSome = true) :
    (l.filterMap (fun n => (fs.find (loc ++ [n])).map (fun nd => (n, nd)))).map Prod.fst = l := by
  induction l with
  | nil => rfl
  | cons a rest ih =>
    obtain ⟨x, hx⟩ := Option.isSome_iff_exists.mp (h a (List.mem_cons_self _ _))
    rw [List.filterMap_cons, hx]
    simp only [Option.map_some', List.map_cons]
    rw [ih (fun n hn => h n (List.mem_cons_of_mem _ hn))]

/-- Reading a plain directory gives its entries, by name. -/
theorem ReadDir_plain (fs : FS) (S : List String) (hS : fs.PlainDir S)
    (hp : ∀ n ∈ S, Proper n) :
    ∃ entries, ReadDir fs (FS.pathOf S) = .ok entries ∧
      entries.map (fun e => e.1) = fs.children S := by
  obtain ⟨perm, h⟩ := (isDirAt_iff fs S).mp hS.isDirAt
  refine ⟨_, ?_, map_fst_filterMap_find fs S (fs.children S)
    (fun n hn => (mem_children_iff_find fs S n).mp hn)⟩
  unfold ReadDir
  simp only [resolve_plain fs S true hS hp, h]

/-- Reading a directory that does not exist inside a plain directory fails with
`ENOENT`. -/
theorem ReadDir_absent (fs : FS) (K : List String) (sub : String) (hK : fs.PlainDir K)
    (hp : ∀ n ∈ K, Proper n) (hs : Proper sub) (h : fs.find (K ++ [sub]) = none) :
    ReadDir fs (FS.pathOf (K ++ [sub])) = .error .ENOENT := by
  unfold ReadDir
  have hr := resolve_child_follow fs K sub hK hp hs (by rw [h]; intro t ht; cases ht)
  simp only [hr, h]

/-- Reading a file inside a plain directory as a directory fails with `ENOTDIR`. -/
theorem ReadDir_file (fs : FS) (K : List String) (sub : String) (perm : Nat) (data : String)
    (hK : fs.PlainDir K) (hp : ∀ n ∈ K, Proper n) (hs : Proper sub)
    (h : fs.find (K ++ [sub]) = some (.file perm data)) :
    ReadDir fs (FS.pathOf (K ++ [sub])) = .error .ENOTDIR := by
  unfold ReadDir
  have hr := resolve_child_follow fs K sub hK hp hs (by rw [h]; intro t ht; cases ht)
  simp only [hr, h]

/-! ## Sequences of objects put into the file system -/

namespace FS

theorem ext_nodes {fs1 fs2 : FS} (h1 : fs1.nodes = fs2.nodes) (h2 : fs1.cwd = fs2.cwd) :
    fs1 = fs2 := by
  cases fs1
  cases fs2
  simp only at h1 h2
  rw [h1, h2]

theorem putAll_nil (fs : FS) : fs.putAll [] = fs := rfl

theorem putAll_cons (fs : FS) (p : List String × Node) (ps : List (List String × Node)) :
    fs.putAll (p :: ps) = (fs.put p.1 p.2).putAll ps := rfl

theorem putAll_append (fs : FS) (ps qs : List (List String × Node)) :
    fs.putAll (ps ++ qs) = (fs.putAll ps).putAll qs := by
  unfold putAll
  rw [List.foldl_append]

theorem putAll_cwd (fs : FS) (ps : List (List String × Node)) : (fs.putAll ps).cwd = fs.cwd := by
  induction ps generalizing fs with
  | nil => rfl
  | cons p ps ih => rw [putAll_cons, ih]; rfl

/-- Objects put elsewhere do not change what is found at a location. -/
theorem find_putAll_of_not_mem (fs : FS) (ps : List (List String × Node)) (l : List String)
    (h : ∀ p ∈ ps, p.1 ≠ l) : (fs.putAll ps).find l = fs.find l := by
  induction ps generalizing fs with
  | nil => rfl
  | cons p ps ih =>
    rw [putAll_cons, ih _ (fun q hq => h q (List.mem_cons_of_mem _ hq)),
      find_put_ne _ _ _ _ (fun e => h p (List.mem_cons_self _ _) e.symm)]

/-- An object put at a location at which nothing is put later is found there. -/
theorem find_putAll_of_mem (fs : FS) (ps : List (List String × Node)) (l : List String)
    (n : Node) (hl : l ≠ []) (hm : (l, n) ∈ ps) (hnd : (ps.map Prod.fst).Nodup) :
    (fs.putAll ps).find l = some n := by
  induction ps generalizing fs with
  | nil => cases hm
  | cons p ps ih =>
    rw [List.map_cons, List.nodup_cons] at hnd
    rw [putAll_cons]
    rcases List.mem_cons.mp hm with h1 | h1
    · rw [find_putAll_of_not_mem, ← h1]
      · exact find_put_self _ _ _ hl
      · intro q hq e
        apply hnd.1
        rw [← h1]
        simp only
        rw [← e]
        exact List.mem_map_of_mem _ hq
    · exact ih _ h1 hnd.2

/-- The objects stored after a sequence of objects was put at different locations. -/
theorem putAll_nodes (fs : FS) (ps : List (List String × Node))
    (hnd : (ps.map Prod.fst).Nodup) :
    (fs.putAll ps).nodes =
      ps.reverse ++ fs.nodes.filter (fun e => decide (e.1 ∉ ps.map Prod.fst)) := by
  induction ps generalizing fs with
  | nil => simp [putAll_nil]
  | cons p ps ih =>
    rw [List.map_cons, List.nodup_cons] at hnd
    rw [putAll_cons, ih _ hnd.2]
    have hp : decide (p.1 ∉ ps.map Prod.fst) = true := by simpa using hnd.1
    simp only [put, List.reverse_cons, List.append_assoc, List.singleton_append]
    rw [List.filter_cons_of_pos (by simpa using hnd.1), List.filter_filter]
    congr 2
    apply List.filter_congr
    intro e _
    simp only [List.map_cons, List.mem_cons, not_or, ne_eq, Bool.decide_and, Bool.and_comm]

/-- Putting the same objects at different locations a second time changes nothing. -/
theorem putAll_idem (fs : FS) (ps : List (List String × Node))
    (hnd : (ps.map Prod.fst).Nodup) : (fs.putAll ps).putAll ps = fs.putAll ps := by
  apply ext_nodes
  · rw [putAll_nodes _ ps hnd, putAll_nodes fs ps hnd, List.filter_append, List.filter_filter]
    have h1 : ps.reverse.filter (fun e => decide (e.1 ∉ ps.map Prod.fst)) = [] := by
      rw [List.filter_eq_nil_iff]
      intro e he
      have : e.1 ∈ ps.map Prod.fst := List.mem_map_of_mem _ (List.mem_reverse.mp he)
      simpa using this
    rw [h1, List.nil_append]
    congr 1
    apply List.filter_congr
    intro e _
    simp
  · rw [putAll_cwd, putAll_cwd]

/-- A plain directory stays one when objects are put at locations that are not on the
way to it. -/
theorem PlainDir.putAll {fs : FS} {D : List String} (h : fs.PlainDir D)
    (ps : List (List String × Node)) (hn : ∀ p ∈ ps, ¬ p.1 <+: D) : (fs.putAll ps).PlainDir D := by
  induction ps generalizing fs with
  | nil => exact h
  | cons p ps ih =>
    rw [putAll_cons]
    exact ih (h.put p.1 p.2 (hn p (List.mem_cons_self _ _)))
      (fun q hq => hn q (List.mem_cons_of_mem _ hq))

end FS

end Os

/-! ## Paths of the linker -/

namespace Os

open Filepath

/-- A string that begins with a character other than a dot and contains no separator is a
proper name. -/
theorem proper_of_shape {n : String} (h : ∃ c cs, n.data = c :: cs ∧ c ≠ '/' ∧ c ≠ '.' ∧
    '/' ∉ n.data) : Proper n := by
  obtain ⟨c, cs, hd, _, h2, h3⟩ := h
  refine ⟨by rw [hd]; simp, h3, ?_, ?_⟩
  · intro e
    rw [e] at hd
    have : ('.' : Char) = c := by
      have := congrArg List.head? hd
      simpa using this
    exact h2 this.symm
  · intro e
    rw [e] at hd
    have : ('.' : Char) = c := by
      have := congrArg List.head? hd
      simpa using this
    exact h2 this.symm

theorem proper_of_validName {name : String} (h : Validation.IsValidName name = true) :
    Proper name := proper_of_shape (Validation.isValidName_shape h)

theorem proper_of_validVersion {version : String}
    (h : Validation.IsValidVersion version = true) : Proper version :=
  proper_of_shape (Validation.isValidVersion_shape h)

/-- Joining two proper names to the path of a location. -/
theorem Join3_pathOf (L : List String) (a b : String) (hL : ∀ n ∈ L, Proper n) (ha : Proper a)
    (hb : Proper b) : Join [FS.pathOf L, a, b] = FS.pathOf (L ++ [a, b]) := by
  have hbq : (FS.pathOf L == "") = false := beq_eq_false_iff_ne.mpr (pathOf_ne_empty L)
  have hdrop : List.dropWhile (fun x => x == "") [FS.pathOf L, a, b] = [FS.pathOf L, a, b] := by
    simp [List.dropWhile, hbq]
  have habs : IsAbs ⟨(FS.pathOf L).data ++ '/' :: (a.data ++ '/' :: b.data)⟩ = true := by
    simp [IsAbs, FS.pathOf]
  unfold Join
  rw [hdrop]
  simp only [List.map, joinSlash]
  unfold Clean cleanParts
  rw [habs, pathOf_eq_ofParts (L ++ [a, b])]
  congr 1
  have hM : ∀ n ∈ [a, b], Proper n := by
    intro n hn
    simp only [List.mem_cons, List.mem_singleton, List.not_mem_nil, or_false] at hn
    rcases hn with h | h
    · rw [h]; exact ha
    · rw [h]; exact hb
  have := cleanParts_pathOf_append L [a, b] hL hM (by simp)
  simpa [joinSlash] using this

theorem joinSlash_append (Ld Md : List (List Char)) (hL : Ld ≠ []) (hM : Md ≠ []) :
    joinSlash (Ld ++ Md) = joinSlash Ld ++ '/' :: joinSlash Md := by
  induction Ld with
  | nil => exact absurd rfl hL
  | cons a rest ih =>
    cases rest with
    | nil =>
      cases Md with
      | nil => exact absurd rfl hM
      | cons m ms => simp [joinSlash]
    | cons b rest2 =>
      have h1 : joinSlash (b :: rest2 ++ Md) = joinSlash (b :: rest2) ++ '/' :: joinSlash Md :=
        ih (by simp)
      have h2 : joinSlash (a :: b :: rest2 ++ Md) = a ++ '/' :: joinSlash (b :: rest2 ++ Md) := rfl
      have h3 : joinSlash (a :: b :: rest2) = a ++ '/' :: joinSlash (b :: rest2) := rfl
      rw [h2, h1, h3]
      simp

/-- The path of a location below another one begins with the path of that one and a
separator. -/
theorem hasPrefix_pathOf_append (L M : List String) (hL : L ≠ []) (hM : M ≠ []) :
    HasPrefix (FS.pathOf (L ++ M)) (FS.pathOf L ++ "/") = true := by
  unfold HasPrefix
  rw [List.isPrefixOf_iff_prefix]
  have h1 : (FS.pathOf L ++ "/").data = (FS.pathOf L).data ++ ['/'] := by
    simp [String.data_append]
  rw [h1]
  unfold FS.pathOf
  simp only [List.map_append]
  rw [joinSlash_append _ _ (by simpa using hL) (by simpa using hM)]
  refine ⟨joinSlash (M.map String.data), ?_⟩
  simp

/-- Two names without separator, the first followed by a separator: when the one is a
prefix of the other, followed by nothing or by a separator, they are equal. -/
theorem eq_of_prefix_slash (n m tail : List Char) (hn : '/' ∉ n) (hm : '/' ∉ m)
    (ht : tail = [] ∨ ∃ y, tail = '/' :: y) (h : (n ++ ['/']) <+: (m ++ tail)) : n = m := by
  induction n generalizing m with
  | nil =>
    cases m with
    | nil => rfl
    | cons c m' =>
      rw [List.nil_append, List.cons_append, List.cons_prefix_cons] at h
      exact absurd (h.1 ▸ List.mem_cons_self _ _) hm
  | cons a n' ih =>
    have ha : a ≠ '/' := fun e => hn (e ▸ List.mem_cons_self _ _)
    cases m with
    | nil =>
      rw [List.nil_append] at h
      rcases ht with ht | ⟨y, ht⟩
      · rw [ht] at h
        simp at h
      · rw [ht, List.cons_append, List.cons_prefix_cons] at h
        exact absurd h.1 ha
    | cons c m' =>
      rw [List.cons_append, List.cons_append, List.cons_prefix_cons] at h
      rw [h.1, ih m' (fun x => hn (List.mem_cons_of_mem _ x))
        (fun x => hm (List.mem_cons_of_mem _ x)) h.2]

/-- The path of a location below `L` in the entry `m` begins with the path of the entry
`n` of `L` and a separator only when `m` is `n`. -/
theorem eq_of_hasPrefix_pathOf (L rest : List String) (m n : String) (hm : '/' ∉ m.data)
    (hn : '/' ∉ n.data)
    (h : HasPrefix (FS.pathOf (L ++ m :: rest)) (FS.pathOf (L ++ [n]) ++ "/") = true) :
    m = n := by
  unfold HasPrefix at h
  rw [List.isPrefixOf_iff_prefix] at h
  have h1 : (FS.pathOf (L ++ [n]) ++ "/").data = (FS.pathOf (L ++ [n])).data ++ ['/'] := by
    simp [String.data_append]
  rw [h1] at h
  unfold FS.pathOf at h
  simp only [List.map_append, List.map_cons, List.map_nil, List.cons_append] at h
  rw [List.cons_prefix_cons] at h
  have h2 := h.2
  have key : (n.data ++ ['/']) <+: (m.data ++ (if rest = [] then [] else
      '/' :: joinSlash (rest.map String.data))) := by
    by_cases hL : L = []
    · subst hL
      simp only [List.map_nil, List.nil_append] at h2
      by_cases hr : rest = []
      · subst hr
        simpa [joinSlash] using h2
      · rw [if_neg hr]
        have : joinSlash (m.data :: rest.map String.data) =
            m.data ++ '/' :: joinSlash (rest.map String.data) := by
          have := joinSlash_append [m.data] (rest.map String.data) (by simp) (by simpa using hr)
          simpa [joinSlash] using this
        rw [this] at h2
        simpa [joinSlash] using h2
    · have hLd : L.map String.data ≠ [] := by simpa using hL
      rw [joinSlash_append _ [n.data] hLd (by simp),
        joinSlash_append _ (m.data :: rest.map String.data) hLd (by simp)] at h2
      rw [List.append_assoc, List.prefix_append_right_inj, List.cons_append,
        List.cons_prefix_cons] at h2
      have h3 := h2.2
      by_cases hr : rest = []
      · subst hr
        simpa [joinSlash] using h3
      · rw [if_neg hr]
        have : joinSlash (m.data :: rest.map String.data) =
            m.data ++ '/' :: joinSlash (rest.map String.data) := by
          have := joinSlash_append [m.data] (rest.map String.data) (by simp) (by simpa using hr)
          simpa [joinSlash] using this
        rw [this] at h3
        simpa [joinSlash] using h3
  have hd := eq_of_prefix_slash n.data m.data _ hn hm (by
    by_cases hr : rest = []
    · left; rw [if_pos hr]
    · right; rw [if_neg hr]; exact ⟨_, rfl⟩) key
  exact (String.ext hd).symm

end Os

namespace Linker

open Os Filepath

/-- An absolute link text is resolved to itself when it is the path of a location. -/
theorem resolveLink_pathOf (dir : String) (L : List String) (hL : ∀ n ∈ L, Proper n) :
    resolveLink dir (FS.pathOf L) = FS.pathOf L := by
  unfold resolveLink
  rw [isAbs_pathOf]
  simp only [Bool.true_eq_false, if_false]
  exact Clean_pathOf L hL

/-- A link whose text is the path of a location inside the directory of a package in the
store is owned by that package. -/
theorem isOwnedBy_pathOf (C rest : List String) (name destDir : String)
    (hC : ∀ n ∈ C, Proper n) (hn : Proper name) (hr : ∀ n ∈ rest, Proper n) (hne : rest ≠ []) :
    isOwnedBy (FS.pathOf C) name destDir (FS.pathOf (C ++ [name] ++ rest)) = true := by
  unfold isOwnedBy
  have hall : ∀ n ∈ C ++ [name] ++ rest, Proper n := by
    intro n h
    rw [List.mem_append] at h
    rcases h with h | h
    · exact proper_append hC hn n h
    · exact hr n h
  rw [resolveLink_pathOf _ _ hall, Join_pathOf C name hC hn]
  exact hasPrefix_pathOf_append (C ++ [name]) rest (by simp) hne

end Linker

/-! ## The linker: one entry -/

namespace Os

theorem permMode_testBit (perm : Nat) : (permMode perm).testBit 27 = false := by
  unfold permMode
  simp only [Nat.testBit_or, Nat.testBit_and]
  have h1 : (0o777 : Nat).testBit 27 = false := by decide
  have h2 : ∀ c : Prop, [Decidable c] → (if c then ModeSetuid else 0).testBit 27 = false := by
    intro c _; split <;> decide
  have h3 : ∀ c : Prop, [Decidable c] → (if c then ModeSetgid else 0).testBit 27 = false := by
    intro c _; split <;> decide
  have h4 : ∀ c : Prop, [Decidable c] → (if c then ModeSticky else 0).testBit 27 = false := by
    intro c _; split <;> decide
  rw [h1, h2, h3, h4]
  simp

/-- Only a symbolic link has the bit `ModeSymlink` in its mode. -/
theorem mode_and_symlink (n : Node) :
    n.Mode &&& ModeSymlink ≠ 0 ↔ ∃ t, n = .symlink t := by
  cases n with
  | dir perm =>
    have : (Node.dir perm).Mode &&& ModeSymlink = 0 := by
      apply and_two_pow_eq_zero
      show (ModeDir ||| permMode perm).testBit 27 = false
      rw [Nat.testBit_or, permMode_testBit]
      decide
    simp [this]
  | file perm data =>
    have : (Node.file perm data).Mode &&& ModeSymlink = 0 :=
      and_two_pow_eq_zero (permMode_testBit perm)
    simp [this]
  | symlink t =>
    have : (Node.symlink t).Mode &&& ModeSymlink ≠ 0 := by
      show (ModeSymlink ||| 0o777) &&& ModeSymlink ≠ 0
      decide
    simp [this]

/-- Removing what lies at an entry of a plain directory and creating a link there: when
the entry can be removed, the link is there afterwards. -/
theorem relink_ok (fs : FS) (D : List String) (e target : String) (hD : fs.PlainDir D)
    (hp : ∀ n ∈ D, Proper n) (he : Proper e) (hr : fs.Removable (D ++ [e])) :
    Symlink (removeIgnoringError fs (FS.pathOf (D ++ [e]))) target (FS.pathOf (D ++ [e])) =
      .ok (fs.put (D ++ [e]) (.symlink target)) := by
  have herase : Symlink (fs.erase (D ++ [e])) target (FS.pathOf (D ++ [e])) =
      .ok (fs.put (D ++ [e]) (.symlink target)) := by
    rw [Symlink_child _ D e target (hD.erase _ (not_prefix_child D e)) hp he
      (FS.find_erase_self _ _ (by simp)), FS.put_erase]
  unfold removeIgnoringError
  cases hf : fs.find (D ++ [e]) with
  | none =>
    rw [Remove_child_none fs D e hD hp he hf]
    exact Symlink_child fs D e target hD hp he hf
  | some n =>
    cases n with
    | dir perm =>
      rw [Remove_child_dir fs D e perm hD hp he hf, hr ((isDirAt_iff _ _).mpr ⟨perm, hf⟩)]
      exact herase
    | file perm data =>
      rw [Remove_child fs D e _ hD hp he hf rfl]
      exact herase
    | symlink t =>
      rw [Remove_child fs D e _ hD hp he hf rfl]
      exact herase

/-- Removing what lies at an entry of a plain directory and creating a link there: a
directory that is not empty stays, and the link is not created. -/
theorem relink_fail (fs : FS) (D : List String) (e target : String) (perm : Nat)
    (hD : fs.PlainDir D) (hp : ∀ n ∈ D, Proper n) (he : Proper e)
    (hf : fs.find (D ++ [e]) = some (.dir perm)) (hc : fs.hasChildren (D ++ [e]) = true) :
    removeIgnoringError fs (FS.pathOf (D ++ [e])) = fs ∧
      Symlink fs target (FS.pathOf (D ++ [e])) = .error .EEXIST := by
  constructor
  · unfold removeIgnoringError
    rw [Remove_child_dir fs D e perm hD hp he hf, hc]
    rfl
  · exact Symlink_child_exists fs D e target _ hD hp he hf

end Os

namespace Linker

open Os Filepath

/-- An entry whose name is free in the shared directory is linked. -/
theorem linkEntry_absent (fs : FS) (B S : List String) (cellarPath name : String)
    (opts : LinkOpts) (e : String) (hB : fs.PlainDir B) (hpB : ∀ n ∈ B, Proper n)
    (hpS : ∀ n ∈ S, Proper n) (he : Proper e) (hdry : opts.DryRun = false)
    (hf : fs.find (B ++ [e]) = none) :
    linkEntry (FS.pathOf S) (FS.pathOf B) cellarPath name opts e fs =
      .ok (fs.put (B ++ [e]) (.symlink (FS.pathOf (S ++ [e])))) := by
  unfold linkEntry
  simp only [Join_pathOf S e hpS he, Join_pathOf B e hpB he, Lstat_child_none fs B e hB hpB he hf,
    hdry, Bool.false_eq_true, if_false, Symlink_child fs B e _ hB hpB he hf]

/-- An entry whose name is taken by a link of the package itself, or by any link when
`Overwrite` is set, is linked in place of it. -/
theorem linkEntry_link (fs : FS) (B S : List String) (cellarPath name : String)
    (opts : LinkOpts) (e : String) (hB : fs.PlainDir B) (hpB : ∀ n ∈ B, Proper n)
    (hpS : ∀ n ∈ S, Proper n) (he : Proper e) (hdry : opts.DryRun = false)
    (t : String) (hf : fs.find (B ++ [e]) = some (.symlink t))
    (ho : isOwnedBy cellarPath name (FS.pathOf B) t = true ∨ opts.Overwrite = true) :
    linkEntry (FS.pathOf S) (FS.pathOf B) cellarPath name opts e fs =
      .ok (fs.put (B ++ [e]) (.symlink (FS.pathOf (S ++ [e])))) := by
  have hr : fs.Removable (B ++ [e]) := by
    intro h
    obtain ⟨perm, h⟩ := (isDirAt_iff _ _).mp h
    rw [hf] at h
    cases h
  have hm : (Node.symlink t).Mode &&& ModeSymlink ≠ 0 := (mode_and_symlink _).mpr ⟨t, rfl⟩
  unfold linkEntry
  simp only [Join_pathOf S e hpS he, Join_pathOf B e hpB he, Lstat_child fs B e _ hB hpB he hf,
    hdry, Bool.false_eq_true, if_false, Readlink_child fs B e t hB hpB he hf, hm, ne_eq,
    not_false_eq_true, if_true]
  rcases ho with ho | ho
  · simp only [ho, if_true, relink_ok fs B e _ hB hpB he hr]
  · by_cases hown : isOwnedBy cellarPath name (FS.pathOf B) t = true
    · simp only [hown, if_true, relink_ok fs B e _ hB hpB he hr]
    · simp only [hown, ho, Bool.false_eq_true, if_false, if_true,
        relink_ok fs B e _ hB hpB he hr]

/-- An entry whose name is taken by a link of another package is a conflict when
`Overwrite` is not set: the error is returned and nothing is changed. -/
theorem linkEntry_link_conflict (fs : FS) (B S : List String) (cellarPath name : String)
    (opts : LinkOpts) (e : String) (hB : fs.PlainDir B) (hpB : ∀ n ∈ B, Proper n)
    (he : Proper e) (hdry : opts.DryRun = false)
    (t : String) (hf : fs.find (B ++ [e]) = some (.symlink t))
    (ho : isOwnedBy cellarPath name (FS.pathOf B) t = false) (hov : opts.Overwrite = false) :
    linkEntry (FS.pathOf S) (FS.pathOf B) cellarPath name opts e fs =
      .error (.linkedByOther e, fs) := by
  have hm : (Node.symlink t).Mode &&& ModeSymlink ≠ 0 := (mode_and_symlink _).mpr ⟨t, rfl⟩
  unfold linkEntry
  simp only [Join_pathOf B e hpB he, Lstat_child fs B e _ hB hpB he hf,
    hdry, Bool.false_eq_true, if_false, Readlink_child fs B e t hB hpB he hf, hm, ne_eq,
    not_false_eq_true, if_true, ho, hov]

/-- An entry whose name is taken by something that is no link is a conflict when
`Overwrite` is not set: the error is returned and nothing is changed. -/
theorem linkEntry_other_conflict (fs : FS) (B S : List String) (cellarPath name : String)
    (opts : LinkOpts) (e : String) (hB : fs.PlainDir B) (hpB : ∀ n ∈ B, Proper n)
    (he : Proper e) (hdry : opts.DryRun = false)
    (n : Node) (hf : fs.find (B ++ [e]) = some n)
    (hn : ∀ t, n ≠ .symlink t) (hov : opts.Overwrite = false) :
    linkEntry (FS.pathOf S) (FS.pathOf B) cellarPath name opts e fs =
      .error (.notSymlink e, fs) := by
  have hm : ¬ (n.Mode &&& ModeSymlink ≠ 0) := by
    rw [mode_and_symlink]
    rintro ⟨t, ht⟩
    exact hn t ht
  unfold linkEntry
  simp only [Join_pathOf B e hpB he, Lstat_child fs B e _ hB hpB he hf,
    hdry, Bool.false_eq_true, if_false, hm, hov]

/-- With `Overwrite`, an entry whose name is taken by a file or an empty directory is
linked in place of it. -/
theorem linkEntry_other_overwrite (fs : FS) (B S : List String) (cellarPath name : String)
    (opts : LinkOpts) (e : String) (hB : fs.PlainDir B) (hpB : ∀ n ∈ B, Proper n)
    (hpS : ∀ n ∈ S, Proper n) (he : Proper e) (hdry : opts.DryRun = false)
    (n : Node) (hf : fs.find (B ++ [e]) = some n)
    (hn : ∀ t, n ≠ .symlink t) (hov : opts.Overwrite = true) (hr : fs.Removable (B ++ [e])) :
    linkEntry (FS.pathOf S) (FS.pathOf B) cellarPath name opts e fs =
      .ok (fs.put (B ++ [e]) (.symlink (FS.pathOf (S ++ [e])))) := by
  have hm : ¬ (n.Mode &&& ModeSymlink ≠ 0) := by
    rw [mode_and_symlink]
    rintro ⟨t, ht⟩
    exact hn t ht
  unfold linkEntry
  simp only [Join_pathOf S e hpS he, Join_pathOf B e hpB he, Lstat_child fs B e _ hB hpB he hf,
    hdry, Bool.false_eq_true, if_false, hm, hov, if_true, relink_ok fs B e _ hB hpB he hr]

/-- With `Overwrite`, an entry whose name is taken by a directory that is not empty is not
linked: the directory stays, and the error of `os.Symlink` is returned. -/
theorem linkEntry_directory (fs : FS) (B S : List String) (cellarPath name : String)
    (opts : LinkOpts) (e : String) (hB : fs.PlainDir B) (hpB : ∀ n ∈ B, Proper n)
    (hpS : ∀ n ∈ S, Proper n) (he : Proper e) (hdry : opts.DryRun = false)
    (perm : Nat) (hf : fs.find (B ++ [e]) = some (.dir perm))
    (hc : fs.hasChildren (B ++ [e]) = true) (hov : opts.Overwrite = true) :
    linkEntry (FS.pathOf S) (FS.pathOf B) cellarPath name opts e fs =
      .error (.symlink .EEXIST, fs) := by
  have hm : ¬ ((Node.dir perm).Mode &&& ModeSymlink ≠ 0) := by
    rw [mode_and_symlink]
    rintro ⟨t, ht⟩
    cases ht
  obtain ⟨h1, h2⟩ := relink_fail fs B e (FS.pathOf (S ++ [e])) perm hB hpB he hf hc
  unfold linkEntry
  simp only [Join_pathOf S e hpS he, Join_pathOf B e hpB he, Lstat_child fs B e _ hB hpB he hf,
    hdry, Bool.false_eq_true, if_false, hm, hov, if_true, h1, h2]

/-- The two outcomes of the linking of an entry when `DryRun` is not set: the link is
there in place of what was there, or an error is returned and nothing is changed. -/
theorem linkEntry_cases (fs : FS) (B S : List String) (cellarPath name : String)
    (opts : LinkOpts) (e : String) (hB : fs.PlainDir B) (hpB : ∀ n ∈ B, Proper n)
    (hpS : ∀ n ∈ S, Proper n) (he : Proper e) (hdry : opts.DryRun = false) :
    linkEntry (FS.pathOf S) (FS.pathOf B) cellarPath name opts e fs =
        .ok (fs.put (B ++ [e]) (.symlink (FS.pathOf (S ++ [e])))) ∨
      ∃ err, linkEntry (FS.pathOf S) (FS.pathOf B) cellarPath name opts e fs = .error (err, fs) := by
  cases hf : fs.find (B ++ [e]) with
  | none => exact Or.inl (linkEntry_absent fs B S cellarPath name opts e hB hpB hpS he hdry hf)
  | some n =>
    by_cases hs : ∃ t, n = .symlink t
    · obtain ⟨t, rfl⟩ := hs
      by_cases ho : isOwnedBy cellarPath name (FS.pathOf B) t = true ∨ opts.Overwrite = true
      · exact Or.inl (linkEntry_link fs B S cellarPath name opts e hB hpB hpS he hdry t hf ho)
      · rw [not_or] at ho
        exact Or.inr ⟨_, linkEntry_link_conflict fs B S cellarPath name opts e hB hpB he hdry
          t hf (by simpa using ho.1) (by simpa using ho.2)⟩
    · have hn : ∀ t, n ≠ .symlink t := fun t ht => hs ⟨t, ht⟩
      by_cases hov : opts.Overwrite = true
      · by_cases hr : fs.Removable (B ++ [e])
        · exact Or.inl (linkEntry_other_overwrite fs B S cellarPath name opts e hB hpB hpS he
            hdry n hf hn hov hr)
        · unfold FS.Removable at hr
          push_neg at hr
          obtain ⟨hdir, hc⟩ := hr
          obtain ⟨perm, hperm⟩ := (isDirAt_iff _ _).mp hdir
          exact Or.inr ⟨_, linkEntry_directory fs B S cellarPath name opts e hB hpB hpS he hdry
            perm hperm (by simpa using hc) hov⟩
      · exact Or.inr ⟨_, linkEntry_other_conflict fs B S cellarPath name opts e hB hpB he
          hdry n hf hn (by simpa using hov)⟩

end Linker

/-! ## Go maps -/

namespace GoMap

variable {V : Type}

theorem get_set (m : GoMap V) (k : String) (v : V) (x : String) :
    (m.set k v).get x = if x = k then v else m.get x := by
  simp only [get, set, Function.update_apply]

theorem get_set_self (m : GoMap V) (k : String) (v : V) : (m.set k v).get k = v := by
  simp [get_set]

theorem get_set_ne (m : GoMap V) (k : String) (v : V) {x : String} (h : x ≠ k) :
    (m.set k v).get x = m.get x := by
  simp [get_set, h]

theorem keys_set_of_mem (m : GoMap V) {k : String} (v : V) (h : k ∈ m.keys) :
    (m.set k v).keys = m.keys := by
  simp [set, h]

theorem keys_set_of_not_mem (m : GoMap V) {k : String} (v : V) (h : k ∉ m.keys) :
    (m.set k v).keys = m.keys ++ [k] := by
  simp [set, h]

end GoMap

namespace Depgraph

/-! ## The tables of `topoSort` -/

theorem foldl_addDep_inDegree_keys (node : String) (deps : List String) (t : Tables)
    (h : node ∈ t.inDegree.keys) :
    (deps.foldl (addDep node) t).inDegree.keys = t.inDegree.keys := by
  induction deps generalizing t with
  | nil => rfl
  | cons d ds ih =>
    rw [List.foldl_cons, ih]
    · exact GoMap.keys_set_of_mem _ _ h
    · show node ∈ (t.inDegree.set node _).keys
      rw [GoMap.keys_set_of_mem _ _ h]; exact h

theorem foldl_addDep_inDegree_get (node : String) (deps : List String) (t : Tables)
    (x : String) :
    (deps.foldl (addDep node) t).inDegree.get x =
      t.inDegree.get x + (if x = node then (deps.length : Int) else 0) := by
  induction deps generalizing t with
  | nil => simp
  | cons d ds ih =>
    rw [List.foldl_cons, ih]
    show (t.inDegree.set node (t.inDegree.get node + 1)).get x + _ = _
    rw [GoMap.get_set]
    by_cases hx : x = node
    · subst hx; simp; ring
    · simp [hx]

theorem foldl_addDep_reverse_get (node : String) (deps : List String) (t : Tables)
    (d : String) :
    (deps.foldl (addDep node) t).reverse.get d =
      t.reverse.get d ++ List.replicate (deps.count d) node := by
  induction deps generalizing t with
  | nil => simp
  | cons e es ih =>
    rw [List.foldl_cons, ih]
    show (t.reverse.set e (t.reverse.get e ++ [node])).get d ++ _ = _
    rw [GoMap.get_set]
    by_cases hd : d = e
    · subst hd
      simp only [if_true, List.count_cons_self, List.append_assoc, List.singleton_append]
      rw [List.replicate_succ]
    · have : e ≠ d := fun h => hd h.symm
      simp [hd, List.count_cons_of_ne this]

theorem addNode_tablesOf (graph : GoMap (List String)) (seen : List String) (t : Tables)
    (node : String) (h : TablesOf graph seen t) (hn : node ∉ seen) :
    TablesOf graph (seen ++ [node]) (addNode graph t node) := by
  have hk : node ∉ t.inDegree.keys := by rw [h.keys]; exact hn
  have hk1 : node ∈ ({ t with inDegree := t.inDegree.set node 0 } : Tables).inDegree.keys := by
    show node ∈ (t.inDegree.set node 0).keys
    rw [GoMap.keys_set_of_not_mem _ _ hk]; simp
  constructor
  · unfold addNode
    simp only [hk, if_false]
    rw [foldl_addDep_inDegree_keys _ _ _ hk1]
    show (t.inDegree.set node 0).keys = _
    rw [GoMap.keys_set_of_not_mem _ _ hk, h.keys]
  · intro x
    unfold addNode
    simp only [hk, if_false]
    rw [foldl_addDep_inDegree_get]
    show (t.inDegree.set node 0).get x + _ = _
    rw [GoMap.get_set, h.inDegree]
    by_cases hx : x = node
    · subst hx; simp
    · simp [hx]
  · intro d m
    unfold addNode
    simp only [hk, if_false]
    rw [foldl_addDep_reverse_get]
    show (t.reverse.get d ++ _).count m = _
    rw [List.count_append, h.reverse, List.count_replicate]
    by_cases hm : m = node
    · subst hm; simp [hn]
    · have : ¬ node = m := fun h => hm h.symm
      simp [hm, this]

theorem foldl_addNode_tablesOf (graph : GoMap (List String)) (order : List String) :
    ∀ (seen : List String) (t : Tables), TablesOf graph seen t → (seen ++ order).Nodup →
      TablesOf graph (seen ++ order) (order.foldl (addNode graph) t) := by
  induction order with
  | nil => intro seen t h _; simpa using h
  | cons n ns ih =>
    intro seen t h hnd
    have hn : n ∉ seen := by
      intro hmem
      have := List.nodup_append.mp hnd
      exact this.2.2 hmem (List.mem_cons_self _ _)
    have h1 := addNode_tablesOf graph seen t n h hn
    have h2 := ih (seen ++ [n]) _ h1 (by simpa using hnd)
    simpa using h2

theorem buildTables_tablesOf (graph : GoMap (List String)) (order : List String)
    (hnd : order.Nodup) : TablesOf graph order (buildTables graph order) := by
  have h0 : TablesOf graph [] ⟨GoMap.empty 0, GoMap.empty []⟩ :=
    ⟨rfl, fun x => by simp [GoMap.empty, GoMap.get], fun d m => by simp [GoMap.empty, GoMap.get]⟩
  simpa using foldl_addNode_tablesOf graph order [] _ h0 (by simpa using hnd)

/-! ## The inner loop of `topoSort` -/

theorem relaxStep_eq (m : GoMap Int) (acc : List String) (d : String) :
    relaxStep (m, acc) d =
      (m.set d (m.get d - 1), acc ++ (if m.get d - 1 = 0 then [d] else [])) := by
  unfold relaxStep
  simp only [GoMap.get_set_self]
  split <;> simp

theorem foldl_relaxStep_acc (l : List String) (m : GoMap Int) (acc : List String) :
    l.foldl relaxStep (m, acc) =
      ((l.foldl relaxStep (m, [])).1, acc ++ (l.foldl relaxStep (m, [])).2) := by
  induction l generalizing m acc with
  | nil => simp
  | cons d ds ih =>
    simp only [List.foldl_cons, relaxStep_eq]
    rw [ih, ih _ ([] ++ _)]
    simp

theorem relax_nil (m : GoMap Int) : relax [] m = (m, []) := rfl

theorem relax_cons (d : String) (ds : List String) (m : GoMap Int) :
    relax (d :: ds) m =
      ((relax ds (m.set d (m.get d - 1))).1,
        (if m.get d - 1 = 0 then [d] else []) ++ (relax ds (m.set d (m.get d - 1))).2) := by
  unfold relax
  simp only [List.foldl_cons, relaxStep_eq]
  rw [foldl_relaxStep_acc]
  simp

theorem relax_get (l : List String) (m : GoMap Int) (x : String) :
    (relax l m).1.get x = m.get x - (l.count x : Int) := by
  induction l generalizing m with
  | nil => simp [relax_nil]
  | cons d ds ih =>
    rw [relax_cons]
    simp only
    rw [ih, GoMap.get_set]
    by_cases hx : x = d
    · subst hx; simp; ring
    · simp [hx, List.count_cons_of_ne hx]

theorem relax_keys (l : List String) (m : GoMap Int) (h : ∀ x ∈ l, x ∈ m.keys) :
    (relax l m).1.keys = m.keys := by
  induction l generalizing m with
  | nil => simp [relax_nil]
  | cons d ds ih =>
    rw [relax_cons]
    simp only
    have hd : d ∈ m.keys := h d (List.mem_cons_self _ _)
    rw [ih]
    · exact GoMap.keys_set_of_mem _ _ hd
    · intro x hx
      rw [GoMap.keys_set_of_mem _ _ hd]
      exact h x (List.mem_cons_of_mem _ hx)

/-- When no counter is driven below zero, `newReady` lists exactly the dependents whose
counter reaches zero, each once. -/
theorem relax_newReady (l : List String) (m : GoMap Int)
    (h : ∀ x ∈ l, (l.count x : Int) ≤ m.get x) :
    (relax l m).2.Nodup ∧
      ∀ x, x ∈ (relax l m).2 ↔ x ∈ l ∧ m.get x = (l.count x : Int) := by
  induction l generalizing m with
  | nil => simp [relax_nil]
  | cons d ds ih =>
    have h1 : ∀ x ∈ ds, (ds.count x : Int) ≤ (m.set d (m.get d - 1)).get x := by
      intro x hx
      have := h x (List.mem_cons_of_mem _ hx)
      rw [GoMap.get_set]
      by_cases hxd : x = d
      · subst hxd; simp [List.count_cons_self] at this ⊢; omega
      · simp [hxd, List.count_cons_of_ne hxd] at this ⊢; exact this
    obtain ⟨ihnd, ihmem⟩ := ih _ h1
    rw [relax_cons]
    simp only
    have hd := h d (List.mem_cons_self _ _)
    simp only [List.count_cons_self] at hd
    constructor
    · by_cases hz : m.get d - 1 = 0
      · rw [if_pos hz, List.singleton_append, List.nodup_cons]
        refine ⟨?_, ihnd⟩
        rw [ihmem]
        rintro ⟨hmem, _⟩
        have : 0 < ds.count d := List.count_pos_iff.mpr hmem
        push_cast at hd
        omega
      · rw [if_neg hz, List.nil_append]; exact ihnd
    · intro x
      rw [List.mem_append, ihmem, GoMap.get_set]
      by_cases hxd : x = d
      · subst hxd
        simp only [if_true, List.mem_cons, true_or, true_and, List.count_cons_self]
        push_cast
        constructor
        · rintro (hx | ⟨_, hx⟩)
          · by_cases hz : m.get x - 1 = 0
            · omega
            · simp [hz] at hx
          · omega
        · intro hx
          by_cases hmem : x ∈ ds
          · right; exact ⟨hmem, by omega⟩
          · left
            have : ds.count x = 0 := List.count_eq_zero_of_not_mem hmem
            rw [this] at hx
            have hz : m.get x - 1 = 0 := by simp [hx]
            simp [hz]
      · simp only [hxd, if_false, List.mem_cons, false_or, List.count_cons_of_ne hxd]
        constructor
        · rintro (hx | hx)
          · by_cases hz : m.get d - 1 = 0
            · simp [hz] at hx; exact absurd hx hxd
            · simp [hz] at hx
          · exact hx
        · intro hx; right; exact hx

end Depgraph

/-! ## The linker: the loops -/

namespace Linker

open Os Filepath

theorem linksOf_nil (B S : List String) : linksOf B S [] = [] := rfl

theorem linksOf_cons (B S : List String) (e : String) (es : List String) :
    linksOf B S (e :: es) = (B ++ [e], Node.symlink (FS.pathOf (S ++ [e]))) :: linksOf B S es :=
  rfl

theorem mem_linksOf {B S : List String} {es : List String} {p : List String × Node}
    (h : p ∈ linksOf B S es) : ∃ e ∈ es, p = (B ++ [e], Node.symlink (FS.pathOf (S ++ [e]))) := by
  unfold linksOf at h
  obtain ⟨e, he, rfl⟩ := List.mem_map.mp h
  exact ⟨e, he, rfl⟩

theorem linkEntries_nil (srcDir destDir cellarPath name : String) (opts : LinkOpts) (fs : FS) :
    linkEntries srcDir destDir cellarPath name opts [] fs = .ok fs := rfl

theorem linkEntries_cons (srcDir destDir cellarPath name : String) (opts : LinkOpts)
    (e : String) (es : List String) (fs : FS) :
    linkEntries srcDir destDir cellarPath name opts (e :: es) fs =
      match linkEntry srcDir destDir cellarPath name opts e fs with
      | .error x => .error x
      | .ok fs1 => linkEntries srcDir destDir cellarPath name opts es fs1 := rfl

/-- When the loop over the entries succeeds, every entry is linked. -/
theorem linkEntries_shape (B S : List String) (cellarPath name : String) (opts : LinkOpts)
    (hpB : ∀ n ∈ B, Proper n) (hpS : ∀ n ∈ S, Proper n) (hdry : opts.DryRun = false) :
    ∀ (es : List String) (fs fs1 : FS), fs.PlainDir B → (∀ e ∈ es, Proper e) →
      linkEntries (FS.pathOf S) (FS.pathOf B) cellarPath name opts es fs = .ok fs1 →
      fs1 = fs.putAll (linksOf B S es) := by
  intro es
  induction es with
  | nil =>
    intro fs fs1 _ _ h
    rw [linkEntries_nil] at h
    injection h with h
    exact h.symm
  | cons e es ih =>
    intro fs fs1 hB hes h
    have he := hes e (List.mem_cons_self _ _)
    rw [linkEntries_cons] at h
    rcases linkEntry_cases fs B S cellarPath name opts e hB hpB hpS he hdry with hc | ⟨err, hc⟩
    · rw [hc] at h
      rw [linksOf_cons, FS.putAll_cons]
      exact ih _ _ (hB.put _ _ (not_prefix_child B e))
        (fun x hx => hes x (List.mem_cons_of_mem _ hx)) h
    · rw [hc] at h
      cases h

/-- When every entry is taken by a link of the package itself, the loop over the entries
succeeds. -/
theorem linkEntries_again (B S : List String) (cellarPath name : String) (opts : LinkOpts)
    (hpB : ∀ n ∈ B, Proper n) (hpS : ∀ n ∈ S, Proper n) (hdry : opts.DryRun = false) :
    ∀ (es : List String) (fs : FS), fs.PlainDir B → (∀ e ∈ es, Proper e) → es.Nodup →
      (∀ e ∈ es, ∃ t, fs.find (B ++ [e]) = some (.symlink t) ∧
        isOwnedBy cellarPath name (FS.pathOf B) t = true) →
      linkEntries (FS.pathOf S) (FS.pathOf B) cellarPath name opts es fs =
        .ok (fs.putAll (linksOf B S es)) := by
  intro es
  induction es with
  | nil => intro fs _ _ _ _; rfl
  | cons e es ih =>
    intro fs hB hes hnd hown
    have he := hes e (List.mem_cons_self _ _)
    obtain ⟨t, hf, ho⟩ := hown e (List.mem_cons_self _ _)
    rw [List.nodup_cons] at hnd
    rw [linkEntries_cons, linkEntry_link fs B S cellarPath name opts e hB hpB hpS he hdry t hf
      (Or.inl ho), linksOf_cons, FS.putAll_cons]
    apply ih _ (hB.put _ _ (not_prefix_child B e))
      (fun x hx => hes x (List.mem_cons_of_mem _ hx)) hnd.2
    intro x hx
    obtain ⟨t2, hf2, ho2⟩ := hown x (List.mem_cons_of_mem _ hx)
    refine ⟨t2, ?_, ho2⟩
    rw [FS.find_put_ne _ _ _ _ (by
      intro h
      have := List.append_cancel_left h
      simp only [List.cons.injEq, and_true] at this
      exact hnd.1 (this ▸ hx))]
    exact hf2

theorem entriesAt_proper (fs : FS) (S : List String) (hn : fs.ProperNames) :
    ∀ e ∈ entriesAt fs S, Proper e := by
  intro e he
  unfold entriesAt at he
  split at he
  · obtain ⟨x, hx⟩ := (mem_children fs S e).mp he
    exact hn _ hx e (by simp)
  · cases he

theorem entriesAt_nodup (fs : FS) (S : List String) : (entriesAt fs S).Nodup := by
  unfold entriesAt
  split
  · exact children_nodup fs S
  · exact List.nodup_nil

/-- What `os.ReadDir` yields for a directory of a keg that is a directory or does not
exist. -/
theorem ReadDir_keg (fs : FS) (K : List String) (sub : String) (hK : fs.PlainDir K)
    (hpK : ∀ n ∈ K, Proper n) (hs : Proper sub)
    (hl : ∀ t, fs.find (K ++ [sub]) ≠ some (.symlink t)) :
    (∃ entries, ReadDir fs (FS.pathOf (K ++ [sub])) = .ok entries ∧
        entries.map (fun e => e.1) = entriesAt fs (K ++ [sub])) ∨
      (ReadDir fs (FS.pathOf (K ++ [sub])) = .error .ENOENT ∧ entriesAt fs (K ++ [sub]) = []) ∨
      ReadDir fs (FS.pathOf (K ++ [sub])) = .error .ENOTDIR := by
  cases hf : fs.find (K ++ [sub]) with
  | none =>
    right; left
    refine ⟨ReadDir_absent fs K sub hK hpK hs hf, ?_⟩
    unfold entriesAt FS.isDirAt
    rw [hf]
    rfl
  | some n =>
    cases n with
    | dir perm =>
      left
      have hd : fs.isDirAt (K ++ [sub]) = true := (isDirAt_iff _ _).mpr ⟨perm, hf⟩
      obtain ⟨entries, h1, h2⟩ := ReadDir_plain fs (K ++ [sub]) (hK.child sub hd)
        (proper_append hpK hs)
      refine ⟨entries, h1, ?_⟩
      unfold entriesAt
      rw [hd, h2]
      rfl
    | file perm data =>
      right; right
      exact ReadDir_file fs K sub perm data hK hpK hs hf
    | symlink t => exact absurd hf (hl t)

/-- When `linkDirWithOpts` succeeds, every entry of the directory of the keg is linked. -/
theorem linkDir_shape (fs fs1 : FS) (B K : List String) (sub cellarPath name : String)
    (opts : LinkOpts) (hB : fs.PlainDir B) (hpB : ∀ n ∈ B, Proper n) (hK : fs.PlainDir K)
    (hpK : ∀ n ∈ K, Proper n) (hs : Proper sub)
    (hl : ∀ t, fs.find (K ++ [sub]) ≠ some (.symlink t))
    (hpe : ∀ e ∈ entriesAt fs (K ++ [sub]), Proper e) (hdry : opts.DryRun = false)
    (h : linkDirWithOpts (FS.pathOf (K ++ [sub])) (FS.pathOf B) cellarPath name opts fs = .ok fs1) :
    fs1 = fs.putAll (linksOf B (K ++ [sub]) (entriesAt fs (K ++ [sub]))) := by
  unfold linkDirWithOpts at h
  rcases ReadDir_keg fs K sub hK hpK hs hl with ⟨entries, h1, h2⟩ | ⟨h1, h2⟩ | h1
  · rw [h1] at h
    simp only [h2] at h
    exact linkEntries_shape B (K ++ [sub]) cellarPath name opts hpB (proper_append hpK hs) hdry
      _ fs fs1 hB hpe h
  · rw [h1] at h
    simp only at h
    injection h with h
    rw [h2, linksOf_nil, FS.putAll_nil]
    exact h.symm
  · rw [h1] at h
    cases h

/-- When every entry of the directory of the keg is taken by a link of the package
itself, `linkDirWithOpts` succeeds. -/
theorem linkDir_again (fs : FS) (B K : List String) (sub cellarPath name : String)
    (opts : LinkOpts) (hB : fs.PlainDir B) (hpB : ∀ n ∈ B, Proper n) (hK : fs.PlainDir K)
    (hpK : ∀ n ∈ K, Proper n) (hs : Proper sub)
    (hl : ∀ t, fs.find (K ++ [sub]) ≠ some (.symlink t))
    (hf : ∀ perm data, fs.find (K ++ [sub]) ≠ some (.file perm data))
    (hpe : ∀ e ∈ entriesAt fs (K ++ [sub]), Proper e)
    (hdry : opts.DryRun = false)
    (hown : ∀ e ∈ entriesAt fs (K ++ [sub]), ∃ t, fs.find (B ++ [e]) = some (.symlink t) ∧
      isOwnedBy cellarPath name (FS.pathOf B) t = true) :
    linkDirWithOpts (FS.pathOf (K ++ [sub])) (FS.pathOf B) cellarPath name opts fs =
      .ok (fs.putAll (linksOf B (K ++ [sub]) (entriesAt fs (K ++ [sub])))) := by
  unfold linkDirWithOpts
  rcases ReadDir_keg fs K sub hK hpK hs hl with ⟨entries, h1, h2⟩ | ⟨h1, h2⟩ | h1
  · rw [h1]
    simp only [h2]
    exact linkEntries_again B (K ++ [sub]) cellarPath name opts hpB (proper_append hpK hs) hdry
      _ fs hB hpe (entriesAt_nodup fs _) hown
  · rw [h1, h2, linksOf_nil, FS.putAll_nil]
  · exfalso
    cases hfind : fs.find (K ++ [sub]) with
    | none =>
      rw [ReadDir_absent fs K sub hK hpK hs hfind] at h1
      cases h1
    | some n =>
      cases n with
      | dir perm =>
        have hd : fs.isDirAt (K ++ [sub]) = true := (isDirAt_iff _ _).mpr ⟨perm, hfind⟩
        obtain ⟨entries, h3, _⟩ := ReadDir_plain fs (K ++ [sub]) (hK.child sub hd)
          (proper_append hpK hs)
        rw [h3] at h1
        cases h1
      | file perm data => exact hf perm data hfind
      | symlink t => exact hl t hfind

/-- The locations of the links in a shared directory. -/
theorem key_linksOf {R S es : List String} {sub : String} {p : List String × Node}
    (h : p ∈ linksOf (R ++ [sub]) S es) : ∃ e ∈ es, p.1 = R ++ sub :: [e] := by
  obtain ⟨e, he, rfl⟩ := mem_linksOf h
  exact ⟨e, he, by simp⟩

/-- Links put into a shared directory do not change what `os.ReadDir` yields for a
directory of another name or at another depth. -/
theorem entriesAt_putAll (fs : FS) (ps : List (List String × Node)) (S : List String)
    (h : ∀ p ∈ ps, p.1 ≠ S ∧ p.1.dropLast ≠ S) :
    entriesAt (fs.putAll ps) S = entriesAt fs S := by
  have h1 : (fs.putAll ps).isDirAt S = fs.isDirAt S := by
    unfold FS.isDirAt
    rw [FS.find_putAll_of_not_mem fs ps S (fun p hp => (h p hp).1)]
  have h2 : (fs.putAll ps).children S = fs.children S := by
    apply children_congr
    intro n
    rw [FS.find_putAll_of_not_mem fs ps (S ++ [n])]
    intro p hp e
    apply (h p hp).2
    rw [e]
    simp
  unfold entriesAt
  rw [h1, h2]

theorem sharedLinks_nil (fs : FS) (R K : List String) : sharedLinks fs R K [] = [] := rfl

theorem sharedLinks_cons (fs : FS) (R K : List String) (sub : String) (subs : List String) :
    sharedLinks fs R K (sub :: subs) =
      linksOf (R ++ [sub]) (K ++ [sub]) (entriesAt fs (K ++ [sub])) ++ sharedLinks fs R K subs := by
  simp [sharedLinks]

theorem sharedLinks_congr (fs1 fs2 : FS) (R K : List String) (subs : List String)
    (h : ∀ sub ∈ subs, entriesAt fs1 (K ++ [sub]) = entriesAt fs2 (K ++ [sub])) :
    sharedLinks fs1 R K subs = sharedLinks fs2 R K subs := by
  induction subs with
  | nil => rfl
  | cons sub subs ih =>
    rw [sharedLinks_cons, sharedLinks_cons, h sub (List.mem_cons_self _ _),
      ih (fun x hx => h x (List.mem_cons_of_mem _ hx))]

theorem linkSubdirs_nil (cellarPath name : String) (opts : LinkOpts) (fs : FS) :
    linkSubdirs cellarPath name opts [] fs = .ok fs := rfl

theorem linkSubdirs_cons (cellarPath name : String) (opts : LinkOpts) (sd : String × String)
    (rest : List (String × String)) (fs : FS) :
    linkSubdirs cellarPath name opts (sd :: rest) fs =
      match linkDirWithOpts sd.1 sd.2 cellarPath name opts fs with
      | .error e => .error e
      | .ok fs1 => linkSubdirs cellarPath name opts rest fs1 := rfl

/-- What stays as it is when objects are put into directories of the prefix other than
`Cellar`: the keg, the shared directories, and what is found in the other ones. -/
theorem after_puts (fs : FS) (R tail : List String) (ss : List String)
    (ps : List (List String × Node)) (hss : "Cellar" ∉ ss)
    (hk : ∀ p ∈ ps, ∃ s e, s ∈ ss ∧ p.1 = R ++ s :: [e]) :
    (fs.PlainDir (R ++ "Cellar" :: tail) → (fs.putAll ps).PlainDir (R ++ "Cellar" :: tail)) ∧
    (∀ sub2, fs.PlainDir (R ++ [sub2]) → (fs.putAll ps).PlainDir (R ++ [sub2])) ∧
    (∀ sub2, (fs.putAll ps).find (R ++ "Cellar" :: tail ++ [sub2]) =
      fs.find (R ++ "Cellar" :: tail ++ [sub2])) ∧
    (∀ sub2, entriesAt (fs.putAll ps) (R ++ "Cellar" :: tail ++ [sub2]) =
      entriesAt fs (R ++ "Cellar" :: tail ++ [sub2])) ∧
    (∀ sub2 e, sub2 ∉ ss → (fs.putAll ps).find (R ++ [sub2] ++ [e]) =
      fs.find (R ++ [sub2] ++ [e])) := by
  have hsne : ∀ s ∈ ss, s ≠ "Cellar" := fun s hs e => hss (e ▸ hs)
  refine ⟨?_, ?_, ?_, ?_, ?_⟩
  · intro h
    apply h.putAll
    intro p hp
    obtain ⟨s, e, hs, hk⟩ := hk p hp
    rw [hk]
    exact not_prefix_of_ne R s "Cellar" [e] tail (hsne s hs)
  · intro sub2 h
    apply h.putAll
    intro p hp
    obtain ⟨s, e, _, hk⟩ := hk p hp
    rw [hk]
    intro hpre
    have := hpre.length_le
    simp at this
  · intro sub2
    apply FS.find_putAll_of_not_mem
    intro p hp
    obtain ⟨s, e, hs, hk⟩ := hk p hp
    rw [hk]
    intro h
    rw [List.append_assoc] at h
    have := List.append_cancel_left h
    simp only [List.cons_append, List.cons.injEq] at this
    exact hsne s hs this.1
  · intro sub2
    apply entriesAt_putAll
    intro p hp
    obtain ⟨s, e, hs, hk⟩ := hk p hp
    rw [hk]
    constructor
    · intro h
      rw [List.append_assoc] at h
      have := List.append_cancel_left h
      simp only [List.cons_append, List.cons.injEq] at this
      exact hsne s hs this.1
    · intro h
      have h2 : (R ++ s :: [e]).dropLast = R ++ [s] := by
        rw [show R ++ s :: [e] = (R ++ [s]) ++ [e] by simp, List.dropLast_concat]
      rw [h2, List.append_assoc] at h
      have := List.append_cancel_left h
      simp only [List.cons_append, List.cons.injEq] at this
      exact hsne s hs this.1
  · intro sub2 e hne
    apply FS.find_putAll_of_not_mem
    intro p hp
    obtain ⟨s, e2, hs, hk⟩ := hk p hp
    rw [hk]
    intro h
    have h3 : R ++ s :: [e2] = R ++ sub2 :: [e] := by simpa using h
    have := List.append_cancel_left h3
    simp only [List.cons.injEq] at this
    exact hne (this.1 ▸ hs)

/-- What stays as it is when the links for one directory of the keg are put into the
shared directory of the same name. -/
theorem after_links (fs : FS) (R tail : List String) (sub : String) (S es : List String)
    (hsub : sub ≠ "Cellar") :
    (fs.PlainDir (R ++ "Cellar" :: tail) →
      (fs.putAll (linksOf (R ++ [sub]) S es)).PlainDir (R ++ "Cellar" :: tail)) ∧
    (∀ sub2, fs.PlainDir (R ++ [sub2]) →
      (fs.putAll (linksOf (R ++ [sub]) S es)).PlainDir (R ++ [sub2])) ∧
    (∀ sub2, (fs.putAll (linksOf (R ++ [sub]) S es)).find (R ++ "Cellar" :: tail ++ [sub2]) =
      fs.find (R ++ "Cellar" :: tail ++ [sub2])) ∧
    (∀ sub2, entriesAt (fs.putAll (linksOf (R ++ [sub]) S es)) (R ++ "Cellar" :: tail ++ [sub2]) =
      entriesAt fs (R ++ "Cellar" :: tail ++ [sub2])) ∧
    (∀ sub2 e, sub2 ≠ sub → (fs.putAll (linksOf (R ++ [sub]) S es)).find (R ++ [sub2] ++ [e]) =
      fs.find (R ++ [sub2] ++ [e])) := by
  obtain ⟨a1, a2, a3, a4, a5⟩ := after_puts fs R tail [sub] (linksOf (R ++ [sub]) S es)
    (by simpa using fun h : "Cellar" = sub => hsub h.symm)
    (fun p hp => by
      obtain ⟨e, _, hk⟩ := key_linksOf hp
      exact ⟨sub, e, List.mem_singleton_self _, hk⟩)
  exact ⟨a1, a2, a3, a4, fun sub2 e hne => a5 sub2 e (by simpa using hne)⟩

/-- When the loop over the directories of the keg succeeds, every entry of each of them
is linked. -/
theorem linkSubdirs_shape (R tail : List String) (cellarPath name : String) (opts : LinkOpts)
    (hpR : ∀ n ∈ R, Proper n) (hpT : ∀ n ∈ tail, Proper n) (hdry : opts.DryRun = false) :
    ∀ (subs : List String) (fs fs1 : FS),
      (∀ sub ∈ subs, Proper sub ∧ sub ≠ "Cellar") →
      fs.PlainDir (R ++ "Cellar" :: tail) →
      (∀ sub ∈ subs, fs.PlainDir (R ++ [sub])) →
      (∀ sub ∈ subs, ∀ t, fs.find (R ++ "Cellar" :: tail ++ [sub]) ≠ some (.symlink t)) →
      (∀ sub ∈ subs, ∀ e ∈ entriesAt fs (R ++ "Cellar" :: tail ++ [sub]), Proper e) →
      linkSubdirs cellarPath name opts (subs.map (fun sub =>
        (FS.pathOf (R ++ "Cellar" :: tail ++ [sub]), FS.pathOf (R ++ [sub])))) fs = .ok fs1 →
      fs1 = fs.putAll (sharedLinks fs R (R ++ "Cellar" :: tail) subs) := by
  have hpK : ∀ n ∈ R ++ "Cellar" :: tail, Proper n := by
    intro n hn
    rw [List.mem_append, List.mem_cons] at hn
    rcases hn with h | h | h
    · exact hpR n h
    · rw [h]; decide
    · exact hpT n h
  intro subs
  induction subs with
  | nil =>
    intro fs fs1 _ _ _ _ _ h
    rw [List.map_nil, linkSubdirs_nil] at h
    injection h with h
    rw [sharedLinks_nil, FS.putAll_nil]
    exact h.symm
  | cons sub subs ih =>
    intro fs fs1 hsubs hK hB hl hpe h
    have hs := hsubs sub (List.mem_cons_self _ _)
    rw [List.map_cons, linkSubdirs_cons] at h
    simp only at h
    cases hd : linkDirWithOpts (FS.pathOf (R ++ "Cellar" :: tail ++ [sub])) (FS.pathOf (R ++ [sub]))
        cellarPath name opts fs with
    | error x => rw [hd] at h; cases h
    | ok fsA =>
      rw [hd] at h
      simp only at h
      have hA := linkDir_shape fs fsA (R ++ [sub]) (R ++ "Cellar" :: tail) sub cellarPath name opts
        (hB sub (List.mem_cons_self _ _)) (proper_append hpR hs.1) hK hpK hs.1
        (hl sub (List.mem_cons_self _ _)) (hpe sub (List.mem_cons_self _ _)) hdry hd
      obtain ⟨a1, a2, a3, a4, _⟩ := after_links fs R tail sub (R ++ "Cellar" :: tail ++ [sub])
        (entriesAt fs (R ++ "Cellar" :: tail ++ [sub])) hs.2
      rw [← hA] at a1 a2 a3 a4
      have := ih fsA fs1 (fun x hx => hsubs x (List.mem_cons_of_mem _ hx)) (a1 hK)
        (fun x hx => a2 x (hB x (List.mem_cons_of_mem _ hx)))
        (fun x hx t => by rw [a3 x]; exact hl x (List.mem_cons_of_mem _ hx) t)
        (fun x hx e he => hpe x (List.mem_cons_of_mem _ hx) e (by rw [← a4 x]; exact he)) h
      rw [this, sharedLinks_cons, FS.putAll_append,
        sharedLinks_congr fsA fs R _ subs (fun x _ => a4 x), hA]

end Linker

/-! ## The linker: `LinkWithOpts` in a prefix -/

namespace Linker

open Os Filepath

/-- When every entry of every directory of the keg is taken by a link of the package
itself, the loop over the directories succeeds. -/
theorem linkSubdirs_again (R tail : List String) (cellarPath name : String) (opts : LinkOpts)
    (hpR : ∀ n ∈ R, Proper n) (hpT : ∀ n ∈ tail, Proper n) (hdry : opts.DryRun = false) :
    ∀ (subs : List String) (fs : FS),
      (∀ sub ∈ subs, Proper sub ∧ sub ≠ "Cellar") → subs.Nodup →
      fs.PlainDir (R ++ "Cellar" :: tail) →
      (∀ sub ∈ subs, fs.PlainDir (R ++ [sub])) →
      (∀ sub ∈ subs, fs.find (R ++ "Cellar" :: tail ++ [sub]) = none ∨
        fs.isDirAt (R ++ "Cellar" :: tail ++ [sub]) = true) →
      (∀ sub ∈ subs, ∀ e ∈ entriesAt fs (R ++ "Cellar" :: tail ++ [sub]), Proper e) →
      (∀ sub ∈ subs, ∀ e ∈ entriesAt fs (R ++ "Cellar" :: tail ++ [sub]),
        ∃ t, fs.find (R ++ [sub] ++ [e]) = some (.symlink t) ∧
          isOwnedBy cellarPath name (FS.pathOf (R ++ [sub])) t = true) →
      linkSubdirs cellarPath name opts (subs.map (fun sub =>
        (FS.pathOf (R ++ "Cellar" :: tail ++ [sub]), FS.pathOf (R ++ [sub])))) fs =
        .ok (fs.putAll (sharedLinks fs R (R ++ "Cellar" :: tail) subs)) := by
  have hpK : ∀ n ∈ R ++ "Cellar" :: tail, Proper n := by
    intro n hn
    rw [List.mem_append, List.mem_cons] at hn
    rcases hn with h | h | h
    · exact hpR n h
    · rw [h]; decide
    · exact hpT n h
  intro subs
  induction subs with
  | nil => intro fs _ _ _ _ _ _ _; rfl
  | cons sub subs ih =>
    intro fs hsubs hnd hK hB hkeg hpe hown
    have hs := hsubs sub (List.mem_cons_self _ _)
    rw [List.nodup_cons] at hnd
    have hl : ∀ t, fs.find (R ++ "Cellar" :: tail ++ [sub]) ≠ some (.symlink t) := by
      intro t ht
      rcases hkeg sub (List.mem_cons_self _ _) with h | h
      · rw [h] at ht; cases ht
      · obtain ⟨perm, hp⟩ := (isDirAt_iff _ _).mp h
        rw [hp] at ht; cases ht
    have hf : ∀ perm data, fs.find (R ++ "Cellar" :: tail ++ [sub]) ≠ some (.file perm data) := by
      intro perm data ht
      rcases hkeg sub (List.mem_cons_self _ _) with h | h
      · rw [h] at ht; cases ht
      · obtain ⟨perm2, hp⟩ := (isDirAt_iff _ _).mp h
        rw [hp] at ht; cases ht
    have hd := linkDir_again fs (R ++ [sub]) (R ++ "Cellar" :: tail) sub cellarPath name opts
      (hB sub (List.mem_cons_self _ _)) (proper_append hpR hs.1) hK hpK hs.1 hl hf
      (hpe sub (List.mem_cons_self _ _)) hdry (hown sub (List.mem_cons_self _ _))
    rw [List.map_cons, linkSubdirs_cons]
    simp only
    rw [hd]
    simp only
    obtain ⟨a1, a2, a3, a4, a5⟩ := after_links fs R tail sub (R ++ "Cellar" :: tail ++ [sub])
      (entriesAt fs (R ++ "Cellar" :: tail ++ [sub])) hs.2
    rw [ih _ (fun x hx => hsubs x (List.mem_cons_of_mem _ hx)) hnd.2 (a1 hK)
      (fun x hx => a2 x (hB x (List.mem_cons_of_mem _ hx)))
      (fun x hx => by
        rw [a3 x]
        unfold FS.isDirAt
        rw [a3 x]
        exact hkeg x (List.mem_cons_of_mem _ hx))
      (fun x hx e he => hpe x (List.mem_cons_of_mem _ hx) e (by rw [← a4 x]; exact he))
      (fun x hx e he => by
        have hne : x ≠ sub := fun h => hnd.1 (h ▸ hx)
        rw [a5 x e hne]
        exact hown x (List.mem_cons_of_mem _ hx) e (by rw [← a4 x]; exact he))]
    rw [sharedLinks_cons, FS.putAll_append, sharedLinks_congr _ fs R _ subs (fun x _ => a4 x)]

/-- The names of the linked directories are proper and none is `Cellar`. -/
theorem subdirs_proper : ∀ sub ∈ subdirs, Proper sub ∧ sub ≠ "Cellar" := by decide

theorem subdirs_nodup : subdirs.Nodup := by decide

theorem proper_keg {R : List String} {name version : String} (hpR : ∀ n ∈ R, Proper n)
    (hn : Proper name) (hv : Proper version) : ∀ n ∈ R ++ ["Cellar", name, version], Proper n := by
  intro n h
  simp only [List.mem_append, List.mem_cons, List.mem_singleton, List.not_mem_nil,
    or_false] at h
  rcases h with h | h | h | h
  · exact hpR n h
  · rw [h]; decide
  · rw [h]; exact hn
  · rw [h]; exact hv

/-- The path of the keg in a prefix. -/
theorem kegPath_eq (paths : Config.Paths) (R : List String) (name version : String)
    (hs : Standard paths R) (hn : Proper name) (hv : Proper version) :
    Join [paths.Cellar, name, version] = FS.pathOf (R ++ ["Cellar", name, version]) := by
  rw [hs.cellar, Join3_pathOf _ name version (proper_append hs.proper (by decide)) hn hv]
  simp

/-- The checks of `LinkWithOpts` on a keg that is a plain directory pass. -/
theorem keg_checks (paths : Config.Paths) (R : List String) (name version : String) (fs : FS)
    (hs : Standard paths R) (hn : Proper name) (hv : Proper version)
    (hK : fs.PlainDir (R ++ ["Cellar", name, version])) :
    EvalSymlinks fs (FS.pathOf (R ++ ["Cellar", name, version])) =
        .ok (FS.pathOf (R ++ ["Cellar", name, version])) ∧
      EvalSymlinks fs paths.Cellar = .ok (FS.pathOf (R ++ ["Cellar"])) ∧
      HasPrefix (FS.pathOf (R ++ ["Cellar", name, version])) (FS.pathOf (R ++ ["Cellar"]) ++ "/") =
        true := by
  refine ⟨EvalSymlinks_plain fs _ hK (proper_keg hs.proper hn hv), ?_, ?_⟩
  · rw [hs.cellar]
    apply EvalSymlinks_plain fs _ _ (proper_append hs.proper (by decide))
    apply hK.ofInit
    exact ⟨[name, version], by simp⟩
  · have := hasPrefix_pathOf_append (R ++ ["Cellar"]) [name, version] (by simp) (by simp)
    simpa using this

/-- The pairs of directories over which `LinkWithOpts` runs. -/
theorem subdirs_eq (paths : Config.Paths) (R : List String) (name version : String)
    (hs : Standard paths R) (hn : Proper name) (hv : Proper version) :
    [(Join [FS.pathOf (R ++ ["Cellar", name, version]), "bin"], paths.Bin),
      (Join [FS.pathOf (R ++ ["Cellar", name, version]), "lib"], paths.Lib),
      (Join [FS.pathOf (R ++ ["Cellar", name, version]), "include"], paths.Include)] =
    subdirs.map (fun sub =>
      (FS.pathOf (R ++ "Cellar" :: [name, version] ++ [sub]), FS.pathOf (R ++ [sub]))) := by
  have hpK := proper_keg hs.proper hn hv
  rw [Join_pathOf _ "bin" hpK (by decide), Join_pathOf _ "lib" hpK (by decide),
    Join_pathOf _ "include" hpK (by decide), hs.bin, hs.lib, hs.incl]
  rfl

/-- When the link in `opt` cannot be created, `LinkWithOpts` returns the error. -/
theorem link_of_opt_error (paths : Config.Paths) (R : List String) (name version : String)
    (opts : LinkOpts) (fs : FS) (err : Errno) (hs : Standard paths R)
    (hn : Validation.IsValidName name = true) (hv : Validation.IsValidVersion version = true)
    (hK : fs.PlainDir (R ++ ["Cellar", name, version])) (hdry : opts.DryRun = false)
    (h : Symlink (removeIgnoringError fs (FS.pathOf (R ++ ["opt"] ++ [name])))
      (FS.pathOf (R ++ ["Cellar", name, version])) (FS.pathOf (R ++ ["opt"] ++ [name])) =
        .error err) :
    LinkWithOpts paths name version opts fs =
      .error (.optLink err, removeIgnoringError fs (FS.pathOf (R ++ ["opt"] ++ [name]))) := by
  have hpn := proper_of_validName hn
  have hpv := proper_of_validVersion hv
  obtain ⟨c1, c2, c3⟩ := keg_checks paths R name version fs hs hpn hpv hK
  unfold LinkWithOpts
  simp only [hn, hv, Bool.true_eq_false, Bool.false_eq_true, or_self, if_false,
    kegPath_eq paths R name version hs hpn hpv, c1, c2, c3, hdry, hs.opt,
    Join_pathOf (R ++ ["opt"]) name (proper_append hs.proper (by decide)) hpn, h]

/-- When the link in `opt` is created, `LinkWithOpts` goes on with the directories of the
keg unless the package is keg-only and linking is not forced. -/
theorem link_of_opt_ok (paths : Config.Paths) (R : List String) (name version : String)
    (opts : LinkOpts) (fs fsA : FS) (hs : Standard paths R)
    (hn : Validation.IsValidName name = true) (hv : Validation.IsValidVersion version = true)
    (hK : fs.PlainDir (R ++ ["Cellar", name, version])) (hdry : opts.DryRun = false)
    (h : Symlink (removeIgnoringError fs (FS.pathOf (R ++ ["opt"] ++ [name])))
      (FS.pathOf (R ++ ["Cellar", name, version])) (FS.pathOf (R ++ ["opt"] ++ [name])) =
        .ok fsA) :
    LinkWithOpts paths name version opts fs =
      if opts.KegOnly ∧ opts.Force = false then .ok fsA
      else linkSubdirs (FS.pathOf (R ++ ["Cellar"])) name opts (subdirs.map (fun sub =>
        (FS.pathOf (R ++ "Cellar" :: [name, version] ++ [sub]), FS.pathOf (R ++ [sub])))) fsA := by
  have hpn := proper_of_validName hn
  have hpv := proper_of_validVersion hv
  obtain ⟨c1, c2, c3⟩ := keg_checks paths R name version fs hs hpn hpv hK
  unfold LinkWithOpts
  simp only [hn, hv, Bool.true_eq_false, Bool.false_eq_true, or_self, if_false,
    kegPath_eq paths R name version hs hpn hpv, c1, c2, c3, hdry, hs.opt,
    Join_pathOf (R ++ ["opt"]) name (proper_append hs.proper (by decide)) hpn, h,
    subdirs_eq paths R name version hs hpn hpv]
  rw [hs.cellar]

/-- The link in `opt` is created in place of what was there, or, when a directory that
is not empty lies there, the step fails and changes nothing. -/
theorem optStep_cases (fs : FS) (R : List String) (name target : String)
    (hpR : ∀ n ∈ R, Proper n) (hn : Proper name) (hO : fs.PlainDir (R ++ ["opt"])) :
    (fs.Removable (R ++ ["opt"] ++ [name]) ∧
      Symlink (removeIgnoringError fs (FS.pathOf (R ++ ["opt"] ++ [name]))) target
        (FS.pathOf (R ++ ["opt"] ++ [name])) =
          .ok (fs.put (R ++ ["opt"] ++ [name]) (.symlink target))) ∨
    (¬ fs.Removable (R ++ ["opt"] ++ [name]) ∧
      removeIgnoringError fs (FS.pathOf (R ++ ["opt"] ++ [name])) = fs ∧
      Symlink (removeIgnoringError fs (FS.pathOf (R ++ ["opt"] ++ [name]))) target
        (FS.pathOf (R ++ ["opt"] ++ [name])) = .error .EEXIST) := by
  have hpO : ∀ n ∈ R ++ ["opt"], Proper n := proper_append hpR (by decide)
  by_cases hr : fs.Removable (R ++ ["opt"] ++ [name])
  · exact Or.inl ⟨hr, relink_ok fs _ name target hO hpO hn hr⟩
  · right
    refine ⟨hr, ?_⟩
    unfold FS.Removable at hr
    push_neg at hr
    obtain ⟨hdir, hc⟩ := hr
    obtain ⟨perm, hperm⟩ := (isDirAt_iff _ _).mp hdir
    obtain ⟨h1, h2⟩ := relink_fail fs _ name target perm hO hpO hn hperm (by simpa using hc)
    exact ⟨h1, by rw [h1]; exact h2⟩

/-- The locations of the links of the plan: entries of `opt` and of the shared
directories. -/
theorem key_sharedLinks {fs : FS} {R K : List String} {subs : List String}
    {p : List String × Node} (h : p ∈ sharedLinks fs R K subs) :
    ∃ s e, s ∈ subs ∧ e ∈ entriesAt fs (K ++ [s]) ∧
      p = (R ++ s :: [e], Node.symlink (FS.pathOf (K ++ [s] ++ [e]))) := by
  unfold sharedLinks at h
  rw [List.mem_flatMap] at h
  obtain ⟨s, hs, hp⟩ := h
  obtain ⟨e, he, rfl⟩ := mem_linksOf hp
  exact ⟨s, e, hs, he, by simp⟩

theorem mem_sharedLinks {fs : FS} {R K : List String} {subs : List String} {s e : String}
    (hs : s ∈ subs) (he : e ∈ entriesAt fs (K ++ [s])) :
    (R ++ [s] ++ [e], Node.symlink (FS.pathOf (K ++ [s] ++ [e]))) ∈ sharedLinks fs R K subs := by
  unfold sharedLinks
  rw [List.mem_flatMap]
  refine ⟨s, hs, ?_⟩
  unfold linksOf
  exact List.mem_map.mpr ⟨e, he, rfl⟩

theorem key_linkPlan {fs : FS} {R : List String} {name version : String} {opts : LinkOpts}
    {p : List String × Node} (h : p ∈ linkPlan fs R name version opts) :
    ∃ s e, s ∈ "opt" :: subdirs ∧ p.1 = R ++ s :: [e] := by
  unfold linkPlan at h
  rcases List.mem_cons.mp h with h | h
  · exact ⟨"opt", name, List.mem_cons_self _ _, by rw [h]⟩
  · split at h
    · cases h
    · obtain ⟨s, e, hs, _, rfl⟩ := key_sharedLinks h
      exact ⟨s, e, List.mem_cons_of_mem _ hs, rfl⟩

theorem linksOf_keys_nodup (B S es : List String) (h : es.Nodup) :
    ((linksOf B S es).map Prod.fst).Nodup := by
  unfold linksOf
  rw [List.map_map]
  apply List.Nodup.map _ h
  intro a b hab
  simp only [Function.comp] at hab
  have := List.append_cancel_left hab
  simpa using this

theorem sharedLinks_keys_nodup (fs : FS) (R K : List String) (subs : List String)
    (h : subs.Nodup) : ((sharedLinks fs R K subs).map Prod.fst).Nodup := by
  induction subs with
  | nil => simp [sharedLinks_nil]
  | cons sub subs ih =>
    rw [List.nodup_cons] at h
    rw [sharedLinks_cons, List.map_append, List.nodup_append]
    refine ⟨linksOf_keys_nodup _ _ _ (entriesAt_nodup fs _), ih h.2, ?_⟩
    intro k hk1 hk2
    obtain ⟨p, hp, rfl⟩ := List.mem_map.mp hk1
    obtain ⟨q, hq, hpq⟩ := List.mem_map.mp hk2
    obtain ⟨e, _, hke⟩ := key_linksOf hp
    obtain ⟨s, e2, hs, _, rfl⟩ := key_sharedLinks hq
    simp only at hpq
    rw [hke] at hpq
    have := List.append_cancel_left hpq
    simp only [List.cons.injEq] at this
    exact h.1 (this.1 ▸ hs)

theorem linkPlan_keys_nodup (fs : FS) (R : List String) (name version : String)
    (opts : LinkOpts) : ((linkPlan fs R name version opts).map Prod.fst).Nodup := by
  unfold linkPlan
  rw [List.map_cons, List.nodup_cons]
  constructor
  · intro hk
    obtain ⟨q, hq, hpq⟩ := List.mem_map.mp hk
    split at hq
    · cases hq
    · obtain ⟨s, e2, hs, _, rfl⟩ := key_sharedLinks hq
      simp only at hpq
      have := List.append_cancel_left hpq
      simp only [List.cons.injEq] at this
      rw [this.1] at hs
      revert hs
      decide
  · split
    · simp
    · exact sharedLinks_keys_nodup fs R _ subdirs subdirs_nodup

/-- When `LinkWithOpts` succeeds in a prefix, the file system afterwards is the one before
with the links of the plan put into it. -/
theorem link_shape (paths : Config.Paths) (R : List String) (name version : String)
    (opts : LinkOpts) (fs fs1 : FS) (hs : Standard paths R)
    (hn : Validation.IsValidName name = true) (hv : Validation.IsValidVersion version = true)
    (hK : fs.PlainDir (R ++ ["Cellar", name, version])) (hO : fs.PlainDir (R ++ ["opt"]))
    (hB : ∀ sub ∈ subdirs, fs.PlainDir (R ++ [sub]))
    (hl : ∀ sub ∈ subdirs, ∀ t,
      fs.find (R ++ ["Cellar", name, version] ++ [sub]) ≠ some (.symlink t))
    (hpe : ∀ sub ∈ subdirs, ∀ e ∈ entriesAt fs (R ++ ["Cellar", name, version] ++ [sub]),
      Proper e)
    (hdry : opts.DryRun = false) (h : LinkWithOpts paths name version opts fs = .ok fs1) :
    fs1 = fs.putAll (linkPlan fs R name version opts) := by
  have hpn := proper_of_validName hn
  have hpv := proper_of_validVersion hv
  have hpT : ∀ n ∈ [name, version], Proper n := by
    intro n hn
    simp only [List.mem_cons, List.mem_singleton, List.not_mem_nil, or_false] at hn
    rcases hn with h | h
    · rw [h]; exact hpn
    · rw [h]; exact hpv
  rcases optStep_cases fs R name (FS.pathOf (R ++ ["Cellar", name, version])) hs.proper hpn hO
    with ⟨_, hopt⟩ | ⟨_, _, hopt⟩
  · rw [link_of_opt_ok paths R name version opts fs _ hs hn hv hK hdry hopt] at h
    obtain ⟨a1, a2, a3, a4, _⟩ := after_puts fs R [name, version] ["opt"]
      [(R ++ ["opt"] ++ [name], Node.symlink (FS.pathOf (R ++ ["Cellar", name, version])))]
      (by decide) (fun p hp => by
        rw [List.mem_singleton] at hp
        exact ⟨"opt", name, List.mem_singleton_self _, by rw [hp]; simp⟩)
    have hput : fs.putAll [(R ++ ["opt"] ++ [name],
        Node.symlink (FS.pathOf (R ++ ["Cellar", name, version])))] =
        fs.put (R ++ ["opt"] ++ [name])
          (.symlink (FS.pathOf (R ++ ["Cellar", name, version]))) := rfl
    rw [hput] at a1 a2 a3 a4
    unfold linkPlan
    rw [FS.putAll_cons]
    have hkey : R ++ ["opt", name] = R ++ ["opt"] ++ [name] := by simp
    simp only [hkey]
    by_cases hko : opts.KegOnly = true ∧ opts.Force = false
    · rw [if_pos hko] at h ⊢
      injection h with h
      rw [FS.putAll_nil]
      exact h.symm
    · rw [if_neg hko] at h ⊢
      have := linkSubdirs_shape R [name, version] (FS.pathOf (R ++ ["Cellar"])) name opts
        hs.proper hpT hdry subdirs _ fs1 subdirs_proper (a1 hK) (fun x hx => a2 x (hB x hx))
        (fun x hx t => by rw [a3 x]; exact hl x hx t)
        (fun x hx e he => hpe x hx e (by rw [← a4 x]; exact he)) h
      rw [this, sharedLinks_congr _ fs R _ subdirs (fun x _ => a4 x)]
  · rw [link_of_opt_error paths R name version opts fs _ hs hn hv hK hdry hopt] at h
    cases h

/-- When every link of the plan is already there, `LinkWithOpts` succeeds and puts the
links of the plan. -/
theorem link_again (paths : Config.Paths) (R : List String) (name version : String)
    (opts : LinkOpts) (fs : FS) (hs : Standard paths R)
    (hn : Validation.IsValidName name = true) (hv : Validation.IsValidVersion version = true)
    (hK : fs.PlainDir (R ++ ["Cellar", name, version])) (hO : fs.PlainDir (R ++ ["opt"]))
    (hB : ∀ sub ∈ subdirs, fs.PlainDir (R ++ [sub]))
    (hkeg : ∀ sub ∈ subdirs, fs.find (R ++ ["Cellar", name, version] ++ [sub]) = none ∨
      fs.isDirAt (R ++ ["Cellar", name, version] ++ [sub]) = true)
    (hpe : ∀ sub ∈ subdirs, ∀ e ∈ entriesAt fs (R ++ ["Cellar", name, version] ++ [sub]),
      Proper e)
    (hdry : opts.DryRun = false)
    (hthere : ∀ p ∈ linkPlan fs R name version opts, fs.find p.1 = some p.2) :
    LinkWithOpts paths name version opts fs =
      .ok (fs.putAll (linkPlan fs R name version opts)) := by
  have hpn := proper_of_validName hn
  have hpv := proper_of_validVersion hv
  have hpT : ∀ n ∈ [name, version], Proper n := by
    intro n hn
    simp only [List.mem_cons, List.mem_singleton, List.not_mem_nil, or_false] at hn
    rcases hn with h | h
    · rw [h]; exact hpn
    · rw [h]; exact hpv
  have hkey : R ++ ["opt", name] = R ++ ["opt"] ++ [name] := by simp
  have hoptThere : fs.find (R ++ ["opt"] ++ [name]) =
      some (.symlink (FS.pathOf (R ++ ["Cellar", name, version]))) := by
    rw [← hkey]
    exact hthere (R ++ ["opt", name], _) (by unfold linkPlan; exact List.mem_cons_self _ _)
  have hr : fs.Removable (R ++ ["opt"] ++ [name]) := by
    intro hdir
    obtain ⟨perm, hperm⟩ := (isDirAt_iff _ _).mp hdir
    rw [hoptThere] at hperm
    cases hperm
  have hopt := relink_ok fs (R ++ ["opt"]) name (FS.pathOf (R ++ ["Cellar", name, version])) hO
    (proper_append hs.proper (by decide)) hpn hr
  rw [link_of_opt_ok paths R name version opts fs _ hs hn hv hK hdry hopt]
  obtain ⟨a1, a2, a3, a4, a5⟩ := after_puts fs R [name, version] ["opt"]
    [(R ++ ["opt"] ++ [name], Node.symlink (FS.pathOf (R ++ ["Cellar", name, version])))]
    (by decide) (fun p hp => by
      rw [List.mem_singleton] at hp
      exact ⟨"opt", name, List.mem_singleton_self _, by rw [hp]; simp⟩)
  have hput : fs.putAll [(R ++ ["opt"] ++ [name],
      Node.symlink (FS.pathOf (R ++ ["Cellar", name, version])))] =
      fs.put (R ++ ["opt"] ++ [name])
        (.symlink (FS.pathOf (R ++ ["Cellar", name, version]))) := rfl
  rw [hput] at a1 a2 a3 a4 a5
  unfold linkPlan
  rw [FS.putAll_cons]
  simp only [hkey]
  by_cases hko : opts.KegOnly = true ∧ opts.Force = false
  · rw [if_pos hko, if_pos hko]
    rfl
  · rw [if_neg hko, if_neg hko]
    rw [linkSubdirs_again R [name, version] (FS.pathOf (R ++ ["Cellar"])) name opts hs.proper hpT
      hdry subdirs _ subdirs_proper subdirs_nodup (a1 hK) (fun x hx => a2 x (hB x hx))
      (fun x hx => by
        rw [a3 x]
        unfold FS.isDirAt
        rw [a3 x]
        exact hkeg x hx)
      (fun x hx e he => hpe x hx e (by rw [← a4 x]; exact he))
      (fun x hx e he => by
        have hne : x ∉ ["opt"] := by
          intro hm
          rw [List.mem_singleton] at hm
          rw [hm] at hx
          revert hx
          decide
        rw [a5 x e hne]
        rw [a4 x] at he
        have hm : (R ++ [x] ++ [e], Node.symlink
            (FS.pathOf (R ++ ["Cellar", name, version] ++ [x] ++ [e]))) ∈
            linkPlan fs R name version opts := by
          unfold linkPlan
          rw [if_neg hko]
          exact List.mem_cons_of_mem _ (mem_sharedLinks hx he)
        refine ⟨_, hthere _ hm, ?_⟩
        have hrest : R ++ ["Cellar", name, version] ++ [x] ++ [e] =
            (R ++ ["Cellar"]) ++ [name] ++ [version, x, e] := by simp
        rw [hrest]
        apply isOwnedBy_pathOf _ _ _ _ (proper_append hs.proper (by decide)) hpn _ (by simp)
        intro n hn
        simp only [List.mem_cons, List.mem_singleton, List.not_mem_nil, or_false] at hn
        rcases hn with h | h | h
        · rw [h]; exact hpv
        · rw [h]; exact (subdirs_proper x hx).1
        · rw [h]; exact hpe x hx e he)]
    rw [sharedLinks_congr _ fs R _ subdirs (fun x _ => a4 x)]

end Linker

/-! ## The linker: `UnlinkWithOpts` in a prefix -/

namespace Os

namespace FS

theorem eraseAll_nil (fs : FS) : fs.eraseAll [] = fs := rfl

theorem eraseAll_cons (fs : FS) (loc : List String) (locs : List (List String)) :
    fs.eraseAll (loc :: locs) = (fs.erase loc).eraseAll locs := rfl

theorem eraseAll_append (fs : FS) (as bs : List (List String)) :
    fs.eraseAll (as ++ bs) = (fs.eraseAll as).eraseAll bs := by
  unfold eraseAll
  rw [List.foldl_append]

theorem find_eraseAll_of_not_mem (fs : FS) (locs : List (List String)) (l : List String)
    (h : l ∉ locs) : (fs.eraseAll locs).find l = fs.find l := by
  induction locs generalizing fs with
  | nil => rfl
  | cons a rest ih =>
    rw [eraseAll_cons, ih _ (fun x => h (List.mem_cons_of_mem _ x)),
      find_erase_ne _ _ _ (fun e => h (by rw [e]; exact List.mem_cons_self _ _))]

theorem find_eraseAll_of_mem (fs : FS) (locs : List (List String)) (l : List String)
    (hl : l ≠ []) (h : l ∈ locs) : (fs.eraseAll locs).find l = none := by
  induction locs generalizing fs with
  | nil => cases h
  | cons a rest ih =>
    rw [eraseAll_cons]
    by_cases hr : l ∈ rest
    · exact ih _ hr
    · rcases List.mem_cons.mp h with h1 | h1
      · rw [find_eraseAll_of_not_mem _ _ _ hr, h1]
        exact find_erase_self _ _ (h1 ▸ hl)
      · exact absurd h1 hr

theorem PlainDir.eraseAll {fs : FS} {D : List String} (h : fs.PlainDir D)
    (locs : List (List String)) (hn : ∀ loc ∈ locs, ¬ loc <+: D) : (fs.eraseAll locs).PlainDir D := by
  induction locs generalizing fs with
  | nil => exact h
  | cons a rest ih =>
    rw [eraseAll_cons]
    exact ih (h.erase a (hn a (List.mem_cons_self _ _)))
      (fun q hq => hn q (List.mem_cons_of_mem _ hq))

end FS

/-- What `os.Remove` with its error dropped does at an entry of a plain directory: the
entry is erased, or nothing is changed; a removable entry is not there afterwards. -/
theorem removeIgnoringError_child (fs : FS) (D : List String) (e : String) (hD : fs.PlainDir D)
    (hp : ∀ n ∈ D, Proper n) (he : Proper e) :
    (removeIgnoringError fs (FS.pathOf (D ++ [e])) = fs.erase (D ++ [e]) ∨
      removeIgnoringError fs (FS.pathOf (D ++ [e])) = fs) ∧
    (fs.Removable (D ++ [e]) →
      (removeIgnoringError fs (FS.pathOf (D ++ [e]))).find (D ++ [e]) = none) := by
  unfold removeIgnoringError
  cases hf : fs.find (D ++ [e]) with
  | none =>
    rw [Remove_child_none fs D e hD hp he hf]
    exact ⟨Or.inr rfl, fun _ => hf⟩
  | some n =>
    cases n with
    | dir perm =>
      rw [Remove_child_dir fs D e perm hD hp he hf]
      by_cases hc : fs.hasChildren (D ++ [e]) = true
      · rw [if_pos hc]
        refine ⟨Or.inr rfl, fun hr => ?_⟩
        rw [hr ((isDirAt_iff _ _).mpr ⟨perm, hf⟩)] at hc
        cases hc
      · rw [if_neg hc]
        exact ⟨Or.inl rfl, fun _ => FS.find_erase_self _ _ (by simp)⟩
    | file perm data =>
      rw [Remove_child fs D e _ hD hp he hf rfl]
      exact ⟨Or.inl rfl, fun _ => FS.find_erase_self _ _ (by simp)⟩
    | symlink t =>
      rw [Remove_child fs D e _ hD hp he hf rfl]
      exact ⟨Or.inl rfl, fun _ => FS.find_erase_self _ _ (by simp)⟩

end Os

namespace Linker

open Os Filepath

/-- The body of the loop of `UnlinkWithOpts`: an entry that points into the store of the
package is erased, any other one is left. -/
theorem unlinkEntry_eq (fs : FS) (B : List String) (cellarPrefix : String) (opts : UnlinkOpts)
    (e : String) (hB : fs.PlainDir B) (hpB : ∀ n ∈ B, Proper n) (he : Proper e)
    (hdry : opts.DryRun = false) :
    unlinkEntry cellarPrefix (FS.pathOf B) opts e fs =
      if pointsInto fs B cellarPrefix e = true then fs.erase (B ++ [e]) else fs := by
  unfold unlinkEntry pointsInto
  simp only [Join_pathOf B e hpB he]
  cases hf : fs.find (B ++ [e]) with
  | none =>
    obtain ⟨err, h⟩ := Readlink_child_error fs B e hB hpB he (by rw [hf]; intro t ht; cases ht)
    rw [h]
    simp
  | some n =>
    cases n with
    | dir perm =>
      obtain ⟨err, h⟩ := Readlink_child_error fs B e hB hpB he (by rw [hf]; intro t ht; cases ht)
      rw [h]
      simp
    | file perm data =>
      obtain ⟨err, h⟩ := Readlink_child_error fs B e hB hpB he (by rw [hf]; intro t ht; cases ht)
      rw [h]
      simp
    | symlink t =>
      rw [Readlink_child fs B e t hB hpB he hf]
      simp only [hdry, Bool.false_eq_true, if_false]
      by_cases hpre : HasPrefix (resolveLink (FS.pathOf B) t) cellarPrefix = true
      · rw [if_pos hpre, if_pos hpre]
        unfold removeIgnoringError
        rw [Remove_child fs B e _ hB hpB he hf rfl]
      · rw [if_neg hpre, if_neg hpre]

theorem pointsInto_erase (fs : FS) (B : List String) (cellarPrefix : String) (loc : List String)
    (e : String) (h : B ++ [e] ≠ loc) :
    pointsInto (fs.erase loc) B cellarPrefix e = pointsInto fs B cellarPrefix e := by
  unfold pointsInto
  rw [FS.find_erase_ne _ _ _ h]

/-- The loop over the entries of a shared directory erases those that point into the
store of the package. -/
theorem unlinkLoop_eq (B : List String) (cellarPrefix : String) (opts : UnlinkOpts)
    (hpB : ∀ n ∈ B, Proper n) (hdry : opts.DryRun = false) :
    ∀ (es : List String) (fs : FS), fs.PlainDir B → es.Nodup → (∀ e ∈ es, Proper e) →
      es.foldl (fun fs1 entry => unlinkEntry cellarPrefix (FS.pathOf B) opts entry fs1) fs =
        fs.eraseAll ((es.filter (pointsInto fs B cellarPrefix)).map (fun e => B ++ [e])) := by
  intro es
  induction es with
  | nil => intro fs _ _ _; rfl
  | cons e es ih =>
    intro fs hB hnd hpe
    rw [List.nodup_cons] at hnd
    have he := hpe e (List.mem_cons_self _ _)
    rw [List.foldl_cons, unlinkEntry_eq fs B cellarPrefix opts e hB hpB he hdry]
    have hcongr : ∀ loc, loc = B ++ [e] →
        es.filter (pointsInto (fs.erase loc) B cellarPrefix) =
          es.filter (pointsInto fs B cellarPrefix) := by
      intro loc hloc
      apply List.filter_congr
      intro x hx
      apply pointsInto_erase
      rw [hloc]
      intro h
      have := List.append_cancel_left h
      simp only [List.cons.injEq, and_true] at this
      exact hnd.1 (this ▸ hx)
    by_cases hpt : pointsInto fs B cellarPrefix e = true
    · rw [if_pos hpt, ih _ (hB.erase _ (not_prefix_child B e)) hnd.2
        (fun x hx => hpe x (List.mem_cons_of_mem _ hx)), hcongr _ rfl,
        List.filter_cons_of_pos hpt, List.map_cons, FS.eraseAll_cons]
    · rw [if_neg hpt, ih _ hB hnd.2 (fun x hx => hpe x (List.mem_cons_of_mem _ hx)),
        List.filter_cons_of_neg hpt]

/-- The body of the outer loop of `UnlinkWithOpts` for a shared directory. -/
theorem unlinkDir_eq (fs : FS) (B : List String) (cellarPrefix : String) (opts : UnlinkOpts)
    (hB : fs.PlainDir B) (hpB : ∀ n ∈ B, Proper n) (hpe : ∀ e ∈ fs.children B, Proper e)
    (hdry : opts.DryRun = false) :
    unlinkDir cellarPrefix opts fs (FS.pathOf B) = fs.eraseAll (unlinked fs B cellarPrefix) := by
  obtain ⟨entries, h1, h2⟩ := ReadDir_plain fs B hB hpB
  unfold unlinkDir
  rw [h1]
  simp only [h2]
  exact unlinkLoop_eq B cellarPrefix opts hpB hdry _ fs hB (children_nodup fs B) hpe

theorem key_unlinked {fs : FS} {B : List String} {cellarPrefix : String} {loc : List String}
    (h : loc ∈ unlinked fs B cellarPrefix) :
    ∃ e, loc = B ++ [e] ∧ pointsInto fs B cellarPrefix e = true := by
  unfold unlinked at h
  obtain ⟨e, he, rfl⟩ := List.mem_map.mp h
  exact ⟨e, rfl, (List.mem_filter.mp he).2⟩

theorem mem_unlinked {fs : FS} {B : List String} {cellarPrefix : String} {e : String}
    (h : pointsInto fs B cellarPrefix e = true) : B ++ [e] ∈ unlinked fs B cellarPrefix := by
  unfold unlinked
  apply List.mem_map.mpr
  refine ⟨e, List.mem_filter.mpr ⟨?_, h⟩, rfl⟩
  rw [mem_children_iff_find]
  unfold pointsInto at h
  cases hf : fs.find (B ++ [e]) with
  | none => rw [hf] at h; cases h
  | some n => rfl

/-- Two file systems in which the same objects are found in a shared directory have the
same entries to unlink there. -/
theorem unlinked_congr (fs1 fs2 : FS) (B : List String) (cellarPrefix : String)
    (h : ∀ e, fs1.find (B ++ [e]) = fs2.find (B ++ [e])) :
    unlinked fs1 B cellarPrefix = unlinked fs2 B cellarPrefix := by
  unfold unlinked
  rw [children_congr fs1 fs2 B (fun n => by rw [h n])]
  congr 1
  apply List.filter_congr
  intro x _
  unfold pointsInto
  rw [h x]

theorem pointsInto_iff (fs : FS) (B : List String) (cellarPrefix e : String) :
    pointsInto fs B cellarPrefix e = true ↔
      ∃ t, fs.find (B ++ [e]) = some (.symlink t) ∧
        HasPrefix (resolveLink (FS.pathOf B) t) cellarPrefix = true := by
  unfold pointsInto
  cases hf : fs.find (B ++ [e]) with
  | none => simp
  | some n => cases n <;> simp

/-- What stays as it is when entries of one directory of the prefix are erased: the
other directories of the prefix and what is found in them. -/
theorem after_erases (fs : FS) (R : List String) (sub : String) (locs : List (List String))
    (hk : ∀ loc ∈ locs, ∃ e, loc = R ++ [sub] ++ [e]) :
    (∀ sub2, fs.PlainDir (R ++ [sub2]) → (fs.eraseAll locs).PlainDir (R ++ [sub2])) ∧
    (∀ sub2 e, sub2 ≠ sub → (fs.eraseAll locs).find (R ++ [sub2] ++ [e]) =
      fs.find (R ++ [sub2] ++ [e])) := by
  constructor
  · intro sub2 h
    apply h.eraseAll
    intro loc hloc
    obtain ⟨e, rfl⟩ := hk loc hloc
    intro hpre
    have := hpre.length_le
    simp at this
  · intro sub2 e hne
    apply FS.find_eraseAll_of_not_mem
    intro hm
    obtain ⟨e2, h⟩ := hk _ hm
    rw [List.append_assoc, List.append_assoc] at h
    have := List.append_cancel_left h
    simp only [List.singleton_append, List.cons.injEq] at this
    exact hne this.1

/-- The loop of `UnlinkWithOpts` over the shared directories erases, in each of them, the
entries that point into the store of the package. -/
theorem unlinkDirs_eq (R : List String) (cellarPrefix : String) (opts : UnlinkOpts)
    (hpR : ∀ n ∈ R, Proper n) (hdry : opts.DryRun = false) :
    ∀ (subs : List String) (fs : FS), subs.Nodup → (∀ sub ∈ subs, Proper sub) →
      (∀ sub ∈ subs, fs.PlainDir (R ++ [sub])) →
      (∀ sub ∈ subs, ∀ e ∈ fs.children (R ++ [sub]), Proper e) →
      (subs.map (fun sub => FS.pathOf (R ++ [sub]))).foldl (unlinkDir cellarPrefix opts) fs =
        fs.eraseAll (subs.flatMap (fun sub => unlinked fs (R ++ [sub]) cellarPrefix)) := by
  intro subs
  induction subs with
  | nil => intro fs _ _ _ _; rfl
  | cons sub subs ih =>
    intro fs hnd hps hB hpe
    rw [List.nodup_cons] at hnd
    rw [List.map_cons, List.foldl_cons,
      unlinkDir_eq fs (R ++ [sub]) cellarPrefix opts (hB sub (List.mem_cons_self _ _))
        (proper_append hpR (hps sub (List.mem_cons_self _ _)))
        (hpe sub (List.mem_cons_self _ _)) hdry]
    obtain ⟨a1, a2⟩ := after_erases fs R sub (unlinked fs (R ++ [sub]) cellarPrefix)
      (fun loc hloc => by
        obtain ⟨e, he, _⟩ := key_unlinked hloc
        exact ⟨e, he⟩)
    have hne : ∀ x ∈ subs, x ≠ sub := fun x hx h => hnd.1 (h ▸ hx)
    rw [ih _ hnd.2 (fun x hx => hps x (List.mem_cons_of_mem _ hx))
      (fun x hx => a1 x (hB x (List.mem_cons_of_mem _ hx)))
      (fun x hx e he => hpe x (List.mem_cons_of_mem _ hx) e (by
        rw [children_congr _ fs (R ++ [x]) (fun n => by rw [a2 x n (hne x hx)])] at he
        exact he))]
    rw [List.flatMap_cons, FS.eraseAll_append]
    congr 1
    apply List.flatMap_congr
    intro x hx
    exact unlinked_congr _ fs (R ++ [x]) cellarPrefix (fun e => a2 x e (hne x hx))

theorem children_proper (fs : FS) (D : List String) (hn : fs.ProperNames) :
    ∀ e ∈ fs.children D, Proper e := by
  intro e he
  obtain ⟨x, hx⟩ := (mem_children fs D e).mp he
  exact hn _ hx e (by simp)

/-- The result of `UnlinkWithOpts` in a prefix: `os.Remove` on `opt/name`, then the
entries of the shared directories that point into the store of the package erased. -/
theorem unlink_eq (paths : Config.Paths) (R : List String) (name : String) (opts : UnlinkOpts)
    (fs : FS) (hs : Standard paths R) (hn : Validation.IsValidName name = true)
    (hnames : fs.ProperNames) (hO : fs.PlainDir (R ++ ["opt"]))
    (hB : ∀ sub ∈ subdirs, fs.PlainDir (R ++ [sub])) (hdry : opts.DryRun = false) :
    UnlinkWithOpts paths name opts fs =
      .ok ((removeIgnoringError fs (FS.pathOf (R ++ ["opt"] ++ [name]))).eraseAll
        (subdirs.flatMap (fun sub =>
          unlinked fs (R ++ [sub]) (Join [paths.Cellar, name] ++ "/")))) := by
  have hpn := proper_of_validName hn
  have hpO : ∀ n ∈ R ++ ["opt"], Proper n := proper_append hs.proper (by decide)
  obtain ⟨hcase, _⟩ := removeIgnoringError_child fs (R ++ ["opt"]) name hO hpO hpn
  have hfind : ∀ sub ∈ subdirs, ∀ e,
      (removeIgnoringError fs (FS.pathOf (R ++ ["opt"] ++ [name]))).find (R ++ [sub] ++ [e]) =
        fs.find (R ++ [sub] ++ [e]) := by
    intro sub hsub e
    rcases hcase with h | h
    · rw [h, FS.find_erase_ne]
      intro he
      rw [List.append_assoc, List.append_assoc] at he
      have := List.append_cancel_left he
      simp only [List.singleton_append, List.cons.injEq] at this
      rw [this.1] at hsub
      revert hsub
      decide
    · rw [h]
  have hplain : ∀ sub ∈ subdirs,
      (removeIgnoringError fs (FS.pathOf (R ++ ["opt"] ++ [name]))).PlainDir (R ++ [sub]) := by
    intro sub hsub
    rcases hcase with h | h
    · rw [h]
      apply (hB sub hsub).erase
      intro hpre
      have := hpre.length_le
      simp at this
    · rw [h]; exact hB sub hsub
  have hdirs : [paths.Bin, paths.Lib, paths.Include] =
      subdirs.map (fun sub => FS.pathOf (R ++ [sub])) := by
    rw [hs.bin, hs.lib, hs.incl]
    rfl
  unfold UnlinkWithOpts
  simp only [hn, Bool.true_eq_false, if_false, hdry, Bool.false_eq_true, hs.opt,
    Join_pathOf (R ++ ["opt"]) name hpO hpn, hdirs]
  rw [unlinkDirs_eq R _ opts hs.proper hdry subdirs _ subdirs_nodup
    (fun x hx => (subdirs_proper x hx).1) hplain
    (fun x hx e he => children_proper fs (R ++ [x]) hnames e (by
      rw [children_congr _ fs (R ++ [x]) (fun n => by rw [hfind x hx n])] at he
      exact he))]
  congr 2
  apply List.flatMap_congr
  intro x hx
  exact unlinked_congr _ fs (R ++ [x]) _ (fun e => hfind x hx e)

end Linker

/-! ## `os.Remove` with its error dropped, on a directory that is not empty -/

namespace Os

open Filepath

/-- An entry of a plain directory that `os.Remove` cannot remove, a directory that is not
empty, is left by `os.Remove` with its error dropped, and nothing is changed. -/
theorem removeIgnoringError_child_stays (fs : FS) (D : List String) (e : String)
    (hD : fs.PlainDir D) (hp : ∀ n ∈ D, Proper n) (he : Proper e)
    (h : ¬ fs.Removable (D ++ [e])) : removeIgnoringError fs (FS.pathOf (D ++ [e])) = fs := by
  unfold FS.Removable at h
  have hdir : fs.isDirAt (D ++ [e]) = true := by
    by_contra hc
    exact h (fun hd => absurd hd hc)
  have hch : fs.hasChildren (D ++ [e]) = true := by
    by_contra hc
    exact h (fun _ => by simpa using hc)
  obtain ⟨perm, hf⟩ := (isDirAt_iff _ _).mp hdir
  unfold removeIgnoringError
  rw [Remove_child_dir fs D e perm hD hp he hf, if_pos hch]

end Os

/-! ## The linker: names that are taken -/

namespace Os

theorem hasChildren_put (fs : FS) (loc l : List String) (n : Node) (h : loc <+: l → l = loc) :
    (fs.put l n).hasChildren loc = fs.hasChildren loc := by
  have h1 : (loc.isPrefixOf l && l != loc) = false := by
    by_cases hp : loc <+: l
    · rw [h hp]; simp
    · have : loc.isPrefixOf l = false := by
        rw [← Bool.not_eq_true, List.isPrefixOf_iff_prefix]
        exact hp
      rw [this]; rfl
  unfold FS.hasChildren FS.put
  simp only [List.any_cons, h1, Bool.false_or]
  rw [Bool.eq_iff_iff]
  simp only [List.any_eq_true, List.mem_filter]
  constructor
  · rintro ⟨x, ⟨hx, _⟩, hc⟩
    exact ⟨x, hx, hc⟩
  · rintro ⟨x, hx, hc⟩
    refine ⟨x, ⟨hx, ?_⟩, hc⟩
    simp only [ne_eq, decide_not, Bool.not_eq_true', decide_eq_false_iff_not]
    intro hxl
    rw [hxl, h1] at hc
    cases hc

theorem hasChildren_putAll (fs : FS) (ps : List (List String × Node)) (loc : List String)
    (h : ∀ p ∈ ps, loc <+: p.1 → p.1 = loc) :
    (fs.putAll ps).hasChildren loc = fs.hasChildren loc := by
  induction ps generalizing fs with
  | nil => rfl
  | cons p ps ih =>
    rw [FS.putAll_cons, ih _ (fun q hq => h q (List.mem_cons_of_mem _ hq)),
      hasChildren_put _ _ _ _ (h p (List.mem_cons_self _ _))]

end Os

namespace Linker

open Os Filepath

theorem blockedAt_congr (fs1 fs2 : FS) (B : List String) (cellarPath name : String)
    (opts : LinkOpts) (e : String) (hf : fs1.find (B ++ [e]) = fs2.find (B ++ [e]))
    (hc : fs1.hasChildren (B ++ [e]) = fs2.hasChildren (B ++ [e])) :
    blockedAt fs1 B cellarPath name opts e = blockedAt fs2 B cellarPath name opts e := by
  unfold blockedAt conflictAt FS.isDirAt
  rw [hf, hc]

/-- Objects put at other locations that are not deeper do not change whether an entry
stops the linking. -/
theorem blockedAt_putAll (fs : FS) (ps : List (List String × Node)) (B : List String)
    (cellarPath name : String) (opts : LinkOpts) (e : String)
    (h : ∀ p ∈ ps, p.1 ≠ B ++ [e] ∧ p.1.length ≤ (B ++ [e]).length) :
    blockedAt (fs.putAll ps) B cellarPath name opts e = blockedAt fs B cellarPath name opts e := by
  apply blockedAt_congr
  · exact FS.find_putAll_of_not_mem fs ps _ (fun p hp => (h p hp).1)
  · apply hasChildren_putAll
    intro p hp hpre
    exact absurd (List.IsPrefix.eq_of_length_le hpre (h p hp).2).symm (h p hp).1

/-- An entry that does not stop the linking is linked. -/
theorem linkEntry_unblocked (fs : FS) (B S : List String) (cellarPath name : String)
    (opts : LinkOpts) (e : String) (hB : fs.PlainDir B) (hpB : ∀ n ∈ B, Proper n)
    (hpS : ∀ n ∈ S, Proper n) (he : Proper e) (hdry : opts.DryRun = false)
    (hb : blockedAt fs B cellarPath name opts e = false) :
    linkEntry (FS.pathOf S) (FS.pathOf B) cellarPath name opts e fs =
      .ok (fs.put (B ++ [e]) (.symlink (FS.pathOf (S ++ [e])))) := by
  cases hf : fs.find (B ++ [e]) with
  | none => exact linkEntry_absent fs B S cellarPath name opts e hB hpB hpS he hdry hf
  | some n =>
    unfold blockedAt conflictAt FS.isDirAt at hb
    rw [hf] at hb
    cases n with
    | symlink t =>
      apply linkEntry_link fs B S cellarPath name opts e hB hpB hpS he hdry t hf
      simp only [Bool.false_and, Bool.or_false, Bool.and_eq_false_iff, Bool.not_eq_false',
        Bool.not_eq_false] at hb
      exact hb
    | dir perm =>
      simp only [Bool.true_and, Bool.or_eq_false_iff, Bool.not_eq_false'] at hb
      apply linkEntry_other_overwrite fs B S cellarPath name opts e hB hpB hpS he hdry _ hf
        (fun t ht => by cases ht) hb.1
      intro _
      exact hb.2
    | file perm data =>
      simp only [Bool.true_and, Bool.false_and, Bool.or_false, Bool.not_eq_false'] at hb
      apply linkEntry_other_overwrite fs B S cellarPath name opts e hB hpB hpS he hdry _ hf
        (fun t ht => by cases ht) hb
      intro hd
      unfold FS.isDirAt at hd
      rw [hf] at hd
      cases hd

/-- An entry that stops the linking: the error is returned and nothing is changed. -/
theorem linkEntry_blocked (fs : FS) (B S : List String) (cellarPath name : String)
    (opts : LinkOpts) (e : String) (hB : fs.PlainDir B) (hpB : ∀ n ∈ B, Proper n)
    (hpS : ∀ n ∈ S, Proper n) (he : Proper e) (hdry : opts.DryRun = false)
    (hb : blockedAt fs B cellarPath name opts e = true) :
    ∃ err, linkEntry (FS.pathOf S) (FS.pathOf B) cellarPath name opts e fs = .error (err, fs) ∧
      (opts.Overwrite = false → err = .linkedByOther e ∨ err = .notSymlink e) ∧
      (opts.Overwrite = true → err = .symlink .EEXIST) := by
  unfold blockedAt conflictAt FS.isDirAt at hb
  cases hf : fs.find (B ++ [e]) with
  | none => rw [hf] at hb; cases hb
  | some n =>
    rw [hf] at hb
    cases n with
    | symlink t =>
      simp only [Bool.false_and, Bool.or_false, Bool.and_eq_true, Bool.not_eq_true'] at hb
      refine ⟨_, linkEntry_link_conflict fs B S cellarPath name opts e hB hpB he hdry t hf
        hb.1 hb.2, fun _ => Or.inl rfl, fun h => ?_⟩
      rw [hb.2] at h
      cases h
    | dir perm =>
      simp only [Bool.true_and, Bool.or_eq_true, Bool.not_eq_true'] at hb
      by_cases hov : opts.Overwrite = true
      · rcases hb with hb | hb
        · rw [hov] at hb; cases hb
        · refine ⟨_, linkEntry_directory fs B S cellarPath name opts e hB hpB hpS he hdry perm
            hf hb hov, fun h => ?_, fun _ => rfl⟩
          rw [hov] at h
          cases h
      · have hov2 : opts.Overwrite = false := by simpa using hov
        exact ⟨_, linkEntry_other_conflict fs B S cellarPath name opts e hB hpB he hdry _ hf
          (fun t ht => by cases ht) hov2, fun _ => Or.inr rfl, fun h => absurd h hov⟩
    | file perm data =>
      simp only [Bool.true_and, Bool.false_and, Bool.or_false, Bool.not_eq_true'] at hb
      refine ⟨_, linkEntry_other_conflict fs B S cellarPath name opts e hB hpB he hdry _ hf
        (fun t ht => by cases ht) hb, fun _ => Or.inr rfl, fun h => ?_⟩
      rw [hb] at h
      cases h

end Linker

/-! ## The linker: the outcome of the loops -/

namespace Linker

open Os Filepath

/-- Objects put into other directories of the prefix do not change whether an entry of a
shared directory stops the linking. -/
theorem blockedAt_after (fs : FS) (ps : List (List String × Node)) (R : List String)
    (sub cellarPath name : String) (opts : LinkOpts) (e : String)
    (hk : ∀ p ∈ ps, ∃ s e2, s ≠ sub ∧ p.1 = R ++ s :: [e2]) :
    blockedAt (fs.putAll ps) (R ++ [sub]) cellarPath name opts e =
      blockedAt fs (R ++ [sub]) cellarPath name opts e := by
  apply blockedAt_putAll
  intro p hp
  obtain ⟨s, e2, hne, hk⟩ := hk p hp
  rw [hk]
  constructor
  · intro h
    rw [List.append_assoc] at h
    have := List.append_cancel_left h
    simp only [List.singleton_append, List.cons.injEq] at this
    exact hne this.1
  · simp

/-- The outcome of the loop over the entries: every entry is linked when none stops the
linking; otherwise the error of an entry that stops it is returned, and only entries that
do not stop it have been linked. -/
theorem linkEntries_outcome (B S : List String) (cellarPath name : String) (opts : LinkOpts)
    (hpB : ∀ n ∈ B, Proper n) (hpS : ∀ n ∈ S, Proper n) (hdry : opts.DryRun = false) :
    ∀ (es : List String) (fs : FS), fs.PlainDir B → (∀ e ∈ es, Proper e) → es.Nodup →
      ((∀ e ∈ es, blockedAt fs B cellarPath name opts e = false) ∧
        linkEntries (FS.pathOf S) (FS.pathOf B) cellarPath name opts es fs =
          .ok (fs.putAll (linksOf B S es))) ∨
      (∃ c ∈ es, blockedAt fs B cellarPath name opts c = true ∧ ∃ err done,
        linkEntries (FS.pathOf S) (FS.pathOf B) cellarPath name opts es fs =
          .error (err, fs.putAll (linksOf B S done)) ∧
        (∀ e ∈ done, e ∈ es ∧ blockedAt fs B cellarPath name opts e = false) ∧
        (opts.Overwrite = false → err = .linkedByOther c ∨ err = .notSymlink c) ∧
        (opts.Overwrite = true → err = .symlink .EEXIST)) := by
  intro es
  induction es with
  | nil => intro fs _ _ _; exact Or.inl ⟨(fun e he => by cases he), rfl⟩
  | cons e es ih =>
    intro fs hB hes hnd
    have he := hes e (List.mem_cons_self _ _)
    rw [List.nodup_cons] at hnd
    rw [linkEntries_cons]
    cases hb : blockedAt fs B cellarPath name opts e with
    | true =>
      right
      obtain ⟨err, h1, h2, h3⟩ :=
        linkEntry_blocked fs B S cellarPath name opts e hB hpB hpS he hdry hb
      refine ⟨e, List.mem_cons_self _ _, hb, err, [], ?_, (fun x hx => by cases hx), h2, h3⟩
      rw [h1]
      rfl
    | false =>
      rw [linkEntry_unblocked fs B S cellarPath name opts e hB hpB hpS he hdry hb]
      simp only
      have hframe : ∀ x ∈ es,
          blockedAt (fs.put (B ++ [e]) (.symlink (FS.pathOf (S ++ [e])))) B cellarPath name opts x =
            blockedAt fs B cellarPath name opts x := by
        intro x hx
        have := blockedAt_putAll fs [(B ++ [e], Node.symlink (FS.pathOf (S ++ [e])))] B
          cellarPath name opts x (by
            intro p hp
            rw [List.mem_singleton] at hp
            rw [hp]
            refine ⟨?_, by simp⟩
            intro h
            have := List.append_cancel_left h
            simp only [List.cons.injEq, and_true] at this
            exact hnd.1 (this ▸ hx))
        exact this
      rcases ih _ (hB.put _ _ (not_prefix_child B e))
        (fun x hx => hes x (List.mem_cons_of_mem _ hx)) hnd.2 with
        ⟨h1, h2⟩ | ⟨c, hc, hbc, err, done, h1, h2, h3, h4⟩
      · left
        refine ⟨?_, ?_⟩
        · intro x hx
          rcases List.mem_cons.mp hx with h | h
          · rw [h]; exact hb
          · rw [← hframe x h]; exact h1 x h
        · rw [h2, linksOf_cons, FS.putAll_cons]
      · right
        refine ⟨c, List.mem_cons_of_mem _ hc, by rw [← hframe c hc]; exact hbc, err, e :: done,
          ?_, ?_, h3, h4⟩
        · rw [h1, linksOf_cons, FS.putAll_cons]
        · intro x hx
          rcases List.mem_cons.mp hx with h | h
          · rw [h]; exact ⟨List.mem_cons_self _ _, hb⟩
          · exact ⟨List.mem_cons_of_mem _ (h2 x h).1, by
              rw [← hframe x (h2 x h).1]; exact (h2 x h).2⟩

/-- The outcome of `linkDirWithOpts` for a directory of a keg that is a directory or does
not exist. -/
theorem linkDir_outcome (fs : FS) (B K : List String) (sub cellarPath name : String)
    (opts : LinkOpts) (hB : fs.PlainDir B) (hpB : ∀ n ∈ B, Proper n) (hK : fs.PlainDir K)
    (hpK : ∀ n ∈ K, Proper n) (hs : Proper sub)
    (hl : ∀ t, fs.find (K ++ [sub]) ≠ some (.symlink t))
    (hf : ∀ perm data, fs.find (K ++ [sub]) ≠ some (.file perm data))
    (hpe : ∀ e ∈ entriesAt fs (K ++ [sub]), Proper e)
    (hdry : opts.DryRun = false) :
    ((∀ e ∈ entriesAt fs (K ++ [sub]), blockedAt fs B cellarPath name opts e = false) ∧
      linkDirWithOpts (FS.pathOf (K ++ [sub])) (FS.pathOf B) cellarPath name opts fs =
        .ok (fs.putAll (linksOf B (K ++ [sub]) (entriesAt fs (K ++ [sub]))))) ∨
    (∃ c ∈ entriesAt fs (K ++ [sub]), blockedAt fs B cellarPath name opts c = true ∧
      ∃ err done,
        linkDirWithOpts (FS.pathOf (K ++ [sub])) (FS.pathOf B) cellarPath name opts fs =
          .error (err, fs.putAll (linksOf B (K ++ [sub]) done)) ∧
        (∀ e ∈ done, e ∈ entriesAt fs (K ++ [sub]) ∧
          blockedAt fs B cellarPath name opts e = false) ∧
        (opts.Overwrite = false → err = .linkedByOther c ∨ err = .notSymlink c) ∧
        (opts.Overwrite = true → err = .symlink .EEXIST)) := by
  unfold linkDirWithOpts
  rcases ReadDir_keg fs K sub hK hpK hs hl with ⟨entries, h1, h2⟩ | ⟨h1, h2⟩ | h1
  · rw [h1]
    simp only [h2]
    exact linkEntries_outcome B (K ++ [sub]) cellarPath name opts hpB (proper_append hpK hs) hdry
      _ fs hB hpe (entriesAt_nodup fs _)
  · left
    rw [h1, h2, linksOf_nil, FS.putAll_nil]
    exact ⟨(fun e he => by cases he), rfl⟩
  · exfalso
    cases hfind : fs.find (K ++ [sub]) with
    | none =>
      rw [ReadDir_absent fs K sub hK hpK hs hfind] at h1
      cases h1
    | some n =>
      cases n with
      | dir perm =>
        have hd : fs.isDirAt (K ++ [sub]) = true := (isDirAt_iff _ _).mpr ⟨perm, hfind⟩
        obtain ⟨entries, h3, _⟩ := ReadDir_plain fs (K ++ [sub]) (hK.child sub hd)
          (proper_append hpK hs)
        rw [h3] at h1
        cases h1
      | file perm data => exact hf perm data hfind
      | symlink t => exact hl t hfind

/-- The outcome of the loop over the directories of the keg. -/
theorem linkSubdirs_outcome (R tail : List String) (cellarPath name : String) (opts : LinkOpts)
    (hpR : ∀ n ∈ R, Proper n) (hpT : ∀ n ∈ tail, Proper n) (hdry : opts.DryRun = false) :
    ∀ (subs : List String) (fs : FS),
      (∀ sub ∈ subs, Proper sub ∧ sub ≠ "Cellar") → subs.Nodup →
      fs.PlainDir (R ++ "Cellar" :: tail) →
      (∀ sub ∈ subs, fs.PlainDir (R ++ [sub])) →
      (∀ sub ∈ subs, fs.find (R ++ "Cellar" :: tail ++ [sub]) = none ∨
        fs.isDirAt (R ++ "Cellar" :: tail ++ [sub]) = true) →
      (∀ sub ∈ subs, ∀ e ∈ entriesAt fs (R ++ "Cellar" :: tail ++ [sub]), Proper e) →
      ((∀ sub ∈ subs, ∀ e ∈ entriesAt fs (R ++ "Cellar" :: tail ++ [sub]),
          blockedAt fs (R ++ [sub]) cellarPath name opts e = false) ∧
        linkSubdirs cellarPath name opts (subs.map (fun sub =>
          (FS.pathOf (R ++ "Cellar" :: tail ++ [sub]), FS.pathOf (R ++ [sub])))) fs =
          .ok (fs.putAll (sharedLinks fs R (R ++ "Cellar" :: tail) subs))) ∨
      (∃ sub ∈ subs, ∃ c ∈ entriesAt fs (R ++ "Cellar" :: tail ++ [sub]),
        blockedAt fs (R ++ [sub]) cellarPath name opts c = true ∧ ∃ err ps,
          linkSubdirs cellarPath name opts (subs.map (fun sub =>
            (FS.pathOf (R ++ "Cellar" :: tail ++ [sub]), FS.pathOf (R ++ [sub])))) fs =
            .error (err, fs.putAll ps) ∧
          (∀ p ∈ ps, ∃ s ∈ subs, ∃ e ∈ entriesAt fs (R ++ "Cellar" :: tail ++ [s]),
            p.1 = R ++ s :: [e] ∧ blockedAt fs (R ++ [s]) cellarPath name opts e = false) ∧
          (opts.Overwrite = false → err = .linkedByOther c ∨ err = .notSymlink c) ∧
          (opts.Overwrite = true → err = .symlink .EEXIST)) := by
  have hpK : ∀ n ∈ R ++ "Cellar" :: tail, Proper n := by
    intro n hn
    rw [List.mem_append, List.mem_cons] at hn
    rcases hn with h | h | h
    · exact hpR n h
    · rw [h]; decide
    · exact hpT n h
  intro subs
  induction subs with
  | nil =>
    intro fs _ _ _ _ _ _
    exact Or.inl ⟨(fun sub hsub => by cases hsub), rfl⟩
  | cons sub subs ih =>
    intro fs hsubs hnd hK hB hkeg hpe
    have hs := hsubs sub (List.mem_cons_self _ _)
    rw [List.nodup_cons] at hnd
    have hl : ∀ t, fs.find (R ++ "Cellar" :: tail ++ [sub]) ≠ some (.symlink t) := by
      intro t ht
      rcases hkeg sub (List.mem_cons_self _ _) with h | h
      · rw [h] at ht; cases ht
      · obtain ⟨perm, hp⟩ := (isDirAt_iff _ _).mp h
        rw [hp] at ht; cases ht
    have hf : ∀ perm data, fs.find (R ++ "Cellar" :: tail ++ [sub]) ≠ some (.file perm data) := by
      intro perm data ht
      rcases hkeg sub (List.mem_cons_self _ _) with h | h
      · rw [h] at ht; cases ht
      · obtain ⟨perm2, hp⟩ := (isDirAt_iff _ _).mp h
        rw [hp] at ht; cases ht
    rw [List.map_cons, linkSubdirs_cons]
    simp only
    rcases linkDir_outcome fs (R ++ [sub]) (R ++ "Cellar" :: tail) sub cellarPath name opts
      (hB sub (List.mem_cons_self _ _)) (proper_append hpR hs.1) hK hpK hs.1 hl hf
      (hpe sub (List.mem_cons_self _ _)) hdry with
      ⟨hall, hd⟩ | ⟨c, hc, hbc, err, done, hd, hdone, he1, he2⟩
    · rw [hd]
      simp only
      obtain ⟨a1, a2, a3, a4, a5⟩ := after_links fs R tail sub (R ++ "Cellar" :: tail ++ [sub])
        (entriesAt fs (R ++ "Cellar" :: tail ++ [sub])) hs.2
      have hframe : ∀ x ∈ subs, ∀ e,
          blockedAt (fs.putAll (linksOf (R ++ [sub]) (R ++ "Cellar" :: tail ++ [sub])
            (entriesAt fs (R ++ "Cellar" :: tail ++ [sub])))) (R ++ [x]) cellarPath name opts e =
          blockedAt fs (R ++ [x]) cellarPath name opts e := by
        intro x hx e
        apply blockedAt_after
        intro p hp
        obtain ⟨e2, _, hk⟩ := key_linksOf hp
        exact ⟨sub, e2, fun h => hnd.1 (h ▸ hx), hk⟩
      rcases ih _ (fun x hx => hsubs x (List.mem_cons_of_mem _ hx)) hnd.2 (a1 hK)
        (fun x hx => a2 x (hB x (List.mem_cons_of_mem _ hx)))
        (fun x hx => by
          rw [a3 x]
          unfold FS.isDirAt
          rw [a3 x]
          exact hkeg x (List.mem_cons_of_mem _ hx))
        (fun x hx e he => hpe x (List.mem_cons_of_mem _ hx) e (by rw [← a4 x]; exact he)) with
        ⟨h1, h2⟩ | ⟨s, hs2, c, hc, hbc, err, ps, h1, h2, h3, h4⟩
      · left
        refine ⟨?_, ?_⟩
        · intro x hx e he
          rcases List.mem_cons.mp hx with h | h
          · rw [h] at he ⊢
            exact hall e he
          · rw [← hframe x h e]
            exact h1 x h e (by rw [a4 x]; exact he)
        · rw [h2, sharedLinks_cons, FS.putAll_append,
            sharedLinks_congr _ fs R _ subs (fun x _ => a4 x)]
      · right
        rw [a4 s] at hc
        refine ⟨s, List.mem_cons_of_mem _ hs2, c, hc, by rw [← hframe s hs2 c]; exact hbc, err,
          linksOf (R ++ [sub]) (R ++ "Cellar" :: tail ++ [sub])
            (entriesAt fs (R ++ "Cellar" :: tail ++ [sub])) ++ ps, ?_, ?_, h3, h4⟩
        · rw [h1, FS.putAll_append]
        · intro p hp
          rcases List.mem_append.mp hp with h | h
          · obtain ⟨e, he, hk⟩ := key_linksOf h
            exact ⟨sub, List.mem_cons_self _ _, e, he, hk, hall e he⟩
          · obtain ⟨s2, hs3, e, he, hk, hbe⟩ := h2 p h
            rw [a4 s2] at he
            exact ⟨s2, List.mem_cons_of_mem _ hs3, e, he, hk, by
              rw [← hframe s2 hs3 e]; exact hbe⟩
    · right
      rw [hd]
      refine ⟨sub, List.mem_cons_self _ _, c, hc, hbc, err, _, rfl, ?_, he1, he2⟩
      intro p hp
      obtain ⟨e, he, hk⟩ := key_linksOf hp
      exact ⟨sub, List.mem_cons_self _ _, e, (hdone e he).1, hk, (hdone e he).2⟩

end Linker

/-! ## The linker: the outcome of `LinkWithOpts` -/

namespace Linker

open Os Filepath

/-- The outcome of `LinkWithOpts` in a prefix when the shared directories are visited:
the links of the plan are put when no entry stops the linking; otherwise the error of an
entry that stops it is returned, and only the link in `opt` and links for entries that do
not stop it have been put. -/
theorem link_outcome (paths : Config.Paths) (R : List String) (name version : String)
    (opts : LinkOpts) (fs : FS) (hs : Standard paths R)
    (hn : Validation.IsValidName name = true) (hv : Validation.IsValidVersion version = true)
    (hK : fs.PlainDir (R ++ ["Cellar", name, version])) (hO : fs.PlainDir (R ++ ["opt"]))
    (hB : ∀ sub ∈ subdirs, fs.PlainDir (R ++ [sub]))
    (hkeg : ∀ sub ∈ subdirs, fs.find (R ++ ["Cellar", name, version] ++ [sub]) = none ∨
      fs.isDirAt (R ++ ["Cellar", name, version] ++ [sub]) = true)
    (hpe : ∀ sub ∈ subdirs, ∀ e ∈ entriesAt fs (R ++ ["Cellar", name, version] ++ [sub]),
      Proper e)
    (hr : fs.Removable (R ++ ["opt"] ++ [name]))
    (hdry : opts.DryRun = false) (hko : ¬ (opts.KegOnly = true ∧ opts.Force = false)) :
    ((∀ sub ∈ subdirs, ∀ e ∈ entriesAt fs (R ++ ["Cellar", name, version] ++ [sub]),
        blockedAt fs (R ++ [sub]) paths.Cellar name opts e = false) ∧
      LinkWithOpts paths name version opts fs =
        .ok (fs.putAll (linkPlan fs R name version opts))) ∨
    (∃ sub ∈ subdirs, ∃ c ∈ entriesAt fs (R ++ ["Cellar", name, version] ++ [sub]),
      blockedAt fs (R ++ [sub]) paths.Cellar name opts c = true ∧ ∃ err ps,
        LinkWithOpts paths name version opts fs = .error (err, fs.putAll
          ((R ++ ["opt"] ++ [name],
            Node.symlink (FS.pathOf (R ++ ["Cellar", name, version]))) :: ps)) ∧
        (∀ p ∈ ps,
          ∃ s ∈ subdirs, ∃ e ∈ entriesAt fs (R ++ ["Cellar", name, version] ++ [s]),
            p.1 = R ++ s :: [e] ∧ blockedAt fs (R ++ [s]) paths.Cellar name opts e = false) ∧
        (opts.Overwrite = false → err = .linkedByOther c ∨ err = .notSymlink c) ∧
        (opts.Overwrite = true → err = .symlink .EEXIST)) := by
  have hpn := proper_of_validName hn
  have hpv := proper_of_validVersion hv
  have hpT : ∀ n ∈ [name, version], Proper n := by
    intro n hn
    simp only [List.mem_cons, List.mem_singleton, List.not_mem_nil, or_false] at hn
    rcases hn with h | h
    · rw [h]; exact hpn
    · rw [h]; exact hpv
  have hkey : R ++ ["opt", name] = R ++ ["opt"] ++ [name] := by simp
  have hopt := relink_ok fs (R ++ ["opt"]) name (FS.pathOf (R ++ ["Cellar", name, version])) hO
    (proper_append hs.proper (by decide)) hpn hr
  rw [link_of_opt_ok paths R name version opts fs _ hs hn hv hK hdry hopt, if_neg hko, hs.cellar]
  obtain ⟨a1, a2, a3, a4, a5⟩ := after_puts fs R [name, version] ["opt"]
    [(R ++ ["opt"] ++ [name], Node.symlink (FS.pathOf (R ++ ["Cellar", name, version])))]
    (by decide) (fun p hp => by
      rw [List.mem_singleton] at hp
      exact ⟨"opt", name, List.mem_singleton_self _, by rw [hp]; simp⟩)
  have hframe : ∀ x ∈ subdirs, ∀ e,
      blockedAt (fs.putAll [(R ++ ["opt"] ++ [name],
        Node.symlink (FS.pathOf (R ++ ["Cellar", name, version])))]) (R ++ [x])
        (FS.pathOf (R ++ ["Cellar"])) name opts e =
      blockedAt fs (R ++ [x]) (FS.pathOf (R ++ ["Cellar"])) name opts e := by
    intro x hx e
    apply blockedAt_after
    intro p hp
    rw [List.mem_singleton] at hp
    refine ⟨"opt", name, ?_, by rw [hp]; simp⟩
    intro h
    rw [← h] at hx
    revert hx
    decide
  have hput : fs.putAll [(R ++ ["opt"] ++ [name],
      Node.symlink (FS.pathOf (R ++ ["Cellar", name, version])))] =
      fs.put (R ++ ["opt"] ++ [name])
        (.symlink (FS.pathOf (R ++ ["Cellar", name, version]))) := rfl
  rw [hput] at a1 a2 a3 a4 a5 hframe
  rcases linkSubdirs_outcome R [name, version] (FS.pathOf (R ++ ["Cellar"])) name opts hs.proper
    hpT hdry subdirs _ subdirs_proper subdirs_nodup (a1 hK) (fun x hx => a2 x (hB x hx))
    (fun x hx => by
      rw [a3 x]
      unfold FS.isDirAt
      rw [a3 x]
      exact hkeg x hx)
    (fun x hx e he => hpe x hx e (by rw [← a4 x]; exact he)) with
    ⟨h1, h2⟩ | ⟨s, hs2, c, hc, hbc, err, ps, h1, h2, h3, h4⟩
  · left
    refine ⟨?_, ?_⟩
    · intro x hx e he
      rw [← hframe x hx e]
      exact h1 x hx e (by rw [a4 x]; exact he)
    · rw [h2]
      unfold linkPlan
      rw [FS.putAll_cons, if_neg hko, sharedLinks_congr _ fs R _ subdirs (fun x _ => a4 x)]
      simp only [hkey]
  · right
    rw [a4 s] at hc
    refine ⟨s, hs2, c, hc, by rw [← hframe s hs2 c]; exact hbc, err, ps, ?_, ?_, h3, h4⟩
    · rw [h1, FS.putAll_cons]
    · intro p hp
      obtain ⟨s2, hs3, e, he, hk, hbe⟩ := h2 p hp
      rw [a4 s2] at he
      exact ⟨s2, hs3, e, he, hk, by rw [← hframe s2 hs3 e]; exact hbe⟩

/-- When an entry stops the linking, `LinkWithOpts` returns its error or that of another
such entry, and every entry that stops the linking is as it was. -/
theorem link_blocked (paths : Config.Paths) (R : List String) (name version : String)
    (opts : LinkOpts) (fs : FS) (hs : Standard paths R)
    (hn : Validation.IsValidName name = true) (hv : Validation.IsValidVersion version = true)
    (hK : fs.PlainDir (R ++ ["Cellar", name, version])) (hO : fs.PlainDir (R ++ ["opt"]))
    (hB : ∀ sub ∈ subdirs, fs.PlainDir (R ++ [sub]))
    (hkeg : ∀ sub ∈ subdirs, fs.find (R ++ ["Cellar", name, version] ++ [sub]) = none ∨
      fs.isDirAt (R ++ ["Cellar", name, version] ++ [sub]) = true)
    (hpe : ∀ sub ∈ subdirs, ∀ e ∈ entriesAt fs (R ++ ["Cellar", name, version] ++ [sub]),
      Proper e)
    (hr : fs.Removable (R ++ ["opt"] ++ [name]))
    (hdry : opts.DryRun = false) (hko : ¬ (opts.KegOnly = true ∧ opts.Force = false))
    (sub e : String) (hsub : sub ∈ subdirs)
    (he : e ∈ entriesAt fs (R ++ ["Cellar", name, version] ++ [sub]))
    (hb : blockedAt fs (R ++ [sub]) paths.Cellar name opts e = true) :
    ∃ err fsE c, LinkWithOpts paths name version opts fs = .error (err, fsE) ∧
      (opts.Overwrite = false → err = .linkedByOther c ∨ err = .notSymlink c) ∧
      (opts.Overwrite = true → err = .symlink .EEXIST) ∧
      ∀ sub2 ∈ subdirs, ∀ e2 ∈ entriesAt fs (R ++ ["Cellar", name, version] ++ [sub2]),
        blockedAt fs (R ++ [sub2]) paths.Cellar name opts e2 = true →
        fsE.find (R ++ [sub2] ++ [e2]) = fs.find (R ++ [sub2] ++ [e2]) := by
  rcases link_outcome paths R name version opts fs hs hn hv hK hO hB hkeg hpe hr hdry hko with
    ⟨h1, _⟩ | ⟨s, _, c, _, _, err, ps, h1, h2, h3, h4⟩
  · rw [h1 sub hsub e he] at hb
    cases hb
  · refine ⟨err, _, c, h1, h3, h4, ?_⟩
    intro sub2 hsub2 e2 he2 hb2
    apply FS.find_putAll_of_not_mem
    intro p hp heq
    rcases List.mem_cons.mp hp with h | hp2
    · rw [h] at heq
      simp only at heq
      rw [List.append_assoc, List.append_assoc] at heq
      have := List.append_cancel_left heq
      simp only [List.singleton_append, List.cons.injEq] at this
      rw [← this.1] at hsub2
      revert hsub2
      decide
    · obtain ⟨s2, _, e3, _, hk, hbe⟩ := h2 p hp2
      rw [hk, List.append_assoc] at heq
      have := List.append_cancel_left heq
      simp only [List.singleton_append, List.cons.injEq, and_true] at this
      rw [this.1, this.2, hb2] at hbe
      cases hbe

end Linker

/-! ## The linker: dry runs -/

namespace Linker

open Os Filepath

/-- With `DryRun`, the body of the loop of `linkDirWithOpts` returns the file system as it
was, or an error with the file system as it was. -/
theorem linkEntry_dry (srcDir destDir cellarPath name : String) (opts : LinkOpts)
    (e : String) (fs : FS) (hdry : opts.DryRun = true) :
    linkEntry srcDir destDir cellarPath name opts e fs = .ok fs ∨
      ∃ err, linkEntry srcDir destDir cellarPath name opts e fs = .error (err, fs) := by
  unfold linkEntry
  simp only [hdry, Bool.true_eq_false, if_false, if_true]
  cases Lstat fs (Join [destDir, e]) with
  | error x => exact Or.inl rfl
  | ok info =>
    simp only
    split_ifs <;> first | exact Or.inl rfl | exact Or.inr ⟨_, rfl⟩

theorem linkEntries_dry (srcDir destDir cellarPath name : String) (opts : LinkOpts)
    (hdry : opts.DryRun = true) (es : List String) (fs : FS) :
    linkEntries srcDir destDir cellarPath name opts es fs = .ok fs ∨
      ∃ err, linkEntries srcDir destDir cellarPath name opts es fs = .error (err, fs) := by
  induction es with
  | nil => exact Or.inl rfl
  | cons e es ih =>
    rw [linkEntries_cons]
    rcases linkEntry_dry srcDir destDir cellarPath name opts e fs hdry with h | ⟨err, h⟩
    · rw [h]
      exact ih
    · rw [h]
      exact Or.inr ⟨err, rfl⟩

theorem linkDir_dry (srcDir destDir cellarPath name : String) (opts : LinkOpts)
    (hdry : opts.DryRun = true) (fs : FS) :
    linkDirWithOpts srcDir destDir cellarPath name opts fs = .ok fs ∨
      ∃ err, linkDirWithOpts srcDir destDir cellarPath name opts fs = .error (err, fs) := by
  unfold linkDirWithOpts
  cases ReadDir fs srcDir with
  | error x =>
    cases x <;> first | exact Or.inl rfl | exact Or.inr ⟨_, rfl⟩
  | ok entries => exact linkEntries_dry srcDir destDir cellarPath name opts hdry _ fs

theorem linkSubdirs_dry (cellarPath name : String) (opts : LinkOpts)
    (hdry : opts.DryRun = true) (sds : List (String × String)) (fs : FS) :
    linkSubdirs cellarPath name opts sds fs = .ok fs ∨
      ∃ err, linkSubdirs cellarPath name opts sds fs = .error (err, fs) := by
  induction sds with
  | nil => exact Or.inl rfl
  | cons sd sds ih =>
    rw [linkSubdirs_cons]
    rcases linkDir_dry sd.1 sd.2 cellarPath name opts hdry fs with h | ⟨err, h⟩
    · rw [h]
      exact ih
    · rw [h]
      exact Or.inr ⟨err, rfl⟩

/-- With `DryRun`, `LinkWithOpts` returns the file system as it was, with or without an
error. -/
theorem link_dry (paths : Config.Paths) (name version : String) (opts : LinkOpts) (fs : FS)
    (hdry : opts.DryRun = true) :
    LinkWithOpts paths name version opts fs = .ok fs ∨
      ∃ err, LinkWithOpts paths name version opts fs = .error (err, fs) := by
  unfold LinkWithOpts
  by_cases hv : Validation.IsValidName name = false ∨ Validation.IsValidVersion version = false
  · rw [if_pos hv]
    exact Or.inr ⟨_, rfl⟩
  · rw [if_neg hv]
    simp only [hdry, if_true]
    cases EvalSymlinks fs (Join [paths.Cellar, name, version]) with
    | error x => exact Or.inr ⟨_, rfl⟩
    | ok realKeg =>
      cases EvalSymlinks fs paths.Cellar with
      | error x => exact Or.inr ⟨_, rfl⟩
      | ok realCellar =>
        simp only
        by_cases hp : HasPrefix realKeg (realCellar ++ "/") = false
        · rw [if_pos hp]
          exact Or.inr ⟨_, rfl⟩
        · rw [if_neg hp]
          by_cases hk : opts.KegOnly = true ∧ opts.Force = false
          · rw [if_pos hk]
            exact Or.inl rfl
          · rw [if_neg hk]
            exact linkSubdirs_dry _ _ _ hdry _ _

theorem unlinkEntry_dry (cellarPrefix dir : String) (opts : UnlinkOpts) (e : String) (fs : FS)
    (hdry : opts.DryRun = true) : unlinkEntry cellarPrefix dir opts e fs = fs := by
  unfold unlinkEntry
  simp only [hdry, if_true, ite_self]
  cases Readlink fs (Join [dir, e]) <;> rfl

theorem unlinkDir_dry (cellarPrefix : String) (opts : UnlinkOpts) (fs : FS) (dir : String)
    (hdry : opts.DryRun = true) : unlinkDir cellarPrefix opts fs dir = fs := by
  unfold unlinkDir
  cases ReadDir fs dir with
  | error x => rfl
  | ok entries =>
    simp only
    generalize entries.map (fun e => e.1) = es
    induction es with
    | nil => rfl
    | cons e es ih => rw [List.foldl_cons, unlinkEntry_dry _ _ _ _ _ hdry, ih]

/-- With `DryRun`, `UnlinkWithOpts` returns the file system as it was. -/
theorem unlink_dry (paths : Config.Paths) (name : String) (opts : UnlinkOpts) (fs : FS)
    (hdry : opts.DryRun = true) :
    UnlinkWithOpts paths name opts fs = .ok fs ∨
      UnlinkWithOpts paths name opts fs = .error (.invalid, fs) := by
  unfold UnlinkWithOpts
  by_cases hv : Validation.IsValidName name = false
  · rw [if_pos hv]
    exact Or.inr rfl
  · rw [if_neg hv]
    left
    simp only [hdry, if_true, List.foldl_cons, List.foldl_nil, unlinkDir_dry _ _ _ _ hdry]

end Linker

/-! ## The linker: the errors of `LinkWithOpts` -/

namespace Linker

open Os Filepath

theorem linkEntry_error_late (srcDir destDir cellarPath name : String) (opts : LinkOpts)
    (e : String) (fs fsE : FS) (err : Error)
    (h : linkEntry srcDir destDir cellarPath name opts e fs = .error (err, fsE)) :
    err.beforeLinks = false := by
  unfold linkEntry at h
  simp only at h
  split at h
  · rename_i x hx
    rw [h] at hx
    split at hx
    · cases hx
    · split_ifs at hx <;> cases hx <;> rfl
  · split at h
    · cases h
    · split at h
      · injection h with h
        injection h with h _
        rw [← h]
        rfl
      · cases h

theorem linkEntries_error_late (srcDir destDir cellarPath name : String) (opts : LinkOpts)
    (es : List String) (fs fsE : FS) (err : Error)
    (h : linkEntries srcDir destDir cellarPath name opts es fs = .error (err, fsE)) :
    err.beforeLinks = false := by
  induction es generalizing fs with
  | nil => cases h
  | cons e es ih =>
    rw [linkEntries_cons] at h
    cases he : linkEntry srcDir destDir cellarPath name opts e fs with
    | error x =>
      rw [he] at h
      injection h with h
      rw [h] at he
      exact linkEntry_error_late _ _ _ _ _ _ _ _ _ he
    | ok fs1 =>
      rw [he] at h
      exact ih fs1 h

theorem linkDir_error_late (srcDir destDir cellarPath name : String) (opts : LinkOpts)
    (fs fsE : FS) (err : Error)
    (h : linkDirWithOpts srcDir destDir cellarPath name opts fs = .error (err, fsE)) :
    err.beforeLinks = false := by
  unfold linkDirWithOpts at h
  cases hr : ReadDir fs srcDir with
  | error x =>
    rw [hr] at h
    cases x <;> cases h <;> rfl
  | ok entries =>
    rw [hr] at h
    exact linkEntries_error_late _ _ _ _ _ _ _ _ _ h

theorem linkSubdirs_error_late (cellarPath name : String) (opts : LinkOpts)
    (sds : List (String × String)) (fs fsE : FS) (err : Error)
    (h : linkSubdirs cellarPath name opts sds fs = .error (err, fsE)) :
    err.beforeLinks = false := by
  induction sds generalizing fs with
  | nil => cases h
  | cons sd sds ih =>
    rw [linkSubdirs_cons] at h
    cases hd : linkDirWithOpts sd.1 sd.2 cellarPath name opts fs with
    | error x =>
      rw [hd] at h
      injection h with h
      rw [h] at hd
      exact linkDir_error_late _ _ _ _ _ _ _ _ hd
    | ok fs1 =>
      rw [hd] at h
      exact ih fs1 h

/-- An error that `LinkWithOpts` returns before the links comes with the file system as
it was. -/
theorem link_error_early (paths : Config.Paths) (name version : String) (opts : LinkOpts)
    (fs fsE : FS) (err : Error)
    (h : LinkWithOpts paths name version opts fs = .error (err, fsE))
    (he : err.beforeLinks = true) : fsE = fs := by
  unfold LinkWithOpts at h
  by_cases hv : Validation.IsValidName name = false ∨ Validation.IsValidVersion version = false
  · rw [if_pos hv] at h
    injection h with h
    injection h with _ h
    exact h.symm
  · rw [if_neg hv] at h
    simp only at h
    cases h1 : EvalSymlinks fs (Join [paths.Cellar, name, version]) with
    | error x =>
      rw [h1] at h
      injection h with h
      injection h with _ h
      exact h.symm
    | ok realKeg =>
      rw [h1] at h
      simp only at h
      cases h2 : EvalSymlinks fs paths.Cellar with
      | error x =>
        rw [h2] at h
        injection h with h
        injection h with _ h
        exact h.symm
      | ok realCellar =>
        rw [h2] at h
        simp only at h
        by_cases hp : HasPrefix realKeg (realCellar ++ "/") = false
        · rw [if_pos hp] at h
          injection h with h
          injection h with _ h
          exact h.symm
        · rw [if_neg hp] at h
          exfalso
          by_cases hdry : opts.DryRun = true
          · simp only [hdry, if_true] at h
            by_cases hk : opts.KegOnly = true ∧ opts.Force = false
            · rw [if_pos hk] at h
              cases h
            · rw [if_neg hk] at h
              rw [linkSubdirs_error_late _ _ _ _ _ _ _ h] at he
              cases he
          · have hd : opts.DryRun = false := by simpa using hdry
            simp only [hd, Bool.false_eq_true, if_false] at h
            cases h3 : Symlink (removeIgnoringError fs (Join [paths.Opt, name]))
                (Join [paths.Cellar, name, version]) (Join [paths.Opt, name]) with
            | error x =>
              rw [h3] at h
              injection h with h
              injection h with h _
              rw [← h] at he
              cases he
            | ok fs1 =>
              rw [h3] at h
              simp only at h
              by_cases hk : opts.KegOnly = true ∧ opts.Force = false
              · rw [if_pos hk] at h
                cases h
              · rw [if_neg hk] at h
                rw [linkSubdirs_error_late _ _ _ _ _ _ _ h] at he
                cases he

end Linker

/-! ## The file system: trees in plain directories -/

namespace Os

open Filepath

theorem lookup_filter_of_pos (nodes : List (List String × Node)) (p : List String × Node → Bool)
    (l : List String) (h : ∀ n, p (l, n) = true) :
    (nodes.filter p).lookup l = nodes.lookup l := by
  induction nodes with
  | nil => rfl
  | cons e rest ih =>
    obtain ⟨k, v⟩ := e
    by_cases hk : l = k
    · subst hk
      rw [List.filter_cons_of_pos (h v)]
      simp [List.lookup]
    · have hb : (l == k) = false := beq_eq_false_iff_ne.mpr hk
      by_cases hp : p (k, v) = true
      · rw [List.filter_cons_of_pos hp]
        simp only [List.lookup, hb]
        exact ih
      · rw [List.filter_cons_of_neg hp]
        simp only [List.lookup, hb]
        exact ih

theorem lookup_filter_of_neg (nodes : List (List String × Node)) (p : List String × Node → Bool)
    (l : List String) (h : ∀ n, p (l, n) = false) : (nodes.filter p).lookup l = none := by
  induction nodes with
  | nil => rfl
  | cons e rest ih =>
    obtain ⟨k, v⟩ := e
    by_cases hk : l = k
    · subst hk
      rw [List.filter_cons_of_neg (by simp [h v])]
      exact ih
    · have hb : (l == k) = false := beq_eq_false_iff_ne.mpr hk
      by_cases hp : p (k, v) = true
      · rw [List.filter_cons_of_pos hp]
        simp only [List.lookup, hb]
        exact ih
      · rw [List.filter_cons_of_neg hp]
        exact ih

namespace FS

/-- Nothing is found at or below a location that was pruned. -/
theorem find_prune_below (fs : FS) (loc l : List String) (h : loc <+: l) (hl : l ≠ []) :
    (fs.prune loc).find l = none := by
  unfold find prune
  rw [if_neg hl]
  apply lookup_filter_of_neg
  intro n
  simp only [Bool.not_eq_false', List.isPrefixOf_iff_prefix]
  exact h

/-- What is not below a pruned location is found as before. -/
theorem find_prune_other (fs : FS) (loc l : List String) (h : ¬ loc <+: l) :
    (fs.prune loc).find l = fs.find l := by
  unfold find prune
  by_cases hl : l = []
  · rw [if_pos hl, if_pos hl]
  · rw [if_neg hl, if_neg hl]
    apply lookup_filter_of_pos
    intro n
    simp only [Bool.not_eq_true', ← Bool.not_eq_true, List.isPrefixOf_iff_prefix]
    exact h

theorem prune_cwd (fs : FS) (loc : List String) : (fs.prune loc).cwd = fs.cwd := rfl

/-- A plain directory stays one when a location that is not on the way to it is pruned. -/
theorem PlainDir.prune {fs : FS} {D : List String} (h : fs.PlainDir D) (loc : List String)
    (hn : ¬ loc <+: D) : (fs.prune loc).PlainDir D := by
  intro p hp
  have hpD := (List.mem_inits _ _).mp hp
  have := h p hp
  unfold Os.FS.isDirAt at this ⊢
  rw [find_prune_other fs loc p (fun hlp => hn (hlp.trans hpD))]
  exact this

end FS

/-- What `os.RemoveAll` does to an entry of a plain directory. -/
theorem RemoveAll_child (fs : FS) (D : List String) (e : String) (hD : fs.PlainDir D)
    (hp : ∀ n ∈ D, Proper n) (he : Proper e) :
    RemoveAll fs (FS.pathOf (D ++ [e])) = .ok (fs.prune (D ++ [e])) := by
  unfold RemoveAll
  rw [if_neg (pathOf_ne_empty _), resolve_child fs D e hD hp he]
  simp only
  rw [if_neg (by simp)]
  rfl

theorem removeAll_child (fs : FS) (D : List String) (e : String) (hD : fs.PlainDir D)
    (hp : ∀ n ∈ D, Proper n) (he : Proper e) :
    removeAllIgnoringError fs (FS.pathOf (D ++ [e])) = fs.prune (D ++ [e]) := by
  unfold removeAllIgnoringError
  rw [RemoveAll_child fs D e hD hp he]

/-- What `os.Stat` shows for a plain directory. -/
theorem Stat_plain (fs : FS) (D : List String) (hD : fs.PlainDir D) (hp : ∀ n ∈ D, Proper n) :
    ∃ perm, fs.find D = some (.dir perm) ∧ Stat fs (FS.pathOf D) = .ok (.dir perm) := by
  obtain ⟨perm, h⟩ := (isDirAt_iff _ _).mp hD.isDirAt
  refine ⟨perm, h, ?_⟩
  unfold Stat
  simp only [resolve_plain fs D true hD hp, h]

/-- What `os.Stat` shows for an entry of a plain directory that is no link. -/
theorem Stat_child (fs : FS) (D : List String) (e : String) (n : Node) (hD : fs.PlainDir D)
    (hp : ∀ n ∈ D, Proper n) (he : Proper e) (h : fs.find (D ++ [e]) = some n)
    (hn : ∀ t, n ≠ .symlink t) : Stat fs (FS.pathOf (D ++ [e])) = .ok n := by
  unfold Stat
  simp only [resolve_child_follow fs D e hD hp he (fun t ht => hn t (by
    rw [h] at ht
    injection ht)), h]

theorem Stat_child_none (fs : FS) (D : List String) (e : String) (hD : fs.PlainDir D)
    (hp : ∀ n ∈ D, Proper n) (he : Proper e) (h : fs.find (D ++ [e]) = none) :
    Stat fs (FS.pathOf (D ++ [e])) = .error .ENOENT := by
  unfold Stat
  simp only [resolve_child_follow fs D e hD hp he (fun t ht => by
    rw [h] at ht
    cases ht), h]

end Os

namespace Depgraph

/-! ## The main loop of `topoSort` -/

theorem countP_not_mem_append (s : List String) (a : String) (ha : a ∉ s) (l : List String) :
    l.countP (fun d => decide (d ∉ s ++ [a])) + l.count a =
      l.countP (fun d => decide (d ∉ s)) := by
  induction l with
  | nil => simp
  | cons x xs ih =>
    by_cases hx : x = a
    · subst hx
      simp only [List.countP_cons, List.count_cons_self, List.mem_append, List.mem_singleton,
        or_true, not_true_eq_false, decide_False, ha, not_false_eq_true, decide_True, if_true]
      simp only [List.mem_append, List.mem_singleton] at ih
      simp at ih ⊢
      omega
    · have hne : a ≠ x := fun h => hx h.symm
      simp only [List.countP_cons, List.count_cons_of_ne hne, List.mem_append,
        List.mem_singleton, hx, or_false]
      simp only [List.mem_append, List.mem_singleton] at ih
      omega

theorem unmet_append (graph : GoMap (List String)) (sorted : List String) (node : String)
    (h : node ∉ sorted) (n : String) :
    unmet graph (sorted ++ [node]) n + (graph.get n).count node = unmet graph sorted n :=
  countP_not_mem_append sorted node h (graph.get n)

theorem unmet_eq_zero (graph : GoMap (List String)) (sorted : List String) (n : String) :
    unmet graph sorted n = 0 ↔ ∀ d ∈ graph.get n, d ∈ sorted := by
  unfold unmet
  rw [List.countP_eq_zero]
  simp

theorem foldr_max_map_le {α : Type} (f : α → Nat) (l : List α) (v : Nat)
    (h : ∀ x ∈ l, f x ≤ v) : (l.map f).foldr max 0 ≤ v := by
  induction l with
  | nil => simp
  | cons x xs ih =>
    simp only [List.map_cons, List.foldr_cons]
    exact max_le (h x (List.mem_cons_self _ _)) (ih (fun y hy => h y (List.mem_cons_of_mem _ hy)))

theorem le_foldr_max_map {α : Type} (f : α → Nat) (l : List α) (x : α) (hx : x ∈ l) :
    f x ≤ (l.map f).foldr max 0 := by
  induction l with
  | nil => simp at hx
  | cons y ys ih =>
    simp only [List.map_cons, List.foldr_cons]
    rcases List.mem_cons.mp hx with h | h
    · subst h; exact le_max_left _ _
    · exact le_trans (ih h) (le_max_right _ _)

theorem readyAt_append (graph : GoMap (List String)) (out ext : List String) (n : String)
    (h : ∀ d ∈ graph.get n, d ∈ out) :
    readyAt graph (out ++ ext) n = readyAt graph out n := by
  unfold readyAt
  congr 1
  apply List.map_congr_left
  intro d hd
  rw [List.indexOf_append_of_mem (h d hd)]

theorem readyAt_le (graph : GoMap (List String)) (out : List String) (n : String)
    (h : ∀ d ∈ graph.get n, d ∈ out) : readyAt graph out n ≤ out.length := by
  unfold readyAt
  apply foldr_max_map_le
  intro d hd
  have := List.indexOf_lt_length.mpr (h d hd)
  omega

theorem readyAt_new (graph : GoMap (List String)) (sorted : List String) (node x : String)
    (hn : node ∉ sorted) (hx : node ∈ graph.get x)
    (h : ∀ d ∈ graph.get x, d ∈ sorted ++ [node]) :
    readyAt graph (sorted ++ [node]) x = sorted.length + 1 := by
  apply le_antisymm
  · have := readyAt_le graph (sorted ++ [node]) x h
    simpa using this
  · have := le_foldr_max_map (fun d => (sorted ++ [node]).indexOf d + 1) (graph.get x) node hx
    simp only [List.indexOf_append_of_not_mem hn, List.indexOf_cons_self] at this
    exact this

theorem mem_reverse_get {graph reverse : GoMap (List String)} (hr : ReverseOf graph reverse)
    {d m : String} : m ∈ reverse.get d ↔ m ∈ graph.keys ∧ d ∈ graph.get m := by
  rw [← List.count_pos_iff, hr d m]
  by_cases hm : m ∈ graph.keys
  · simp [hm, List.count_pos_iff]
  · simp [hm]

/-- The effect of the inner loop in a state that satisfies the invariant: the counters
become the numbers of unmet dependencies with respect to `sorted ++ [node]`, and
`newReady` lists, each once, the dependents of `node` whose dependencies are all met. -/
theorem kahn_relax (graph reverse : GoMap (List String)) (hr : ReverseOf graph reverse)
    (inDegree : GoMap Int) (node : String) (ready sorted : List String)
    (inv : KahnInv graph inDegree (node :: ready) sorted) :
    (∀ x, x ∈ graph.keys →
      (relax (reverse.get node) inDegree).1.get x = (unmet graph (sorted ++ [node]) x : Int)) ∧
    (relax (reverse.get node) inDegree).2.Nodup ∧
    (∀ x, x ∈ (relax (reverse.get node) inDegree).2 ↔
      x ∈ graph.keys ∧ node ∈ graph.get x ∧ unmet graph (sorted ++ [node]) x = 0) := by
  have hnd := List.nodup_append.mp inv.nodup
  have hnode : node ∉ sorted := fun h => hnd.2.2 h (List.mem_cons_self _ _)
  have hcount : ∀ x, x ∈ graph.keys →
      ((reverse.get node).count x : Int) = ((graph.get x).count node : Int) := by
    intro x hx; rw [hr node x]; simp [hx]
  have hdeg : ∀ x, x ∈ graph.keys →
      inDegree.get x = (unmet graph (sorted ++ [node]) x : Int) + ((graph.get x).count node : Int) := by
    intro x hx
    rw [inv.deg x hx, ← unmet_append graph sorted node hnode x]; push_cast; ring
  have hrel : ∀ x ∈ reverse.get node, ((reverse.get node).count x : Int) ≤ inDegree.get x := by
    intro x hx
    have hxk := ((mem_reverse_get hr).mp hx).1
    rw [hcount x hxk, hdeg x hxk]
    have : (0 : Int) ≤ (unmet graph (sorted ++ [node]) x : Int) := Int.ofNat_nonneg _
    omega
  obtain ⟨hnr, hmem⟩ := relax_newReady (reverse.get node) inDegree hrel
  refine ⟨?_, hnr, ?_⟩
  · intro x hx
    rw [relax_get, hcount x hx, hdeg x hx]; ring
  · intro x
    rw [hmem, mem_reverse_get hr]
    constructor
    · rintro ⟨⟨hk, hd⟩, he⟩
      refine ⟨hk, hd, ?_⟩
      rw [hcount x hk, hdeg x hk] at he
      omega
    · rintro ⟨hk, hd, hz⟩
      refine ⟨⟨hk, hd⟩, ?_⟩
      rw [hcount x hk, hdeg x hk, hz]; simp

/-- One iteration of the main loop keeps the invariant. -/
theorem kahn_step (graph reverse : GoMap (List String)) (hr : ReverseOf graph reverse)
    (inDegree : GoMap Int) (node : String) (ready sorted : List String)
    (inv : KahnInv graph inDegree (node :: ready) sorted) :
    KahnInv graph (relax (reverse.get node) inDegree).1
      (ready ++ sortStrings (relax (reverse.get node) inDegree).2) (sorted ++ [node]) := by
  have hnd := List.nodup_append.mp inv.nodup
  have hnode : node ∉ sorted := fun h => hnd.2.2 h (List.mem_cons_self _ _)
  obtain ⟨hget, hnr, hmem2⟩ := kahn_relax graph reverse hr inDegree node ready sorted inv
  have hold : ∀ x ∈ sorted ++ node :: ready, ∀ d ∈ graph.get x, d ∈ sorted := by
    intro x hx
    have h0 := inv.zero x hx
    rw [inv.deg x (inv.sub x hx)] at h0
    exact (unmet_eq_zero graph sorted x).mp (by exact_mod_cast h0)
  have hnew : ∀ x ∈ (relax (reverse.get node) inDegree).2, x ∉ sorted ++ node :: ready := by
    intro x hx hx2
    have := hold x hx2 node ((hmem2 x).mp hx).2.1
    exact hnode this
  have hsplit : (sorted ++ [node]) ++ (ready ++ sortStrings (relax (reverse.get node) inDegree).2) =
      (sorted ++ node :: ready) ++ sortStrings (relax (reverse.get node) inDegree).2 := by
    simp
  have hra_old : ∀ x ∈ sorted ++ node :: ready,
      readyAt graph (sorted ++ [node]) x = readyAt graph sorted x :=
    fun x hx => readyAt_append graph sorted [node] x (hold x hx)
  have hra_new : ∀ x ∈ sortStrings (relax (reverse.get node) inDegree).2,
      readyAt graph (sorted ++ [node]) x = sorted.length + 1 := by
    intro x hx
    have h1 := (hmem2 x).mp (mem_sortStrings.mp hx)
    exact readyAt_new graph sorted node x hnode h1.2.1
      ((unmet_eq_zero graph (sorted ++ [node]) x).mp h1.2.2)
  constructor
  · -- keys
    rw [relax_keys]
    · exact inv.keys
    · intro x hx
      exact inv.keys.symm.subset ((mem_reverse_get hr).mp hx).1
  · -- nodup
    rw [hsplit, List.nodup_append]
    refine ⟨inv.nodup, sortStrings_nodup hnr, ?_⟩
    intro x hx1 hx2
    exact hnew x (mem_sortStrings.mp hx2) hx1
  · -- sub
    rw [hsplit]
    intro x hx
    rcases List.mem_append.mp hx with h | h
    · exact inv.sub x h
    · exact ((hmem2 x).mp (mem_sortStrings.mp h)).1
  · -- deg
    exact fun n hn => hget n hn
  · -- queued
    intro n hn h0
    rw [hsplit, List.mem_append]
    rw [hget n hn] at h0
    have h0' : unmet graph (sorted ++ [node]) n = 0 := by exact_mod_cast h0
    by_cases hc : node ∈ graph.get n
    · right; exact mem_sortStrings.mpr ((hmem2 n).mpr ⟨hn, hc, h0'⟩)
    · left
      apply inv.queued n hn
      rw [inv.deg n hn, ← unmet_append graph sorted node hnode n, h0',
        List.count_eq_zero_of_not_mem hc]
      simp
  · -- zero
    rw [hsplit]
    intro n hn
    rcases List.mem_append.mp hn with h | h
    · rw [hget n (inv.sub n h)]
      have h1 := (unmet_eq_zero graph sorted n).mpr (hold n h)
      have h2 := unmet_append graph sorted node hnode n
      have : unmet graph (sorted ++ [node]) n = 0 := by omega
      exact_mod_cast this
    · have h1 := (hmem2 n).mp (mem_sortStrings.mp h)
      rw [hget n h1.1]
      exact_mod_cast h1.2.2
  · -- depFirst
    intro n hn d hd
    rcases List.mem_append.mp hn with h | h
    · have h1 := inv.depFirst n h d hd
      have hdm : d ∈ sorted := by
        apply List.indexOf_lt_length.mp
        exact lt_trans h1 (List.indexOf_lt_length.mpr h)
      rw [List.indexOf_append_of_mem hdm, List.indexOf_append_of_mem h]
      exact h1
    · have hn' : n = node := by simpa using h
      subst hn'
      have hdm : d ∈ sorted := hold n (by simp) d hd
      rw [List.indexOf_append_of_mem hdm, List.indexOf_append_of_not_mem hnode]
      have := List.indexOf_lt_length.mpr hdm
      simp only [List.indexOf_cons_self]
      omega
  · -- fifo
    rw [hsplit, List.pairwise_append]
    refine ⟨?_, ?_, ?_⟩
    · refine inv.fifo.imp_of_mem ?_
      intro a b ha hb hab
      unfold QueueOrder at hab ⊢
      rw [hra_old a ha, hra_old b hb]
      exact hab
    · refine (sortStrings_pairwise_lt hnr).imp_of_mem ?_
      intro a b ha hb hab
      right
      exact ⟨by rw [hra_new a ha, hra_new b hb], hab⟩
    · intro a ha b hb
      left
      rw [hra_old a ha, hra_new b hb]
      have := inv.bound a ha
      omega
  · -- bound
    rw [hsplit]
    intro x hx
    rcases List.mem_append.mp hx with h | h
    · rw [hra_old x h]
      have := inv.bound x h
      simp only [List.length_append, List.length_singleton]
      omega
    · rw [hra_new x h]; simp

end Depgraph

/-! ## The file system: `MkdirAll` in plain directories -/

namespace Os

open Filepath

/-- A rooted path whose elements are the names of a plain directory designates it. -/
theorem resolve_of_names (fs : FS) (path : String) (D : List String) (b : Bool)
    (hne : path ≠ "") (habs : IsAbs path = true) (hn : names path = D) (hD : fs.PlainDir D)
    (hp : ∀ n ∈ D, Proper n) : resolve fs path b = .ok D := by
  unfold resolve
  rw [if_neg hne, habs, hn, if_pos rfl]
  exact walk_plain fs _ D b hD hp

/-- The path of an entry: the path of the directory, a separator when the directory is
not the root, and the name. -/
theorem pathOf_child_data (D : List String) (e : String) :
    (FS.pathOf (D ++ [e])).data =
      (if D = [] then ['/'] else (FS.pathOf D).data ++ ['/']) ++ e.data := by
  by_cases hD : D = []
  · subst hD
    simp [FS.pathOf, joinSlash]
  · rw [if_neg hD]
    unfold FS.pathOf
    simp only [List.map_append, List.map_cons, List.map_nil]
    rw [joinSlash_append _ _ (by simpa using hD) (by simp)]
    simp [joinSlash]

/-- The parent that `MkdirAll` takes from the path of an entry. -/
theorem parentPrefix_child (D : List String) (e : String) (he : Proper e) :
    parentPrefix (FS.pathOf (D ++ [e])).data =
      (if D = [] then ['/'] else (FS.pathOf D).data ++ ['/']) := by
  rw [pathOf_child_data]
  generalize hP : (if D = [] then ['/'] else (FS.pathOf D).data ++ ['/']) = P
  have hlast : ∃ Q, P = Q ++ ['/'] := by
    rw [← hP]
    by_cases hD : D = []
    · rw [if_pos hD]; exact ⟨[], rfl⟩
    · rw [if_neg hD]; exact ⟨_, rfl⟩
  obtain ⟨Q, rfl⟩ := hlast
  unfold parentPrefix
  have hne : e.data ≠ [] := he.1
  have hns : ∀ c ∈ e.data.reverse, c ≠ '/' := by
    intro c hc e1
    rw [List.mem_reverse] at hc
    exact he.2.1 (e1 ▸ hc)
  obtain ⟨c, cs, hcs⟩ : ∃ c cs, e.data.reverse = c :: cs := by
    cases h : e.data.reverse with
    | nil => exact absurd (List.reverse_eq_nil_iff.mp h) hne
    | cons c cs => exact ⟨c, cs, rfl⟩
  have h1 : ((Q ++ ['/'] ++ e.data).reverse.dropWhile (fun c => c == '/')) =
      e.data.reverse ++ '/' :: Q.reverse := by
    rw [List.reverse_append, List.reverse_append, hcs]
    have hc : c ≠ '/' := hns c (by rw [hcs]; exact List.mem_cons_self _ _)
    have hb : (c == '/') = false := beq_eq_false_iff_ne.mpr hc
    simp only [List.cons_append, List.append_assoc, List.reverse_cons, List.reverse_nil,
      List.nil_append, List.singleton_append]
    rw [List.dropWhile_cons_of_neg (by simp [hb])]
  rw [h1]
  have h2 : ∀ (xs : List Char), (∀ c ∈ xs, c ≠ '/') →
      (xs ++ '/' :: Q.reverse).dropWhile (fun c => c != '/') = '/' :: Q.reverse := by
    intro xs
    induction xs with
    | nil => intro _; simp [List.dropWhile]
    | cons x xs ih =>
      intro hx
      have hx1 : x ≠ '/' := hx x (List.mem_cons_self _ _)
      rw [List.cons_append, List.dropWhile_cons_of_pos (by simpa using hx1)]
      exact ih (fun c hc => hx c (List.mem_cons_of_mem _ hc))
  rw [h2 _ hns]
  simp

/-- The parent that `MkdirAll` takes from the path of an entry of a plain directory
designates the directory. -/
theorem stat_parentPrefix (fs : FS) (D : List String) (e : String) (hD : fs.PlainDir D)
    (hp : ∀ n ∈ D, Proper n) (he : Proper e) :
    parentPrefix (FS.pathOf (D ++ [e])).data ≠ [] ∧
    ∃ perm, Stat fs ⟨parentPrefix (FS.pathOf (D ++ [e])).data⟩ = .ok (.dir perm) := by
  rw [parentPrefix_child D e he]
  obtain ⟨perm, hfind, _⟩ := Stat_plain fs D hD hp
  by_cases h0 : D = []
  · subst h0
    refine ⟨by simp, perm, ?_⟩
    unfold Stat
    have hr : resolve fs ⟨['/']⟩ true = .ok [] :=
      resolve_of_names fs _ [] true (by decide) (by decide) (by decide) hD hp
    simp only [if_true]
    simp only [hr, hfind]
  · refine ⟨by simp [h0], perm, ?_⟩
    rw [if_neg h0]
    unfold Stat
    have hn : names ⟨(FS.pathOf D).data ++ ['/']⟩ = D := by
      have := segments_append (FS.pathOf D) ""
      have hs : segments "" = [] := by decide
      unfold names
      have e1 : (⟨(FS.pathOf D).data ++ ['/']⟩ : String) =
          ⟨(FS.pathOf D).data ++ '/' :: ("" : String).data⟩ := rfl
      rw [e1, this, hs, List.append_nil]
      exact names_pathOf D hp
    have hr : resolve fs ⟨(FS.pathOf D).data ++ ['/']⟩ true = .ok D :=
      resolve_of_names fs _ D true (by
        intro h
        have := congrArg String.data h
        simp at this) (by simp [IsAbs, FS.pathOf]) hn hD hp
    simp only [hr, hfind]

/-- On a plain directory `MkdirAll` creates nothing. -/
theorem MkdirAll_plain (fs : FS) (D : List String) (perm : Nat) (hD : fs.PlainDir D)
    (hp : ∀ n ∈ D, Proper n) : MkdirAll fs (FS.pathOf D) perm = .ok fs := by
  obtain ⟨p, _, hs⟩ := Stat_plain fs D hD hp
  unfold MkdirAll
  rw [mkdirAll, hs]

/-- For a name that is free in a plain directory, `MkdirAll` creates the directory. -/
theorem MkdirAll_child (fs : FS) (D : List String) (e : String) (perm : Nat)
    (hD : fs.PlainDir D) (hp : ∀ n ∈ D, Proper n) (he : Proper e)
    (h : fs.find (D ++ [e]) = none) :
    MkdirAll fs (FS.pathOf (D ++ [e])) perm =
      .ok (fs.put (D ++ [e]) (.dir (syscallMode perm))) := by
  obtain ⟨hne, p, hs⟩ := stat_parentPrefix fs D e hD hp he
  have hlen : ∃ k, (FS.pathOf (D ++ [e])).data.length = k + 1 := by
    rw [pathOf_child_data]
    by_cases h0 : D = []
    · rw [if_pos h0]; exact ⟨e.data.length, by simp⟩
    · rw [if_neg h0]; exact ⟨(FS.pathOf D).data.length + e.data.length, by simp; omega⟩
  obtain ⟨k, hk⟩ := hlen
  unfold MkdirAll
  rw [hk, mkdirAll, Stat_child_none fs D e hD hp he h]
  simp only
  rw [if_neg hne, mkdirAll, hs]
  simp only
  unfold Mkdir
  simp only [resolve_child fs D e hD hp he, h]

/-- After `MkdirAll` on an entry of a plain directory that is free or a directory, the
entry is a directory, and nothing else has changed. -/
theorem MkdirAll_child_cases (fs : FS) (D : List String) (e : String) (perm : Nat)
    (hD : fs.PlainDir D) (hp : ∀ n ∈ D, Proper n) (he : Proper e)
    (h : fs.find (D ++ [e]) = none ∨ fs.isDirAt (D ++ [e]) = true) :
    ∃ fs1, MkdirAll fs (FS.pathOf (D ++ [e])) perm = .ok fs1 ∧ fs1.PlainDir (D ++ [e]) ∧
      (∀ l, l ≠ D ++ [e] → fs1.find l = fs.find l) ∧
      (fs.isDirAt (D ++ [e]) = true → fs1 = fs) ∧
      (fs.find (D ++ [e]) = none → fs1 = fs.put (D ++ [e]) (.dir (syscallMode perm))) := by
  rcases h with h | h
  · refine ⟨_, MkdirAll_child fs D e perm hD hp he h, ?_, ?_, ?_, fun _ => rfl⟩
    · apply FS.PlainDir.child (hD.put _ _ (not_prefix_child D e))
      unfold FS.isDirAt
      rw [FS.find_put_self _ _ _ (by simp)]
    · intro l hl
      exact FS.find_put_ne _ _ _ _ hl
    · intro hd
      unfold FS.isDirAt at hd
      rw [h] at hd
      cases hd
  · have hK := hD.child e h
    refine ⟨fs, MkdirAll_plain fs _ perm hK (proper_append hp he), hK, fun _ _ => rfl,
      fun _ => rfl, ?_⟩
    intro hn
    unfold FS.isDirAt at h
    rw [hn] at h
    cases h

end Os

/-! ## Unlinking and the store -/

namespace Linker

open Os Filepath

/-- What `Unlink` leaves as it was: everything but `opt/name` and the entries of the shared
directories. -/
theorem unlink_frame (paths : Config.Paths) (R : List String) (name : String) (fs : FS)
    (hs : Standard paths R) (hn : Validation.IsValidName name = true)
    (hnames : fs.ProperNames) (hO : fs.PlainDir (R ++ ["opt"]))
    (hB : ∀ sub ∈ subdirs, fs.PlainDir (R ++ [sub])) :
    ∃ fs1, Unlink paths name fs = .ok fs1 ∧
      ∀ loc, loc ≠ R ++ ["opt"] ++ [name] → (∀ sub ∈ subdirs, ∀ e, loc ≠ R ++ [sub] ++ [e]) →
        fs1.find loc = fs.find loc := by
  have hpn := proper_of_validName hn
  have hpO : ∀ n ∈ R ++ ["opt"], Proper n := proper_append hs.proper (by decide)
  obtain ⟨hcase, _⟩ := removeIgnoringError_child fs (R ++ ["opt"]) name hO hpO hpn
  refine ⟨_, unlink_eq paths R name {} fs hs hn hnames hO hB rfl, ?_⟩
  intro loc hloc hothers
  rw [FS.find_eraseAll_of_not_mem]
  · rcases hcase with h | h
    · rw [h, FS.find_erase_ne _ _ _ hloc]
    · rw [h]
  · rw [List.mem_flatMap]
    rintro ⟨sub, hsub, hl⟩
    obtain ⟨e, he, _⟩ := key_unlinked hl
    exact hothers sub hsub e he

/-- The locations on the way to the store and inside it are neither `opt/name` nor entries
of the shared directories. -/
theorem store_not_shared (R : List String) (name : String) (loc : List String)
    (h : loc <+: R ∨ ∃ tail, loc = R ++ "Cellar" :: tail) :
    loc ≠ R ++ ["opt"] ++ [name] ∧ ∀ sub ∈ subdirs, ∀ e, loc ≠ R ++ [sub] ++ [e] := by
  rcases h with h | ⟨tail, rfl⟩
  · have hl := h.length_le
    constructor
    · intro e1
      rw [e1] at hl
      simp at hl
    · intro sub _ e e1
      rw [e1] at hl
      simp at hl
  · constructor
    · intro e1
      rw [List.append_assoc] at e1
      have := List.append_cancel_left e1
      simp at this
    · intro sub hsub e e1
      rw [List.append_assoc] at e1
      have := List.append_cancel_left e1
      simp only [List.singleton_append, List.cons.injEq] at this
      rw [← this.1] at hsub
      revert hsub
      decide

end Linker

/-! ## The file system: `Rename` in plain directories -/

namespace Os

open Filepath

namespace FS

/-- After a move the object that was at `o` is found at `d`. -/
theorem find_move_dest (fs : FS) (o d : List String) (ho : o ≠ []) (hd : d ≠ []) :
    (fs.move o d).find d = fs.find o := by
  unfold find move
  rw [if_neg hd, if_neg ho]
  simp only
  induction fs.nodes with
  | nil => rfl
  | cons e rest ih =>
    obtain ⟨k, v⟩ := e
    rw [List.filterMap_cons]
    by_cases hk : o <+: k
    · have hb : o.isPrefixOf k = true := List.isPrefixOf_iff_prefix.mpr hk
      simp only [hb, if_true]
      by_cases hko : k = o
      · subst hko
        simp [List.lookup]
      · have h1 : (o == k) = false := beq_eq_false_iff_ne.mpr (fun e => hko e.symm)
        have h2 : (d == d ++ k.drop o.length) = false := by
          apply beq_eq_false_iff_ne.mpr
          intro e1
          have e2 : k.drop o.length = [] := by
            have := congrArg List.length e1
            simp only [List.length_append] at this
            exact List.length_eq_zero.mp (by omega)
          obtain ⟨t, rfl⟩ := hk
          simp at e2
          exact hko (by simp [e2])
        simp only [List.lookup, h1, h2]
        exact ih
    · have hb : o.isPrefixOf k = false := by
        rw [← Bool.not_eq_true, List.isPrefixOf_iff_prefix]
        exact hk
      have h1 : (o == k) = false :=
        beq_eq_false_iff_ne.mpr (fun e => hk (e ▸ List.prefix_refl _))
      simp only [hb, Bool.false_eq_true, if_false]
      by_cases hkd : k = d
      · subst hkd
        simp only [if_true, List.lookup, h1]
        exact ih
      · have h2 : (d == k) = false := beq_eq_false_iff_ne.mpr (fun e => hkd e.symm)
        simp only [if_neg hkd, List.lookup, h1, h2]
        exact ih

/-- After a move nothing is found at a location at or below `o`, unless `d` lies on the
way to it. -/
theorem find_move_src (fs : FS) (o d l : List String) (hl : l ≠ []) (hol : o <+: l)
    (hdl : ¬ d <+: l) : (fs.move o d).find l = none := by
  unfold find move
  rw [if_neg hl]
  simp only
  induction fs.nodes with
  | nil => rfl
  | cons e rest ih =>
    obtain ⟨k, v⟩ := e
    rw [List.filterMap_cons]
    by_cases hk : o <+: k
    · have hb : o.isPrefixOf k = true := List.isPrefixOf_iff_prefix.mpr hk
      have h2 : (l == d ++ k.drop o.length) = false :=
        beq_eq_false_iff_ne.mpr (fun e => hdl (e ▸ List.prefix_append _ _))
      simp only [hb, if_true, List.lookup, h2]
      exact ih
    · have hb : o.isPrefixOf k = false := by
        rw [← Bool.not_eq_true, List.isPrefixOf_iff_prefix]
        exact hk
      simp only [hb, Bool.false_eq_true, if_false]
      by_cases hkd : k = d
      · simp only [if_pos hkd]
        exact ih
      · have h2 : (l == k) = false := beq_eq_false_iff_ne.mpr (fun e => hk (e ▸ hol))
        simp only [if_neg hkd, List.lookup, h2]
        exact ih

/-- A move changes nothing at the locations that are below neither `o` nor `d`. -/
theorem find_move_other (fs : FS) (o d l : List String) (hol : ¬ o <+: l) (hdl : ¬ d <+: l) :
    (fs.move o d).find l = fs.find l := by
  unfold find move
  by_cases hl : l = []
  · rw [if_pos hl, if_pos hl]
  rw [if_neg hl, if_neg hl]
  simp only
  induction fs.nodes with
  | nil => rfl
  | cons e rest ih =>
    obtain ⟨k, v⟩ := e
    rw [List.filterMap_cons]
    by_cases hk : o <+: k
    · have hb : o.isPrefixOf k = true := List.isPrefixOf_iff_prefix.mpr hk
      have h1 : (l == k) = false := beq_eq_false_iff_ne.mpr (fun e => hol (e ▸ hk))
      have h2 : (l == d ++ k.drop o.length) = false :=
        beq_eq_false_iff_ne.mpr (fun e => hdl (e ▸ List.prefix_append _ _))
      simp only [hb, if_true, List.lookup, h1, h2]
      exact ih
    · have hb : o.isPrefixOf k = false := by
        rw [← Bool.not_eq_true, List.isPrefixOf_iff_prefix]
        exact hk
      simp only [hb, Bool.false_eq_true, if_false]
      by_cases hkd : k = d
      · have h1 : (l == k) = false :=
          beq_eq_false_iff_ne.mpr (fun e => hdl (e ▸ hkd ▸ List.prefix_refl _))
        simp only [if_pos hkd, List.lookup, h1]
        exact ih
      · by_cases hlk : l = k
        · subst hlk
          simp [if_neg hkd, List.lookup]
        · have h1 : (l == k) = false := beq_eq_false_iff_ne.mpr hlk
          simp only [if_neg hkd, List.lookup, h1]
          exact ih

end FS

/-- What `os.Rename` does with a file in a plain directory that is moved to a free name in
another plain directory. -/
theorem Rename_file (fs : FS) (A B : List String) (a b : String) (perm : Nat) (data : String)
    (hA : fs.PlainDir A) (hB : fs.PlainDir B) (hpA : ∀ n ∈ A, Proper n)
    (hpB : ∀ n ∈ B, Proper n) (ha : Proper a) (hb : Proper b)
    (hsrc : fs.find (A ++ [a]) = some (.file perm data)) (hdst : fs.find (B ++ [b]) = none) :
    Rename fs (FS.pathOf (A ++ [a])) (FS.pathOf (B ++ [b])) =
      .ok (fs.move (A ++ [a]) (B ++ [b])) := by
  have hne : A ++ [a] ≠ B ++ [b] := by
    intro e
    rw [e, hdst] at hsrc
    cases hsrc
  have hnp : (A ++ [a]).isPrefixOf (B ++ [b]) = false := by
    rw [← Bool.not_eq_true, List.isPrefixOf_iff_prefix]
    intro hpre
    rcases List.prefix_concat_iff.mp hpre with h | h
    · exact hne h
    · have := hB.ofInit h
      have hd := this.isDirAt
      unfold FS.isDirAt at hd
      rw [hsrc] at hd
      cases hd
  unfold Rename
  simp only [resolve_child fs A a hA hpA ha, resolve_child fs B b hB hpB hb, hsrc, hdst,
    if_neg hne, hnp, Bool.false_eq_true, or_false, List.append_eq_nil, List.cons_ne_self,
    and_false, if_false]
  rfl

end Os

/-! ## Paths in a copied tree -/

namespace Os

open Filepath

/-- The cleaned parts of the path of a location. -/
theorem cleanParts_pathOf (L : List String) (hL : ∀ n ∈ L, Proper n) :
    cleanParts (FS.pathOf L) = L.map String.data := by
  unfold cleanParts
  rw [isAbs_pathOf]
  unfold FS.pathOf
  simp only
  rw [splitSlash_cons_slash, List.foldl_cons, cleanStep_nil]
  by_cases hL0 : L = []
  · subst hL0
    decide
  · have hne2 : L.map String.data ≠ [] := by simpa using hL0
    rw [splitSlash_joinSlash _ hne2 (data_no_slash L hL),
      foldl_cleanStep_proper _ _ _ (data_proper L hL)]
    simp

theorem dropCommon_append (A B : List (List Char)) : dropCommon A (A ++ B) = ([], B) := by
  induction A with
  | nil => cases B <;> rfl
  | cons a rest ih =>
    rw [List.cons_append, dropCommon, if_pos rfl]
    exact ih

theorem pathOf_injective {L M : List String} (h : FS.pathOf L = FS.pathOf M)
    (hL : ∀ n ∈ L, Proper n) (hM : ∀ n ∈ M, Proper n) : L = M := by
  have := congrArg names h
  rwa [names_pathOf L hL, names_pathOf M hM] at this

/-- The path of a location below `S`, relative to `S`. -/
theorem Rel_pathOf (S r : List String) (hS : ∀ n ∈ S, Proper n) (hr : ∀ n ∈ r, Proper n)
    (hne : r ≠ []) :
    Filepath.Rel (FS.pathOf S) (FS.pathOf (S ++ r)) = some ⟨joinSlash (r.map String.data)⟩ := by
  have hSr : ∀ n ∈ S ++ r, Proper n := by
    intro n hn
    rcases List.mem_append.mp hn with h | h
    · exact hS n h
    · exact hr n h
  unfold Filepath.Rel
  rw [Clean_pathOf _ hS, Clean_pathOf _ hSr, if_neg (by
    intro h
    have := pathOf_injective h hSr hS
    have h2 := congrArg List.length this
    simp only [List.length_append] at h2
    exact hne (List.length_eq_zero.mp (by omega))), isAbs_pathOf, isAbs_pathOf,
    if_neg (by simp), cleanParts_pathOf _ hS, cleanParts_pathOf _ hSr, List.map_append,
    dropCommon_append]
  simp

/-- The target of the copy of a location below `S`. -/
theorem copy_target (K r : List String) (hK : ∀ n ∈ K, Proper n) (hr : ∀ n ∈ r, Proper n)
    (hne : r ≠ []) :
    Join [FS.pathOf K, ⟨joinSlash (r.map String.data)⟩] = FS.pathOf (K ++ r) := by
  have hb : (FS.pathOf K == "") = false := beq_eq_false_iff_ne.mpr (pathOf_ne_empty K)
  have hdrop : List.dropWhile (fun x => x == "")
      [FS.pathOf K, (⟨joinSlash (r.map String.data)⟩ : String)] =
      [FS.pathOf K, ⟨joinSlash (r.map String.data)⟩] := by
    simp [List.dropWhile, hb]
  have habs : IsAbs ⟨(FS.pathOf K).data ++ '/' :: joinSlash (r.map String.data)⟩ = true := by
    simp [IsAbs, FS.pathOf]
  unfold Join
  rw [hdrop]
  simp only [List.map, joinSlash]
  unfold Clean cleanParts
  rw [habs, pathOf_eq_ofParts (K ++ r)]
  congr 1
  exact cleanParts_pathOf_append K r hK hr hne

/-- The target of the copy of the root of the tree. -/
theorem copy_target_root (K : List String) (hK : ∀ n ∈ K, Proper n) :
    Join [FS.pathOf K, "."] = FS.pathOf K := by
  have hb : (FS.pathOf K == "") = false := beq_eq_false_iff_ne.mpr (pathOf_ne_empty K)
  have hdrop : List.dropWhile (fun x => x == "") [FS.pathOf K, "."] = [FS.pathOf K, "."] := by
    simp [List.dropWhile, hb]
  have habs : IsAbs ⟨(FS.pathOf K).data ++ '/' :: ['.']⟩ = true := by
    simp [IsAbs, FS.pathOf]
  unfold Join
  rw [hdrop]
  simp only [List.map, joinSlash]
  unfold Clean cleanParts
  rw [habs]
  conv_rhs => rw [pathOf_eq_ofParts K]
  congr 1
  have h1 := cleanParts_pathOf K hK
  unfold cleanParts at h1
  rw [isAbs_pathOf] at h1
  show List.foldl (cleanStep true) [] (splitSlash ((FS.pathOf K).data ++ '/' :: ['.'])) = _
  rw [splitSlash_append, List.foldl_append, h1]
  simp [splitSlash, cleanStep]

/-- Characters without separator before a separator are dropped up to the separator. -/
theorem dropWhile_to_slash (xs Q : List Char) (h : ∀ c ∈ xs, c ≠ '/') :
    (xs ++ '/' :: Q).dropWhile (fun c => c != '/') = '/' :: Q := by
  induction xs with
  | nil => rw [List.nil_append, List.dropWhile_cons_of_neg (by simp)]
  | cons x xs ih =>
    have hx1 : x ≠ '/' := h x (List.mem_cons_self _ _)
    rw [List.cons_append, List.dropWhile_cons_of_pos (by simpa using hx1)]
    exact ih (fun c hc => h c (List.mem_cons_of_mem _ hc))

/-- The directory part of the path of an entry is the path of its directory. -/
theorem Dir_pathOf (D : List String) (e : String) (hD : ∀ n ∈ D, Proper n) (he : Proper e) :
    Dir (FS.pathOf (D ++ [e])) = FS.pathOf D := by
  have hns : ∀ c ∈ e.data.reverse, c ≠ '/' := by
    intro c hc e1
    rw [List.mem_reverse] at hc
    exact he.2.1 (e1 ▸ hc)
  unfold Dir dirPrefix
  rw [pathOf_child_data]
  by_cases h0 : D = []
  · subst h0
    rw [if_pos rfl, List.reverse_append]
    have : (['/'] : List Char).reverse = '/' :: [] := rfl
    rw [this, dropWhile_to_slash _ _ hns]
    decide
  · rw [if_neg h0, List.reverse_append, List.reverse_append]
    have : (['/'] : List Char).reverse ++ (FS.pathOf D).data.reverse =
        '/' :: (FS.pathOf D).data.reverse := rfl
    rw [this, dropWhile_to_slash _ _ hns, List.reverse_cons, List.reverse_reverse]
    have habs : IsAbs ⟨(FS.pathOf D).data ++ ['/']⟩ = true := by
      simp [IsAbs, FS.pathOf]
    unfold Clean cleanParts
    rw [habs]
    conv_rhs => rw [pathOf_eq_ofParts D]
    congr 1
    have h1 := cleanParts_pathOf D hD
    unfold cleanParts at h1
    rw [isAbs_pathOf] at h1
    show List.foldl (cleanStep true) [] (splitSlash ((FS.pathOf D).data ++ '/' :: [])) = _
    rw [splitSlash_append, List.foldl_append, h1]
    simp [splitSlash, cleanStep]

/-- A location that is reached through objects has no more names than the file system has
objects. -/
theorem length_le_nodes (fs : FS) (L : List String)
    (h : ∀ p, p <+: L → p ≠ [] → (fs.find p).isSome = true) : L.length ≤ fs.nodes.length := by
  have hnd : ((List.range L.length).map (fun i => L.take (i + 1))).Nodup := by
    apply List.Nodup.map_on _ (List.nodup_range _)
    intro i hi j hj e
    rw [List.mem_range] at hi hj
    have := congrArg List.length e
    simp only [List.length_take] at this
    omega
  have hsub : (List.range L.length).map (fun i => L.take (i + 1)) ⊆ fs.nodes.map Prod.fst := by
    intro p hp
    obtain ⟨i, hi, rfl⟩ := List.mem_map.mp hp
    rw [List.mem_range] at hi
    have hne : L.take (i + 1) ≠ [] := by
      intro e
      have := congrArg List.length e
      simp only [List.length_take, List.length_nil] at this
      omega
    have hs := h _ (List.take_prefix _ _) hne
    unfold FS.find at hs
    rw [if_neg hne] at hs
    obtain ⟨x, hx⟩ := Option.isSome_iff_exists.mp hs
    exact List.mem_map.mpr ⟨(_, x), mem_of_lookup_eq_some _ _ _ hx, rfl⟩
  have := (hnd.subperm hsub).length_le
  simpa using this

end Os

/-! ## `CopyTree`: one object -/

namespace Os

open Filepath

/-- Opening a file in a plain directory gives its content. -/
theorem Open_child_file (fs : FS) (D : List String) (e : String) (perm : Nat) (data : String)
    (hD : fs.PlainDir D) (hp : ∀ n ∈ D, Proper n) (he : Proper e)
    (h : fs.find (D ++ [e]) = some (.file perm data)) :
    Open fs (FS.pathOf (D ++ [e])) = .ok (some data) := by
  unfold Open
  simp only [resolve_child_follow fs D e hD hp he (fun t ht => by
    rw [h] at ht
    cases ht), h]

/-- Writing a file under a free name of a plain directory creates it. -/
theorem WriteFile_child_new (fs : FS) (D : List String) (e data : String) (mode : Nat)
    (hD : fs.PlainDir D) (hp : ∀ n ∈ D, Proper n) (he : Proper e)
    (h : fs.find (D ++ [e]) = none) :
    WriteFile fs (FS.pathOf (D ++ [e])) data mode =
      .ok (fs.put (D ++ [e]) (.file (syscallMode mode) data)) := by
  unfold WriteFile
  simp only [resolve_child_follow fs D e hD hp he (fun t ht => by
    rw [h] at ht
    cases ht), h]

/-- Writing a file that exists in a plain directory replaces its content. -/
theorem WriteFile_child_file (fs : FS) (D : List String) (e data old : String) (mode perm : Nat)
    (hD : fs.PlainDir D) (hp : ∀ n ∈ D, Proper n) (he : Proper e)
    (h : fs.find (D ++ [e]) = some (.file perm old)) :
    WriteFile fs (FS.pathOf (D ++ [e])) data mode = .ok (fs.put (D ++ [e]) (.file perm data)) := by
  unfold WriteFile
  simp only [resolve_child_follow fs D e hD hp he (fun t ht => by
    rw [h] at ht
    cases ht), h]

/-- A plain directory of one file system is a plain directory of another one in which the
same objects are found on the way to it. -/
theorem FS.PlainDir.congr {fs1 fs2 : FS} {D : List String} (h : fs1.PlainDir D)
    (hf : ∀ p, p <+: D → fs2.find p = fs1.find p) : fs2.PlainDir D := by
  intro p hp
  have := h p hp
  unfold Os.FS.isDirAt at this ⊢
  rw [hf p ((List.mem_inits _ _).mp hp)]
  exact this

end Os

namespace Fsutil

open Os Filepath

/-- What the function of `CopyTree` does for an entry of a directory of the source whose
name is free in the directory of the destination: the copy of the entry is put there, and
nothing else is changed. -/
theorem copyNode_entry (fs : FS) (S K l : List String) (n : String) (info : Node)
    (hpS : ∀ x ∈ S, Proper x) (hpK : ∀ x ∈ K, Proper x) (hpl : ∀ x ∈ l, Proper x)
    (hn : Proper n) (hS : fs.PlainDir (S ++ l)) (hK : fs.PlainDir (K ++ l))
    (hsrc : fs.find (S ++ l ++ [n]) = some info) (hfresh : fs.find (K ++ l ++ [n]) = none)
    (hdis : ∀ loc, K <+: loc → S <+: loc → False) :
    ∃ fs2, copyNode (FS.pathOf S) (FS.pathOf K) (FS.pathOf K) (FS.pathOf (S ++ l ++ [n])) info fs =
        .ok fs2 ∧
      fs2.find (K ++ l ++ [n]) = copyOf K (l ++ [n]) info ∧
      ∀ loc, loc ≠ K ++ l ++ [n] → fs2.find loc = fs.find loc := by
  have hpSl : ∀ x ∈ S ++ l, Proper x := by
    intro x hx
    rcases List.mem_append.mp hx with h | h
    · exact hpS x h
    · exact hpl x h
  have hpKl : ∀ x ∈ K ++ l, Proper x := by
    intro x hx
    rcases List.mem_append.mp hx with h | h
    · exact hpK x h
    · exact hpl x h
  have hpr : ∀ x ∈ l ++ [n], Proper x := proper_append hpl hn
  have hrel : Filepath.Rel (FS.pathOf S) (FS.pathOf (S ++ l ++ [n])) =
      some ⟨joinSlash ((l ++ [n]).map String.data)⟩ := by
    rw [List.append_assoc]
    exact Rel_pathOf S (l ++ [n]) hpS hpr (by simp)
  have htarget : Join [FS.pathOf K, ⟨joinSlash ((l ++ [n]).map String.data)⟩] =
      FS.pathOf (K ++ l ++ [n]) := by
    rw [List.append_assoc]
    exact copy_target K (l ++ [n]) hpK hpr (by simp)
  have hT : ¬ (K ++ l ++ [n]) <+: (S ++ l) := by
    intro h
    apply hdis (S ++ l) _ (List.prefix_append _ _)
    rw [List.append_assoc] at h
    exact (List.prefix_append _ _).trans h
  have hTne : S ++ l ++ [n] ≠ K ++ l ++ [n] := by
    intro e
    apply hdis (S ++ l ++ [n])
    · rw [e, List.append_assoc]
      exact List.prefix_append _ _
    · rw [List.append_assoc]
      exact List.prefix_append _ _
  unfold copyNode
  rw [hrel]
  simp only
  rw [htarget, Lstat_child fs (S ++ l) n info hS hpSl hn hsrc]
  simp only
  cases info with
  | symlink t =>
    have hm : (Node.symlink t).Mode &&& ModeSymlink ≠ 0 := (mode_and_symlink _).mpr ⟨t, rfl⟩
    rw [if_pos hm, Readlink_child fs (S ++ l) n t hS hpSl hn hsrc]
    simp only
    by_cases hesc : HasPrefix (Clean (if IsAbs t then t
        else Join [Dir (FS.pathOf (K ++ l ++ [n])), t])) (FS.pathOf K ++ "/") = false ∧
        Clean (if IsAbs t then t else Join [Dir (FS.pathOf (K ++ l ++ [n])), t]) ≠ FS.pathOf K
    · rw [if_pos hesc]
      refine ⟨fs, rfl, ?_, fun _ _ => rfl⟩
      rw [hfresh]
      unfold copyOf
      simp only
      rw [← List.append_assoc, if_pos hesc]
    · rw [if_neg hesc, Symlink_child fs (K ++ l) n t hK hpKl hn hfresh]
      refine ⟨_, rfl, ?_, fun loc hloc => FS.find_put_ne _ _ _ _ hloc⟩
      rw [FS.find_put_self _ _ _ (by simp)]
      unfold copyOf
      simp only
      rw [← List.append_assoc, if_neg hesc]
  | dir p =>
    have hm : ¬ ((Node.dir p).Mode &&& ModeSymlink ≠ 0) := by
      rw [mode_and_symlink]
      rintro ⟨t, ht⟩
      cases ht
    rw [if_neg hm]
    have hd : (Node.dir p).IsDir = true := rfl
    simp only [hd, if_true]
    rw [MkdirAll_child fs (K ++ l) n _ hK hpKl hn hfresh]
    refine ⟨_, rfl, ?_, fun loc hloc => FS.find_put_ne _ _ _ _ hloc⟩
    rw [FS.find_put_self _ _ _ (by simp)]
    rfl
  | file p c =>
    have hm : ¬ ((Node.file p c).Mode &&& ModeSymlink ≠ 0) := by
      rw [mode_and_symlink]
      rintro ⟨t, ht⟩
      cases ht
    rw [if_neg hm]
    have hd : (Node.file p c).IsDir = false := rfl
    simp only [hd, Bool.false_eq_true, if_false]
    have hS2 : (fs.put (K ++ l ++ [n]) (.file (syscallMode
        (SanitizeMode (Node.file p c).Mode false)) "")).PlainDir (S ++ l) := hS.put _ _ hT
    have hK2 : (fs.put (K ++ l ++ [n]) (.file (syscallMode
        (SanitizeMode (Node.file p c).Mode false)) "")).PlainDir (K ++ l) :=
      hK.put _ _ (not_prefix_child _ _)
    have hsrc2 : (fs.put (K ++ l ++ [n]) (.file (syscallMode
        (SanitizeMode (Node.file p c).Mode false)) "")).find (S ++ l ++ [n]) =
        some (.file p c) := by
      rw [FS.find_put_ne _ _ _ _ hTne, hsrc]
    unfold CopyFile
    rw [Open_child_file fs (S ++ l) n p c hS hpSl hn hsrc]
    simp only
    rw [WriteFile_child_new fs (K ++ l) n "" _ hK hpKl hn hfresh]
    simp only
    rw [Open_child_file _ (S ++ l) n p c hS2 hpSl hn hsrc2]
    simp only
    rw [WriteFile_child_file _ (K ++ l) n c "" _ _ hK2 hpKl hn (FS.find_put_self _ _ _ (by simp))]
    refine ⟨_, rfl, ?_, ?_⟩
    · rw [FS.find_put_self _ _ _ (by simp)]
      rfl
    · intro loc hloc
      rw [FS.find_put_ne _ _ _ _ hloc, FS.find_put_ne _ _ _ _ hloc]

end Fsutil

namespace Depgraph

theorem KahnInv.length_le {graph : GoMap (List String)} {inDegree : GoMap Int}
    {ready sorted : List String} (inv : KahnInv graph inDegree ready sorted) :
    sorted.length + ready.length ≤ graph.keys.length := by
  have := (List.subperm_of_subset inv.nodup (fun x hx => inv.sub x hx)).length_le
  simpa using this

/-- The main loop ends within `len(graph)` iterations, in a state that satisfies the
invariant with an empty ready queue. -/
theorem kahnLoop_spec (graph reverse : GoMap (List String)) (hr : ReverseOf graph reverse) :
    ∀ (fuel : Nat) (inDegree : GoMap Int) (ready sorted : List String),
      KahnInv graph inDegree ready sorted → graph.keys.length ≤ fuel + sorted.length →
      ∃ inDegree1 sorted1, kahnLoop reverse fuel inDegree ready sorted = some (inDegree1, sorted1) ∧
        KahnInv graph inDegree1 [] sorted1 := by
  intro fuel
  induction fuel with
  | zero =>
    intro inDegree ready sorted inv hf
    cases ready with
    | nil => exact ⟨inDegree, sorted, by simp [kahnLoop], inv⟩
    | cons node rest =>
      have := inv.length_le
      simp at this hf
      omega
  | succ fuel ih =>
    intro inDegree ready sorted inv hf
    cases ready with
    | nil => exact ⟨inDegree, sorted, by simp [kahnLoop], inv⟩
    | cons node rest =>
      have h1 := kahn_step graph reverse hr inDegree node rest sorted inv
      obtain ⟨i1, s1, he, hi⟩ := ih _ _ _ h1 (by simp; omega)
      exact ⟨i1, s1, by simp only [kahnLoop]; exact he, hi⟩

theorem unmet_nil (graph : GoMap (List String)) (n : String) :
    unmet graph [] n = (graph.get n).length := by
  unfold unmet
  simp

theorem readyAt_of_no_deps (graph : GoMap (List String)) (out : List String) (n : String)
    (h : graph.get n = []) : readyAt graph out n = 0 := by
  unfold readyAt
  rw [h]; rfl

/-- The state in which `topoSort` enters its main loop satisfies the invariant. -/
theorem kahn_init (graph : GoMap (List String)) (hk : graph.keys.Nodup)
    (order : List String) (ho : order.Perm graph.keys)
    (ks : List String) (hks : ks.Perm (buildTables graph order).inDegree.keys) :
    ReverseOf graph (buildTables graph order).reverse ∧
      KahnInv graph (buildTables graph order).inDegree
        (sortStrings (ks.filter
          (fun n => decide ((buildTables graph order).inDegree.get n = 0)))) [] := by
  have hond : order.Nodup := ho.nodup_iff.mpr hk
  have ht := buildTables_tablesOf graph order hond
  have hksK : ks.Perm graph.keys := by
    have := ht.keys
    rw [this] at hks
    exact hks.trans ho
  have hdeg : ∀ n ∈ graph.keys,
      (buildTables graph order).inDegree.get n = ((graph.get n).length : Int) := by
    intro n hn
    rw [ht.inDegree]
    simp [ho.mem_iff.mpr hn]
  have hmem : ∀ x, x ∈ sortStrings (ks.filter
      (fun n => decide ((buildTables graph order).inDegree.get n = 0))) ↔
      x ∈ graph.keys ∧ (buildTables graph order).inDegree.get x = 0 := by
    intro x
    rw [mem_sortStrings, List.mem_filter, hksK.mem_iff]
    simp
  have hnd : (sortStrings (ks.filter
      (fun n => decide ((buildTables graph order).inDegree.get n = 0)))).Nodup :=
    sortStrings_nodup ((hksK.nodup_iff.mpr hk).filter _)
  have hnodeps : ∀ x ∈ sortStrings (ks.filter
      (fun n => decide ((buildTables graph order).inDegree.get n = 0))), graph.get x = [] := by
    intro x hx
    have h1 := (hmem x).mp hx
    rw [hdeg x h1.1] at h1
    have : (graph.get x).length = 0 := by exact_mod_cast h1.2
    exact List.length_eq_zero.mp this
  refine ⟨?_, ?_⟩
  · intro d m
    rw [ht.reverse d m]
    by_cases hm : m ∈ graph.keys
    · simp [hm, ho.mem_iff.mpr hm]
    · have : m ∉ order := fun h => hm (ho.mem_iff.mp h)
      simp [hm, this]
  · constructor
    · rw [ht.keys]; exact ho
    · simpa using hnd
    · intro x hx
      exact ((hmem x).mp (by simpa using hx)).1
    · intro n hn
      rw [hdeg n hn, unmet_nil]
    · intro n hn h0
      simpa using (hmem n).mpr ⟨hn, h0⟩
    · intro n hn
      exact ((hmem n).mp (by simpa using hn)).2
    · intro n hn
      simp at hn
    · rw [List.nil_append]
      refine (sortStrings_pairwise_lt ((hksK.nodup_iff.mpr hk).filter _)).imp_of_mem ?_
      intro a b ha hb hab
      right
      exact ⟨by rw [readyAt_of_no_deps _ _ _ (hnodeps a ha),
        readyAt_of_no_deps _ _ _ (hnodeps b hb)], hab⟩
    · intro x hx
      rw [readyAt_of_no_deps _ _ _ (hnodeps x (by simpa using hx))]
      simp

/-- The run of the main loop of `topoSort`: it ends, and its final state satisfies the
invariant. -/
theorem topoSort_loop (o : RangeOrder) (ho : o.Valid) (graph : GoMap (List String))
    (hk : graph.keys.Nodup) :
    ∃ inDegree sorted,
      kahnLoop (buildTables graph (o.graph graph.keys)).reverse graph.keys.length
        (buildTables graph (o.graph graph.keys)).inDegree
        (sortStrings ((o.ready (buildTables graph (o.graph graph.keys)).inDegree.keys).filter
          (fun n => decide ((buildTables graph (o.graph graph.keys)).inDegree.get n = 0)))) []
        = some (inDegree, sorted) ∧
      KahnInv graph inDegree [] sorted := by
  obtain ⟨hr, hi⟩ := kahn_init graph hk (o.graph graph.keys) (ho graph.keys).1
    (o.ready (buildTables graph (o.graph graph.keys)).inDegree.keys) (ho _).2.1
  exact kahnLoop_spec graph _ hr _ _ _ _ hi (by simp)

end Depgraph

/-! ## `CopyTree`: the copy of a tree -/

namespace Fsutil

open Os Filepath

/-- The copy of an entry of a directory of the tree. -/
theorem mirror_entry (fs : FS) (S K l : List String) (n : String) (info : Node)
    (hS : fs.PlainDir (S ++ l)) (h : fs.find (S ++ l ++ [n]) = some info) :
    mirror fs S K (l ++ [n]) = copyOf K (l ++ [n]) info := by
  unfold mirror
  rw [List.dropLast_concat, if_pos hS, ← List.append_assoc, h]
  rfl

/-- Nothing is copied from below an object that is no directory. -/
theorem mirror_below (fs : FS) (S K l : List String) (n : String) (m : List String)
    (h : fs.isDirAt (S ++ l ++ [n]) = false) (hm : m ≠ []) :
    mirror fs S K (l ++ [n] ++ m) = none := by
  unfold mirror
  rw [if_neg]
  intro hp
  have hpre : (S ++ l ++ [n]) <+: S ++ (l ++ [n] ++ m).dropLast := by
    rw [List.dropLast_append_of_ne_nil _ hm]
    simp only [List.append_assoc]
    exact (List.prefix_append_right_inj S).mpr ((List.prefix_append_right_inj l).mpr
      (List.prefix_append _ _))
  have := (hp.ofInit hpre).isDirAt
  rw [h] at this
  cases this

/-- Nothing is copied to a place for which the source has no object. -/
theorem mirror_absent (fs : FS) (S K l : List String) (n : String) (m : List String)
    (h : fs.find (S ++ l ++ [n]) = none) : mirror fs S K (l ++ [n] ++ m) = none := by
  by_cases hm : m = []
  · subst hm
    unfold mirror
    rw [List.append_nil]
    split
    · rw [← List.append_assoc, h]
      rfl
    · rfl
  · apply mirror_below fs S K l n m _ hm
    unfold FS.isDirAt
    rw [h]

end Fsutil

/-! ## `CopyTree`: the walk -/

namespace Fsutil

open Os Filepath

/-- A plain directory outside the destination stays one while the destination is
written. -/
theorem outside_plain {fs0 fs1 : FS} {K D : List String} (hD : fs0.PlainDir D)
    (hout : ∀ loc, ¬ K <+: loc → fs1.find loc = fs0.find loc) (hnot : ¬ K <+: D) :
    fs1.PlainDir D :=
  hD.congr (fun p hp => hout p (fun h => hnot (h.trans hp)))

theorem walkNames_nil (down : String → Node → FS → Except (CopyError × FS) FS) (path : String)
    (fs : FS) : walkNames down path [] fs = .ok fs := rfl

theorem walkNames_cons (down : String → Node → FS → Except (CopyError × FS) FS) (path : String)
    (name : String) (rest : List String) (fs : FS) :
    walkNames down path (name :: rest) fs =
      match Lstat fs (Join [path, name]) with
      | .error e => .error (.os e, fs)
      | .ok fileInfo =>
        match down (Join [path, name]) fileInfo fs with
        | .error e => .error e
        | .ok fs1 => walkNames down path rest fs1 := rfl

/-- The loop over the names in a directory of the tree copies every entry, when the walk
of one entry does. -/
theorem walkNames_copy (fs0 : FS) (S K : List String) (fuel : Nat)
    (hpS : ∀ x ∈ S, Proper x) (hnames : fs0.ProperNames)
    (hdis : ∀ loc, K <+: loc → S <+: loc → False) (hwalk : CopiesEntries fs0 S K fuel) :
    ∀ (ns l : List String) (fs1 : FS), (∀ x ∈ l, Proper x) →
      (∀ loc, ¬ K <+: loc → fs1.find loc = fs0.find loc) →
      fs0.PlainDir (S ++ l) → fs1.PlainDir (K ++ l) →
      (∀ n ∈ ns, (fs0.find (S ++ l ++ [n])).isSome = true) → ns.Nodup →
      (∀ n ∈ ns, ∀ m, fs1.find (K ++ l ++ [n] ++ m) = none) →
      fs0.nodes.length + 1 + S.length ≤ fuel + (S.length + l.length + 1) →
      ∃ fs2, walkNames (walk (copyNode (FS.pathOf S) (FS.pathOf K) (FS.pathOf K)) fuel)
          (FS.pathOf (S ++ l)) ns fs1 = .ok fs2 ∧
        (∀ loc, (∀ n ∈ ns, ¬ (K ++ l ++ [n]) <+: loc) → fs2.find loc = fs1.find loc) ∧
        (∀ n ∈ ns, ∀ m, fs2.find (K ++ l ++ [n] ++ m) = mirror fs0 S K (l ++ [n] ++ m)) := by
  intro ns
  induction ns with
  | nil =>
    intro l fs1 _ _ _ _ _ _ _ _
    exact ⟨fs1, rfl, fun _ _ => rfl, fun n hn => by cases hn⟩
  | cons n rest ih =>
    intro l fs1 hpl hout hS0 hK1 hns hnd hfresh hfuel
    rw [List.nodup_cons] at hnd
    have hpSl : ∀ x ∈ S ++ l, Proper x := by
      intro x hx
      rcases List.mem_append.mp hx with h | h
      · exact hpS x h
      · exact hpl x h
    obtain ⟨info, hinfo⟩ := Option.isSome_iff_exists.mp (hns n (List.mem_cons_self _ _))
    have hn : Proper n :=
      Linker.children_proper fs0 (S ++ l) hnames n
        ((mem_children_iff_find fs0 (S ++ l) n).mpr (by rw [hinfo]; rfl))
    have hnotS : ∀ loc, S <+: loc → ¬ K <+: loc := fun loc h1 h2 => hdis loc h2 h1
    have hS1 : fs1.PlainDir (S ++ l) := outside_plain hS0 hout (hnotS _ (List.prefix_append _ _))
    have hsrc1 : fs1.find (S ++ l ++ [n]) = some info := by
      rw [hout _ (hnotS _ (by rw [List.append_assoc]; exact List.prefix_append _ _)), hinfo]
    obtain ⟨fsA, hA, hframeA, hmirA⟩ := hwalk l n fs1 info hpl hn hout hS0 hinfo hK1
      (hfresh n (List.mem_cons_self _ _)) hfuel
    have houtA : ∀ loc, ¬ K <+: loc → fsA.find loc = fs0.find loc := by
      intro loc hloc
      rw [hframeA loc (fun h => hloc (by
        rw [List.append_assoc] at h
        exact (List.prefix_append _ _).trans h)), hout loc hloc]
    have hKA : fsA.PlainDir (K ++ l) :=
      hK1.congr (fun p hp => hframeA p (fun h => by
        have := (h.trans hp).length_le
        simp at this))
    have hne : ∀ n2 ∈ rest, ∀ m, ¬ (K ++ l ++ [n]) <+: (K ++ l ++ [n2] ++ m) := by
      intro n2 hn2 m h
      rw [List.append_assoc (K ++ l), List.prefix_append_right_inj] at h
      simp only [List.singleton_append, List.cons_prefix_cons] at h
      exact hnd.1 (h.1 ▸ hn2)
    obtain ⟨fs2, h2, hframe2, hmir2⟩ := ih l fsA hpl houtA hS0 hKA
      (fun x hx => hns x (List.mem_cons_of_mem _ hx)) hnd.2
      (fun n2 hn2 m => by
        rw [hframeA _ (hne n2 hn2 m)]
        exact hfresh n2 (List.mem_cons_of_mem _ hn2) m) hfuel
    refine ⟨fs2, ?_, ?_, ?_⟩
    · rw [walkNames_cons, Join_pathOf _ n hpSl hn, Lstat_child fs1 (S ++ l) n info hS1 hpSl hn hsrc1]
      simp only
      rw [hA]
      exact h2
    · intro loc hloc
      rw [hframe2 loc (fun x hx => hloc x (List.mem_cons_of_mem _ hx)),
        hframeA loc (hloc n (List.mem_cons_self _ _))]
    · intro x hx m
      rcases List.mem_cons.mp hx with h | h
      · rw [h, hframe2 _ (fun n2 hn2 hpre => by
          rw [List.append_assoc (K ++ l), List.prefix_append_right_inj] at hpre
          simp only [List.singleton_append, List.cons_prefix_cons] at hpre
          exact hnd.1 (hpre.1 ▸ hn2))]
        exact hmirA m
      · exact hmir2 x h m

end Fsutil

/-! ## `CopyTree`: the walk of a directory -/

namespace Fsutil

open Os Filepath

theorem walkTree_succ (fn : String → Node → FS → Except (CopyError × FS) FS) (fuel : Nat)
    (path : String) (info : Node) (fs : FS) :
    walk fn (fuel + 1) path info fs =
      if info.IsDir = false then fn path info fs
      else
        match ReadDir fs path with
        | .error e => .error (.os e, fs)
        | .ok entries =>
          match fn path info fs with
          | .error e => .error e
          | .ok fs1 => walkNames (walk fn fuel) path (entries.map (fun e => e.1)) fs1 := rfl

/-- The walk of an entry that is no directory is the copy of the entry. -/
theorem walk_leaf (fs0 : FS) (S K : List String) (fuel : Nat)
    (hpS : ∀ x ∈ S, Proper x) (hpK : ∀ x ∈ K, Proper x)
    (hdis : ∀ loc, K <+: loc → S <+: loc → False)
    (l : List String) (n : String) (fs1 : FS) (info : Node)
    (hpl : ∀ x ∈ l, Proper x) (hn : Proper n)
    (hout : ∀ loc, ¬ K <+: loc → fs1.find loc = fs0.find loc)
    (hS0 : fs0.PlainDir (S ++ l)) (hinfo : fs0.find (S ++ l ++ [n]) = some info)
    (hK1 : fs1.PlainDir (K ++ l)) (hfresh : ∀ m, fs1.find (K ++ l ++ [n] ++ m) = none)
    (hleaf : info.IsDir = false) :
    ∃ fs2, walk (copyNode (FS.pathOf S) (FS.pathOf K) (FS.pathOf K)) (fuel + 1)
        (FS.pathOf (S ++ l ++ [n])) info fs1 = .ok fs2 ∧
      (∀ loc, ¬ (K ++ l ++ [n]) <+: loc → fs2.find loc = fs1.find loc) ∧
      (∀ m, fs2.find (K ++ l ++ [n] ++ m) = mirror fs0 S K (l ++ [n] ++ m)) := by
  have hnotS : ∀ loc, S <+: loc → ¬ K <+: loc := fun loc h1 h2 => hdis loc h2 h1
  have hS1 : fs1.PlainDir (S ++ l) := outside_plain hS0 hout (hnotS _ (List.prefix_append _ _))
  have hsrc1 : fs1.find (S ++ l ++ [n]) = some info := by
    rw [hout _ (hnotS _ (by rw [List.append_assoc]; exact List.prefix_append _ _)), hinfo]
  have hf0 : fs1.find (K ++ l ++ [n]) = none := by
    have := hfresh []
    rwa [List.append_nil] at this
  obtain ⟨fs2, h2, hfind, hframe⟩ := copyNode_entry fs1 S K l n info hpS hpK hpl hn hS1 hK1 hsrc1 hf0 hdis
  refine ⟨fs2, ?_, ?_, ?_⟩
  · rw [walkTree_succ, if_pos hleaf, h2]
  · intro loc hloc
    exact hframe loc (fun e => hloc (e ▸ List.prefix_refl _))
  · intro m
    by_cases hm : m = []
    · subst hm
      rw [List.append_nil, List.append_nil, hfind, mirror_entry fs0 S K l n info hS0 hinfo]
    · rw [hframe _ (fun e => hm (by simpa using e)), hfresh m]
      symm
      apply mirror_below fs0 S K l n m _ hm
      unfold FS.isDirAt
      rw [hinfo]
      cases info with
      | dir perm => cases hleaf
      | file perm data => rfl
      | symlink link => rfl

/-- The walk of `filepath.Walk` with the function of `CopyTree` copies every entry of the
tree, with any fuel that is enough for the depth of the entry. -/
theorem walk_copy (fs0 : FS) (S K : List String)
    (hpS : ∀ x ∈ S, Proper x) (hpK : ∀ x ∈ K, Proper x) (hnames : fs0.ProperNames)
    (hdis : ∀ loc, K <+: loc → S <+: loc → False) :
    ∀ fuel, CopiesEntries fs0 S K fuel := by
  intro fuel
  induction fuel with
  | zero =>
    intro l n fs1 info hpl hn hout hS0 hinfo hK1 hfresh hfuel
    exfalso
    have hlen := length_le_nodes fs0 (S ++ l ++ [n]) (by
      intro p hp hne
      rcases List.prefix_concat_iff.mp hp with h1 | h1
      · rw [h1, hinfo]
        rfl
      · obtain ⟨perm, hperm⟩ := (isDirAt_iff fs0 p).mp (hS0.ofInit h1).isDirAt
        rw [hperm]
        rfl)
    simp only [List.length_append, List.length_singleton] at hlen
    omega
  | succ fuel ih =>
    intro l n fs1 info hpl hn hout hS0 hinfo hK1 hfresh hfuel
    by_cases hleaf : info.IsDir = false
    · exact walk_leaf fs0 S K fuel hpS hpK hdis l n fs1 info hpl hn hout hS0 hinfo hK1 hfresh hleaf
    · obtain ⟨perm, hperm⟩ : ∃ perm, info = .dir perm := by
        cases info with
        | dir perm => exact ⟨perm, rfl⟩
        | file perm data => exact absurd rfl hleaf
        | symlink link => exact absurd rfl hleaf
      subst hperm
      have hnotS : ∀ loc, S <+: loc → ¬ K <+: loc := fun loc h1 h2 => hdis loc h2 h1
      have hpSl : ∀ x ∈ S ++ l ++ [n], Proper x := by
        intro x hx
        simp only [List.mem_append, List.mem_singleton] at hx
        rcases hx with (h | h) | h
        · exact hpS x h
        · exact hpl x h
        · exact h ▸ hn
      have hpl2 : ∀ x ∈ l ++ [n], Proper x := by
        intro x hx
        simp only [List.mem_append, List.mem_singleton] at hx
        rcases hx with h | h
        · exact hpl x h
        · exact h ▸ hn
      have hS1 : fs1.PlainDir (S ++ l) := outside_plain hS0 hout (hnotS _ (List.prefix_append _ _))
      have hsrc1 : fs1.find (S ++ l ++ [n]) = some (.dir perm) := by
        rw [hout _ (hnotS _ (by rw [List.append_assoc]; exact List.prefix_append _ _)), hinfo]
      have hS0n : fs0.PlainDir (S ++ l ++ [n]) :=
        hS0.child n ((isDirAt_iff fs0 _).mpr ⟨perm, hinfo⟩)
      have hS1n : fs1.PlainDir (S ++ l ++ [n]) :=
        hS1.child n ((isDirAt_iff fs1 _).mpr ⟨perm, hsrc1⟩)
      have hf0 : fs1.find (K ++ l ++ [n]) = none := by
        have := hfresh []
        rwa [List.append_nil] at this
      obtain ⟨entries, hread, hentries⟩ := ReadDir_plain fs1 (S ++ l ++ [n]) hS1n hpSl
      have hch : fs1.children (S ++ l ++ [n]) = fs0.children (S ++ l ++ [n]) :=
        children_congr fs1 fs0 _ (fun x => by
          rw [hout _ (hnotS _ (by
            rw [List.append_assoc, List.append_assoc]
            exact List.prefix_append _ _))])
      obtain ⟨fsA, hA, hfindA, hframeA⟩ :=
        copyNode_entry fs1 S K l n (.dir perm) hpS hpK hpl hn hS1 hK1 hsrc1 hf0 hdis
      have houtA : ∀ loc, ¬ K <+: loc → fsA.find loc = fs0.find loc := by
        intro loc hloc
        rw [hframeA loc (fun e => hloc (by
          rw [e, List.append_assoc]
          exact List.prefix_append _ _)), hout loc hloc]
      have hKA : fsA.PlainDir (K ++ l ++ [n]) := by
        have h1 : fsA.PlainDir (K ++ l) :=
          hK1.congr (fun p hp => hframeA p (fun e => by
            have := hp.length_le
            rw [e] at this
            simp at this))
        exact h1.child n ((isDirAt_iff fsA _).mpr ⟨_, hfindA.trans rfl⟩)
      have hih := walkNames_copy fs0 S K fuel hpS hnames hdis ih (fs0.children (S ++ l ++ [n]))
        (l ++ [n]) fsA hpl2 houtA (by rw [← List.append_assoc]; exact hS0n)
        (by rw [← List.append_assoc]; exact hKA)
        (fun x hx => by
          rw [← List.append_assoc]
          exact (mem_children_iff_find fs0 _ x).mp hx)
        (children_nodup fs0 _)
        (fun x hx m => by
          rw [← List.append_assoc, hframeA _ (fun e => by
            have := congrArg List.length e
            simp at this)]
          have := hfresh ([x] ++ m)
          simpa only [List.append_assoc] using this)
        (by simp only [List.length_append, List.length_singleton]; omega)
      obtain ⟨fs2, h2, hframe2, hmir2⟩ := hih
      refine ⟨fs2, ?_, ?_, ?_⟩
      · rw [walkTree_succ, if_neg hleaf, hread]
        simp only
        rw [hA]
        simp only
        rw [hentries, hch]
        rw [← List.append_assoc] at h2
        exact h2
      · intro loc hloc
        rw [hframe2 loc (fun x hx hpre => hloc (by
          rw [← List.append_assoc] at hpre
          exact (List.prefix_append _ _).trans hpre)),
          hframeA loc (fun e => hloc (e ▸ List.prefix_refl _))]
      · intro m
        cases m with
        | nil =>
          rw [List.append_nil, List.append_nil, hframe2 _ (fun x hx hpre => by
            have := hpre.length_le
            simp at this), hfindA, mirror_entry fs0 S K l n _ hS0 hinfo]
        | cons x m =>
          by_cases hx : x ∈ fs0.children (S ++ l ++ [n])
          · have := hmir2 x hx m
            simpa only [List.append_assoc, List.singleton_append] using this
          · have hnone : fs0.find (S ++ l ++ [n] ++ [x]) = none := by
              cases h : fs0.find (S ++ l ++ [n] ++ [x]) with
              | none => rfl
              | some v =>
                exact absurd ((mem_children_iff_find fs0 _ x).mpr (by rw [h]; rfl)) hx
            have hmir : mirror fs0 S K (l ++ [n] ++ x :: m) = none := by
              have := mirror_absent fs0 S K (l ++ [n]) x m (by
                rw [← List.append_assoc]
                exact hnone)
              simpa only [List.append_assoc, List.singleton_append] using this
            rw [hmir, hframe2 _ (fun y hy hpre => by
              have h3 : (K ++ (l ++ [n]) ++ [y]) <+: (K ++ (l ++ [n]) ++ (x :: m)) := by
                simpa only [List.append_assoc] using hpre
              rw [List.prefix_append_right_inj] at h3
              simp only [List.singleton_append, List.cons_prefix_cons] at h3
              exact hx (h3.1 ▸ hy)), hframeA _ (fun e => by
              have := congrArg List.length e
              simp at this)]
            exact hfresh (x :: m)

end Fsutil

/-! ## `CopyTree` and `Cellar.Install` -/

namespace Os

open Filepath

theorem Lstat_plain (fs : FS) (D : List String) (hD : fs.PlainDir D) (hp : ∀ n ∈ D, Proper n) :
    ∃ perm, fs.find D = some (.dir perm) ∧ Lstat fs (FS.pathOf D) = .ok (.dir perm) := by
  obtain ⟨perm, h⟩ := (isDirAt_iff _ _).mp hD.isDirAt
  refine ⟨perm, h, ?_⟩
  unfold Lstat
  simp only [resolve_plain fs D false hD hp, h]

theorem FS.ProperNames.afterPut {fs : FS} (h : fs.ProperNames) (loc : List String) (n : Node)
    (hloc : ∀ x ∈ loc, Proper x) : (fs.put loc n).ProperNames := by
  intro e he
  unfold FS.put at he
  simp only [List.mem_cons, List.mem_filter] at he
  rcases he with he | he
  · rw [he]
    exact hloc
  · exact h e he.1

theorem FS.ProperNames.afterPrune {fs : FS} (h : fs.ProperNames) (loc : List String) :
    (fs.prune loc).ProperNames := by
  intro e he
  unfold FS.prune at he
  simp only [List.mem_filter] at he
  exact h e he.1

end Os

namespace Fsutil

open Os Filepath

/-- A directory of a tree is plain in any file system with the same tree below a plain
directory. -/
theorem plain_of_tree (a b : FS) (S D : List String) (hb : b.PlainDir S)
    (hab : ∀ loc, S <+: loc → a.find loc = b.find loc) (hD : a.PlainDir (S ++ D)) :
    b.PlainDir (S ++ D) := by
  intro p hp
  have hpre := (List.mem_inits _ _).mp hp
  rcases List.prefix_or_prefix_of_prefix hpre (List.prefix_append S D) with hps | hsp
  · exact (hb.ofInit hps).isDirAt
  · have := hD p hp
    unfold FS.isDirAt at this ⊢
    rw [← hab p hsp]
    exact this

/-- What is copied from a tree depends on the tree only. -/
theorem mirror_congr (fs1 fs2 : FS) (S K r : List String) (h1 : fs1.PlainDir S)
    (h2 : fs2.PlainDir S) (h : ∀ loc, S <+: loc → fs1.find loc = fs2.find loc) :
    mirror fs1 S K r = mirror fs2 S K r := by
  unfold mirror
  rw [h (S ++ r) (List.prefix_append _ _)]
  by_cases hp : fs1.PlainDir (S ++ r.dropLast)
  · rw [if_pos hp, if_pos (plain_of_tree fs1 fs2 S _ h2 h hp)]
  · rw [if_neg hp, if_neg (fun hp2 => hp (plain_of_tree fs2 fs1 S _ h1
      (fun loc hloc => (h loc hloc).symm) hp2))]

/-- In a file system in which nothing lies at the destination `D/v`, whose directory `D`
is a plain directory, `CopyTree` of a plain directory `S` gives the destination the copy of
the tree at `S` and changes nothing else. -/
theorem CopyTree_mirror (fs : FS) (S D : List String) (v : String)
    (hpS : ∀ x ∈ S, Proper x) (hpD : ∀ x ∈ D, Proper x) (hv : Proper v)
    (hnames : fs.ProperNames) (hS : fs.PlainDir S) (hD : fs.PlainDir D)
    (hfree : ∀ m, fs.find (D ++ [v] ++ m) = none)
    (hdis : ∀ loc, (D ++ [v]) <+: loc → S <+: loc → False) :
    ∃ fs2, CopyTree (FS.pathOf S) (FS.pathOf (D ++ [v])) fs = .ok fs2 ∧
      (∀ loc, ¬ (D ++ [v]) <+: loc → fs2.find loc = fs.find loc) ∧
      ∀ r, fs2.find (D ++ [v] ++ r) = mirror fs S (D ++ [v]) r := by
  have hpK : ∀ x ∈ D ++ [v], Proper x := proper_append hpD hv
  obtain ⟨perm, hfind, hlstat⟩ := Lstat_plain fs S hS hpS
  obtain ⟨entries, hread, hentries⟩ := ReadDir_plain fs S hS hpS
  have hm : ¬ ((Node.dir perm).Mode &&& ModeSymlink ≠ 0) := by
    rw [mode_and_symlink]
    rintro ⟨t, ht⟩
    cases ht
  have hfn : copyNode (FS.pathOf S) (FS.pathOf (D ++ [v])) (FS.pathOf (D ++ [v])) (FS.pathOf S)
      (.dir perm) fs = .ok (fs.put (D ++ [v])
        (.dir (syscallMode (SanitizeMode (Node.dir perm).Mode true)))) := by
    unfold copyNode Filepath.Rel
    rw [if_pos rfl]
    simp only
    rw [copy_target_root _ hpK, hlstat]
    simp only
    rw [if_neg hm]
    have hd : (Node.dir perm).IsDir = true := rfl
    simp only [hd, if_true]
    rw [MkdirAll_child fs D v _ hD hpD hv (by
      have := hfree []
      rwa [List.append_nil] at this)]
  have hKS : ¬ (D ++ [v]) <+: S := fun h => hdis S h (List.prefix_refl S)
  obtain ⟨fs2, h2, hframe2, hmir2⟩ := walkNames_copy fs S (D ++ [v]) fs.nodes.length hpS hnames hdis
    (walk_copy fs S (D ++ [v]) hpS hpK hnames hdis _) (fs.children S) []
    (fs.put (D ++ [v]) (.dir (syscallMode (SanitizeMode (Node.dir perm).Mode true))))
    (fun x hx => by cases hx)
    (fun loc hloc => FS.find_put_ne _ _ _ _ (fun e => hloc (e ▸ List.prefix_refl _)))
    (by rw [List.append_nil]; exact hS)
    (by
      rw [List.append_nil]
      apply FS.PlainDir.child (hD.put _ _ (not_prefix_child D v))
      unfold FS.isDirAt
      rw [FS.find_put_self _ _ _ (by simp)])
    (fun x hx => by
      rw [List.append_nil]
      exact (mem_children_iff_find fs S x).mp hx)
    (children_nodup fs S)
    (fun x hx m => by
      rw [List.append_nil, FS.find_put_ne _ _ _ _ (fun e => by
        have := congrArg List.length e
        simp at this), List.append_assoc]
      exact hfree _)
    (by simp only [List.length_nil]; omega)
  rw [List.append_nil] at h2
  refine ⟨fs2, ?_, ?_, ?_⟩
  · unfold CopyTree Abs
    rw [isAbs_pathOf, if_pos rfl, Clean_pathOf _ hpK]
    simp only
    unfold Walk
    rw [hlstat]
    simp only
    rw [walkTree_succ, if_neg (by simp [Node.IsDir]), hread]
    simp only
    rw [hfn]
    simp only
    rw [hentries]
    exact h2
  · intro loc hloc
    rw [hframe2 loc (fun x hx hpre => hloc (by
      rw [List.append_nil] at hpre
      exact (List.prefix_append _ _).trans hpre)),
      FS.find_put_ne _ _ _ _ (fun e => hloc (by subst e; exact List.prefix_refl _))]
  · intro r
    cases r with
    | nil =>
      rw [List.append_nil, hframe2 _ (fun x hx hpre => by
        have := hpre.length_le
        simp at this), FS.find_put_self _ _ _ (by simp)]
      unfold mirror
      rw [List.dropLast_nil, if_pos (by rw [List.append_nil]; exact hS), List.append_nil, hfind]
      rfl
    | cons x m =>
      by_cases hx : x ∈ fs.children S
      · have := hmir2 x hx m
        simpa only [List.append_nil, List.nil_append, List.append_assoc,
          List.singleton_append] using this
      · have hnone : fs.find (S ++ [x]) = none := by
          cases h : fs.find (S ++ [x]) with
          | none => rfl
          | some w => exact absurd ((mem_children_iff_find fs S x).mpr (by rw [h]; rfl)) hx
        have hmir : mirror fs S (D ++ [v]) (x :: m) = none := by
          have := mirror_absent fs S (D ++ [v]) [] x m (by
            rw [List.append_nil]
            exact hnone)
          simpa only [List.nil_append, List.singleton_append] using this
        rw [hmir, hframe2 _ (fun y hy hpre => by
          rw [List.append_nil, List.prefix_append_right_inj] at hpre
          simp only [List.singleton_append, List.cons_prefix_cons] at hpre
          exact hx (hpre.1 ▸ hy)), FS.find_put_ne _ _ _ _ (fun e => by
          have := congrArg List.length e
          simp at this)]
        exact hfree (x :: m)

end Fsutil

/-! ## `Cellar.Install` -/

namespace Cellar

open Os Filepath

/-- The steps of `Install` before the copy: the directory of the package is made and what
lies at the path of the keg is removed. -/
theorem Install_start (fs : FS) (Cl : List String) (name version : String)
    (hpCl : ∀ x ∈ Cl, Proper x) (hn : Validation.IsValidName name = true)
    (hv : Validation.IsValidVersion version = true) (hCl : fs.PlainDir Cl)
    (hkeg : fs.find (Cl ++ [name]) = none ∨ fs.isDirAt (Cl ++ [name]) = true) :
    ∃ fs1, MkdirAll fs (Dir (Join [FS.pathOf Cl, name, version])) 0o755 = .ok fs1 ∧
      Join [FS.pathOf Cl, name, version] = FS.pathOf (Cl ++ [name] ++ [version]) ∧
      removeAllIgnoringError fs1 (Join [FS.pathOf Cl, name, version]) =
        fs1.prune (Cl ++ [name] ++ [version]) ∧
      fs1.PlainDir (Cl ++ [name]) ∧
      (∀ l, l ≠ Cl ++ [name] → fs1.find l = fs.find l) ∧
      (fs.ProperNames → fs1.ProperNames) := by
  have hpn := proper_of_validName hn
  have hpv := proper_of_validVersion hv
  have hpD : ∀ x ∈ Cl ++ [name], Proper x := proper_append hpCl hpn
  have hjoin : Join [FS.pathOf Cl, name, version] = FS.pathOf (Cl ++ [name] ++ [version]) := by
    rw [Join3_pathOf Cl name version hpCl hpn hpv, List.append_assoc]
    rfl
  obtain ⟨fs1, hmk, hplain, hframe, hsame, hnew⟩ :=
    MkdirAll_child_cases fs Cl name 0o755 hCl hpCl hpn hkeg
  refine ⟨fs1, ?_, hjoin, ?_, hplain, hframe, ?_⟩
  · rw [hjoin, Dir_pathOf _ _ hpD hpv]
    exact hmk
  · rw [hjoin]
    exact removeAll_child fs1 (Cl ++ [name]) version hplain hpD hpv
  · intro hnames
    rcases hkeg with h | h
    · rw [hnew h]
      exact hnames.afterPut _ _ hpD
    · rw [hsame h]
      exact hnames

/-- `Install` of a plain directory `S` into a store at a plain directory, for a valid name
and version, where the keg and `S` do not lie in one another: the keg is the copy of the
tree at `S`, and nothing else is changed but the directory of the package, which is made. -/
theorem Install_mirror (fs : FS) (Cl S : List String) (name version : String)
    (hpCl : ∀ x ∈ Cl, Proper x) (hpS : ∀ x ∈ S, Proper x)
    (hn : Validation.IsValidName name = true) (hv : Validation.IsValidVersion version = true)
    (hnames : fs.ProperNames) (hCl : fs.PlainDir Cl)
    (hkeg : fs.find (Cl ++ [name]) = none ∨ fs.isDirAt (Cl ++ [name]) = true)
    (hS : fs.PlainDir S) (hKS : ¬ (Cl ++ [name] ++ [version]) <+: S)
    (hSK : ¬ S <+: (Cl ++ [name] ++ [version])) :
    ∃ fs2, Install (FS.pathOf Cl) name version (FS.pathOf S) fs = .ok fs2 ∧
      (∀ r, fs2.find (Cl ++ [name] ++ [version] ++ r) =
        Fsutil.mirror fs S (Cl ++ [name] ++ [version]) r) ∧
      (∀ loc, ¬ (Cl ++ [name] ++ [version]) <+: loc → loc ≠ Cl ++ [name] →
        fs2.find loc = fs.find loc) ∧
      fs2.isDirAt (Cl ++ [name]) = true := by
  have hpn := proper_of_validName hn
  have hpv := proper_of_validVersion hv
  have hpD : ∀ x ∈ Cl ++ [name], Proper x := proper_append hpCl hpn
  obtain ⟨fs1, hmk, hjoin, hrm, hplain, hframe, hnames1⟩ :=
    Install_start fs Cl name version hpCl hn hv hCl hkeg
  have hdis : ∀ loc, (Cl ++ [name] ++ [version]) <+: loc → S <+: loc → False := by
    intro loc h1 h2
    rcases List.prefix_or_prefix_of_prefix h1 h2 with h | h
    · exact hKS h
    · exact hSK h
  have hsameS : ∀ loc, S <+: loc → (fs1.prune (Cl ++ [name] ++ [version])).find loc = fs.find loc := by
    intro loc hloc
    rw [FS.find_prune_other _ _ _ (fun h => hdis loc h hloc)]
    apply hframe
    intro e
    apply hSK
    rw [e] at hloc
    exact hloc.trans (List.prefix_append _ _)
  have hS1 : (fs1.prune (Cl ++ [name] ++ [version])).PlainDir S := by
    apply FS.PlainDir.prune _ _ hKS
    intro p hp
    by_cases e : p = Cl ++ [name]
    · rw [e]
      exact hplain.isDirAt
    · have := hS p hp
      unfold FS.isDirAt at this ⊢
      rw [hframe p e]
      exact this
  obtain ⟨fs2, hcopy, hout, hmir⟩ := Fsutil.CopyTree_mirror (fs1.prune (Cl ++ [name] ++ [version]))
    S (Cl ++ [name]) version hpS hpD hpv ((hnames1 hnames).afterPrune _) hS1
    (hplain.prune _ (not_prefix_child _ _))
    (fun m => FS.find_prune_below _ _ _ (List.prefix_append _ _) (by simp)) hdis
  refine ⟨fs2, ?_, ?_, ?_, ?_⟩
  · unfold Install
    rw [if_neg (by simp [hn, hv])]
    simp only
    rw [hmk]
    simp only
    rw [hrm, hjoin, hcopy]
  · intro r
    rw [hmir r]
    exact Fsutil.mirror_congr _ _ S _ r hS1 hS hsameS
  · intro loc hloc hne
    rw [hout loc hloc, FS.find_prune_other _ _ _ hloc, hframe loc hne]
  · unfold FS.isDirAt
    rw [hout _ (not_prefix_child _ _), FS.find_prune_other _ _ _ (not_prefix_child _ _)]
    exact hplain.isDirAt

end Cellar

namespace Depgraph

/-- The list produced by the main loop does not depend on the order in which the
dependents are listed in `reverse`, nor on the keys' order in `inDegree`. -/
theorem kahnLoop_sorted_congr (graph rev1 rev2 : GoMap (List String))
    (h1 : ReverseOf graph rev1) (h2 : ReverseOf graph rev2) :
    ∀ (fuel : Nat) (m1 m2 : GoMap Int) (ready sorted : List String),
      KahnInv graph m1 ready sorted → KahnInv graph m2 ready sorted →
      (kahnLoop rev1 fuel m1 ready sorted).map Prod.snd =
        (kahnLoop rev2 fuel m2 ready sorted).map Prod.snd := by
  intro fuel
  induction fuel with
  | zero =>
    intro m1 m2 ready sorted _ _
    cases ready <;> simp [kahnLoop]
  | succ fuel ih =>
    intro m1 m2 ready sorted i1 i2
    cases ready with
    | nil => simp [kahnLoop]
    | cons node rest =>
      simp only [kahnLoop]
      obtain ⟨_, n1, e1⟩ := kahn_relax graph rev1 h1 m1 node rest sorted i1
      obtain ⟨_, n2, e2⟩ := kahn_relax graph rev2 h2 m2 node rest sorted i2
      have hp : (relax (rev1.get node) m1).2.Perm (relax (rev2.get node) m2).2 := by
        rw [List.perm_ext_iff_of_nodup n1 n2]
        intro x
        rw [e1, e2]
      have s1 := kahn_step graph rev1 h1 m1 node rest sorted i1
      have s2 := kahn_step graph rev2 h2 m2 node rest sorted i2
      rw [sortStrings_congr hp] at s1 ⊢
      exact ih _ _ _ _ s1 s2

end Depgraph

namespace Depgraph

/-! ## The first loop of `Resolve` -/

theorem loadWeight_cons_le (entries : List (String × Formula)) (c : String)
    (visited : List String) : loadWeight entries (c :: visited) ≤ loadWeight entries visited := by
  induction entries with
  | nil => simp [loadWeight]
  | cons e es ih =>
    simp only [loadWeight, List.mem_cons]
    by_cases h1 : e.1 ∈ visited
    · simp [h1, ih]
    · by_cases h2 : e.1 = c
      · simp only [h1, h2, true_or, if_true, or_false, if_false]
        rw [h2] at h1
        simp only [h1, if_false]
        omega
      · simp only [h1, h2, or_self, if_false]
        omega

theorem loadWeight_visit (entries : List (String × Formula)) (c : String) (f : Formula)
    (visited : List String) (hl : entries.lookup c = some f) (hc : c ∉ visited) :
    loadWeight entries (c :: visited) + f.Dependencies.length + 1 ≤ loadWeight entries visited := by
  induction entries with
  | nil => simp at hl
  | cons e es ih =>
    obtain ⟨a, g⟩ := e
    rw [List.lookup_cons] at hl
    by_cases hca : c = a
    · subst hca
      simp at hl
      subst hl
      have := loadWeight_cons_le es c visited
      simp only [loadWeight, List.mem_cons, true_or, if_true, hc, if_false]
      omega
    · have hb : (c == a) = false := by simpa using hca
      rw [hb] at hl
      have := ih hl
      have hac : ¬ a = c := fun h => hca h.symm
      simp only [loadWeight, List.mem_cons, hac, false_or]
      omega

theorem loadWeight_nil (entries : List (String × Formula)) :
    loadWeight entries [] =
      entries.length + (entries.map (fun e => e.2.Dependencies.length)).sum := by
  induction entries with
  | nil => simp [loadWeight]
  | cons e es ih =>
    simp [loadWeight, ih]
    omega

/-- One iteration of the first loop that skips a visited name keeps the invariant. -/
theorem load_skip (l : Loader) (root current : String) (queue visited : List String)
    (s : Loaded) (inv : LoadInv l root (current :: queue) visited s) (hv : current ∈ visited) :
    LoadInv l root queue visited s := by
  refine ⟨inv.keys, inv.nodup, inv.loaded, ?_, ?_, ?_⟩
  · intro n hn
    apply inv.reach
    rcases hn with h | h
    · exact Or.inl h
    · exact Or.inr (List.mem_cons_of_mem _ h)
  · intro n hn d hd
    rcases inv.closed n hn d hd with h | h
    · exact Or.inl h
    · rcases List.mem_cons.mp h with h' | h'
      · subst h'; exact Or.inl hv
      · exact Or.inr h'
  · rcases inv.root with h | h
    · exact Or.inl h
    · rcases List.mem_cons.mp h with h' | h'
      · subst h'; exact Or.inl hv
      · exact Or.inr h'

/-- One iteration of the first loop that loads a new name keeps the invariant. -/
theorem load_visit (l : Loader) (root current : String) (queue visited : List String)
    (s : Loaded) (f : Formula) (inv : LoadInv l root (current :: queue) visited s)
    (hv : current ∉ visited) (hf : l.LoadByName current = some f) :
    LoadInv l root
      (queue ++ f.Dependencies.filter (fun dep => decide (dep ∉ current :: visited)))
      (current :: visited)
      ⟨s.graph.set current f.Dependencies, s.formulas.set current (some f)⟩ := by
  have hk : current ∉ s.graph.keys := by
    rw [inv.keys]; simpa using hv
  have hcur : Reachable l root current := inv.reach current (Or.inr (List.mem_cons_self _ _))
  constructor
  · show (s.graph.set current f.Dependencies).keys = _
    rw [GoMap.keys_set_of_not_mem _ _ hk, inv.keys]; simp
  · exact List.nodup_cons.mpr ⟨hv, inv.nodup⟩
  · intro n hn
    rcases List.mem_cons.mp hn with h | h
    · subst h
      exact ⟨f, hf, GoMap.get_set_self _ _ _, GoMap.get_set_self _ _ _⟩
    · have hne : n ≠ current := fun e => hv (e ▸ h)
      obtain ⟨g, h1, h2, h3⟩ := inv.loaded n h
      refine ⟨g, h1, ?_, ?_⟩
      · show (s.graph.set current f.Dependencies).get n = _
        rw [GoMap.get_set_ne _ _ _ hne]; exact h2
      · show (s.formulas.set current (some f)).get n = _
        rw [GoMap.get_set_ne _ _ _ hne]; exact h3
  · intro n hn
    rcases hn with h | h
    · rcases List.mem_cons.mp h with h' | h'
      · subst h'; exact hcur
      · exact inv.reach n (Or.inl h')
    · rcases List.mem_append.mp h with h' | h'
      · exact inv.reach n (Or.inr (List.mem_cons_of_mem _ h'))
      · have hd : n ∈ f.Dependencies := (List.mem_filter.mp h').1
        exact Relation.ReflTransGen.tail hcur ⟨f, hf, hd⟩
  · intro n hn d hd
    rcases List.mem_cons.mp hn with h | h
    · subst h
      obtain ⟨g, hg, hdg⟩ := hd
      rw [hf] at hg
      have : f = g := by simpa using hg
      subst this
      by_cases hdv : d ∈ n :: visited
      · exact Or.inl hdv
      · right
        apply List.mem_append_right
        exact List.mem_filter.mpr ⟨hdg, by simpa using hdv⟩
    · rcases inv.closed n h d hd with h' | h'
      · exact Or.inl (List.mem_cons_of_mem _ h')
      · rcases List.mem_cons.mp h' with h'' | h''
        · subst h''; exact Or.inl (List.mem_cons_self _ _)
        · exact Or.inr (List.mem_append_left _ h'')
  · rcases inv.root with h | h
    · exact Or.inl (List.mem_cons_of_mem _ h)
    · rcases List.mem_cons.mp h with h' | h'
      · subst h'; exact Or.inl (List.mem_cons_self _ _)
      · exact Or.inr (List.mem_append_left _ h')

/-- When the queue is empty the invariant describes the maps `graph` and `formulas`. -/
theorem LoadInv.graphOf {l : Loader} {root : String} {visited : List String} {s : Loaded}
    (inv : LoadInv l root [] visited s) : GraphOf l root s := by
  have hmem : ∀ n, n ∈ s.graph.keys ↔ n ∈ visited := by
    intro n; rw [inv.keys]; simp
  have hroot : root ∈ visited := by
    rcases inv.root with h | h
    · exact h
    · simp at h
  refine ⟨?_, ?_, ?_⟩
  · rw [inv.keys]; exact List.nodup_reverse.mpr inv.nodup
  · intro n
    rw [hmem]
    constructor
    · intro h; exact inv.reach n (Or.inl h)
    · intro h
      induction h with
      | refl => exact hroot
      | tail _ hbc ih =>
        rcases inv.closed _ ih _ hbc with h | h
        · exact h
        · simp at h
  · intro n hn
    exact inv.loaded n ((hmem n).mp hn)

/-- The maps described by `GraphOf` exist only when every reachable name can be loaded. -/
theorem GraphOf.fullyLoadable {l : Loader} {root : String} {s : Loaded}
    (h : GraphOf l root s) : FullyLoadable l root := by
  intro n hn
  obtain ⟨f, hf, _⟩ := h.loaded n ((h.keys n).mpr hn)
  exact ⟨f, hf⟩

/-- The first loop of `Resolve` ends within its fuel: either it returns the maps described
by `GraphOf`, or it fails at a reachable name that cannot be loaded, with the error that
names this name and the root. -/
theorem loadLoop_spec (l : Loader) (root : String) :
    ∀ (fuel : Nat) (queue visited : List String) (s : Loaded),
      LoadInv l root queue visited s → queue.length + loadWeight l.entries visited ≤ fuel →
      (∃ s1, loadLoop l root fuel queue visited s = some (.ok s1) ∧ GraphOf l root s1) ∨
      (∃ d, loadLoop l root fuel queue visited s = some (.error (.notFound d root)) ∧
        Reachable l root d ∧ l.LoadByName d = none) := by
  intro fuel
  induction fuel with
  | zero =>
    intro queue visited s inv hf
    cases queue with
    | nil => exact Or.inl ⟨s, by simp [loadLoop], inv.graphOf⟩
    | cons c q => simp at hf
  | succ fuel ih =>
    intro queue visited s inv hf
    cases queue with
    | nil => exact Or.inl ⟨s, by simp [loadLoop], inv.graphOf⟩
    | cons c q =>
      simp only [List.length_cons] at hf
      by_cases hv : c ∈ visited
      · have := ih q visited s (load_skip l root c q visited s inv hv) (by omega)
        simp only [loadLoop, hv, if_true]
        exact this
      · have hc : Reachable l root c := inv.reach c (Or.inr (List.mem_cons_self _ _))
        cases hf1 : l.LoadByName c with
        | none =>
          right
          exact ⟨c, by simp only [loadLoop, hv, if_false, hf1], hc, hf1⟩
        | some f =>
          have hw := loadWeight_visit l.entries c f visited hf1 hv
          have hlen : (f.Dependencies.filter (fun dep => decide (dep ∉ c :: visited))).length ≤
              f.Dependencies.length := List.length_filter_le _ _
          have := ih _ _ _ (load_visit l root c q visited s f inv hv hf1)
            (by simp only [List.length_append]; omega)
          simp only [loadLoop, hv, if_false, hf1]
          exact this

/-- The first loop of `Resolve`, as started by `Resolve`. -/
theorem loadLoop_resolve (l : Loader) (root : String) :
    (∃ s, loadLoop l root (loadFuel l) [root] [] ⟨GoMap.empty [], GoMap.empty none⟩ =
        some (.ok s) ∧ GraphOf l root s) ∨
    (∃ d, loadLoop l root (loadFuel l) [root] [] ⟨GoMap.empty [], GoMap.empty none⟩ =
        some (.error (.notFound d root)) ∧ Reachable l root d ∧ l.LoadByName d = none) := by
  apply loadLoop_spec l root
  · refine ⟨rfl, List.nodup_nil, ?_, ?_, ?_, ?_⟩
    · intro n hn; simp at hn
    · intro n hn
      rcases hn with h | h
      · simp at h
      · have : n = root := by simpa using h
        subst this; exact Relation.ReflTransGen.refl
    · intro n hn; simp at hn
    · exact Or.inr (List.mem_cons_self _ _)
  · rw [loadWeight_nil]; unfold loadFuel; simp; omega

end Depgraph

namespace Depgraph

/-! ## `traceCycle` -/

theorem traceDeps_nil
    (visit : String → List String → List String → Option (Bool × List String × List String))
    (visited path : List String) :
    traceDeps visit [] visited path = some (false, visited, path) := by
  simp only [traceDeps]

theorem traceDeps_cons_none
    {visit : String → List String → List String → Option (Bool × List String × List String)}
    {dep : String} {visited path : List String} (deps : List String)
    (h : visit dep visited path = none) :
    traceDeps visit (dep :: deps) visited path = none := by
  simp only [traceDeps, h]

theorem traceDeps_cons_true
    {visit : String → List String → List String → Option (Bool × List String × List String)}
    {dep : String} {visited path visited1 path1 : List String} (deps : List String)
    (h : visit dep visited path = some (true, visited1, path1)) :
    traceDeps visit (dep :: deps) visited path = some (true, visited1, path1) := by
  simp only [traceDeps, h]

theorem traceDeps_cons_false
    {visit : String → List String → List String → Option (Bool × List String × List String)}
    {dep : String} {visited path visited1 path1 : List String} (deps : List String)
    (h : visit dep visited path = some (false, visited1, path1)) :
    traceDeps visit (dep :: deps) visited path = traceDeps visit deps visited1 path1 := by
  simp only [traceDeps, h]

theorem traceDeps_frame
    (visit : String → List String → List String → Option (Bool × List String × List String))
    (hv : TraceFrame visit) (deps : List String) : TraceFrame (fun _ => traceDeps visit deps) := by
  induction deps with
  | nil =>
    intro _ visited path b visited1 path1 h
    simp only [traceDeps_nil, Option.some.injEq, Prod.mk.injEq] at h
    obtain ⟨h1, h2, h3⟩ := h
    subst h1 h2 h3
    exact ⟨fun _ h => h, fun _ => rfl⟩
  | cons d ds ih =>
    intro n visited path b visited1 path1 h
    simp only at h
    cases hr : visit d visited path with
    | none => rw [traceDeps_cons_none ds hr] at h; simp at h
    | some r =>
      obtain ⟨b2, v2, p2⟩ := r
      obtain ⟨hsub, hpath⟩ := hv d visited path b2 v2 p2 hr
      cases b2 with
      | true =>
        rw [traceDeps_cons_true ds hr] at h
        simp only [Option.some.injEq, Prod.mk.injEq] at h
        obtain ⟨h1, h2, h3⟩ := h
        subst h1 h2 h3
        exact ⟨hsub, fun h => by simp at h⟩
      | false =>
        rw [traceDeps_cons_false ds hr] at h
        obtain ⟨hsub2, hpath2⟩ := ih n v2 p2 b visited1 path1 h
        refine ⟨fun x hx => hsub2 (hsub hx), fun hb => ?_⟩
        rw [hpath2 hb, hpath rfl]

theorem traceCycle_frame (graph : GoMap (List String)) (fuel : Nat) :
    TraceFrame (traceCycle graph fuel) := by
  induction fuel with
  | zero => intro node visited path b visited1 path1 h; simp [traceCycle] at h
  | succ fuel ih =>
    intro node visited path b visited1 path1 h
    simp only [traceCycle] at h
    by_cases hv : node ∈ visited
    · simp only [hv, if_true] at h
      by_cases hp : node ∈ path
      · simp only [hp, if_true, Option.some.injEq, Prod.mk.injEq] at h
        obtain ⟨h1, h2, _⟩ := h
        subst h1 h2
        exact ⟨fun _ h => h, fun h => by simp at h⟩
      · simp only [hp, if_false, Option.some.injEq, Prod.mk.injEq] at h
        obtain ⟨h1, h2, h3⟩ := h
        subst h1 h2 h3
        exact ⟨fun _ h => h, fun _ => rfl⟩
    · simp only [hv, if_false] at h
      cases hr : traceDeps (traceCycle graph fuel) (graph.get node) (node :: visited)
          (path ++ [node]) with
      | none => rw [hr] at h; simp at h
      | some r =>
        obtain ⟨b2, v2, p2⟩ := r
        rw [hr] at h
        obtain ⟨hsub, hpath⟩ := traceDeps_frame _ ih (graph.get node) node _ _ b2 v2 p2 hr
        cases b2 with
        | true =>
          simp only [Option.some.injEq, Prod.mk.injEq] at h
          obtain ⟨h1, h2, _⟩ := h
          subst h1 h2
          exact ⟨fun x hx => hsub (List.mem_cons_of_mem _ hx), fun h => by simp at h⟩
        | false =>
          simp only [Option.some.injEq, Prod.mk.injEq] at h
          obtain ⟨h1, h2, h3⟩ := h
          subst h1 h2 h3
          refine ⟨fun x hx => hsub (List.mem_cons_of_mem _ hx), fun _ => ?_⟩
          rw [hpath rfl]; simp

theorem traceDeps_sound (graph : GoMap (List String))
    (visit : String → List String → List String → Option (Bool × List String × List String))
    (hf : TraceFrame visit) (hs : TraceSound graph visit) (deps : List String) :
    ∀ (visited path visited1 path1 : List String),
      traceDeps visit deps visited path = some (true, visited1, path1) →
      (∀ d ∈ deps, List.Chain' (Edge graph) (path ++ [d])) → path.Nodup → path ⊆ visited →
      ∃ d ∈ deps, VisitCycle graph (path ++ [d]) path1 := by
  induction deps with
  | nil => intro visited path visited1 path1 h; simp [traceDeps_nil] at h
  | cons d ds ih =>
    intro visited path visited1 path1 h hc hnd hsub
    cases hr : visit d visited path with
    | none => rw [traceDeps_cons_none ds hr] at h; simp at h
    | some r =>
      obtain ⟨b2, v2, p2⟩ := r
      cases b2 with
      | true =>
        rw [traceDeps_cons_true ds hr] at h
        simp only [Option.some.injEq, Prod.mk.injEq, true_and] at h
        obtain ⟨h2, h3⟩ := h
        subst h2 h3
        exact ⟨d, List.mem_cons_self _ _,
          hs d visited path v2 p2 hr (hc d (List.mem_cons_self _ _)) hnd hsub⟩
      | false =>
        rw [traceDeps_cons_false ds hr] at h
        obtain ⟨hsub2, hpath⟩ := hf d visited path false v2 p2 hr
        have hp : p2 = path := hpath rfl
        subst hp
        obtain ⟨e, he, hcyc⟩ := ih v2 p2 visited1 path1 h
          (fun x hx => hc x (List.mem_cons_of_mem _ hx)) hnd (fun x hx => hsub2 (hsub hx))
        exact ⟨e, List.mem_cons_of_mem _ he, hcyc⟩

theorem VisitCycle.of_prefix {graph : GoMap (List String)} {stem1 stem2 chain : List String}
    (h : VisitCycle graph stem2 chain) (hp : stem1 <+: stem2) : VisitCycle graph stem1 chain := by
  obtain ⟨path, node, h1, h2⟩ := h
  exact ⟨path, node, hp.trans h1, h2⟩

theorem traceCycle_sound (graph : GoMap (List String)) (fuel : Nat) :
    TraceSound graph (traceCycle graph fuel) := by
  induction fuel with
  | zero => intro node visited path visited1 path1 h; simp [traceCycle] at h
  | succ fuel ih =>
    intro node visited path visited1 path1 h hc hnd hsub
    simp only [traceCycle] at h
    by_cases hv : node ∈ visited
    · simp only [hv, if_true] at h
      by_cases hp : node ∈ path
      · simp only [hp, if_true, Option.some.injEq, Prod.mk.injEq, true_and] at h
        exact ⟨path, node, List.prefix_refl _, hc, hnd, hp, h.2.symm⟩
      · simp [hp] at h
    · simp only [hv, if_false] at h
      cases hr : traceDeps (traceCycle graph fuel) (graph.get node) (node :: visited)
          (path ++ [node]) with
      | none => rw [hr] at h; simp at h
      | some r =>
        obtain ⟨b2, v2, p2⟩ := r
        rw [hr] at h
        cases b2 with
        | false => simp at h
        | true =>
          simp only [Option.some.injEq, Prod.mk.injEq, true_and] at h
          obtain ⟨h2, h3⟩ := h
          subst h2 h3
          have hnp : node ∉ path := fun hm => hv (hsub hm)
          obtain ⟨d, _, hcyc⟩ := traceDeps_sound graph _ (traceCycle_frame graph fuel) ih
            (graph.get node) (node :: visited) (path ++ [node]) v2 p2 hr
            (by
              intro d hd
              rw [List.chain'_append]
              refine ⟨hc, List.chain'_singleton _, ?_⟩
              intro x hx y hy
              simp only [List.getLast?_concat, Option.mem_def, Option.some.injEq] at hx
              simp only [List.head?_cons, Option.mem_def, Option.some.injEq] at hy
              subst hx hy
              exact hd)
            (by
              rw [List.nodup_append]
              refine ⟨hnd, List.nodup_singleton _, ?_⟩
              intro x hx1 hx2
              have : x = node := by simpa using hx2
              exact hnp (this ▸ hx1))
            (by
              intro x hx
              rcases List.mem_append.mp hx with h1 | h1
              · exact List.mem_cons_of_mem _ (hsub h1)
              · have : x = node := by simpa using h1
                subst this; exact List.mem_cons_self _ _)
          exact hcyc.of_prefix (List.prefix_append _ _)

theorem traceDeps_complete (R : String → Prop)
    (visit : String → List String → List String → Option (Bool × List String × List String))
    (hf : TraceFrame visit) (hc : TraceComplete R visit) (deps : List String) :
    ∀ (visited path visited1 path1 : List String),
      traceDeps visit deps visited path = some (false, visited1, path1) →
      path ⊆ visited → (∀ x ∈ visited, x ∈ path ∨ ¬ R x) →
      (∀ d ∈ deps, ¬ R d) ∧ ∀ x ∈ visited1, x ∈ path ∨ ¬ R x := by
  induction deps with
  | nil =>
    intro visited path visited1 path1 h _ hR
    simp only [traceDeps_nil, Option.some.injEq, Prod.mk.injEq, true_and] at h
    obtain ⟨h1, _⟩ := h
    subst h1
    exact ⟨fun d hd => by simp at hd, hR⟩
  | cons d ds ih =>
    intro visited path visited1 path1 h hsub hR
    cases hr : visit d visited path with
    | none => rw [traceDeps_cons_none ds hr] at h; simp at h
    | some r =>
      obtain ⟨b2, v2, p2⟩ := r
      cases b2 with
      | true => rw [traceDeps_cons_true ds hr] at h; simp at h
      | false =>
        rw [traceDeps_cons_false ds hr] at h
        obtain ⟨hsub2, hpath⟩ := hf d visited path false v2 p2 hr
        have hp : p2 = path := hpath rfl
        subst hp
        obtain ⟨hd, hR2⟩ := hc d visited p2 v2 p2 hr hsub hR
        obtain ⟨hds, hR3⟩ := ih v2 p2 visited1 path1 h (fun x hx => hsub2 (hsub hx)) hR2
        refine ⟨?_, hR3⟩
        intro e he
        rcases List.mem_cons.mp he with h1 | h1
        · subst h1; exact hd
        · exact hds e h1

theorem traceCycle_complete (graph : GoMap (List String)) (R : String → Prop)
    (hR : ∀ x, R x → ∃ d ∈ graph.get x, R d) (fuel : Nat) :
    TraceComplete R (traceCycle graph fuel) := by
  induction fuel with
  | zero => intro node visited path visited1 path1 h; simp [traceCycle] at h
  | succ fuel ih =>
    intro node visited path visited1 path1 h hsub hinv
    simp only [traceCycle] at h
    by_cases hv : node ∈ visited
    · simp only [hv, if_true] at h
      by_cases hp : node ∈ path
      · simp [hp] at h
      · simp only [hp, if_false, Option.some.injEq, Prod.mk.injEq, true_and] at h
        obtain ⟨h1, _⟩ := h
        subst h1
        refine ⟨?_, hinv⟩
        rcases hinv node hv with h2 | h2
        · exact absurd h2 hp
        · exact h2
    · simp only [hv, if_false] at h
      cases hr : traceDeps (traceCycle graph fuel) (graph.get node) (node :: visited)
          (path ++ [node]) with
      | none => rw [hr] at h; simp at h
      | some r =>
        obtain ⟨b2, v2, p2⟩ := r
        rw [hr] at h
        cases b2 with
        | true => simp at h
        | false =>
          simp only [Option.some.injEq, Prod.mk.injEq, true_and] at h
          obtain ⟨h2, _⟩ := h
          subst h2
          obtain ⟨hdeps, hv2⟩ := traceDeps_complete R _ (traceCycle_frame graph fuel) ih
            (graph.get node) (node :: visited) (path ++ [node]) v2 p2 hr
            (by
              intro x hx
              rcases List.mem_append.mp hx with h1 | h1
              · exact List.mem_cons_of_mem _ (hsub h1)
              · have : x = node := by simpa using h1
                subst this; exact List.mem_cons_self _ _)
            (by
              intro x hx
              rcases List.mem_cons.mp hx with h1 | h1
              · subst h1; left; simp
              · rcases hinv x h1 with h2 | h2
                · left; exact List.mem_append_left _ h2
                · right; exact h2)
          have hnode : ¬ R node := by
            intro hn
            obtain ⟨d, hd, hRd⟩ := hR node hn
            exact hdeps d hd hRd
          refine ⟨hnode, ?_⟩
          intro x hx
          rcases hv2 x hx with h1 | h1
          · rcases List.mem_append.mp h1 with h2 | h2
            · exact Or.inl h2
            · have : x = node := by simpa using h2
              subst this; exact Or.inr hnode
          · exact Or.inr h1

theorem unvisited_mono (keys : List String) {v1 v2 : List String} (h : v1 ⊆ v2) :
    unvisited keys v2 ≤ unvisited keys v1 := by
  induction keys with
  | nil => simp [unvisited]
  | cons k ks ih =>
    unfold unvisited at ih ⊢
    by_cases h2 : k ∈ v2
    · rw [List.filter_cons_of_neg (by simpa using h2)]
      by_cases h1 : k ∈ v1
      · rw [List.filter_cons_of_neg (by simpa using h1)]
        exact ih
      · rw [List.filter_cons_of_pos (by simpa using h1)]
        simp only [List.length_cons]
        omega
    · have h1 : k ∉ v1 := fun hm => h2 (h hm)
      rw [List.filter_cons_of_pos (by simpa using h2), List.filter_cons_of_pos (by simpa using h1)]
      simp only [List.length_cons]
      omega

theorem unvisited_cons_lt (keys : List String) {node : String} {visited : List String}
    (hk : node ∈ keys) (hv : node ∉ visited) :
    unvisited keys (node :: visited) < unvisited keys visited := by
  induction keys with
  | nil => simp at hk
  | cons k ks ih =>
    have hmono := unvisited_mono ks (List.subset_cons_self node visited)
    unfold unvisited at ih hmono ⊢
    by_cases hkn : k = node
    · subst hkn
      rw [List.filter_cons_of_neg (by simp), List.filter_cons_of_pos (by simpa using hv)]
      simp only [List.length_cons]
      omega
    · have hk' : node ∈ ks := by
        rcases List.mem_cons.mp hk with h | h
        · exact absurd h.symm hkn
        · exact h
      have := ih hk'
      by_cases hkv : k ∈ visited
      · rw [List.filter_cons_of_neg (by simp [hkv]), List.filter_cons_of_neg (by simpa using hkv)]
        exact this
      · rw [List.filter_cons_of_pos (by simp [hkv, hkn]),
          List.filter_cons_of_pos (by simpa using hkv)]
        simp only [List.length_cons]
        omega

theorem traceDeps_total (keys : List String)
    (visit : String → List String → List String → Option (Bool × List String × List String))
    (hf : TraceFrame visit) (n : Nat)
    (ht : ∀ d visited path, d ∈ keys → unvisited keys visited ≤ n →
      ∃ r, visit d visited path = some r)
    (deps : List String) :
    ∀ (visited path : List String), (∀ d ∈ deps, d ∈ keys) → unvisited keys visited ≤ n →
      ∃ r, traceDeps visit deps visited path = some r := by
  induction deps with
  | nil => intro visited path _ _; exact ⟨_, traceDeps_nil _ _ _⟩
  | cons d ds ih =>
    intro visited path hk hn
    obtain ⟨r, hr⟩ := ht d visited path (hk d (List.mem_cons_self _ _)) hn
    obtain ⟨b2, v2, p2⟩ := r
    cases b2 with
    | true => exact ⟨_, traceDeps_cons_true ds hr⟩
    | false =>
      rw [traceDeps_cons_false ds hr]
      obtain ⟨hsub, _⟩ := hf d visited path false v2 p2 hr
      exact ih v2 p2 (fun x hx => hk x (List.mem_cons_of_mem _ hx))
        (le_trans (unvisited_mono keys hsub) hn)

/-- On a graph whose dependencies are all keys, `traceCycle` returns when its fuel exceeds
the number of keys that are not visited yet. -/
theorem traceCycle_total (graph : GoMap (List String))
    (hclosed : ∀ a ∈ graph.keys, ∀ b ∈ graph.get a, b ∈ graph.keys) (fuel : Nat) :
    ∀ (node : String) (visited path : List String), node ∈ graph.keys →
      unvisited graph.keys visited < fuel →
      ∃ r, traceCycle graph fuel node visited path = some r := by
  induction fuel with
  | zero => intro node visited path _ h; simp at h
  | succ fuel ih =>
    intro node visited path hk hn
    simp only [traceCycle]
    by_cases hv : node ∈ visited
    · simp only [hv, if_true]
      by_cases hp : node ∈ path
      · simp [hp]
      · simp [hp]
    · simp only [hv, if_false]
      have hlt := unvisited_cons_lt graph.keys hk hv
      cases fuel with
      | zero => omega
      | succ fuel =>
        obtain ⟨r, hr⟩ := traceDeps_total graph.keys _ (traceCycle_frame graph (fuel + 1)) fuel
          (fun d v p hd hle => ih d v p hd (by omega))
          (graph.get node) (node :: visited) (path ++ [node]) (hclosed node hk) (by omega)
        obtain ⟨b2, v2, p2⟩ := r
        rw [hr]
        cases b2 <;> simp

end Depgraph

namespace Depgraph

/-! ## Cycles -/

/-- In a finite set of which every element has a successor in the set, some element
lies on a cycle. -/
theorem exists_cycle_of_no_sink {α : Type} (r : α → α → Prop) (K : List α) (R : α → Prop)
    (hK : ∀ x, R x → x ∈ K) (hstep : ∀ x, R x → ∃ y, R y ∧ r x y) (x0 : α) (h0 : R x0) :
    ∃ x, R x ∧ Relation.TransGen r x x := by
  classical
  have hfinK : Finite {x // x ∈ K} := (List.finite_toSet K).to_subtype
  have hfin : Finite {x // R x} :=
    Finite.of_injective (fun s : {x // R x} => (⟨s.1, hK s.1 s.2⟩ : {x // x ∈ K}))
      (by intro a b h; simp at h; exact Subtype.ext h)
  have h1 : ∀ s : {x // R x}, ∃ t : {x // R x}, r s.1 t.1 := fun s =>
    let ⟨y, hy, hr⟩ := hstep s.1 s.2
    ⟨⟨y, hy⟩, hr⟩
  choose next hnext using h1
  let f : ℕ → {x // R x} := fun n => next^[n] ⟨x0, h0⟩
  have hf : ∀ n, f (n + 1) = next (f n) := fun n => Function.iterate_succ_apply' next n _
  have hpath : ∀ i k, Relation.TransGen r (f i).1 (f (i + k + 1)).1 := by
    intro i k
    induction k with
    | zero =>
      apply Relation.TransGen.single
      have := hnext (f i)
      rw [← hf] at this
      exact this
    | succ k ih =>
      apply Relation.TransGen.tail ih
      have := hnext (f (i + k + 1))
      rw [← hf] at this
      exact this
  obtain ⟨i, j, hij, he⟩ := Finite.exists_ne_map_eq_of_infinite f
  rcases Nat.lt_or_gt_of_ne hij with h | h
  · refine ⟨(f i).1, (f i).2, ?_⟩
    have := hpath i (j - i - 1)
    rw [show i + (j - i - 1) + 1 = j by omega, ← he] at this
    exact this
  · refine ⟨(f j).1, (f j).2, ?_⟩
    have := hpath j (i - j - 1)
    rw [show j + (i - j - 1) + 1 = i by omega, he] at this
    exact this

/-- In the maps left by the first loop of `Resolve`, the edges of `graph` are the
dependency edges of the catalog. -/
theorem GraphOf.edge_iff {l : Loader} {root : String} {s : Loaded} (h : GraphOf l root s)
    {a : String} (ha : a ∈ s.graph.keys) (b : String) :
    Edge s.graph a b ↔ DependsOn l a b := by
  obtain ⟨f, hf, hg, _⟩ := h.loaded a ha
  unfold Edge DependsOn
  rw [hg]
  constructor
  · intro hb; exact ⟨f, hf, hb⟩
  · rintro ⟨g, hg2, hb⟩
    rw [hf] at hg2
    have : f = g := by simpa using hg2
    subst this; exact hb

theorem GraphOf.closed {l : Loader} {root : String} {s : Loaded} (h : GraphOf l root s) :
    ∀ a ∈ s.graph.keys, ∀ b ∈ s.graph.get a, b ∈ s.graph.keys := by
  intro a ha b hb
  rw [h.keys]
  exact Relation.ReflTransGen.tail ((h.keys a).mp ha) ((h.edge_iff ha b).mp hb)

theorem GraphOf.formulas_eq {l : Loader} {root : String} {s : Loaded} (h : GraphOf l root s)
    {a : String} (ha : a ∈ s.graph.keys) : s.formulas.get a = l.LoadByName a := by
  obtain ⟨f, hf, _, hg⟩ := h.loaded a ha
  rw [hf, hg]

theorem GraphOf.get_eq_depsOf {l : Loader} {root : String} {s : Loaded} (h : GraphOf l root s)
    {a : String} (ha : a ∈ s.graph.keys) : s.graph.get a = depsOf l a := by
  obtain ⟨f, hf, hg, _⟩ := h.loaded a ha
  unfold depsOf
  rw [hf, hg]

theorem dependsOn_iff_mem_depsOf (l : Loader) (a b : String) :
    DependsOn l a b ↔ b ∈ depsOf l a := by
  unfold DependsOn depsOf
  cases h : l.LoadByName a with
  | none => simp
  | some f => simp

/-- In the final state of the main loop every emitted node comes after its dependencies. -/
theorem KahnInv.dep_before {graph : GoMap (List String)} {inDegree : GoMap Int}
    {ready sorted : List String} (inv : KahnInv graph inDegree ready sorted)
    {a b : String} (ha : a ∈ sorted) (hb : Edge graph a b) :
    b ∈ sorted ∧ sorted.indexOf b < sorted.indexOf a := by
  have h1 := inv.depFirst a ha b hb
  exact ⟨List.indexOf_lt_length.mp (lt_trans h1 (List.indexOf_lt_length.mpr ha)), h1⟩

/-- The nodes that the main loop has not emitted when it ends each have a dependency that
it has not emitted. -/
theorem KahnInv.residual_step {graph : GoMap (List String)} {inDegree : GoMap Int}
    {sorted : List String} (inv : KahnInv graph inDegree [] sorted)
    (hclosed : ∀ a ∈ graph.keys, ∀ b ∈ graph.get a, b ∈ graph.keys)
    {x : String} (hx : x ∈ graph.keys ∧ x ∉ sorted) :
    ∃ d ∈ graph.get x, d ∈ graph.keys ∧ d ∉ sorted := by
  by_contra hcon
  push_neg at hcon
  have h0 : unmet graph sorted x = 0 := by
    rw [unmet_eq_zero]
    intro d hd
    by_contra hds
    exact hds (hcon d hd (hclosed x hx.1 d hd))
  have := inv.queued x hx.1 (by rw [inv.deg x hx.1, h0]; rfl)
  simp at this
  exact hx.2 this

theorem KahnInv.residual_iff {graph : GoMap (List String)} {inDegree : GoMap Int}
    {sorted : List String} (inv : KahnInv graph inDegree [] sorted)
    {x : String} (hx : x ∈ graph.keys) : inDegree.get x > 0 ↔ x ∉ sorted := by
  constructor
  · intro h hs
    have := inv.zero x (by simpa using hs)
    omega
  · intro h
    have h1 : inDegree.get x ≠ 0 := fun h0 => h (by simpa using inv.queued x hx h0)
    have h2 := inv.deg x hx
    have : (0 : Int) ≤ (unmet graph sorted x : Int) := Int.ofNat_nonneg _
    omega

theorem KahnInv.length_eq_iff {graph : GoMap (List String)} {inDegree : GoMap Int}
    {sorted : List String} (inv : KahnInv graph inDegree [] sorted) (hk : graph.keys.Nodup) :
    sorted.length = graph.keys.length ↔ ∀ x ∈ graph.keys, x ∈ sorted := by
  have hnd : sorted.Nodup := by simpa using inv.nodup
  have hsub : sorted ⊆ graph.keys := fun x hx => inv.sub x (by simpa using hx)
  constructor
  · intro h x hx
    have hp := (List.subperm_of_subset hnd hsub).perm_of_length_le (le_of_eq h.symm)
    exact hp.mem_iff.mpr hx
  · intro h
    apply le_antisymm
    · exact (List.subperm_of_subset hnd hsub).length_le
    · exact (List.subperm_of_subset hk (fun x hx => h x hx)).length_le

end Depgraph

namespace Depgraph

/-! ## `Resolve` -/

/-- The initial ready queue and the list produced by the main loop of `topoSort` are the
same for all enumeration orders of the maps. -/
theorem topoSort_loop_unique (graph : GoMap (List String)) (hk : graph.keys.Nodup)
    (o1 o2 : RangeOrder) (h1 : o1.Valid) (h2 : o2.Valid)
    (i1 i2 : GoMap Int) (s1 s2 : List String)
    (e1 : kahnLoop (buildTables graph (o1.graph graph.keys)).reverse graph.keys.length
        (buildTables graph (o1.graph graph.keys)).inDegree
        (sortStrings ((o1.ready (buildTables graph (o1.graph graph.keys)).inDegree.keys).filter
          (fun n => decide ((buildTables graph (o1.graph graph.keys)).inDegree.get n = 0)))) []
        = some (i1, s1))
    (e2 : kahnLoop (buildTables graph (o2.graph graph.keys)).reverse graph.keys.length
        (buildTables graph (o2.graph graph.keys)).inDegree
        (sortStrings ((o2.ready (buildTables graph (o2.graph graph.keys)).inDegree.keys).filter
          (fun n => decide ((buildTables graph (o2.graph graph.keys)).inDegree.get n = 0)))) []
        = some (i2, s2)) :
    s1 = s2 := by
  obtain ⟨hr1, inv1⟩ := kahn_init graph hk (o1.graph graph.keys) (h1 graph.keys).1
    (o1.ready (buildTables graph (o1.graph graph.keys)).inDegree.keys) (h1 _).2.1
  obtain ⟨hr2, inv2⟩ := kahn_init graph hk (o2.graph graph.keys) (h2 graph.keys).1
    (o2.ready (buildTables graph (o2.graph graph.keys)).inDegree.keys) (h2 _).2.1
  have hmem : ∀ (m : GoMap Int) (r : List String), KahnInv graph m r [] →
      ∀ x, x ∈ r ↔ x ∈ graph.keys ∧ unmet graph [] x = 0 := by
    intro m r inv x
    constructor
    · intro hx
      have hxk := inv.sub x (by simpa using hx)
      have h0 := inv.zero x (by simpa using hx)
      rw [inv.deg x hxk] at h0
      exact ⟨hxk, by exact_mod_cast h0⟩
    · rintro ⟨hxk, h0⟩
      have := inv.queued x hxk (by rw [inv.deg x hxk, h0]; rfl)
      simpa using this
  have hready : sortStrings ((o1.ready (buildTables graph (o1.graph graph.keys)).inDegree.keys).filter
        (fun n => decide ((buildTables graph (o1.graph graph.keys)).inDegree.get n = 0))) =
      sortStrings ((o2.ready (buildTables graph (o2.graph graph.keys)).inDegree.keys).filter
        (fun n => decide ((buildTables graph (o2.graph graph.keys)).inDegree.get n = 0))) := by
    apply List.eq_of_perm_of_sorted _ (sortStrings_sorted _) (sortStrings_sorted _)
    rw [List.perm_ext_iff_of_nodup (by simpa using inv1.nodup) (by simpa using inv2.nodup)]
    intro x
    rw [hmem _ _ inv1 x, hmem _ _ inv2 x]
  rw [hready] at e1 inv1
  have := kahnLoop_sorted_congr graph _ _ hr1 hr2 graph.keys.length _ _ _ _ inv1 inv2
  rw [e1, e2] at this
  simpa using this

/-- The result of `Resolve` in terms of the final state of the main loop of `topoSort`. -/
theorem resolve_run_of_loop (l : Loader) (o : RangeOrder) (root : String) (s : Loaded)
    (hs : loadLoop l root (loadFuel l) [root] [] ⟨GoMap.empty [], GoMap.empty none⟩ =
      some (.ok s))
    (hg : GraphOf l root s) (inDegree : GoMap Int) (sorted : List String)
    (hk : kahnLoop (buildTables s.graph (o.graph s.graph.keys)).reverse s.graph.keys.length
        (buildTables s.graph (o.graph s.graph.keys)).inDegree
        (sortStrings ((o.ready (buildTables s.graph (o.graph s.graph.keys)).inDegree.keys).filter
          (fun n => decide ((buildTables s.graph (o.graph s.graph.keys)).inDegree.get n = 0)))) []
        = some (inDegree, sorted))
    (inv : KahnInv s.graph inDegree [] sorted) :
    ResolveRun l o root s inDegree sorted := by
  refine ⟨hg, inv, ?_⟩
  have hmap : sorted.map s.formulas.get = sorted.map l.LoadByName := by
    apply List.map_congr_left
    intro a ha
    exact hg.formulas_eq (inv.sub a (by simpa using ha))
  unfold Resolve
  rw [hs]
  simp only
  unfold topoSort
  simp only
  rw [hk]
  simp only
  by_cases hlen : sorted.length = s.graph.keys.length
  · simp only [hlen, ne_eq, not_true_eq_false, if_false, hmap]
  · simp only [hlen, ne_eq, not_false_eq_true, if_true]
    cases findCycle o s.graph inDegree <;> rfl

/-- A run of `Resolve` whose first loop succeeds. -/
theorem resolve_run_of_graph (l : Loader) (o : RangeOrder) (root : String) (ho : o.Valid)
    (s : Loaded)
    (hs : loadLoop l root (loadFuel l) [root] [] ⟨GoMap.empty [], GoMap.empty none⟩ =
      some (.ok s))
    (hg : GraphOf l root s) :
    ∃ inDegree sorted, ResolveRun l o root s inDegree sorted := by
  obtain ⟨inDegree, sorted, hk, inv⟩ := topoSort_loop o ho s.graph hg.nodup
  exact ⟨inDegree, sorted, resolve_run_of_loop l o root s hs hg inDegree sorted hk inv⟩

/-- Two runs of `Resolve` that differ in the enumeration orders only: the main loop of
`topoSort` produces the same list in both. -/
theorem resolve_run_pair (l : Loader) (o1 o2 : RangeOrder) (root : String)
    (h1 : o1.Valid) (h2 : o2.Valid) (hl : FullyLoadable l root) :
    ∃ s i1 i2 sorted, ResolveRun l o1 root s i1 sorted ∧ ResolveRun l o2 root s i2 sorted := by
  rcases loadLoop_resolve l root with ⟨s, hs, hg⟩ | ⟨d, _, hr, hn⟩
  · obtain ⟨i1, s1, hk1, inv1⟩ := topoSort_loop o1 h1 s.graph hg.nodup
    obtain ⟨i2, s2, hk2, inv2⟩ := topoSort_loop o2 h2 s.graph hg.nodup
    have := topoSort_loop_unique s.graph hg.nodup o1 o2 h1 h2 i1 i2 s1 s2 hk1 hk2
    subst this
    exact ⟨s, i1, i2, s1, resolve_run_of_loop l o1 root s hs hg i1 s1 hk1 inv1,
      resolve_run_of_loop l o2 root s hs hg i2 s1 hk2 inv2⟩
  · obtain ⟨f, hf⟩ := hl d hr
    rw [hf] at hn
    simp at hn

/-- The runs of `Resolve`: its first loop fails at a name that cannot be loaded, or it
reaches `topoSort`. -/
theorem resolve_cases (l : Loader) (o : RangeOrder) (root : String) (ho : o.Valid) :
    (∃ s inDegree sorted, ResolveRun l o root s inDegree sorted) ∨
    (∃ d, Resolve l o root = some (.error (.notFound d root)) ∧
      Reachable l root d ∧ l.LoadByName d = none) := by
  rcases loadLoop_resolve l root with ⟨s, hs, hg⟩ | ⟨d, hd, hr, hn⟩
  · left
    obtain ⟨i, srt, h⟩ := resolve_run_of_graph l o root ho s hs hg
    exact ⟨s, i, srt, h⟩
  · right
    refine ⟨d, ?_, hr, hn⟩
    unfold Resolve
    rw [hd]

/-- The run of `Resolve` on a catalog in which every reachable name can be loaded. -/
theorem resolve_run (l : Loader) (o : RangeOrder) (root : String) (ho : o.Valid)
    (hl : FullyLoadable l root) :
    ∃ s inDegree sorted, ResolveRun l o root s inDegree sorted := by
  rcases resolve_cases l o root ho with h | ⟨d, _, hr, hn⟩
  · exact h
  · obtain ⟨f, hf⟩ := hl d hr
    rw [hf] at hn
    simp at hn

theorem ResolveRun.trans_before {l : Loader} {o : RangeOrder} {root : String} {s : Loaded}
    {inDegree : GoMap Int} {sorted : List String} (run : ResolveRun l o root s inDegree sorted)
    {a b : String} (h : Relation.TransGen (DependsOn l) a b) (ha : a ∈ sorted) :
    b ∈ sorted ∧ sorted.indexOf b < sorted.indexOf a := by
  induction h with
  | single hab =>
    have hk := run.inv.sub a (by simpa using ha)
    exact run.inv.dep_before ha ((run.graph.edge_iff hk _).mpr hab)
  | tail _ hbc ih =>
    have hk := run.inv.sub _ (by simpa using ih.1)
    have := run.inv.dep_before ih.1 ((run.graph.edge_iff hk _).mpr hbc)
    exact ⟨this.1, lt_trans this.2 ih.2⟩

/-- The main loop of `topoSort` emits every node exactly when the graph has no cycle. -/
theorem ResolveRun.hasCycle_iff {l : Loader} {o : RangeOrder} {root : String} {s : Loaded}
    {inDegree : GoMap Int} {sorted : List String} (run : ResolveRun l o root s inDegree sorted) :
    HasCycle l root ↔ sorted.length ≠ s.graph.keys.length := by
  constructor
  · rintro ⟨n, hn, hc⟩ hlen
    have hall := (run.inv.length_eq_iff run.graph.nodup).mp hlen
    have hns : n ∈ sorted := hall n ((run.graph.keys n).mpr hn)
    have := (run.trans_before hc hns).2
    omega
  · intro hlen
    have hex : ∃ x, x ∈ s.graph.keys ∧ x ∉ sorted := by
      by_contra hcon
      push_neg at hcon
      exact hlen ((run.inv.length_eq_iff run.graph.nodup).mpr hcon)
    obtain ⟨x0, hx0⟩ := hex
    obtain ⟨x, hx, hc⟩ := exists_cycle_of_no_sink (DependsOn l) s.graph.keys
      (fun x => x ∈ s.graph.keys ∧ x ∉ sorted) (fun x hx => hx.1)
      (by
        intro x hx
        obtain ⟨d, hd, hd2⟩ := run.inv.residual_step run.graph.closed hx
        exact ⟨d, hd2, (run.graph.edge_iff hx.1 d).mp hd⟩)
      x0 hx0
    exact ⟨x, (run.graph.keys x).mp hx.1, hc⟩

theorem ResolveRun.ok {l : Loader} {o : RangeOrder} {root : String} {s : Loaded}
    {inDegree : GoMap Int} {sorted : List String} (run : ResolveRun l o root s inDegree sorted)
    (hac : ¬ HasCycle l root) :
    Resolve l o root = some (.ok (sorted.map l.LoadByName)) ∧
      ∀ n, n ∈ sorted ↔ Reachable l root n := by
  have hlen : sorted.length = s.graph.keys.length := by
    by_contra h
    exact hac (run.hasCycle_iff.mpr h)
  refine ⟨?_, ?_⟩
  · rw [run.result]; simp [hlen]
  · intro n
    rw [← run.graph.keys n]
    constructor
    · intro h; exact run.inv.sub n (by simpa using h)
    · intro h; exact (run.inv.length_eq_iff run.graph.nodup).mp hlen n h

end Depgraph

namespace Depgraph

/-! ## `findCycle` -/

theorem dropWhile_ne_of_mem {node : String} {path : List String} (h : node ∈ path) :
    ∃ pre rest, path = pre ++ node :: rest ∧
      path.dropWhile (fun n => decide (n ≠ node)) = node :: rest := by
  induction path with
  | nil => simp at h
  | cons x xs ih =>
    by_cases hx : x = node
    · subst hx
      exact ⟨[], xs, rfl, by simp [List.dropWhile]⟩
    · have h' : node ∈ xs := by
        rcases List.mem_cons.mp h with h1 | h1
        · exact absurd h1.symm hx
        · exact h1
      obtain ⟨pre, rest, h1, h2⟩ := ih h'
      refine ⟨x :: pre, rest, by rw [h1]; rfl, ?_⟩
      rw [List.dropWhile_cons_of_pos (by simpa using hx)]
      exact h2

theorem chain_mem_keys (graph : GoMap (List String))
    (hclosed : ∀ a ∈ graph.keys, ∀ b ∈ graph.get a, b ∈ graph.keys) :
    ∀ (p : List String) (a : String), List.Chain' (Edge graph) (a :: p) → a ∈ graph.keys →
      ∀ x ∈ a :: p, x ∈ graph.keys := by
  intro p
  induction p with
  | nil => intro a _ ha x hx; simp at hx; subst hx; exact ha
  | cons b bs ih =>
    intro a hc ha x hx
    rw [List.chain'_cons] at hc
    rcases List.mem_cons.mp hx with h | h
    · subst h; exact ha
    · exact ih b hc.2 (hclosed a ha b hc.1) x h

theorem chain_edge_to_dependsOn {l : Loader} {root : String} {s : Loaded}
    (hg : GraphOf l root s) :
    ∀ (p : List String), List.Chain' (Edge s.graph) p → (∀ x ∈ p, x ∈ s.graph.keys) →
      List.Chain' (DependsOn l) p := by
  intro p
  induction p with
  | nil => intro _ _; exact List.chain'_nil
  | cons a as ih =>
    intro hc hk
    cases as with
    | nil => exact List.chain'_singleton _
    | cons b bs =>
      rw [List.chain'_cons] at hc ⊢
      exact ⟨(hg.edge_iff (hk a (List.mem_cons_self _ _)) b).mp hc.1,
        ih hc.2 (fun x hx => hk x (List.mem_cons_of_mem _ hx))⟩

/-- The chain of a `VisitCycle` that starts at a key of the graph, in terms of the catalog:
it has at least two elements, begins and ends with the same name, runs along dependency
edges through reachable names, and is the end of a duplicate-free path of dependency
edges from the first occurrence of the name that repeats. -/
theorem VisitCycle.spec {l : Loader} {root : String} {s : Loaded} (hg : GraphOf l root s)
    {start : String} {chain : List String} (hs : start ∈ s.graph.keys)
    (h : VisitCycle s.graph [start] chain) :
    2 ≤ chain.length ∧ chain.head? = chain.getLast? ∧ List.Chain' (DependsOn l) chain ∧
      (∀ n ∈ chain, Reachable l root n) ∧
      ∃ path node, path.head? = some start ∧ List.Chain' (DependsOn l) (path ++ [node]) ∧
        path.Nodup ∧ node ∈ path ∧
        chain = path.dropWhile (fun n => decide (n ≠ node)) ++ [node] := by
  obtain ⟨path, node, hpre, hch, hnd, hmem, hchain⟩ := h
  obtain ⟨pre, rest, hsplit, hdrop⟩ := dropWhile_ne_of_mem hmem
  have hhead : ∃ tl, path ++ [node] = start :: tl := by
    obtain ⟨t, ht⟩ := hpre
    exact ⟨t, by rw [← ht]; rfl⟩
  obtain ⟨tl, htl⟩ := hhead
  have hkeys : ∀ x ∈ path ++ [node], x ∈ s.graph.keys := by
    rw [htl]
    apply chain_mem_keys s.graph hg.closed tl start
    · rw [← htl]; exact hch
    · exact hs
  have hdep : List.Chain' (DependsOn l) (path ++ [node]) :=
    chain_edge_to_dependsOn hg _ hch hkeys
  have hchain2 : chain = node :: (rest ++ [node]) := by rw [hchain, hdrop]; rfl
  have hsuffix : path ++ [node] = pre ++ chain := by
    rw [hchain2, hsplit]; simp
  refine ⟨?_, ?_, ?_, ?_, ?_⟩
  · rw [hchain2]; simp
  · have h3 : chain = (node :: rest) ++ [node] := by rw [hchain2]; rfl
    rw [h3, List.getLast?_concat]; rfl
  · rw [hsuffix] at hdep
    exact hdep.right_of_append
  · intro n hn
    rw [← hg.keys]
    apply hkeys
    rw [hsuffix]
    exact List.mem_append_right _ hn
  · refine ⟨path, node, ?_, hdep, hnd, hmem, hchain⟩
    cases path with
    | nil => simp at hmem
    | cons p ps =>
      simp at htl
      simp [htl.1]

/-- The slice returned by `findCycle` when the main loop of `topoSort` has not emitted
every node: `findCycle` starts from a node `start` that was not emitted; it returns nil
when `start` is the empty name, and otherwise a cycle closed on the visit path from
`start`. -/
theorem ResolveRun.findCycle_spec {l : Loader} {o : RangeOrder} {root : String} {s : Loaded}
    {inDegree : GoMap Int} {sorted : List String} (run : ResolveRun l o root s inDegree sorted)
    (ho : o.Valid) (hlen : sorted.length ≠ s.graph.keys.length) :
    ∃ start, start ∈ s.graph.keys ∧ start ∉ sorted ∧
      ((start = "" ∧ findCycle o s.graph inDegree = some []) ∨
        (start ≠ "" ∧ ∃ chain, findCycle o s.graph inDegree = some chain ∧
          VisitCycle s.graph [start] chain)) := by
  have hperm : (o.start inDegree.keys).Perm s.graph.keys :=
    ((ho inDegree.keys).2.2.1).trans run.inv.keys
  have hex : ∃ x, x ∈ s.graph.keys ∧ x ∉ sorted := by
    by_contra hcon
    push_neg at hcon
    exact hlen ((run.inv.length_eq_iff run.graph.nodup).mpr hcon)
  obtain ⟨x0, hx0k, hx0s⟩ := hex
  cases hfind : (o.start inDegree.keys).find? (fun n => decide (inDegree.get n > 0)) with
  | none =>
    rw [List.find?_eq_none] at hfind
    have := hfind x0 (hperm.mem_iff.mpr hx0k)
    simp only [decide_eq_true_eq] at this
    exact absurd ((run.inv.residual_iff hx0k).mpr hx0s) this
  | some start =>
    have hp := List.find?_some hfind
    simp only [decide_eq_true_eq] at hp
    have hk : start ∈ s.graph.keys := hperm.mem_iff.mp (List.mem_of_find?_eq_some hfind)
    have hns : start ∉ sorted := (run.inv.residual_iff hk).mp hp
    refine ⟨start, hk, hns, ?_⟩
    by_cases he : start = ""
    · left
      refine ⟨he, ?_⟩
      unfold findCycle
      simp only [hfind, Option.getD_some, he, if_true]
    · right
      refine ⟨he, ?_⟩
      unfold findCycle
      simp only [hfind, Option.getD_some, he, if_false]
      obtain ⟨r, hr⟩ := traceCycle_total s.graph run.graph.closed (s.graph.keys.length + 2)
        start [] [] hk (by
          have : unvisited s.graph.keys [] ≤ s.graph.keys.length := by
            unfold unvisited; exact List.length_filter_le _ _
          omega)
      obtain ⟨b, v, p⟩ := r
      rw [hr]
      cases b with
      | true =>
        refine ⟨p, rfl, ?_⟩
        have := traceCycle_sound s.graph _ start [] [] v p hr (by simp) List.nodup_nil
          (fun _ h => h)
        simpa using this
      | false =>
        exfalso
        have := traceCycle_complete s.graph (fun x => x ∈ s.graph.keys ∧ x ∉ sorted)
          (fun x hx => by
            obtain ⟨d, hd, hd2⟩ := run.inv.residual_step run.graph.closed hx
            exact ⟨d, hd, hd2⟩)
          _ start [] [] v p hr (fun _ h => h) (by simp)
        exact this.1 ⟨hk, hns⟩

end Depgraph

namespace Depgraph

/-! ## Discharging the hypotheses on a concrete catalog -/

theorem mem_of_lookup {entries : List (String × Formula)} {a : String} {f : Formula}
    (h : entries.lookup a = some f) : (a, f) ∈ entries := by
  induction entries with
  | nil => simp at h
  | cons e es ih =>
    obtain ⟨k, g⟩ := e
    rw [List.lookup_cons] at h
    by_cases hk : a = k
    · subst hk
      simp at h
      subst h
      exact List.mem_cons_self _ _
    · have hb : (a == k) = false := by simpa using hk
      rw [hb] at h
      exact List.mem_cons_of_mem _ (ih h)

theorem DependsOn.mem_entries {l : Loader} {a b : String} (h : DependsOn l a b) :
    ∃ e ∈ l.entries, e.1 = a ∧ b ∈ e.2.Dependencies := by
  obtain ⟨f, hf, hb⟩ := h
  exact ⟨(a, f), mem_of_lookup hf, rfl, hb⟩

/-- Every reachable name is the root or is listed as a dependency by some entry. -/
theorem Reachable.cases {l : Loader} {root n : String} (h : Reachable l root n) :
    n = root ∨ ∃ e ∈ l.entries, n ∈ e.2.Dependencies := by
  induction h with
  | refl => exact Or.inl rfl
  | tail _ hbc _ =>
    obtain ⟨e, he, _, hd⟩ := hbc.mem_entries
    exact Or.inr ⟨e, he, hd⟩

theorem fullyLoadable_of_entries (l : Loader) (root : String)
    (hroot : (l.LoadByName root).isSome = true)
    (hdeps : ∀ e ∈ l.entries, ∀ d ∈ e.2.Dependencies, (l.LoadByName d).isSome = true) :
    FullyLoadable l root := by
  intro n hn
  have : (l.LoadByName n).isSome = true := by
    rcases hn.cases with h | ⟨e, he, hd⟩
    · subst h; exact hroot
    · exact hdeps e he n hd
  exact Option.isSome_iff_exists.mp this

theorem acyclic_of_order (l : Loader) (root : String) (order : List String)
    (h : ∀ e ∈ l.entries, ∀ d ∈ e.2.Dependencies, order.indexOf d < order.indexOf e.1) :
    ¬ HasCycle l root := by
  rintro ⟨n, _, hc⟩
  have key : ∀ a b, Relation.TransGen (DependsOn l) a b → order.indexOf b < order.indexOf a := by
    intro a b hab
    induction hab with
    | single hab =>
      obtain ⟨e, he, h1, h2⟩ := hab.mem_entries
      have := h e he _ h2
      rw [h1] at this; exact this
    | tail _ hbc ih =>
      obtain ⟨e, he, h1, h2⟩ := hbc.mem_entries
      have := h e he _ h2
      rw [h1] at this
      exact lt_trans this ih
  exact lt_irrefl _ (key n n hc)

theorem names_nonempty_of_entries (l : Loader) (root : String) (hroot : root ≠ "")
    (hdeps : ∀ e ∈ l.entries, ∀ d ∈ e.2.Dependencies, d ≠ "") :
    ∀ n, Reachable l root n → n ≠ "" := by
  intro n hn
  rcases hn.cases with h | ⟨e, he, hd⟩
  · subst h; exact hroot
  · exact hdeps e he n hd

theorem dependsOn_of_lookup {l : Loader} {a b : String} {f : Formula}
    (h : l.LoadByName a = some f) (hb : b ∈ f.Dependencies) : DependsOn l a b :=
  ⟨f, h, hb⟩

/-! ## The claims on `Resolve` -/

/-- C1: on a catalog whose graph reachable from the root is acyclic and fully loadable,
`Resolve` returns the definitions of a list of names without repetition in which every
reachable package stands after each of its direct dependencies: when `a` is reachable and
lists `b`, both are in the list and the position of `b` is strictly before that of `a`. -/
theorem resolve_dependencies_first (l : Loader) (o : RangeOrder) (root : String)
    (ho : o.Valid) (hl : FullyLoadable l root) (hac : ¬ HasCycle l root) :
    ∃ sorted : List String, Resolve l o root = some (.ok (sorted.map l.LoadByName)) ∧ sorted.Nodup ∧
      ∀ a b, Reachable l root a → DependsOn l a b →
        a ∈ sorted ∧ b ∈ sorted ∧ sorted.indexOf b < sorted.indexOf a := by
  obtain ⟨s, inDegree, sorted, run⟩ := resolve_run l o root ho hl
  obtain ⟨hres, hmem⟩ := run.ok hac
  refine ⟨sorted, hres, by simpa using run.inv.nodup, ?_⟩
  intro a b ha hab
  have has : a ∈ sorted := (hmem a).mpr ha
  have := run.trans_before (Relation.TransGen.single hab) has
  exact ⟨has, this.1, this.2⟩

/-- The diamond `a -> {b, c}`, `b -> d`, `c -> d`: the order is `d, b, c, a`, and `d`
precedes `b` and `c`, which precede `a`. -/
theorem resolve_dependencies_first_witness :
    RangeOrder.insertion.Valid ∧ FullyLoadable diamondCatalog "a" ∧
      ¬ HasCycle diamondCatalog "a" ∧
      Resolve diamondCatalog RangeOrder.insertion "a" =
        some (.ok (["d", "b", "c", "a"].map diamondCatalog.LoadByName)) ∧
      ∃ sorted : List String, Resolve diamondCatalog RangeOrder.insertion "a" =
          some (.ok (sorted.map diamondCatalog.LoadByName)) ∧ sorted.Nodup ∧
        ∀ a b, Reachable diamondCatalog "a" a → DependsOn diamondCatalog a b →
          a ∈ sorted ∧ b ∈ sorted ∧ sorted.indexOf b < sorted.indexOf a :=
  have hl : FullyLoadable diamondCatalog "a" :=
    fullyLoadable_of_entries _ _ (by decide) (by decide)
  have hac : ¬ HasCycle diamondCatalog "a" :=
    acyclic_of_order _ _ ["d", "b", "c", "a"] (by decide)
  ⟨RangeOrder.insertion_valid, hl, hac, by decide,
    resolve_dependencies_first diamondCatalog RangeOrder.insertion "a"
      RangeOrder.insertion_valid hl hac⟩

/-- C2: on a catalog whose graph reachable from the root is acyclic and fully loadable,
`Resolve` returns one entry for each name reachable from the root and no other: the names
of the entries have no repetition, they are the reachable names, each entry is the
definition loaded for its name, and the length of the result is the number of reachable
names. -/
theorem resolve_reachable_once (l : Loader) (o : RangeOrder) (root : String)
    (ho : o.Valid) (hl : FullyLoadable l root) (hac : ¬ HasCycle l root) :
    ∃ sorted : List String, Resolve l o root = some (.ok (sorted.map l.LoadByName)) ∧
      sorted.Nodup ∧ (∀ n, n ∈ sorted ↔ Reachable l root n) ∧
      (∀ n ∈ sorted, ∃ f, l.LoadByName n = some f) ∧
      (sorted.map l.LoadByName).length = {n | Reachable l root n}.ncard := by
  obtain ⟨s, inDegree, sorted, run⟩ := resolve_run l o root ho hl
  obtain ⟨hres, hmem⟩ := run.ok hac
  have hnd : sorted.Nodup := by simpa using run.inv.nodup
  refine ⟨sorted, hres, hnd, hmem, fun n hn => hl n ((hmem n).mp hn), ?_⟩
  have hset : {n | Reachable l root n} = ↑sorted.toFinset := by
    ext n
    simp only [Set.mem_setOf_eq, Finset.mem_coe, List.mem_toFinset]
    exact (hmem n).symm
  rw [hset, Set.ncard_coe_Finset, List.toFinset_card_of_nodup hnd, List.length_map]

/-- A dependency list that names `b` twice: the result has the three reachable names
once each. -/
theorem resolve_reachable_once_witness :
    RangeOrder.reversed.Valid ∧ FullyLoadable repeatCatalog "a" ∧
      ¬ HasCycle repeatCatalog "a" ∧
      Resolve repeatCatalog RangeOrder.reversed "a" =
        some (.ok (["c", "b", "a"].map repeatCatalog.LoadByName)) ∧
      ∃ sorted : List String, Resolve repeatCatalog RangeOrder.reversed "a" =
          some (.ok (sorted.map repeatCatalog.LoadByName)) ∧
        sorted.Nodup ∧ (∀ n, n ∈ sorted ↔ Reachable repeatCatalog "a" n) ∧
        (∀ n ∈ sorted, ∃ f, repeatCatalog.LoadByName n = some f) ∧
        (sorted.map repeatCatalog.LoadByName).length =
          {n | Reachable repeatCatalog "a" n}.ncard :=
  have hl : FullyLoadable repeatCatalog "a" :=
    fullyLoadable_of_entries _ _ (by decide) (by decide)
  have hac : ¬ HasCycle repeatCatalog "a" :=
    acyclic_of_order _ _ ["c", "b", "a"] (by decide)
  ⟨RangeOrder.reversed_valid, hl, hac, by decide,
    resolve_reachable_once repeatCatalog RangeOrder.reversed "a"
      RangeOrder.reversed_valid hl hac⟩

/-- C3: when every name reachable from the root can be loaded, `Resolve` fails with a
`CycleError` exactly when the graph reachable from the root contains a cycle, and returns
a list exactly when it contains none; a failing call returns the error and no list. -/
theorem resolve_cycle_iff (l : Loader) (o : RangeOrder) (root : String)
    (ho : o.Valid) (hl : FullyLoadable l root) :
    (HasCycle l root ↔ ∃ e, Resolve l o root = some (.error (.cycle e))) ∧
      (¬ HasCycle l root ↔ ∃ fs, Resolve l o root = some (.ok fs)) := by
  obtain ⟨s, inDegree, sorted, run⟩ := resolve_run l o root ho hl
  have hcyc : HasCycle l root → ∃ e, Resolve l o root = some (.error (.cycle e)) := by
    intro hc
    have hlen := run.hasCycle_iff.mp hc
    obtain ⟨start, _, _, h | h⟩ := run.findCycle_spec ho hlen
    · refine ⟨⟨[]⟩, ?_⟩
      rw [run.result, if_pos hlen, h.2]; rfl
    · obtain ⟨_, chain, hch, _⟩ := h
      refine ⟨⟨chain⟩, ?_⟩
      rw [run.result, if_pos hlen, hch]; rfl
  have hok : ¬ HasCycle l root → ∃ fs, Resolve l o root = some (.ok fs) :=
    fun hac => ⟨_, (run.ok hac).1⟩
  refine ⟨⟨hcyc, ?_⟩, ⟨hok, ?_⟩⟩
  · rintro ⟨e, he⟩
    by_contra hac
    obtain ⟨fs, hfs⟩ := hok hac
    rw [he] at hfs
    simp at hfs
  · rintro ⟨fs, hfs⟩ hc
    obtain ⟨e, he⟩ := hcyc hc
    rw [he] at hfs
    simp at hfs

/-- The catalog `x -> y`, `y -> x` of `TestResolve_CircularDependency`. -/
theorem resolve_cycle_iff_witness :
    RangeOrder.insertion.Valid ∧ FullyLoadable circularCatalog "x" ∧
      HasCycle circularCatalog "x" ∧
      Resolve circularCatalog RangeOrder.insertion "x" =
        some (.error (.cycle ⟨["x", "y", "x"]⟩)) ∧
      ((HasCycle circularCatalog "x" ↔
          ∃ e, Resolve circularCatalog RangeOrder.insertion "x" = some (.error (.cycle e))) ∧
        (¬ HasCycle circularCatalog "x" ↔
          ∃ fs, Resolve circularCatalog RangeOrder.insertion "x" = some (.ok fs))) :=
  have hl : FullyLoadable circularCatalog "x" :=
    fullyLoadable_of_entries _ _ (by decide) (by decide)
  have hxy : DependsOn circularCatalog "x" "y" :=
    dependsOn_of_lookup (f := (entry "x" ["y"]).2) (by decide) (by decide)
  have hyx : DependsOn circularCatalog "y" "x" :=
    dependsOn_of_lookup (f := (entry "y" ["x"]).2) (by decide) (by decide)
  ⟨RangeOrder.insertion_valid, hl,
    ⟨"x", Relation.ReflTransGen.refl,
      Relation.TransGen.tail (Relation.TransGen.single hxy) hyx⟩,
    by decide,
    resolve_cycle_iff circularCatalog RangeOrder.insertion "x" RangeOrder.insertion_valid hl⟩

/-- C4, violated by the code.  In the catalog with the definitions `"" -> x` and
`x -> x` the graph of `Resolve ""` has the cycle `x -> x`, but `Resolve` fails with a
`CycleError` whose chain is empty: `findCycle` takes the empty string for "no start found"
(line 128), and here the start that it picked among the unresolved nodes is the package
with the empty name, so it returns nil instead of the cycle path that its comment (line
118) promises. -/
theorem empty_name_gives_empty_chain :
    RangeOrder.insertion.Valid ∧
      (emptyNameCatalog.LoadByName "").map (fun f => f.Dependencies) = some ["x"] ∧
      (emptyNameCatalog.LoadByName "x").map (fun f => f.Dependencies) = some ["x"] ∧
      Resolve emptyNameCatalog RangeOrder.insertion "" = some (.error (.cycle ⟨[]⟩)) ∧
      ¬ 2 ≤ (CycleError.mk []).Chain.length :=
  ⟨RangeOrder.insertion_valid, by decide, by decide, by decide, by decide⟩

/-- The chain of a `CycleError` where the sentinel of `findCycle` meets no package: when
no name reachable from the root is the empty string and `Resolve` fails with a
`CycleError`, its chain is a dependency cycle of the graph: it has at least
two elements, its first and last elements are the same name, each element lists the next
one among its direct dependencies, and all of them are reachable from the root.  It is the
end of a depth-first visit path (a path of dependency edges without repetition that begins
at some package) from the first occurrence of the revisited name `node`, followed by
`node`. -/
theorem cycle_chain_is_cycle (l : Loader) (o : RangeOrder) (root : String) (ho : o.Valid)
    (hne : ∀ n, Reachable l root n → n ≠ "") (e : CycleError)
    (h : Resolve l o root = some (.error (.cycle e))) :
    2 ≤ e.Chain.length ∧ e.Chain.head? = e.Chain.getLast? ∧
      List.Chain' (DependsOn l) e.Chain ∧ (∀ n ∈ e.Chain, Reachable l root n) ∧
      ∃ path node start, path.head? = some start ∧ Reachable l root start ∧
        List.Chain' (DependsOn l) (path ++ [node]) ∧ path.Nodup ∧ node ∈ path ∧
        e.Chain = path.dropWhile (fun n => decide (n ≠ node)) ++ [node] := by
  rcases resolve_cases l o root ho with ⟨s, inDegree, sorted, run⟩ | ⟨d, hd, _, _⟩
  · by_cases hlen : sorted.length ≠ s.graph.keys.length
    · obtain ⟨start, hk, _, h1 | h1⟩ := run.findCycle_spec ho hlen
      · exact absurd h1.1 (hne start ((run.graph.keys start).mp hk))
      · obtain ⟨_, chain, hch, hv⟩ := h1
        have he : e = ⟨chain⟩ := by
          rw [run.result, if_pos hlen, hch] at h
          simp only [Option.map_some', Option.some.injEq, Except.error.injEq,
            ResolveError.cycle.injEq] at h
          exact h.symm
        subst he
        obtain ⟨h2, h3, h4, h5, path, node, h6, h7⟩ := hv.spec run.graph hk
        exact ⟨h2, h3, h4, h5, path, node, start, h6, (run.graph.keys start).mp hk, h7⟩
    · rw [run.result, if_neg hlen] at h
      simp at h
  · rw [hd] at h
    simp at h

/-- The catalog `knotCatalog`, whose cycle `x -> y -> z -> x` lies behind the acyclic part
`a -> b`: the chain is `x, y, z, x`. -/
theorem cycle_chain_is_cycle_witness :
    RangeOrder.reversed.Valid ∧ (∀ n, Reachable knotCatalog "r" n → n ≠ "") ∧
      Resolve knotCatalog RangeOrder.reversed "r" =
        some (.error (.cycle ⟨["x", "y", "z", "x"]⟩)) ∧
      (2 ≤ (CycleError.mk ["x", "y", "z", "x"]).Chain.length ∧
        (CycleError.mk ["x", "y", "z", "x"]).Chain.head? =
          (CycleError.mk ["x", "y", "z", "x"]).Chain.getLast? ∧
        List.Chain' (DependsOn knotCatalog) (CycleError.mk ["x", "y", "z", "x"]).Chain ∧
        (∀ n ∈ (CycleError.mk ["x", "y", "z", "x"]).Chain, Reachable knotCatalog "r" n) ∧
        ∃ path node start, path.head? = some start ∧ Reachable knotCatalog "r" start ∧
          List.Chain' (DependsOn knotCatalog) (path ++ [node]) ∧ path.Nodup ∧
          node ∈ path ∧
          (CycleError.mk ["x", "y", "z", "x"]).Chain =
            path.dropWhile (fun n => decide (n ≠ node)) ++ [node]) :=
  have hne : ∀ n, Reachable knotCatalog "r" n → n ≠ "" :=
    names_nonempty_of_entries _ _ (by decide) (by decide)
  ⟨RangeOrder.reversed_valid, hne, by decide,
    cycle_chain_is_cycle knotCatalog RangeOrder.reversed "r" RangeOrder.reversed_valid
      hne ⟨["x", "y", "z", "x"]⟩ (by decide)⟩

/-- C5: for a catalog and root whose graph is acyclic and fully loadable, the result of
`Resolve` is the same for any two enumeration orders of the maps `graph` and `inDegree`
(on which the contents of `reverse` depend), and it is a list. -/
theorem resolve_deterministic (l : Loader) (o1 o2 : RangeOrder) (root : String)
    (h1 : o1.Valid) (h2 : o2.Valid) (hl : FullyLoadable l root) (hac : ¬ HasCycle l root) :
    Resolve l o1 root = Resolve l o2 root ∧ ∃ fs, Resolve l o1 root = some (.ok fs) := by
  obtain ⟨s, i1, i2, sorted, run1, run2⟩ := resolve_run_pair l o1 o2 root h1 h2 hl
  rw [(run1.ok hac).1, (run2.ok hac).1]
  exact ⟨rfl, _, rfl⟩

/-- The diamond enumerated in insertion order and in reverse order. -/
theorem resolve_deterministic_witness :
    RangeOrder.insertion.Valid ∧ RangeOrder.reversed.Valid ∧
      FullyLoadable diamondCatalog "a" ∧ ¬ HasCycle diamondCatalog "a" ∧
      (Resolve diamondCatalog RangeOrder.insertion "a" =
          Resolve diamondCatalog RangeOrder.reversed "a" ∧
        ∃ fs, Resolve diamondCatalog RangeOrder.insertion "a" = some (.ok fs)) :=
  have hl : FullyLoadable diamondCatalog "a" :=
    fullyLoadable_of_entries _ _ (by decide) (by decide)
  have hac : ¬ HasCycle diamondCatalog "a" :=
    acyclic_of_order _ _ ["d", "b", "c", "a"] (by decide)
  ⟨RangeOrder.insertion_valid, RangeOrder.reversed_valid, hl, hac,
    resolve_deterministic diamondCatalog RangeOrder.insertion RangeOrder.reversed "a"
      RangeOrder.insertion_valid RangeOrder.reversed_valid hl hac⟩

/-- C6, refuted as stated: in `queueCatalog` the order is `b, c, a, r`.  At position 1 the
packages `a` and `c` are both ready (`a` depends on `b` alone), and `c` is emitted although
`a` is the smaller name. -/
theorem resolve_smallest_ready_counterexample :
    RangeOrder.insertion.Valid ∧
      Resolve queueCatalog RangeOrder.insertion "r" =
        some (.ok (["b", "c", "a", "r"].map queueCatalog.LoadByName)) ∧
      ¬ SmallestReadyFirst queueCatalog ["b", "c", "a", "r"] :=
  ⟨RangeOrder.insertion_valid, by decide, by decide⟩

/-- C6, amended: the ready packages wait in a first-in-first-out queue.  The packages
without dependencies enter it first, in ascending order of name, and the packages that
become ready when a package is emitted enter it at the end, in ascending order of name; the
package emitted next is the head of the queue.  So of two packages the one that became ready
earlier is emitted first, and of two that became ready at the same moment (`readyTime`: the
position after the last of their dependencies) the one with the smaller name. -/
theorem resolve_queue_order (l : Loader) (o : RangeOrder) (root : String)
    (ho : o.Valid) (hl : FullyLoadable l root) (hac : ¬ HasCycle l root) :
    ∃ sorted : List String, Resolve l o root = some (.ok (sorted.map l.LoadByName)) ∧
      sorted.Pairwise (EmittedBefore l sorted) := by
  obtain ⟨s, inDegree, sorted, run⟩ := resolve_run l o root ho hl
  refine ⟨sorted, (run.ok hac).1, ?_⟩
  have hfifo := run.inv.fifo
  rw [List.append_nil] at hfifo
  refine hfifo.imp_of_mem ?_
  intro a b ha hb hab
  have hra : ∀ x ∈ sorted, readyAt s.graph sorted x = readyTime l sorted x := by
    intro x hx
    unfold readyAt readyTime
    rw [run.graph.get_eq_depsOf (run.inv.sub x (by simpa using hx))]
  unfold QueueOrder at hab
  unfold EmittedBefore
  rw [← hra a ha, ← hra b hb]
  exact hab

/-- The order `b, c, a, r` of `queueCatalog`: `b` and `c` are ready at the start, `a` after
`b`, `r` after `a`. -/
theorem resolve_queue_order_witness :
    RangeOrder.insertion.Valid ∧ FullyLoadable queueCatalog "r" ∧
      ¬ HasCycle queueCatalog "r" ∧
      List.Pairwise (EmittedBefore queueCatalog ["b", "c", "a", "r"]) ["b", "c", "a", "r"] ∧
      ∃ sorted : List String, Resolve queueCatalog RangeOrder.insertion "r" =
          some (.ok (sorted.map queueCatalog.LoadByName)) ∧
        sorted.Pairwise (EmittedBefore queueCatalog sorted) :=
  have hl : FullyLoadable queueCatalog "r" :=
    fullyLoadable_of_entries _ _ (by decide) (by decide)
  have hac : ¬ HasCycle queueCatalog "r" :=
    acyclic_of_order _ _ ["b", "c", "a", "r"] (by decide)
  ⟨RangeOrder.insertion_valid, hl, hac, by unfold EmittedBefore; decide,
    resolve_queue_order queueCatalog RangeOrder.insertion "r" RangeOrder.insertion_valid hl hac⟩

end Depgraph

namespace Downloader

open Filepath Os

/-! ## The claims on the extractor and on names -/

/-- C7, violated by the code.  A tar archive with a link `l` to `/etc` followed by a file
`l/passwd`, extracted into `/tmp/dest`, overwrites `/etc/passwd`: the check of the link
joins the absolute link text to the directory of the link, so it passes, and the file is
then written through the link.  With relative links only (`a` to `.`, `a/b` to `..`, then
`b/evil`) the file `/tmp/evil` is created: the check resolves the link text against the
name of the directory, not against the directory that the earlier link leads to.  A zip
archive with a directory `etc/`, a link `l` to `/etc` and a file `l/passwd` overwrites
`/etc/passwd` as well. -/
theorem extract_writes_outside_destination :
    (∃ fs1, extractTarGz "/tmp/dest" 0 absoluteLinkArchive hostFS = .ok fs1 ∧
      hostFS.find ["etc", "passwd"] = some (.file 0o644 "root") ∧
      fs1.find ["etc", "passwd"] = some (.file 0o644 "evil") ∧
      ¬ ConfinedTo ["tmp", "dest"] hostFS fs1) ∧
    (∃ fs2, extractTarGz "/tmp/dest" 0 relativeLinkArchive hostFS = .ok fs2 ∧
      hostFS.find ["tmp", "evil"] = none ∧
      fs2.find ["tmp", "evil"] = some (.file 0o644 "evil") ∧
      ¬ ConfinedTo ["tmp", "dest"] hostFS fs2) ∧
    (∃ fs3, extractZip "/tmp/dest" 0 absoluteLinkZip hostFS = .ok fs3 ∧
      fs3.find ["etc", "passwd"] = some (.file 0o644 "evil") ∧
      ¬ ConfinedTo ["tmp", "dest"] hostFS fs3) := by
  refine ⟨⟨⟨[(["etc", "passwd"], .file 0o644 "evil"), (["tmp", "dest", "l"], .symlink "/etc"),
      (["tmp"], .dir 0o755), (["tmp", "dest"], .dir 0o755), (["etc"], .dir 0o755)], []⟩,
      by decide, by decide, by decide, ?_⟩,
    ⟨⟨[(["tmp", "evil"], .file 0o644 "evil"), (["tmp", "dest", "b"], .symlink ".."),
      (["tmp", "dest", "a"], .symlink "."), (["tmp"], .dir 0o755), (["tmp", "dest"], .dir 0o755),
      (["etc"], .dir 0o755), (["etc", "passwd"], .file 0o644 "root")], []⟩,
      by decide, by decide, by decide, ?_⟩,
    ⟨⟨[(["etc", "passwd"], .file 0o644 "evil"), (["tmp", "dest", "l"], .symlink "/etc"),
      (["tmp", "dest", "etc"], .dir 0o755), (["tmp"], .dir 0o755), (["tmp", "dest"], .dir 0o755),
      (["etc"], .dir 0o755)], []⟩,
      by decide, by decide, ?_⟩⟩
  · intro h
    have := h ["etc", "passwd"] (by decide)
    revert this
    decide
  · intro h
    have := h ["tmp", "evil"] (by decide)
    revert this
    decide
  · intro h
    have := h ["etc", "passwd"] (by decide)
    revert this
    decide

/-- C8: a member whose destination `Join(destDir, stripPath(name, strip))`, made absolute
and cleaned, is neither `destDir` nor nested under it is skipped by both extraction loops:
the loop goes on with the following members in the same state, so the member changes
nothing and causes no error. -/
theorem escaping_member_skipped (destDir name : String) (strip : Int) (fs : FS)
    (h : nestedOrEqual fs.Getwd destDir (Join [destDir, stripPath name strip]) = false) :
    (∀ header data rest, header.Name = name →
      extractTarGz destDir strip (.member header data :: rest) fs =
        extractTarGz destDir strip rest fs) ∧
    (∀ f rest realDestDir, f.Name = name →
      extractZipLoop destDir realDestDir strip (f :: rest) fs =
        extractZipLoop destDir realDestDir strip rest fs) := by
  have hw : withinDir fs.Getwd destDir (Join [destDir, stripPath name strip]) = false := by
    cases hc : withinDir fs.Getwd destDir (Join [destDir, stripPath name strip]) with
    | false => rfl
    | true =>
      have := withinDir_nested _ _ _ hc
      rw [h] at this
      exact absurd this (by decide)
  constructor
  · intro header data rest hname
    subst hname
    rw [extractTarGz]
    simp only [hw, if_true]
    split <;> rfl
  · intro f rest realDestDir hname
    subst hname
    rw [extractZipLoop]
    simp only [hw, if_true]
    split <;> rfl

/-- The member `../../etc/passwd` of `traversalArchive` is skipped and the member after it
is extracted; a sibling `/tmp/dest-evil` is not nested under `/tmp/dest`. -/
theorem escaping_member_skipped_witness :
    nestedOrEqual hostFS.Getwd "/tmp/dest"
        (Join ["/tmp/dest", stripPath "../../etc/passwd" 0]) = false ∧
      nestedOrEqual hostFS.Getwd "/tmp/dest" "/tmp/dest-evil" = false ∧
      extractTarGz "/tmp/dest" 0 traversalArchive hostFS =
        .ok ⟨[(["tmp", "dest", "bin", "tool"], .file 0o755 "tool"),
          (["tmp", "dest", "bin"], .dir 0o755), (["tmp"], .dir 0o755), (["tmp", "dest"], .dir 0o755),
          (["etc"], .dir 0o755), (["etc", "passwd"], .file 0o644 "root")], []⟩ ∧
      ((∀ header data rest, header.Name = "../../etc/passwd" →
        extractTarGz "/tmp/dest" 0 (.member header data :: rest) hostFS =
          extractTarGz "/tmp/dest" 0 rest hostFS) ∧
      (∀ f rest realDestDir, f.Name = "../../etc/passwd" →
        extractZipLoop "/tmp/dest" realDestDir 0 (f :: rest) hostFS =
          extractZipLoop "/tmp/dest" realDestDir 0 rest hostFS)) :=
  ⟨by decide, by decide, by decide,
    escaping_member_skipped "/tmp/dest" "../../etc/passwd" 0 hostFS (by decide)⟩

/-- C9, violated by the code.  The link text `/etc` of a member `l` designates `/etc`,
which is outside `/tmp/dest`; yet `extractTarGz` creates the link `/tmp/dest/l` to `/etc`,
and so does `extractZip` once the archive has brought a directory `etc/`: both join the
link text to the directory of the link without regard to its being absolute. -/
theorem absolute_symlink_materialized :
    withinDir hostFS.Getwd "/tmp/dest" (linkDesignation (Dir "/tmp/dest/l") "/etc") = false ∧
    (∃ fs1, extractTarGz "/tmp/dest" 0 etcLinkArchive hostFS = .ok fs1 ∧
      fs1.find ["tmp", "dest", "l"] = some (.symlink "/etc")) ∧
    (∃ fs2, extractZip "/tmp/dest" 0 etcLinkZip hostFS = .ok fs2 ∧
      fs2.find ["tmp", "dest", "l"] = some (.symlink "/etc")) := by
  refine ⟨by decide,
    ⟨⟨[(["tmp", "dest", "l"], .symlink "/etc"), (["tmp"], .dir 0o755),
      (["tmp", "dest"], .dir 0o755), (["etc"], .dir 0o755),
      (["etc", "passwd"], .file 0o644 "root")], []⟩, by decide, by decide⟩,
    ⟨⟨[(["tmp", "dest", "l"], .symlink "/etc"), (["tmp", "dest", "etc"], .dir 0o755),
      (["tmp"], .dir 0o755), (["tmp", "dest"], .dir 0o755), (["etc"], .dir 0o755),
      (["etc", "passwd"], .file 0o644 "root")], []⟩, by decide, by decide⟩⟩

end Downloader

namespace Cellar

open Filepath

/-- C10: a name accepted by `IsValidName` and a version accepted by `IsValidVersion` are
not empty, are not `.` or `..` and contain no separator.  So the keg path
`Join(store, name, version)` is the cleaned store path extended by exactly the two
elements `name` and `version`, and it is never the store path itself. -/
theorem keg_path_below_store (store name version : String)
    (hn : Validation.IsValidName name = true)
    (hv : Validation.IsValidVersion version = true) :
    (name ≠ "" ∧ name ≠ "." ∧ name ≠ ".." ∧ '/' ∉ name.data) ∧
    (version ≠ "" ∧ version ≠ "." ∧ version ≠ ".." ∧ '/' ∉ version.data) ∧
    Clean store = ofParts (IsAbs store) (cleanParts store) ∧
    KegPath store name version =
      ofParts (IsAbs store) (cleanParts store ++ [name.data, version.data]) ∧
    KegPath store name version ≠ Clean store := by
  obtain ⟨c, cs, hnd, hc1, hc2, hn4⟩ := Validation.isValidName_shape hn
  obtain ⟨d, ds, hvd, _, hd2, hv4⟩ := Validation.isValidVersion_shape hv
  have hj : KegPath store name version = _ :=
    Join_three store name version c d cs ds hnd hc1 hc2 hn4 hvd hd2 hv4
  have hne : ∀ (s : String) (x : Char) (xs : List Char), s.data = x :: xs → x ≠ '.' →
      s ≠ "" ∧ s ≠ "." ∧ s ≠ ".." := by
    intro s x xs hs hx
    refine ⟨?_, ?_, ?_⟩
    · intro e; rw [e] at hs; simp at hs
    · intro e; rw [e] at hs; simp at hs; exact hx hs.1.symm
    · intro e; rw [e] at hs; simp at hs; exact hx hs.1.symm
  obtain ⟨n1, n2, n3⟩ := hne name c cs hnd hc2
  obtain ⟨v1, v2, v3⟩ := hne version d ds hvd hd2
  refine ⟨⟨n1, n2, n3, hn4⟩, ⟨v1, v2, v3, hv4⟩, rfl, hj, ?_⟩
  rw [hj]
  exact ofParts_append_ne _ _ _ _ (by rw [hnd]; simp)

/-- The keg of `git` 2.44.0 in the store `/opt/grew/Cellar`. -/
theorem keg_path_below_store_witness :
    Validation.IsValidName "git" = true ∧ Validation.IsValidVersion "2.44.0" = true ∧
      KegPath "/opt/grew/Cellar" "git" "2.44.0" = "/opt/grew/Cellar/git/2.44.0" ∧
      ((("git" : String) ≠ "" ∧ ("git" : String) ≠ "." ∧ ("git" : String) ≠ ".." ∧
          '/' ∉ ("git" : String).data) ∧
        (("2.44.0" : String) ≠ "" ∧ ("2.44.0" : String) ≠ "." ∧ ("2.44.0" : String) ≠ ".." ∧
          '/' ∉ ("2.44.0" : String).data) ∧
        Clean "/opt/grew/Cellar" =
          ofParts (IsAbs "/opt/grew/Cellar") (cleanParts "/opt/grew/Cellar") ∧
        KegPath "/opt/grew/Cellar" "git" "2.44.0" =
          ofParts (IsAbs "/opt/grew/Cellar")
            (cleanParts "/opt/grew/Cellar" ++ [("git" : String).data, ("2.44.0" : String).data]) ∧
        KegPath "/opt/grew/Cellar" "git" "2.44.0" ≠ Clean "/opt/grew/Cellar") :=
  ⟨by decide, by decide, by decide,
    keg_path_below_store "/opt/grew/Cellar" "git" "2.44.0" (by decide) (by decide)⟩

end Cellar

/-! ## The claims on names, digests, URLs and modes -/

namespace Cellar

open Os Cmd

/-- C11, as the spec states it, fails: `KegPath` and `LoadByName` build a path from any
string.  For the name `../../etc`, which the grammar rejects, `KegPath` returns
`/etc/passwd`; for the name `../../secret`, `LoadByName` reads and parses the file
`/r/secret.yaml`, which lies outside the directory of the taps. -/
theorem path_from_invalid_name_counterexample :
    Validation.IsValidName "../../etc" = false ∧
    KegPath "/r/Cellar" "../../etc" "passwd" = "/etc/passwd" ∧
    Validation.IsValidName "../../secret" = false ∧
    Formula.Loader.candidates ⟨"/r/Taps"⟩ prefixFS "../../secret" = some ["/r/secret.yaml"] ∧
    Formula.Loader.LoadByName secretUnmarshal ⟨"/r/Taps"⟩ prefixFS "../../secret" =
      some toolFormula := by
  decide

/-- C11, amended: the operations of the store and of the linker that reach the file
system check first.  For a name that the grammar rejects, `Uninstall`, `IsInstalled`,
`InstalledVersion`, `InstalledVersions`, `UnlinkWithOpts` and `IsLinked` return their
error (or `false`) whatever the file system is, and leave it as it was; `Install` and
`LinkWithOpts` do so for a rejected name with any version, and for a rejected version
with any name. -/
theorem invalid_name_rejected_first (name : String) (h : Validation.IsValidName name = false) :
    (∀ path fs, Uninstall path name fs = .error (.invalid, fs)) ∧
    (∀ path fs, IsInstalled path name fs = false) ∧
    (∀ path fs, InstalledVersion path name fs = .error .invalid) ∧
    (∀ path fs, InstalledVersions path name fs = .error .invalid) ∧
    (∀ paths opts fs, Linker.UnlinkWithOpts paths name opts fs = .error (.invalid, fs)) ∧
    (∀ paths fs, Linker.IsLinked paths name fs = false) ∧
    (∀ path version stagingDir fs, Install path name version stagingDir fs = .error (.invalid, fs)) ∧
    (∀ paths version opts fs,
      Linker.LinkWithOpts paths name version opts fs = .error (.invalid, fs)) ∧
    (∀ other version, Validation.IsValidVersion version = false →
      (∀ path stagingDir fs, Install path other version stagingDir fs = .error (.invalid, fs)) ∧
      (∀ paths opts fs,
        Linker.LinkWithOpts paths other version opts fs = .error (.invalid, fs))) := by
  refine ⟨?_, ?_, ?_, ?_, ?_, ?_, ?_, ?_, ?_⟩
  · intro path fs; simp [Uninstall, h]
  · intro path fs; simp [IsInstalled, h]
  · intro path fs; simp [InstalledVersion, h]
  · intro path fs; simp [InstalledVersions, h]
  · intro paths opts fs; simp [Linker.UnlinkWithOpts, h]
  · intro paths fs; simp [Linker.IsLinked, h]
  · intro path version stagingDir fs; simp [Install, h]
  · intro paths version opts fs; simp [Linker.LinkWithOpts, h]
  · intro other version hv
    constructor
    · intro path stagingDir fs; simp [Install, hv]
    · intro paths opts fs; simp [Linker.LinkWithOpts, hv]

/-- Witness of C11: the name `../../etc` is rejected by every checking operation, and the
version `../1.0` as well. -/
theorem invalid_name_rejected_first_witness :
    Validation.IsValidName "../../etc" = false ∧
    Uninstall "/r/Cellar" "../../etc" prefixFS = .error (.invalid, prefixFS) ∧
    IsInstalled "/r/Cellar" "../../etc" prefixFS = false ∧
    Linker.IsLinked prefixPaths "../../etc" prefixFS = false ∧
    Install "/r/Cellar" "tool" "../1.0" "/r/tmp" prefixFS = .error (.invalid, prefixFS) :=
  have h := invalid_name_rejected_first "../../etc" (by decide)
  ⟨by decide, h.1 _ _, h.2.1 _ _, h.2.2.2.2.2.1 _ _,
    (h.2.2.2.2.2.2.2.2 "tool" "../1.0" (by decide)).1 _ _ _⟩

end Cellar

namespace Downloader

open Os Cmd

/-- C12, violated by the code.  The digest of `hello world` written with uppercase digits
is accepted by `ValidateSHA256` and denotes the SHA-256 of the content of `/tmp/hello`,
but `VerifySHA256` reports a mismatch: it compares the string with the lowercase digits
of `hex.EncodeToString`.  The same digest in lowercase digits is accepted. -/
theorem uppercase_digest_rejected :
    Validation.ValidateSHA256 helloDigestUpper = true ∧
    Open helloFS "/tmp/hello" = .ok (some "hello world") ∧
    Hex.DecodeString helloDigestUpper = some (Sha256.Sum256 (Sha256.bytes "hello world")) ∧
    VerifySHA256 helloFS "/tmp/hello" helloDigestUpper = some .mismatch ∧
    VerifySHA256 helloFS "/tmp/hello" helloDigest = none := by
  decide

end Downloader

namespace Cmd

open Os Downloader

/-- C13, as the spec states it, fails: a link lies at the path of the download,
`/r/tmp/tool-1.0`, and leads to `/r/tmp/kept`.  The network delivers `payload` for a
formula that declares the digest of `hello world`: `os.Create` writes the content through
the link, `VerifySHA256` reports the mismatch and `installFormula` fails, but `os.Remove`
removes only the link: the downloaded content is still there, in `/r/tmp/kept`. -/
theorem digest_mismatch_keeps_content_counterexample :
    plantedFS.find ["r", "tmp", "kept"] = none ∧
    failure (installFormula toolEnv toolFormula prefixPaths ⟨plantedFS, []⟩) =
      some (.verify .mismatch) ∧
    (finalFS (installFormula toolEnv toolFormula prefixPaths ⟨plantedFS, []⟩)).find
      ["r", "tmp", "tool-1.0"] = none ∧
    (finalFS (installFormula toolEnv toolFormula prefixPaths ⟨plantedFS, []⟩)).find
      ["r", "tmp", "kept"] = some (.file 0o666 "payload") := by
  decide

/-- C13, amended: when the download succeeded, the path of the download can be read and
the declared digest differs from the SHA-256 of what is read there (the digits that
`hex.EncodeToString` gives for it), `VerifySHA256` returns the mismatch error, and
`installFormula` fails with it in the state that `os.Remove` of the path of the download
leaves from the state after the download: `Extract` was not called.  If the path of the
download is a regular file, the file is removed and nothing else has changed since the
download.  If it is a link (the download wrote through it), only the link is removed: the
file to which it leads still holds the downloaded content. -/
theorem digest_mismatch_stops_install (env : Env) (f : Formula) (paths : Config.Paths)
    (w w1 : World) (dlURL sha localFile content : String)
    (hurl : f.GetURL env.platform = .ok dlURL) (hsha : f.GetSHA256 env.platform = .ok sha)
    (hdl : Download env.get paths.Tmp dlURL (f.Name ++ "-" ++ f.Version ++ urlExt env dlURL) w =
      .ok (localFile, w1))
    (hopen : Open w1.fs localFile = .ok (some content))
    (hne : sha ≠ Hex.EncodeToString (Sha256.Sum256 (Sha256.bytes content))) :
    VerifySHA256 w1.fs localFile sha = some .mismatch ∧
    installFormula env f paths w =
      .error (.verify .mismatch, { w1 with fs := removeIgnoringError w1.fs localFile }) ∧
    (∀ perm c, Lstat w1.fs localFile = .ok (.file perm c) →
      ∃ loc, resolve w1.fs localFile false = .ok loc ∧
        removeIgnoringError w1.fs localFile = w1.fs.erase loc ∧
        (w1.fs.erase loc).find loc = none ∧
        ∀ l, l ≠ loc → (w1.fs.erase loc).find l = w1.fs.find l) ∧
    (∀ t, Lstat w1.fs localFile = .ok (.symlink t) →
      ∃ loc target perm, resolve w1.fs localFile false = .ok loc ∧
        resolve w1.fs localFile true = .ok target ∧
        removeIgnoringError w1.fs localFile = w1.fs.erase loc ∧
        (w1.fs.erase loc).find loc = none ∧
        (w1.fs.erase loc).find target = some (.file perm content) ∧
        ∀ l, l ≠ loc → (w1.fs.erase loc).find l = w1.fs.find l) := by
  have hv : VerifySHA256 w1.fs localFile sha = some .mismatch := by
    unfold VerifySHA256
    rw [hopen]
    simp only
    rw [if_pos (fun e => hne e.symm)]
  refine ⟨hv, ?_, ?_, ?_⟩
  · unfold installFormula
    rw [hurl]
    simp only
    rw [hsha]
    simp only
    rw [hdl]
    simp only
    rw [hv]
  · intro perm c hfile
    unfold Lstat at hfile
    cases hr : resolve w1.fs localFile false with
    | error e => rw [hr] at hfile; cases hfile
    | ok loc =>
      rw [hr] at hfile
      simp only at hfile
      cases hf : w1.fs.find loc with
      | none => rw [hf] at hfile; cases hfile
      | some n =>
        rw [hf] at hfile
        have hn : n = .file perm c := by injection hfile
        subst hn
        have hrm : removeIgnoringError w1.fs localFile = w1.fs.erase loc := by
          unfold removeIgnoringError Remove
          rw [hr]
          simp only [hf]
        exact ⟨loc, rfl, hrm, FS.find_erase_self _ _ (ne_nil_of_find_file _ _ _ _ hf),
          fun l hl => FS.find_erase_ne _ _ _ hl⟩
  · intro t hlink
    unfold Lstat at hlink
    cases hr : resolve w1.fs localFile false with
    | error e => rw [hr] at hlink; cases hlink
    | ok loc =>
      rw [hr] at hlink
      simp only at hlink
      cases hf : w1.fs.find loc with
      | none => rw [hf] at hlink; cases hlink
      | some n =>
        rw [hf] at hlink
        have hn : n = .symlink t := by injection hlink
        subst hn
        have hrm : removeIgnoringError w1.fs localFile = w1.fs.erase loc := by
          unfold removeIgnoringError Remove
          rw [hr]
          simp only [hf]
        have hloc : loc ≠ [] := by
          intro e
          rw [e, FS.find_nil] at hf
          cases hf
        unfold Open at hopen
        cases hr2 : resolve w1.fs localFile true with
        | error e => rw [hr2] at hopen; cases hopen
        | ok target =>
          rw [hr2] at hopen
          simp only at hopen
          cases hf2 : w1.fs.find target with
          | none => rw [hf2] at hopen; cases hopen
          | some n2 =>
            rw [hf2] at hopen
            cases n2 with
            | dir p => cases hopen
            | symlink t2 => cases hopen
            | file p data =>
              have hd : data = content := by
                injection hopen with h1
                injection h1
              subst hd
              have hne2 : target ≠ loc := by
                intro e
                rw [e, hf] at hf2
                cases hf2
              exact ⟨loc, target, p, rfl, rfl, hrm, FS.find_erase_self _ _ hloc,
                by rw [FS.find_erase_ne _ _ _ hne2, hf2],
                fun l hl => FS.find_erase_ne _ _ _ hl⟩

/-- Witness of C13: the network delivers `payload` for a formula that declares the digest
of `hello world`.  In the prefix `/r` the installation fails and the downloaded file
`/r/tmp/tool-1.0` is removed again; with a link at `/r/tmp/tool-1.0` the installation
fails and the link is removed. -/
theorem digest_mismatch_stops_install_witness :
    (VerifySHA256 downloadedFS "/r/tmp/tool-1.0" helloDigest = some .mismatch ∧
      installFormula toolEnv toolFormula prefixPaths ⟨prefixFS, []⟩ =
        .error (.verify .mismatch,
          { (⟨downloadedFS, ["https://example.org/tool"]⟩ : World) with
            fs := removeIgnoringError downloadedFS "/r/tmp/tool-1.0" })) ∧
    (VerifySHA256 plantedDownloadedFS "/r/tmp/tool-1.0" helloDigest = some .mismatch ∧
      installFormula toolEnv toolFormula prefixPaths ⟨plantedFS, []⟩ =
        .error (.verify .mismatch,
          { (⟨plantedDownloadedFS, ["https://example.org/tool"]⟩ : World) with
            fs := removeIgnoringError plantedDownloadedFS "/r/tmp/tool-1.0" })) ∧
    removeIgnoringError downloadedFS "/r/tmp/tool-1.0" = prefixFS ∧
    Lstat plantedDownloadedFS "/r/tmp/tool-1.0" = .ok (.symlink "/r/tmp/kept") ∧
    (∃ loc target perm, resolve plantedDownloadedFS "/r/tmp/tool-1.0" false = .ok loc ∧
      resolve plantedDownloadedFS "/r/tmp/tool-1.0" true = .ok target ∧
      removeIgnoringError plantedDownloadedFS "/r/tmp/tool-1.0" = plantedDownloadedFS.erase loc ∧
      (plantedDownloadedFS.erase loc).find loc = none ∧
      (plantedDownloadedFS.erase loc).find target = some (.file perm "payload") ∧
      ∀ l, l ≠ loc → (plantedDownloadedFS.erase loc).find l = plantedDownloadedFS.find l) := by
  have h1 := digest_mismatch_stops_install toolEnv toolFormula prefixPaths ⟨prefixFS, []⟩
    ⟨downloadedFS, ["https://example.org/tool"]⟩ "https://example.org/tool" helloDigest
    "/r/tmp/tool-1.0" "payload" (by decide) (by decide) (by decide) (by decide) (by decide)
  have h2 := digest_mismatch_stops_install toolEnv toolFormula prefixPaths ⟨plantedFS, []⟩
    ⟨plantedDownloadedFS, ["https://example.org/tool"]⟩ "https://example.org/tool" helloDigest
    "/r/tmp/tool-1.0" "payload" (by decide) (by decide) (by decide) (by decide) (by decide)
  exact ⟨⟨h1.1, h1.2.1⟩, ⟨h2.1, h2.2.1⟩, by decide, by decide,
    h2.2.2.2 "/r/tmp/kept" (by decide)⟩

/-- C14: a download URL is used only if it begins with `https://`.  `Validate` rejects a
formula in which the URL of some platform does not begin with it; `GetURL` returns an
error when the URL of the current platform does not; and every request that
`installFormula` makes, whether it succeeds or fails, is for the URL that `GetURL`
returned, which begins with `https://`. -/
theorem plaintext_url_never_requested (env : Env) (f : Formula) (paths : Config.Paths)
    (w : World) :
    (∀ pu, pu ∈ f.URL → Filepath.HasPrefix pu.2 "https://" = false → f.Validate ≠ none) ∧
    (∀ u, f.URL.lookup env.platform = some u → Filepath.HasPrefix u "https://" = false →
      f.GetURL env.platform = .error .insecureURL) ∧
    (∀ w2, (installFormula env f paths w = .ok w2 ∨
        ∃ e, installFormula env f paths w = .error (e, w2)) →
      ∀ url, url ∈ w2.requests → url ∈ w.requests ∨
        (f.GetURL env.platform = .ok url ∧ Filepath.HasPrefix url "https://" = true)) := by
  refine ⟨?_, ?_, ?_⟩
  · intro pu hpu hins
    have hany : f.URL.any (fun pu => Filepath.HasPrefix pu.2 "https://" = false) = true := by
      rw [List.any_eq_true]
      exact ⟨pu, hpu, by simpa using hins⟩
    have hlen : f.URL.length ≠ 0 := by
      intro e
      rw [List.length_eq_zero.mp e] at hpu
      cases hpu
    by_cases h1 : f.Name = ""
    · simp [Formula.Validate, h1]
    by_cases h2 : Validation.IsValidName f.Name = false
    · simp [Formula.Validate, h1, h2]
    by_cases h3 : f.Version = ""
    · simp [Formula.Validate, h1, h2, h3]
    by_cases h4 : Validation.IsValidVersion f.Version = false
    · simp [Formula.Validate, h1, h2, h3, h4]
    unfold Formula.Validate
    rw [if_neg h1, if_neg h2, if_neg h3, if_neg h4, if_neg hlen, if_pos hany]
    simp
  · intro u hu hins
    unfold Formula.GetURL
    rw [hu]
    simp only
    rw [if_pos hins]
  · intro w2 h url hurl
    rcases installFormula_requests env f paths w w2 h with hr | ⟨u, hu, hr⟩
    · left; rw [hr] at hurl; exact hurl
    · rw [hr, List.mem_append] at hurl
      rcases hurl with hurl | hurl
      · left; exact hurl
      · right
        rw [List.mem_singleton] at hurl
        subst hurl
        exact ⟨hu, Formula.GetURL_secure f _ _ hu⟩

/-- Witness of C14: a formula with a plaintext URL for one platform is rejected by
`Validate`, `GetURL` refuses that URL on its platform, and the installation on another
platform requests the `https://` URL only. -/
theorem plaintext_url_never_requested_witness :
    plainFormula.Validate ≠ none ∧
    plainFormula.GetURL "darwin_arm64" = .error .insecureURL ∧
    (∀ w2, (installFormula toolEnv plainFormula prefixPaths ⟨prefixFS, []⟩ = .ok w2 ∨
        ∃ e, installFormula toolEnv plainFormula prefixPaths ⟨prefixFS, []⟩ = .error (e, w2)) →
      ∀ url, url ∈ w2.requests → url ∈ ([] : List String) ∨
        (plainFormula.GetURL toolEnv.platform = .ok url ∧
          Filepath.HasPrefix url "https://" = true)) :=
  ⟨(plaintext_url_never_requested toolEnv plainFormula prefixPaths ⟨prefixFS, []⟩).1
      ("darwin_arm64", "http://example.org/tool") (by decide) (by decide),
    (plaintext_url_never_requested { toolEnv with platform := "darwin_arm64" } plainFormula
      prefixPaths ⟨prefixFS, []⟩).2.1 "http://example.org/tool" (by decide) (by decide),
    (plaintext_url_never_requested toolEnv plainFormula prefixPaths ⟨prefixFS, []⟩).2.2⟩

/-- C16, violated by the code.  The formula `escapingFormula` passes `Validate`; its
`BinaryName` is `../../evil`.  `Extract` of the artifact `/r/tmp/tool-1.0` into
`/r/tmp/tool-1.0-stage` writes the content to `/r/tmp/evil`, outside the destination, and
nothing into `bin`: `Validate` does not look at `BinaryName`, and `installBinary` joins it
to the path of `bin` without a check. -/
theorem binary_name_escapes_destination :
    escapingFormula.Validate = none ∧
    ∃ fs1, Extract noCodec "/r/tmp/tool-1.0" "/r/tmp/tool-1.0-stage" escapingFormula.Install
        downloadedFS = .ok fs1 ∧
      downloadedFS.find ["r", "tmp", "evil"] = none ∧
      fs1.find ["r", "tmp", "evil"] = some (.file 0o755 "payload") ∧
      fs1.children ["r", "tmp", "tool-1.0-stage", "bin"] = [] ∧
      ¬ ConfinedTo ["r", "tmp", "tool-1.0-stage"] downloadedFS fs1 := by
  refine ⟨by decide, (downloadedFS.put ["r", "tmp", "tool-1.0-stage"] (.dir 0o755)).put
    ["r", "tmp", "tool-1.0-stage", "bin"] (.dir 0o755) |>.put ["r", "tmp", "evil"]
      (.file 0o755 "payload"), by decide, by decide, by decide, by decide, ?_⟩
  intro h
  have := h ["r", "tmp", "evil"] (by decide)
  revert this
  decide

end Cmd
namespace Fsutil

open Os

/-- C15: for every mode `m` and both values of `isDir`, the mode that `SanitizeMode`
returns has the setuid, setgid and sticky bits and the world-write bit `0002` cleared;
this covers the defaults `0644` and `0755` and the result with `0700` added for a
directory. -/
theorem sanitize_mode_clears_bits (m : Nat) (isDir : Bool) :
    SanitizeMode m isDir &&& ModeSetuid = 0 ∧ SanitizeMode m isDir &&& ModeSetgid = 0 ∧
      SanitizeMode m isDir &&& ModeSticky = 0 ∧ SanitizeMode m isDir &&& 0o002 = 0 := by
  have key : ∀ k, k = 23 ∨ k = 22 ∨ k = 20 ∨ k = 1 →
      (SanitizeMode m isDir).testBit k = false := by
    intro k hk
    have h2 : (clearBits (clearBits m (ModeSetuid ||| ModeSetgid ||| ModeSticky)) 0o002).testBit k
        = false := by
      rcases hk with rfl | rfl | rfl | rfl
      · exact clearBits_testBit_of_false _ _ _ (clearBits_testBit _ _ _ (by decide) (by decide))
      · exact clearBits_testBit_of_false _ _ _ (clearBits_testBit _ _ _ (by decide) (by decide))
      · exact clearBits_testBit_of_false _ _ _ (clearBits_testBit _ _ _ (by decide) (by decide))
      · exact clearBits_testBit _ _ _ (by decide) (by decide)
    unfold SanitizeMode
    simp only
    split
    · split
      · rcases hk with rfl | rfl | rfl | rfl <;> decide
      · rw [Nat.testBit_or, h2]
        rcases hk with rfl | rfl | rfl | rfl <;> decide
    · split
      · rcases hk with rfl | rfl | rfl | rfl <;> decide
      · exact h2
  exact ⟨and_two_pow_eq_zero (key 23 (by simp)), and_two_pow_eq_zero (key 22 (by simp)),
    and_two_pow_eq_zero (key 20 (by simp)), and_two_pow_eq_zero (k := 1) (key 1 (by simp))⟩

end Fsutil

/-! ## The claims on the linker -/

namespace Linker

open Os Filepath

/-- C18: in a prefix at an absolute location, whose `opt`, `bin`, `lib` and `include` are
directories, for a keg that is a directory whose `bin`, `lib` and `include` are
directories or absent: if `Link(name, version, kegOnly)` succeeds, a second call with the
same arguments succeeds as well and returns the file system that the first call left, so
the links in `opt`, `bin`, `lib` and `include`, their names and their targets, are the
same after the second call as after the first. -/
theorem link_twice_same (paths : Config.Paths) (R : List String) (name version : String)
    (kegOnly : Bool) (fs fs1 : FS) (hs : Standard paths R) (hnames : fs.ProperNames)
    (hO : fs.PlainDir (R ++ ["opt"])) (hB : ∀ sub ∈ subdirs, fs.PlainDir (R ++ [sub]))
    (hK : fs.PlainDir (R ++ ["Cellar", name, version]))
    (hkeg : ∀ sub ∈ subdirs, fs.find (R ++ ["Cellar", name, version] ++ [sub]) = none ∨
      fs.isDirAt (R ++ ["Cellar", name, version] ++ [sub]) = true)
    (h : Link paths name version kegOnly fs = .ok fs1) :
    Link paths name version kegOnly fs1 = .ok fs1 := by
  unfold Link at h ⊢
  have hdry : ({ KegOnly := kegOnly } : LinkOpts).DryRun = false := rfl
  have hn : Validation.IsValidName name = true := by
    by_contra hc
    simp [LinkWithOpts, hc] at h
  have hv : Validation.IsValidVersion version = true := by
    by_contra hc
    simp [LinkWithOpts, hc] at h
  have hl : ∀ sub ∈ subdirs, ∀ t,
      fs.find (R ++ ["Cellar", name, version] ++ [sub]) ≠ some (.symlink t) := by
    intro sub hsub t ht
    rcases hkeg sub hsub with hk | hk
    · rw [hk] at ht; cases ht
    · obtain ⟨perm, hp⟩ := (isDirAt_iff _ _).mp hk
      rw [hp] at ht; cases ht
  have hpe : ∀ sub ∈ subdirs, ∀ e ∈ entriesAt fs (R ++ ["Cellar", name, version] ++ [sub]),
      Proper e := fun sub _ => entriesAt_proper fs _ hnames
  have hshape := link_shape paths R name version _ fs fs1 hs hn hv hK hO hB hl hpe hdry h
  obtain ⟨a1, a2, a3, a4, _⟩ := after_puts fs R [name, version] ("opt" :: subdirs)
    (linkPlan fs R name version { KegOnly := kegOnly }) (by decide) (fun p hp => key_linkPlan hp)
  rw [← hshape] at a1 a2 a3 a4
  have hplan : linkPlan fs1 R name version { KegOnly := kegOnly } =
      linkPlan fs R name version { KegOnly := kegOnly } := by
    unfold linkPlan
    rw [sharedLinks_congr fs1 fs R _ subdirs (fun x _ => a4 x)]
  have hthere : ∀ p ∈ linkPlan fs1 R name version { KegOnly := kegOnly },
      fs1.find p.1 = some p.2 := by
    intro p hp
    rw [hplan] at hp
    rw [hshape]
    obtain ⟨s, e, _, hk⟩ := key_linkPlan hp
    exact FS.find_putAll_of_mem fs _ p.1 p.2 (by rw [hk]; simp) hp (linkPlan_keys_nodup _ _ _ _ _)
  rw [link_again paths R name version _ fs1 hs hn hv (a1 hK) (a2 "opt" hO)
    (fun x hx => a2 x (hB x hx))
    (fun x hx => by
      rw [a3 x]
      unfold FS.isDirAt
      rw [a3 x]
      exact hkeg x hx)
    (fun x hx e he => hpe x hx e (by rw [← a4 x]; exact he)) hdry hthere, hplan]
  congr 1
  rw [hshape]
  exact FS.putAll_idem fs _ (linkPlan_keys_nodup _ _ _ _ _)

/-- Witness of C18: the keg of `foo` 1.0 in the prefix `/r` is linked, and linking it
again returns the same file system. -/
theorem link_twice_same_witness :
    Link kegPaths "foo" "1.0" false kegFS = .ok linkedFS ∧
    Link kegPaths "foo" "1.0" false linkedFS = .ok linkedFS :=
  ⟨by decide, link_twice_same kegPaths ["r"] "foo" "1.0" false kegFS linkedFS
    ⟨by decide, by decide, by decide, by decide, by decide, by decide⟩ (by decide) (by decide)
    (by decide) (by decide) (by decide) (by decide)⟩

/-- C20, as the spec states it, fails: with `DryRun` set beside `KegOnly`, `LinkWithOpts`
succeeds on the keg of `foo` 1.0 and leaves the file system as it was, so `opt/foo` is not
created. -/
theorem keg_only_dry_run_counterexample :
    LinkWithOpts kegPaths "foo" "1.0" { KegOnly := true, DryRun := true } kegFS = .ok kegFS ∧
    kegFS.find ["r", "opt", "foo"] = none ∧
    IsLinked kegPaths "foo" kegFS = false := by
  decide

/-- C20, amended: with `KegOnly` set and `Force` and `DryRun` not set, on a keg that is a
directory of the store, in a prefix whose `opt` is a directory in which `name` is absent,
a link, a file or an empty directory, `LinkWithOpts` succeeds; afterwards `opt/name` is a
link to the keg and everything else, the shared directories `bin`, `lib` and `include`
with it, is as it was. -/
theorem keg_only_links_opt_only (paths : Config.Paths) (R : List String) (name version : String)
    (opts : LinkOpts) (fs : FS) (hs : Standard paths R)
    (hn : Validation.IsValidName name = true) (hv : Validation.IsValidVersion version = true)
    (hK : fs.PlainDir (R ++ ["Cellar", name, version])) (hO : fs.PlainDir (R ++ ["opt"]))
    (hr : fs.Removable (R ++ ["opt"] ++ [name]))
    (hko : opts.KegOnly = true) (hf : opts.Force = false) (hdry : opts.DryRun = false) :
    ∃ fs1, LinkWithOpts paths name version opts fs = .ok fs1 ∧
      fs1.find (R ++ ["opt"] ++ [name]) =
        some (.symlink (Join [paths.Cellar, name, version])) ∧
      (∀ loc, loc ≠ R ++ ["opt"] ++ [name] → fs1.find loc = fs.find loc) ∧
      (∀ sub ∈ subdirs, fs1.children (R ++ [sub]) = fs.children (R ++ [sub])) := by
  have hpn := proper_of_validName hn
  have hpv := proper_of_validVersion hv
  have hopt := relink_ok fs (R ++ ["opt"]) name (FS.pathOf (R ++ ["Cellar", name, version])) hO
    (proper_append hs.proper (by decide)) hpn hr
  refine ⟨fs.put (R ++ ["opt"] ++ [name])
    (.symlink (FS.pathOf (R ++ ["Cellar", name, version]))), ?_, ?_, ?_, ?_⟩
  · rw [link_of_opt_ok paths R name version opts fs _ hs hn hv hK hdry hopt, if_pos ⟨hko, hf⟩]
  · rw [FS.find_put_self _ _ _ (by simp), kegPath_eq paths R name version hs hpn hpv]
  · intro loc hloc
    exact FS.find_put_ne _ _ _ _ hloc
  · intro sub hsub
    apply children_congr
    intro n
    rw [FS.find_put_ne]
    intro h
    rw [List.append_assoc, List.append_assoc] at h
    have h2 := List.append_cancel_left h
    simp only [List.singleton_append, List.cons.injEq] at h2
    have h3 : sub ∈ subdirs := hsub
    rw [h2.1] at h3
    revert h3
    decide

/-- Witness of C20: keg-only linking of `foo` 1.0 in the prefix `/r` creates `opt/foo`
and nothing else. -/
theorem keg_only_links_opt_only_witness :
    ∃ fs1, LinkWithOpts kegPaths "foo" "1.0" { KegOnly := true } kegFS = .ok fs1 ∧
      fs1.find (["r"] ++ ["opt"] ++ ["foo"]) =
        some (.symlink (Join [kegPaths.Cellar, "foo", "1.0"])) ∧
      (∀ loc, loc ≠ ["r"] ++ ["opt"] ++ ["foo"] → fs1.find loc = kegFS.find loc) ∧
      (∀ sub ∈ subdirs, fs1.children (["r"] ++ [sub]) = kegFS.children (["r"] ++ [sub])) :=
  keg_only_links_opt_only kegPaths ["r"] "foo" "1.0" { KegOnly := true } kegFS
    ⟨by decide, by decide, by decide, by decide, by decide, by decide⟩ (by decide) (by decide)
    (by decide) (by decide) (by decide) rfl rfl rfl

end Linker

namespace Linker

open Os Filepath

/-- C19, as the spec states it, fails.  (1) In the prefix `/r` with a directory that is
not empty at `opt/foo`, `UnlinkWithOpts "foo"` without `DryRun` returns no error and
leaves the file system as it was: `opt/foo` is not removed, the error of `os.Remove` (line
101) is dropped.  (2) In the prefix in which `foo` 1.0 is linked, the link `bin/x` with the
text `/r/opt/foo/bin/foo` leads into the store of `foo` when the links are followed
(`EvalSymlinks` gives `/r/Cellar/foo/1.0/bin/foo`), but `UnlinkWithOpts "foo"` leaves it:
`resolveLink` makes the text absolute and cleans it without following links, and that
path does not begin with the path of `Cellar/foo`. -/
theorem unlink_leaves_entries_counterexample :
    UnlinkWithOpts kegPaths "foo" { DryRun := false } optDirFS = .ok optDirFS ∧
    optDirFS.find ["r", "opt", "foo"] = some (.dir 0o755) ∧
    EvalSymlinks viaOptFS "/r/bin/x" = .ok "/r/Cellar/foo/1.0/bin/foo" ∧
    (UnlinkWithOpts kegPaths "foo" { DryRun := false } viaOptFS).toOption.map
      (fun fs => (fs.find ["r", "bin", "x"], fs.find ["r", "bin", "foo"],
        fs.find ["r", "opt", "foo"])) =
      some (some (.symlink "/r/opt/foo/bin/foo"), none, none) := by
  decide

/-- C19, amended: in a prefix at an absolute location whose `opt`, `bin`, `lib` and
`include` are directories, `UnlinkWithOpts(name)` without `DryRun` succeeds, and
afterwards: nothing lies at `opt/name` when what lay there was a link, a file or an empty
directory, and a directory there that is not empty is as it was; every link directly
inside `bin`, `lib` or `include` whose text, made absolute and cleaned as `resolveLink`
does (without following links), begins with the path of `Cellar/name` and a separator is
gone; every other object of the file system is as it was.  In particular a link to a
location in the store of a package with another name (also one that begins with `name`,
such as `name-extra`) stays, and so does a file. -/
theorem unlink_removes_own_links (paths : Config.Paths) (R : List String) (name : String)
    (fs : FS) (hs : Standard paths R) (hn : Validation.IsValidName name = true)
    (hnames : fs.ProperNames) (hO : fs.PlainDir (R ++ ["opt"]))
    (hB : ∀ sub ∈ subdirs, fs.PlainDir (R ++ [sub])) :
    ∃ fs1, UnlinkWithOpts paths name { DryRun := false } fs = .ok fs1 ∧
      (fs.Removable (R ++ ["opt"] ++ [name]) → fs1.find (R ++ ["opt"] ++ [name]) = none) ∧
      (¬ fs.Removable (R ++ ["opt"] ++ [name]) →
        fs1.find (R ++ ["opt"] ++ [name]) = fs.find (R ++ ["opt"] ++ [name])) ∧
      (∀ sub ∈ subdirs, ∀ e t, fs.find (R ++ [sub] ++ [e]) = some (.symlink t) →
        HasPrefix (resolveLink (FS.pathOf (R ++ [sub])) t) (Join [paths.Cellar, name] ++ "/") =
          true →
        fs1.find (R ++ [sub] ++ [e]) = none) ∧
      (∀ loc, loc ≠ R ++ ["opt"] ++ [name] →
        (∀ sub ∈ subdirs, ∀ e t, loc = R ++ [sub] ++ [e] → fs.find loc = some (.symlink t) →
          HasPrefix (resolveLink (FS.pathOf (R ++ [sub])) t) (Join [paths.Cellar, name] ++ "/") =
            false) →
        fs1.find loc = fs.find loc) ∧
      (∀ sub ∈ subdirs, ∀ e other rest, Proper other → other ≠ name → (∀ n ∈ rest, Proper n) →
        fs.find (R ++ [sub] ++ [e]) =
          some (.symlink (FS.pathOf (R ++ ["Cellar"] ++ other :: rest))) →
        fs1.find (R ++ [sub] ++ [e]) =
          some (.symlink (FS.pathOf (R ++ ["Cellar"] ++ other :: rest)))) ∧
      (∀ sub ∈ subdirs, ∀ e perm data, fs.find (R ++ [sub] ++ [e]) = some (.file perm data) →
        fs1.find (R ++ [sub] ++ [e]) = some (.file perm data)) := by
  have hpn := proper_of_validName hn
  have hpO : ∀ n ∈ R ++ ["opt"], Proper n := proper_append hs.proper (by decide)
  obtain ⟨hcase, hgone⟩ := removeIgnoringError_child fs (R ++ ["opt"]) name hO hpO hpn
  have hnotopt : ∀ sub ∈ subdirs, ∀ e, R ++ [sub] ++ [e] ≠ R ++ ["opt"] ++ [name] := by
    intro sub hsub e he
    rw [List.append_assoc, List.append_assoc] at he
    have := List.append_cancel_left he
    simp only [List.singleton_append, List.cons.injEq] at this
    rw [this.1] at hsub
    revert hsub
    decide
  have hA : ∀ loc, loc ≠ R ++ ["opt"] ++ [name] →
      (removeIgnoringError fs (FS.pathOf (R ++ ["opt"] ++ [name]))).find loc = fs.find loc := by
    intro loc hloc
    rcases hcase with h | h
    · rw [h, FS.find_erase_ne _ _ _ hloc]
    · rw [h]
  have hmem : ∀ loc, loc ∈ subdirs.flatMap (fun sub =>
      unlinked fs (R ++ [sub]) (Join [paths.Cellar, name] ++ "/")) ↔
      ∃ sub ∈ subdirs, ∃ e t, loc = R ++ [sub] ++ [e] ∧ fs.find loc = some (.symlink t) ∧
        HasPrefix (resolveLink (FS.pathOf (R ++ [sub])) t) (Join [paths.Cellar, name] ++ "/") =
          true := by
    intro loc
    rw [List.mem_flatMap]
    constructor
    · rintro ⟨sub, hsub, hl⟩
      obtain ⟨e, rfl, hp⟩ := key_unlinked hl
      obtain ⟨t, h1, h2⟩ := (pointsInto_iff _ _ _ _).mp hp
      exact ⟨sub, hsub, e, t, rfl, h1, h2⟩
    · rintro ⟨sub, hsub, e, t, rfl, h1, h2⟩
      exact ⟨sub, hsub, mem_unlinked ((pointsInto_iff _ _ _ _).mpr ⟨t, h1, h2⟩)⟩
  have hframe : ∀ loc, loc ≠ R ++ ["opt"] ++ [name] →
      (∀ sub ∈ subdirs, ∀ e t, loc = R ++ [sub] ++ [e] → fs.find loc = some (.symlink t) →
        HasPrefix (resolveLink (FS.pathOf (R ++ [sub])) t) (Join [paths.Cellar, name] ++ "/") =
          false) →
      ((removeIgnoringError fs (FS.pathOf (R ++ ["opt"] ++ [name]))).eraseAll
        (subdirs.flatMap (fun sub =>
          unlinked fs (R ++ [sub]) (Join [paths.Cellar, name] ++ "/")))).find loc =
        fs.find loc := by
    intro loc hloc hno
    rw [FS.find_eraseAll_of_not_mem, hA loc hloc]
    rw [hmem]
    rintro ⟨sub, hsub, e, t, h0, h1, h2⟩
    rw [hno sub hsub e t h0 h1] at h2
    cases h2
  refine ⟨_, unlink_eq paths R name _ fs hs hn hnames hO hB rfl, ?_, ?_, ?_, hframe, ?_, ?_⟩
  · intro hr
    rw [FS.find_eraseAll_of_not_mem]
    · exact hgone hr
    · rw [hmem]
      rintro ⟨sub, hsub, e, t, h0, _, _⟩
      exact hnotopt sub hsub e h0.symm
  · intro hr
    rw [FS.find_eraseAll_of_not_mem,
      removeIgnoringError_child_stays fs (R ++ ["opt"]) name hO hpO hpn hr]
    rw [hmem]
    rintro ⟨sub, hsub, e, t, h0, _, _⟩
    exact hnotopt sub hsub e h0.symm
  · intro sub hsub e t h1 h2
    apply FS.find_eraseAll_of_mem _ _ _ (by simp)
    rw [hmem]
    exact ⟨sub, hsub, e, t, rfl, h1, h2⟩
  · intro sub hsub e other rest hpo hne hpr hfind
    rw [hframe _ (hnotopt sub hsub e), hfind]
    intro sub2 hsub2 e2 t h0 h1
    rw [hfind] at h1
    injection h1 with h1
    injection h1 with h1
    have hall : ∀ n ∈ R ++ ["Cellar"] ++ other :: rest, Proper n := by
      intro n hn
      rw [List.mem_append, List.mem_cons] at hn
      rcases hn with h | h | h
      · exact proper_append hs.proper (by decide) n h
      · rw [h]; exact hpo
      · exact hpr n h
    rw [← h1, resolveLink_pathOf _ _ hall, hs.cellar,
      Join_pathOf _ name (proper_append hs.proper (by decide)) hpn]
    by_contra hc
    have hc2 : HasPrefix (FS.pathOf (R ++ ["Cellar"] ++ other :: rest))
        (FS.pathOf (R ++ ["Cellar"] ++ [name]) ++ "/") = true := by
      simpa using hc
    exact hne (eq_of_hasPrefix_pathOf _ _ _ _ hpo.2.1 hpn.2.1 hc2)
  · intro sub hsub e perm data hfind
    rw [hframe _ (hnotopt sub hsub e), hfind]
    intro sub2 hsub2 e2 t h0 h1
    rw [hfind] at h1
    cases h1

/-- Witness of C19: in the prefix `/r` with a directory that is not empty at `opt/foo`,
unlinking `foo` leaves the directory; in the prefix with the links of `foo` and, beside
them, links of `foo-extra`, a file and a link that leads elsewhere, unlinking `foo`
removes `opt/foo` and the links of `foo` and leaves the rest. -/
theorem unlink_removes_own_links_witness :
    (∃ fs1, UnlinkWithOpts kegPaths "foo" { DryRun := false } optDirFS = .ok fs1 ∧
      fs1.find ["r", "opt", "foo"] = some (.dir 0o755)) ∧
    ∃ fs1, UnlinkWithOpts kegPaths "foo" { DryRun := false } sharedFS = .ok fs1 ∧
      fs1.find ["r", "opt", "foo"] = none ∧
      fs1.find ["r", "bin", "foo"] = none ∧
      fs1.find ["r", "bin", "extra"] = some (.symlink "/r/Cellar/foo-extra/2.0/bin/extra") ∧
      fs1.find ["r", "bin", "script"] = some (.file 0o755 "s") ∧
      fs1.find ["r", "lib", "out"] = some (.symlink "/usr/lib/out") := by
  constructor
  · obtain ⟨fs1, h1, _, h2, _⟩ := unlink_removes_own_links kegPaths ["r"] "foo" optDirFS
      ⟨by decide, by decide, by decide, by decide, by decide, by decide⟩ (by decide) (by decide)
      (by decide) (by decide)
    exact ⟨fs1, h1, (h2 (by decide)).trans (by decide)⟩
  obtain ⟨fs1, h1, h2, _, h3, h4, h5, h6⟩ := unlink_removes_own_links kegPaths ["r"] "foo" sharedFS
    ⟨by decide, by decide, by decide, by decide, by decide, by decide⟩ (by decide) (by decide)
    (by decide) (by decide)
  refine ⟨fs1, h1, h2 (by decide), ?_, ?_, ?_, ?_⟩
  · exact h3 "bin" (by decide) "foo" "/r/Cellar/foo/1.0/bin/foo" (by decide) (by decide)
  · exact h5 "bin" (by decide) "extra" "foo-extra" ["2.0", "bin", "extra"] (by decide)
      (by decide) (by decide) (by decide)
  · exact h6 "bin" (by decide) "script" 0o755 "s" (by decide)
  · have := h4 ["r", "lib", "out"] (by decide) (by
      intro sub hsub e t h0 h1
      have hsub2 : sub = "lib" := by
        have := congrArg (fun l => l.get? 1) h0
        simpa using this.symm
      subst hsub2
      have ht : t = "/usr/lib/out" := by
        have : sharedFS.find ["r", "lib", "out"] = some (.symlink "/usr/lib/out") := by decide
        rw [this] at h1
        injection h1 with h1
        injection h1 with h1
        exact h1.symm
      subst ht
      decide)
    rw [this]
    decide

end Linker

namespace Linker

open Os Filepath

/-- C17, as the spec states it, fails: with `Overwrite` set, the entry `foo` of the keg's
`bin` whose name is taken in the shared `bin` by a directory that is not empty is not
linked: `LinkWithOpts` returns the error of `os.Symlink`, and the directory is still
there (while `opt/foo` and `bin/bar` have been linked). -/
theorem overwrite_directory_counterexample :
    "foo" ∈ entriesAt occupiedFS ["r", "Cellar", "foo", "1.0", "bin"] ∧
    occupiedFS.find ["r", "bin", "foo"] = some (.dir 0o755) ∧
    LinkWithOpts kegPaths "foo" "1.0" { Overwrite := true } occupiedFS =
      .error (.symlink .EEXIST,
        occupiedFS.putAll [(["r", "opt", "foo"], .symlink "/r/Cellar/foo/1.0"),
          (["r", "bin", "bar"], .symlink "/r/Cellar/foo/1.0/bin/bar")]) ∧
    (occupiedFS.putAll [(["r", "opt", "foo"], .symlink "/r/Cellar/foo/1.0"),
      (["r", "bin", "bar"], .symlink "/r/Cellar/foo/1.0/bin/bar")]).find ["r", "bin", "foo"] =
        some (.dir 0o755) := by
  decide

/-- C17, amended: in a prefix at an absolute location whose `opt`, `bin`, `lib` and
`include` are directories, for a keg that is a directory whose `bin`, `lib` and `include`
are directories or absent, with `DryRun` not set, the package not keg-only (or `Force`
set) and `opt/name` absent, a link, a file or an empty directory.  An entry of the keg is
in conflict when its name is taken in the shared directory by a link that is not owned by
the package or by an object that is no link (`conflictAt`); a name taken by a link of the
package itself is no conflict.
(1) When every entry in conflict goes with `Overwrite` set and is a link, a file or an
empty directory, `LinkWithOpts` succeeds, and every entry of the keg's directories,
whatever its name was taken by, is afterwards the link to the entry of the keg.
(2) When `Overwrite` is not set and an entry is in conflict, `LinkWithOpts` fails with
the conflict error of an entry, and every entry in conflict is left as it was.
(3) When `Overwrite` is set and the name of an entry is taken by a directory that is not
empty, `LinkWithOpts` fails with the error of `os.Symlink`, and every such directory is
left as it was. -/
theorem link_conflict_policy (paths : Config.Paths) (R : List String) (name version : String)
    (opts : LinkOpts) (fs : FS) (hs : Standard paths R)
    (hn : Validation.IsValidName name = true) (hv : Validation.IsValidVersion version = true)
    (hnames : fs.ProperNames)
    (hK : fs.PlainDir (R ++ ["Cellar", name, version])) (hO : fs.PlainDir (R ++ ["opt"]))
    (hB : ∀ sub ∈ subdirs, fs.PlainDir (R ++ [sub]))
    (hkeg : ∀ sub ∈ subdirs, fs.find (R ++ ["Cellar", name, version] ++ [sub]) = none ∨
      fs.isDirAt (R ++ ["Cellar", name, version] ++ [sub]) = true)
    (hr : fs.Removable (R ++ ["opt"] ++ [name]))
    (hdry : opts.DryRun = false) (hko : ¬ (opts.KegOnly = true ∧ opts.Force = false)) :
    ((∀ sub ∈ subdirs, ∀ e ∈ entriesAt fs (R ++ ["Cellar", name, version] ++ [sub]),
        conflictAt fs (R ++ [sub]) paths.Cellar name e = true →
          opts.Overwrite = true ∧ fs.Removable (R ++ [sub] ++ [e])) →
      ∃ fs1, LinkWithOpts paths name version opts fs = .ok fs1 ∧
        ∀ sub ∈ subdirs, ∀ e ∈ entriesAt fs (R ++ ["Cellar", name, version] ++ [sub]),
          fs1.find (R ++ [sub] ++ [e]) =
            some (.symlink (FS.pathOf (R ++ ["Cellar", name, version] ++ [sub] ++ [e])))) ∧
    (opts.Overwrite = false →
      (∃ sub ∈ subdirs, ∃ e ∈ entriesAt fs (R ++ ["Cellar", name, version] ++ [sub]),
        conflictAt fs (R ++ [sub]) paths.Cellar name e = true) →
      ∃ c fsE, (LinkWithOpts paths name version opts fs = .error (.linkedByOther c, fsE) ∨
          LinkWithOpts paths name version opts fs = .error (.notSymlink c, fsE)) ∧
        ∀ sub ∈ subdirs, ∀ e ∈ entriesAt fs (R ++ ["Cellar", name, version] ++ [sub]),
          conflictAt fs (R ++ [sub]) paths.Cellar name e = true →
          fsE.find (R ++ [sub] ++ [e]) = fs.find (R ++ [sub] ++ [e])) ∧
    (opts.Overwrite = true →
      (∃ sub ∈ subdirs, ∃ e ∈ entriesAt fs (R ++ ["Cellar", name, version] ++ [sub]),
        ¬ fs.Removable (R ++ [sub] ++ [e])) →
      ∃ fsE, LinkWithOpts paths name version opts fs = .error (.symlink .EEXIST, fsE) ∧
        ∀ sub ∈ subdirs, ∀ e ∈ entriesAt fs (R ++ ["Cellar", name, version] ++ [sub]),
          ¬ fs.Removable (R ++ [sub] ++ [e]) →
          fsE.find (R ++ [sub] ++ [e]) = fs.find (R ++ [sub] ++ [e])) := by
  have hpe : ∀ sub ∈ subdirs, ∀ e ∈ entriesAt fs (R ++ ["Cellar", name, version] ++ [sub]),
      Proper e := fun sub _ => entriesAt_proper fs _ hnames
  have hnr : ∀ sub e, ¬ fs.Removable (R ++ [sub] ++ [e]) → opts.Overwrite = true →
      blockedAt fs (R ++ [sub]) paths.Cellar name opts e = true := by
    intro sub e hnr hov
    unfold FS.Removable at hnr
    push_neg at hnr
    obtain ⟨hdir, hc⟩ := hnr
    obtain ⟨perm, hperm⟩ := (isDirAt_iff _ _).mp hdir
    have hc2 : fs.hasChildren (R ++ [sub] ++ [e]) = true := by simpa using hc
    unfold blockedAt conflictAt
    rw [hperm, hdir, hc2, hov]
    rfl
  refine ⟨?_, ?_, ?_⟩
  · intro hall
    have hnb : ∀ sub ∈ subdirs, ∀ e ∈ entriesAt fs (R ++ ["Cellar", name, version] ++ [sub]),
        blockedAt fs (R ++ [sub]) paths.Cellar name opts e = false := by
      intro sub hsub e he
      cases hc : conflictAt fs (R ++ [sub]) paths.Cellar name e with
      | false => unfold blockedAt; rw [hc]; rfl
      | true =>
        obtain ⟨hov, hrem⟩ := hall sub hsub e he hc
        unfold blockedAt
        rw [hc, hov]
        cases hd : fs.isDirAt (R ++ [sub] ++ [e]) with
        | false => rfl
        | true => rw [hrem hd]; rfl
    rcases link_outcome paths R name version opts fs hs hn hv hK hO hB hkeg hpe hr hdry hko with
      ⟨_, h2⟩ | ⟨s, hs2, c, hc, hbc, _⟩
    · refine ⟨_, h2, ?_⟩
      intro sub hsub e he
      apply FS.find_putAll_of_mem fs _ _ _ (by simp) _ (linkPlan_keys_nodup _ _ _ _ _)
      unfold linkPlan
      rw [if_neg hko]
      exact List.mem_cons_of_mem _ (mem_sharedLinks hsub he)
    · rw [hnb s hs2 c hc] at hbc
      cases hbc
  · rintro hov ⟨sub, hsub, e, he, hc⟩
    have hbl : ∀ sub e, blockedAt fs (R ++ [sub]) paths.Cellar name opts e =
        conflictAt fs (R ++ [sub]) paths.Cellar name e := by
      intro sub e
      unfold blockedAt
      rw [hov]
      simp
    obtain ⟨err, fsE, c, h1, h2, _, h4⟩ := link_blocked paths R name version opts fs hs hn hv
      hK hO hB hkeg hpe hr hdry hko sub e hsub he (by rw [hbl]; exact hc)
    refine ⟨c, fsE, ?_, ?_⟩
    · rcases h2 hov with h | h
      · left; rw [h1, h]
      · right; rw [h1, h]
    · intro sub2 hsub2 e2 he2 hc2
      exact h4 sub2 hsub2 e2 he2 (by rw [hbl]; exact hc2)
  · rintro hov ⟨sub, hsub, e, he, hnrem⟩
    obtain ⟨err, fsE, c, h1, _, h3, h4⟩ := link_blocked paths R name version opts fs hs hn hv
      hK hO hB hkeg hpe hr hdry hko sub e hsub he (hnr sub e hnrem hov)
    refine ⟨fsE, by rw [h1, h3 hov], ?_⟩
    intro sub2 hsub2 e2 he2 hn2
    exact h4 sub2 hsub2 e2 he2 (hnr sub2 e2 hn2 hov)

/-- Witness of C17: in the prefix `/r` with a file at `bin/foo`, linking `foo` 1.0 without
`Overwrite` fails with a conflict error and leaves the file; with `Overwrite` it succeeds
and `bin/foo` is the link to the program of the keg. -/
theorem link_conflict_policy_witness :
    (∃ c fsE, (LinkWithOpts kegPaths "foo" "1.0" {} fileFS = .error (.linkedByOther c, fsE) ∨
        LinkWithOpts kegPaths "foo" "1.0" {} fileFS = .error (.notSymlink c, fsE)) ∧
      fsE.find ["r", "bin", "foo"] = some (.file 0o755 "other")) ∧
    (∃ fs1, LinkWithOpts kegPaths "foo" "1.0" { Overwrite := true } fileFS = .ok fs1 ∧
      fs1.find ["r", "bin", "foo"] = some (.symlink "/r/Cellar/foo/1.0/bin/foo")) := by
  constructor
  · obtain ⟨c, fsE, h1, h2⟩ := (link_conflict_policy kegPaths ["r"] "foo" "1.0" {} fileFS
      ⟨by decide, by decide, by decide, by decide, by decide, by decide⟩ (by decide) (by decide)
      (by decide) (by decide) (by decide) (by decide) (by decide) (by decide) rfl
      (by decide)).2.1 rfl ⟨"bin", by decide, "foo", by decide, by decide⟩
    exact ⟨c, fsE, h1, h2 "bin" (by decide) "foo" (by decide) (by decide)⟩
  · obtain ⟨fs1, h1, h2⟩ := (link_conflict_policy kegPaths ["r"] "foo" "1.0"
      { Overwrite := true } fileFS
      ⟨by decide, by decide, by decide, by decide, by decide, by decide⟩ (by decide) (by decide)
      (by decide) (by decide) (by decide) (by decide) (by decide) (by decide) rfl
      (by decide)).1 (by decide)
    exact ⟨fs1, h1, h2 "bin" (by decide) "foo" (by decide)⟩

end Linker

/-! ## The remaining claims on the resolver -/

namespace Depgraph

/-- C25, violated by the code.  In the catalog `a -> b`, `b -> missing`, the package whose
dependency list contains `missing` is `b` and not `a`, but the error of `Resolve "a"`
names `missing` and `a`: line 43 formats the message "dependency ... required by ..."
with the argument `name` of `Resolve`, the root, in the place of the requirer. -/
theorem missing_dependency_names_root :
    (missingCatalog.LoadByName "a").map (fun f => f.Dependencies) = some ["b"] ∧
    (missingCatalog.LoadByName "b").map (fun f => f.Dependencies) = some ["missing"] ∧
    missingCatalog.LoadByName "missing" = none ∧
    Resolve missingCatalog RangeOrder.insertion "a" =
      some (.error (.notFound "missing" "a")) := by
  decide

end Depgraph

/-! ## The remaining claims on the linker -/

namespace Linker

open Os Filepath

/-- C21: for all paths, names, versions, options with `DryRun` set and file systems,
`LinkWithOpts` returns the file system exactly as it was, whether it succeeds or returns
an error (a conflict among them), and so does `UnlinkWithOpts`. -/
theorem dry_run_changes_nothing (paths : Config.Paths) (name version : String)
    (lopts : LinkOpts) (uopts : UnlinkOpts) (fs : FS) (hl : lopts.DryRun = true)
    (hu : uopts.DryRun = true) :
    (LinkWithOpts paths name version lopts fs = .ok fs ∨
      ∃ err, LinkWithOpts paths name version lopts fs = .error (err, fs)) ∧
    (UnlinkWithOpts paths name uopts fs = .ok fs ∨
      UnlinkWithOpts paths name uopts fs = .error (.invalid, fs)) :=
  ⟨link_dry paths name version lopts fs hl, unlink_dry paths name uopts fs hu⟩

/-- Witness of C21: in the prefix `/r` with a file at `bin/foo`, the dry run of linking
`foo` 1.0 reports the conflict and the dry run of unlinking succeeds; both leave the file
system as it was. -/
theorem dry_run_changes_nothing_witness :
    LinkWithOpts kegPaths "foo" "1.0" { DryRun := true } fileFS =
      .error (.notSymlink "foo", fileFS) ∧
    LinkWithOpts kegPaths "foo" "1.0" { DryRun := true } kegFS = .ok kegFS ∧
    UnlinkWithOpts kegPaths "foo" { DryRun := true } linkedFS = .ok linkedFS ∧
    ((LinkWithOpts kegPaths "foo" "1.0" { DryRun := true } fileFS = .ok fileFS ∨
      ∃ err, LinkWithOpts kegPaths "foo" "1.0" { DryRun := true } fileFS = .error (err, fileFS)) ∧
    (UnlinkWithOpts kegPaths "foo" { DryRun := true } fileFS = .ok fileFS ∨
      UnlinkWithOpts kegPaths "foo" { DryRun := true } fileFS = .error (.invalid, fileFS))) :=
  ⟨by decide, by decide, by decide,
    dry_run_changes_nothing kegPaths "foo" "1.0" { DryRun := true } { DryRun := true } fileFS
      rfl rfl⟩

end Linker

namespace Linker

open Os Filepath

/-- C30, as the spec states it, fails: in the prefix `/r` with a file at `bin/foo`,
`LinkWithOpts` for `foo` 1.0 returns the conflict error for the entry `foo`, and by then
it has created `opt/foo` and the link `bin/bar`: `IsLinked "foo"` was false before the
call and is true after it. -/
theorem link_error_changes_links_counterexample :
    LinkWithOpts kegPaths "foo" "1.0" {} fileFS =
      .error (.notSymlink "foo",
        fileFS.putAll [(["r", "opt", "foo"], .symlink "/r/Cellar/foo/1.0"),
          (["r", "bin", "bar"], .symlink "/r/Cellar/foo/1.0/bin/bar")]) ∧
    fileFS.find ["r", "opt", "foo"] = none ∧
    fileFS.find ["r", "bin", "bar"] = none ∧
    IsLinked kegPaths "foo" fileFS = false ∧
    IsLinked kegPaths "foo"
      (fileFS.putAll [(["r", "opt", "foo"], .symlink "/r/Cellar/foo/1.0"),
        (["r", "bin", "bar"], .symlink "/r/Cellar/foo/1.0/bin/bar")]) = true := by
  decide

/-- C30, amended.  When `LinkWithOpts` returns an error:
(1) if it is one of the errors before the links (invalid name or version, missing keg,
store path that does not resolve, keg resolving outside the store), the file system is as
it was, so `IsLinked(name)` has the same value as before the call;
(2) if it is another error (a conflict on an entry among them), with `DryRun` not set, in
a prefix at an absolute location whose `opt`, `bin`, `lib` and `include` are directories,
for a keg that is a directory whose `bin`, `lib` and `include` are directories or absent,
and `opt/name` absent, a link, a file or an empty directory: `opt/name` is a link to the
keg, so `IsLinked(name)` is true; every entry at which the linking stops is as it was;
and nothing has changed except `opt/name` and names of entries of the keg's directories
in the shared directories. -/
theorem link_error_state (paths : Config.Paths) (R : List String) (name version : String)
    (opts : LinkOpts) (fs fsE : FS) (err : Error)
    (h : LinkWithOpts paths name version opts fs = .error (err, fsE)) :
    (err.beforeLinks = true → fsE = fs ∧ IsLinked paths name fsE = IsLinked paths name fs) ∧
    (err.beforeLinks = false → Standard paths R → fs.ProperNames →
      fs.PlainDir (R ++ ["Cellar", name, version]) → fs.PlainDir (R ++ ["opt"]) →
      (∀ sub ∈ subdirs, fs.PlainDir (R ++ [sub])) →
      (∀ sub ∈ subdirs, fs.find (R ++ ["Cellar", name, version] ++ [sub]) = none ∨
        fs.isDirAt (R ++ ["Cellar", name, version] ++ [sub]) = true) →
      fs.Removable (R ++ ["opt"] ++ [name]) → opts.DryRun = false →
      fsE.find (R ++ ["opt"] ++ [name]) =
        some (.symlink (FS.pathOf (R ++ ["Cellar", name, version]))) ∧
      IsLinked paths name fsE = true ∧
      (∀ sub ∈ subdirs, ∀ e ∈ entriesAt fs (R ++ ["Cellar", name, version] ++ [sub]),
        blockedAt fs (R ++ [sub]) paths.Cellar name opts e = true →
        fsE.find (R ++ [sub] ++ [e]) = fs.find (R ++ [sub] ++ [e])) ∧
      (∀ loc, loc ≠ R ++ ["opt"] ++ [name] →
        (∀ sub ∈ subdirs, ∀ e ∈ entriesAt fs (R ++ ["Cellar", name, version] ++ [sub]),
          loc ≠ R ++ [sub] ++ [e]) →
        fsE.find loc = fs.find loc)) := by
  constructor
  · intro he
    have := link_error_early paths name version opts fs fsE err h he
    exact ⟨this, by rw [this]⟩
  · intro he hs hnames hK hO hB hkeg hr hdry
    have hn : Validation.IsValidName name = true := by
      by_contra hc
      have hx : LinkWithOpts paths name version opts fs = .error (.invalid, fs) := by
        simp [LinkWithOpts, hc]
      rw [hx] at h
      injection h with h
      injection h with h _
      rw [← h] at he
      cases he
    have hv : Validation.IsValidVersion version = true := by
      by_contra hc
      have hx : LinkWithOpts paths name version opts fs = .error (.invalid, fs) := by
        simp [LinkWithOpts, hc]
      rw [hx] at h
      injection h with h
      injection h with h _
      rw [← h] at he
      cases he
    have hpn := proper_of_validName hn
    have hpO : ∀ n ∈ R ++ ["opt"], Proper n := proper_append hs.proper (by decide)
    have hpe : ∀ sub ∈ subdirs, ∀ e ∈ entriesAt fs (R ++ ["Cellar", name, version] ++ [sub]),
        Proper e := fun sub _ => entriesAt_proper fs _ hnames
    have hko : ¬ (opts.KegOnly = true ∧ opts.Force = false) := by
      intro hko
      have hopt := relink_ok fs (R ++ ["opt"]) name
        (FS.pathOf (R ++ ["Cellar", name, version])) hO hpO hpn hr
      rw [link_of_opt_ok paths R name version opts fs _ hs hn hv hK hdry hopt, if_pos hko] at h
      cases h
    rcases link_outcome paths R name version opts fs hs hn hv hK hO hB hkeg hpe hr hdry hko with
      ⟨_, h1⟩ | ⟨s, _, c, _, _, err2, ps, h1, h2, _⟩
    · rw [h1] at h
      cases h
    · rw [h1] at h
      injection h with h
      injection h with _ h
      have hkeys : ∀ p ∈ ps, ∃ s ∈ subdirs, ∃ e, p.1 = R ++ s :: [e] := by
        intro p hp
        obtain ⟨s2, hs2, e, _, hk, _⟩ := h2 p hp
        exact ⟨s2, hs2, e, hk⟩
      have hfind : fsE.find (R ++ ["opt"] ++ [name]) =
          some (.symlink (FS.pathOf (R ++ ["Cellar", name, version]))) := by
        rw [← h, FS.putAll_cons, FS.find_putAll_of_not_mem, FS.find_put_self _ _ _ (by simp)]
        intro p hp heq
        obtain ⟨s2, hs2, e, hk⟩ := hkeys p hp
        rw [hk, List.append_assoc] at heq
        have := List.append_cancel_left heq
        simp only [List.singleton_append, List.cons.injEq] at this
        rw [this.1] at hs2
        revert hs2
        decide
      obtain ⟨_, a2, _⟩ := after_puts fs R [name, version] ("opt" :: subdirs)
        ((R ++ ["opt"] ++ [name], Node.symlink (FS.pathOf (R ++ ["Cellar", name, version]))) :: ps)
        (by decide) (fun p hp => by
          rcases List.mem_cons.mp hp with hp1 | hp1
          · exact ⟨"opt", name, List.mem_cons_self _ _, by rw [hp1]; simp⟩
          · obtain ⟨s2, hs2, e, hk⟩ := hkeys p hp1
            exact ⟨s2, e, List.mem_cons_of_mem _ hs2, hk⟩)
      rw [h] at a2
      refine ⟨hfind, ?_, ?_, ?_⟩
      · unfold IsLinked
        simp only [hn, Bool.true_eq_false, if_false, hs.opt, Join_pathOf _ name hpO hpn,
          Readlink_child fsE (R ++ ["opt"]) name _ (a2 "opt" hO) hpO hpn hfind]
      · intro sub hsub e he hb
        rw [← h]
        apply FS.find_putAll_of_not_mem
        intro p hp heq
        rcases List.mem_cons.mp hp with hp1 | hp1
        · rw [hp1] at heq
          simp only at heq
          rw [List.append_assoc, List.append_assoc] at heq
          have := List.append_cancel_left heq
          simp only [List.singleton_append, List.cons.injEq] at this
          rw [← this.1] at hsub
          revert hsub
          decide
        · obtain ⟨s2, _, e3, _, hk, hbe⟩ := h2 p hp1
          rw [hk, List.append_assoc] at heq
          have := List.append_cancel_left heq
          simp only [List.singleton_append, List.cons.injEq, and_true] at this
          rw [this.1, this.2, hb] at hbe
          cases hbe
      · intro loc hloc hothers
        rw [← h]
        apply FS.find_putAll_of_not_mem
        intro p hp heq
        rcases List.mem_cons.mp hp with hp1 | hp1
        · rw [hp1] at heq
          exact hloc heq.symm
        · obtain ⟨s2, hs2, e3, he3, hk, _⟩ := h2 p hp1
          apply hothers s2 hs2 e3 he3
          rw [← heq, hk]
          simp

/-- Witness of C30: with an invalid name the error comes with the file system as it was;
with a file at `bin/foo` the conflict error comes with `opt/foo` linked and the file as it
was. -/
theorem link_error_state_witness :
    (∃ err, LinkWithOpts kegPaths "../x" "1.0" {} fileFS = .error (err, fileFS) ∧
      err.beforeLinks = true) ∧
    (∃ err fsE, LinkWithOpts kegPaths "foo" "1.0" {} fileFS = .error (err, fsE) ∧
      IsLinked kegPaths "foo" fsE = true ∧
      fsE.find ["r", "bin", "foo"] = some (.file 0o755 "other")) := by
  constructor
  · have h : LinkWithOpts kegPaths "../x" "1.0" {} fileFS = .error (.invalid, fileFS) := by
      decide
    have := (link_error_state kegPaths ["r"] "../x" "1.0" {} fileFS fileFS .invalid h).1 rfl
    exact ⟨.invalid, by rw [this.1] at h; exact h, rfl⟩
  · have h : LinkWithOpts kegPaths "foo" "1.0" {} fileFS =
        .error (.notSymlink "foo",
          fileFS.putAll [(["r", "opt", "foo"], .symlink "/r/Cellar/foo/1.0"),
            (["r", "bin", "bar"], .symlink "/r/Cellar/foo/1.0/bin/bar")]) := by
      decide
    obtain ⟨_, h2, h3, _⟩ := (link_error_state kegPaths ["r"] "foo" "1.0" {} fileFS _ _ h).2 rfl
      ⟨by decide, by decide, by decide, by decide, by decide, by decide⟩ (by decide) (by decide)
      (by decide) (by decide) (by decide) (by decide) rfl
    refine ⟨_, _, h, h2, ?_⟩
    exact (h3 "bin" (by decide) "foo" (by decide) (by decide)).trans (by decide)

end Linker

/-! ## The remaining claims on the installation -/

namespace Cmd

open Os Downloader

/-- C27, violated by the code.  The formula `tool` 1.0 passes `Validate`, its artifact is
downloaded, verified, extracted and installed into the store; the linking then fails
because the name `bin/tool` is taken by a file.  `installFormula` returns the error of
the linker (line 140) without the two clean-up calls that the failures of `Extract` and of
`Cellar.Install` are followed by (lines 125-126 and 133-134): the downloaded file
`/r/tmp/tool-1.0` and the staging directory `/r/tmp/tool-1.0-stage` are left behind.  In
the prefix in which the name is free the installation succeeds and removes both. -/
theorem link_failure_leaves_artifacts :
    helloFormula.Validate = none ∧
    failure (installFormula helloEnv helloFormula prefixPaths ⟨takenFS, []⟩) =
      some (.link (.notSymlink "tool")) ∧
    (finalFS (installFormula helloEnv helloFormula prefixPaths ⟨takenFS, []⟩)).find
      ["r", "tmp", "tool-1.0"] = some (.file 0o666 "hello world") ∧
    (finalFS (installFormula helloEnv helloFormula prefixPaths ⟨takenFS, []⟩)).find
      ["r", "tmp", "tool-1.0-stage"] = some (.dir 0o755) ∧
    (finalFS (installFormula helloEnv helloFormula prefixPaths ⟨takenFS, []⟩)).find
      ["r", "tmp", "tool-1.0-stage", "bin", "tool"] = some (.file 0o755 "hello world") ∧
    failure (installFormula helloEnv helloFormula prefixPaths ⟨prefixFS, []⟩) = none ∧
    (finalFS (installFormula helloEnv helloFormula prefixPaths ⟨prefixFS, []⟩)).children
      ["r", "tmp"] = [] := by
  decide

end Cmd

namespace Cmd

open Os

/-- C28, violated by the code.  With the versions 1.9.0 and 1.10.0 of `foo` in the store,
`InstalledVersions` returns them in the order of `sort.Strings`, in which `1.10.0` comes
before `1.9.0`; `runCleanup` keeps the last one of that order (line 55, "Keep the latest
(last after sort)"): it removes the keg of 1.10.0, the later version, and keeps the keg of
1.9.0. -/
theorem cleanup_removes_later_version :
    Validation.IsValidVersion "1.9.0" = true ∧ Validation.IsValidVersion "1.10.0" = true ∧
    Cellar.InstalledVersions prefixPaths.Cellar "foo" versionsFS = .ok ["1.10.0", "1.9.0"] ∧
    (runCleanup prefixPaths [] versionsFS).toOption.map
      (fun fs => fs.find ["r", "Cellar", "foo", "1.10.0"]) = some none ∧
    (runCleanup prefixPaths [] versionsFS).toOption.map
      (fun fs => fs.find ["r", "Cellar", "foo", "1.10.0", "bin", "foo"]) = some none ∧
    (runCleanup prefixPaths [] versionsFS).toOption.map
      (fun fs => fs.find ["r", "Cellar", "foo", "1.9.0", "bin", "foo"]) =
        some (some (.file 0o755 "old")) ∧
    (runCleanup prefixPaths ["foo"] versionsFS).toOption.map
      (fun fs => fs.children ["r", "Cellar", "foo"]) = some ["1.9.0"] := by
  decide

end Cmd

/-! ## The remaining claims on the store -/

namespace Cellar

open Os Filepath Linker

/-- C24: in a prefix at an absolute location whose `Cellar`, `opt`, `bin`, `lib` and
`include` are directories, for a valid name whose entry `Cellar/name` is a directory,
whatever links lie in `opt` and the shared directories: `Unlink(name)` returns no error,
`Uninstall(name)` after it returns no error, and afterwards nothing lies at `Cellar/name`,
`IsInstalled(name)` is false and no package that `List()` returns has the name. -/
theorem unlink_then_uninstall (paths : Config.Paths) (R : List String) (name : String) (fs : FS)
    (hs : Standard paths R) (hn : Validation.IsValidName name = true)
    (hnames : fs.ProperNames) (hO : fs.PlainDir (R ++ ["opt"]))
    (hB : ∀ sub ∈ subdirs, fs.PlainDir (R ++ [sub]))
    (hC : fs.PlainDir (R ++ ["Cellar"]))
    (hinst : fs.isDirAt (R ++ ["Cellar"] ++ [name]) = true) :
    ∃ fs1 fs2, Unlink paths name fs = .ok fs1 ∧ Uninstall paths.Cellar name fs1 = .ok fs2 ∧
      fs2.find (R ++ ["Cellar"] ++ [name]) = none ∧
      IsInstalled paths.Cellar name fs2 = false ∧
      ∃ pkgs, ListInstalled paths.Cellar fs2 = .ok pkgs ∧ ∀ p ∈ pkgs, p.Name ≠ name := by
  have hpn := proper_of_validName hn
  have hpC : ∀ n ∈ R ++ ["Cellar"], Proper n := proper_append hs.proper (by decide)
  obtain ⟨fs1, h1, hframe⟩ := unlink_frame paths R name fs hs hn hnames hO hB
  have hsame : ∀ loc, (loc <+: R ∨ ∃ tail, loc = R ++ "Cellar" :: tail) →
      fs1.find loc = fs.find loc := by
    intro loc hloc
    obtain ⟨a, b⟩ := store_not_shared R name loc hloc
    exact hframe loc a b
  have hC1 : fs1.PlainDir (R ++ ["Cellar"]) := by
    intro p hp
    have hpre := (List.mem_inits _ _).mp hp
    have := hC p hp
    unfold FS.isDirAt at this ⊢
    rw [hsame p (by
      rcases List.prefix_concat_iff.mp hpre with h | h
      · exact Or.inr ⟨[], h⟩
      · exact Or.inl h)]
    exact this
  have hdir1 : fs1.isDirAt (R ++ ["Cellar"] ++ [name]) = true := by
    unfold FS.isDirAt at hinst ⊢
    rw [hsame _ (Or.inr ⟨[name], by simp⟩)]
    exact hinst
  obtain ⟨perm, hfind1⟩ := (isDirAt_iff _ _).mp hdir1
  have hkeg : Join [paths.Cellar, name] = FS.pathOf (R ++ ["Cellar"] ++ [name]) := by
    rw [hs.cellar, Join_pathOf _ name hpC hpn]
  have hC2 : (fs1.prune (R ++ ["Cellar"] ++ [name])).PlainDir (R ++ ["Cellar"]) :=
    hC1.prune _ (not_prefix_child _ _)
  have hgone : (fs1.prune (R ++ ["Cellar"] ++ [name])).find (R ++ ["Cellar"] ++ [name]) = none :=
    FS.find_prune_below _ _ _ (List.prefix_refl _) (by simp)
  refine ⟨fs1, fs1.prune (R ++ ["Cellar"] ++ [name]), h1, ?_, hgone, ?_, ?_⟩
  · unfold Uninstall
    simp only [hn, Bool.true_eq_false, if_false, hkeg,
      Stat_child fs1 _ name _ hC1 hpC hpn hfind1 (fun t ht => by cases ht),
      RemoveAll_child fs1 _ name hC1 hpC hpn]
  · unfold IsInstalled
    simp only [hn, Bool.true_eq_false, if_false, hkeg,
      Stat_child_none _ _ name hC2 hpC hpn hgone]
  · obtain ⟨entries, hrd, hnames2⟩ := ReadDir_plain _ _ hC2 hpC
    unfold ListInstalled
    rw [hs.cellar, hrd]
    refine ⟨_, rfl, ?_⟩
    intro p hp
    rw [(List.perm_insertionSort _ _).mem_iff, List.mem_filterMap] at hp
    obtain ⟨e, he, hpe⟩ := hp
    have hmem : e.1 ∈ (fs1.prune (R ++ ["Cellar"] ++ [name])).children (R ++ ["Cellar"]) := by
      rw [← hnames2]
      exact List.mem_map_of_mem _ he
    rw [mem_children_iff_find] at hmem
    have hne : e.1 ≠ name := by
      intro e1
      rw [e1, hgone] at hmem
      cases hmem
    split at hpe
    · cases hpe
    · split at hpe
      · cases hpe
      · injection hpe with hpe
        rw [← hpe]
        exact hne

/-- Witness of C24: in the prefix `/r`, `foo` is unlinked and uninstalled without error
when all its links are there, and when none is. -/
theorem unlink_then_uninstall_witness :
    (∃ fs1 fs2, Unlink kegPaths "foo" linkedFS = .ok fs1 ∧
      Uninstall kegPaths.Cellar "foo" fs1 = .ok fs2 ∧
      fs2.find (["r"] ++ ["Cellar"] ++ ["foo"]) = none ∧
      IsInstalled kegPaths.Cellar "foo" fs2 = false ∧
      ∃ pkgs, ListInstalled kegPaths.Cellar fs2 = .ok pkgs ∧ ∀ p ∈ pkgs, p.Name ≠ "foo") ∧
    IsInstalled kegPaths.Cellar "foo" linkedFS = true ∧
    Uninstall kegPaths.Cellar "foo" kegFS = .ok (kegFS.prune ["r", "Cellar", "foo"]) :=
  ⟨unlink_then_uninstall kegPaths ["r"] "foo" linkedFS
    ⟨by decide, by decide, by decide, by decide, by decide, by decide⟩ (by decide) (by decide)
    (by decide) (by decide) (by decide) (by decide), by decide, by decide⟩

end Cellar

namespace Cellar

open Os Cmd

/-- C29, violated by the code.  In the empty store of the prefix `/r`, `Install` of `foo`
1.0 from a staging directory that does not exist fails: the copy fails and the keg is
removed again (lines 34-36), but the directory `Cellar/foo` that line 28 created stays.
In the state that the failed call leaves, `IsInstalled "foo"` is true, while
`InstalledVersion "foo"` fails and `List()` is empty: `IsInstalled` looks only for the
directory of the name, the two other functions for a version directory inside it. -/
theorem failed_install_counts_as_installed :
    ListInstalled prefixPaths.Cellar prefixFS = .ok [] ∧
    IsInstalled prefixPaths.Cellar "foo" prefixFS = false ∧
    Install prefixPaths.Cellar "foo" "1.0" "/r/tmp/missing" prefixFS =
      .error (.copy (.os .ENOENT), prefixFS.put ["r", "Cellar", "foo"] (.dir 0o755)) ∧
    IsInstalled prefixPaths.Cellar "foo" (prefixFS.put ["r", "Cellar", "foo"] (.dir 0o755)) =
      true ∧
    InstalledVersion prefixPaths.Cellar "foo"
      (prefixFS.put ["r", "Cellar", "foo"] (.dir 0o755)) = .error .noVersion ∧
    ListInstalled prefixPaths.Cellar (prefixFS.put ["r", "Cellar", "foo"] (.dir 0o755)) =
      .ok [] := by
  decide

end Cellar

namespace Downloader

open Os Filepath Cmd

/-- C26, violated by the code.  The archive `/r/tmp/a.tar.gz` brings a directory `bin/`
(with a file `helper`) and a file `tool` at its root; after `Extract` with `BinaryName`
`tool` the file is still at the root of the destination and there is no `bin/tool`: the
move is made only inside the test of line 37, when `bin` does not exist, although the
comment of line 32 says that a binary at the root, not in `bin/`, is moved into `bin/`.
(From the archive `/r/tmp/b.tar.gz` without `bin/` the file is moved.) -/
theorem binary_stays_beside_bin :
    (Extract demoCodec "/r/tmp/a.tar.gz" "/r/tmp/stage" toolSpec archivesFS).toOption.map
      (fun fs => (fs.find ["r", "tmp", "stage", "tool"],
        fs.find ["r", "tmp", "stage", "bin", "tool"],
        fs.find ["r", "tmp", "stage", "bin", "helper"])) =
      some (some (.file 0o755 "t"), none, some (.file 0o755 "h")) ∧
    (Extract demoCodec "/r/tmp/b.tar.gz" "/r/tmp/stage" toolSpec archivesFS).toOption.map
      (fun fs => (fs.find ["r", "tmp", "stage", "tool"],
        fs.find ["r", "tmp", "stage", "bin", "tool"])) =
      some (none, some (.file 0o755 "t")) := by
  decide

end Downloader

namespace Downloader

open Os Filepath Cmd

/-- What `Extract` does with the binary at the root, case by case: for an archive install
whose `BinaryName` is a proper file name, when
after the unpacking into the directory `destDir` a regular file of that name lies at the
root of `destDir`:
(1) if `destDir/bin` is a directory (the archive brought one, for instance), `Extract`
leaves the file where it is;
(2) if nothing lies at `destDir/bin` and at `destDir/bin/BinaryName`, `Extract` creates the
directory `destDir/bin` and moves the file to `destDir/bin/BinaryName`; nothing else is
changed. -/
theorem binary_moved_when_no_bin (codec : Codec) (archivePath : String) (D : List String)
    (spec : InstallSpec) (fs fs1 fs2 : FS) (perm : Nat) (content : String)
    (htyp : spec.Typ = "archive") (hname : Proper spec.BinaryName) (hpD : ∀ n ∈ D, Proper n)
    (hmk : MkdirAll fs (FS.pathOf D) 0o755 = .ok fs1)
    (hex : extractArchive codec archivePath (FS.pathOf D) spec.StripComponents fs1 = .ok fs2)
    (hD : fs2.PlainDir D)
    (hfile : fs2.find (D ++ [spec.BinaryName]) = some (.file perm content)) :
    (fs2.isDirAt (D ++ ["bin"]) = true →
      Extract codec archivePath (FS.pathOf D) spec fs = .ok fs2) ∧
    (fs2.find (D ++ ["bin"]) = none → fs2.find (D ++ ["bin"] ++ [spec.BinaryName]) = none →
      ∃ fs4, Extract codec archivePath (FS.pathOf D) spec fs = .ok fs4 ∧
        fs4.find (D ++ ["bin"] ++ [spec.BinaryName]) = some (.file perm content) ∧
        fs4.find (D ++ [spec.BinaryName]) = none ∧
        fs4.isDirAt (D ++ ["bin"]) = true ∧
        ∀ l, ¬ (D ++ [spec.BinaryName]) <+: l → ¬ (D ++ ["bin"]) <+: l →
          fs4.find l = fs2.find l) := by
  have hbin : Proper "bin" := by decide
  have hne : spec.BinaryName ≠ "" := by
    intro e
    have := hname.1
    rw [e] at this
    exact this rfl
  have hstat := Stat_child fs2 D spec.BinaryName _ hD hpD hname hfile (fun t ht => by cases ht)
  have hisdir : (Node.file perm content).IsDir = false := rfl
  have hstart : Extract codec archivePath (FS.pathOf D) spec fs =
      match Stat fs2 (FS.pathOf (D ++ ["bin"])) with
      | .error .ENOENT =>
        match MkdirAll fs2 (FS.pathOf (D ++ ["bin"])) 0o755 with
        | .error e => .error (.os e, fs2)
        | .ok fs3 =>
          match Rename fs3 (FS.pathOf (D ++ [spec.BinaryName]))
              (Join [FS.pathOf (D ++ ["bin"]), spec.BinaryName]) with
          | .error e => .error (.os e, fs3)
          | .ok fs4 => .ok fs4
      | _ => .ok fs2 := by
    unfold Extract
    rw [hmk]
    simp only
    rw [htyp, if_neg (by decide : ¬ ("archive" = "binary")), if_pos rfl, hex]
    simp only
    rw [if_pos hne, Join_pathOf D _ hpD hname, Join_pathOf D "bin" hpD hbin, hstat]
    simp only [hisdir, Bool.false_eq_true, if_false]
  constructor
  · intro hdir
    obtain ⟨p, hp⟩ := (isDirAt_iff _ _).mp hdir
    rw [hstart, Stat_child fs2 D "bin" _ hD hpD hbin hp (fun t ht => by cases ht)]
  · intro hnobin hnodst
    have hnb : spec.BinaryName ≠ "bin" := by
      intro e
      rw [e, hnobin] at hfile
      cases hfile
    have hod : D ++ [spec.BinaryName] ≠ D ++ ["bin"] := by
      intro e
      have := List.append_cancel_left e
      simp only [List.cons.injEq, and_true] at this
      exact hnb this
    have hD3 : (fs2.put (D ++ ["bin"]) (.dir (syscallMode 0o755))).PlainDir D :=
      hD.put _ _ (not_prefix_child D "bin")
    have hB3 : (fs2.put (D ++ ["bin"]) (.dir (syscallMode 0o755))).PlainDir (D ++ ["bin"]) := by
      apply hD3.child
      unfold FS.isDirAt
      rw [FS.find_put_self _ _ _ (by simp)]
    have hsrc3 : (fs2.put (D ++ ["bin"]) (.dir (syscallMode 0o755))).find
        (D ++ [spec.BinaryName]) = some (.file perm content) := by
      rw [FS.find_put_ne _ _ _ _ hod, hfile]
    have hdst3 : (fs2.put (D ++ ["bin"]) (.dir (syscallMode 0o755))).find
        (D ++ ["bin"] ++ [spec.BinaryName]) = none := by
      rw [FS.find_put_ne _ _ _ _ (by
        intro e
        have := congrArg List.length e
        simp at this), hnodst]
    have hlen1 : ¬ (D ++ ["bin"] ++ [spec.BinaryName]) <+: (D ++ [spec.BinaryName]) := by
      intro h
      have := h.length_le
      simp at this
    have hlen2 : ¬ (D ++ ["bin"] ++ [spec.BinaryName]) <+: (D ++ ["bin"]) := by
      intro h
      have := h.length_le
      simp at this
    have hno : ¬ (D ++ [spec.BinaryName]) <+: (D ++ ["bin"]) := by
      intro h
      exact hod (List.IsPrefix.eq_of_length_le h (by simp))
    refine ⟨(fs2.put (D ++ ["bin"]) (.dir (syscallMode 0o755))).move (D ++ [spec.BinaryName])
      (D ++ ["bin"] ++ [spec.BinaryName]), ?_, ?_, ?_, ?_, ?_⟩
    · rw [hstart, Stat_child_none fs2 D "bin" hD hpD hbin hnobin]
      simp only
      rw [MkdirAll_child fs2 D "bin" 0o755 hD hpD hbin hnobin]
      simp only
      rw [Join_pathOf (D ++ ["bin"]) _ (proper_append hpD hbin) hname,
        Rename_file _ D (D ++ ["bin"]) spec.BinaryName spec.BinaryName perm content hD3 hB3 hpD
          (proper_append hpD hbin) hname hname hsrc3 hdst3]
    · rw [FS.find_move_dest _ _ _ (by simp) (by simp), hsrc3]
    · exact FS.find_move_src _ _ _ _ (by simp) (List.prefix_refl _) hlen1
    · unfold FS.isDirAt
      rw [FS.find_move_other _ _ _ _ hno hlen2, FS.find_put_self _ _ _ (by simp)]
    · intro l h1 h2
      rw [FS.find_move_other _ _ _ _ h1
        (fun h => h2 ((List.prefix_append _ _).trans h)),
        FS.find_put_ne _ _ _ _ (fun e => h2 (by rw [e]))]

end Downloader

namespace Downloader

open Os Filepath Cmd

/-- An instance: from the archive without `bin/` the file `tool` is moved to
`bin/tool`. -/
theorem binary_moved_when_no_bin_witness :
    ∃ fs4, Extract demoCodec "/r/tmp/b.tar.gz" (FS.pathOf ["r", "tmp", "stage"]) toolSpec
        archivesFS = .ok fs4 ∧
      fs4.find ["r", "tmp", "stage", "bin", "tool"] = some (.file 0o755 "t") ∧
      fs4.find ["r", "tmp", "stage", "tool"] = none := by
  obtain ⟨fs4, h1, h2, h3, _⟩ := (binary_moved_when_no_bin demoCodec "/r/tmp/b.tar.gz"
    ["r", "tmp", "stage"] toolSpec archivesFS
    (archivesFS.put ["r", "tmp", "stage"] (.dir 0o755))
    ((archivesFS.put ["r", "tmp", "stage"] (.dir 0o755)).put ["r", "tmp", "stage", "tool"]
      (.file 0o755 "t")) 0o755 "t" rfl (by decide) (by decide) (by decide) (by decide)
    (by decide) (by decide)).2 (by decide) (by decide)
  exact ⟨fs4, h1, h2, h3⟩

end Downloader

/-! ## Claims: the copy of the staging tree into the store -/

namespace Cellar

open Os Filepath

/-- The copy from a staging directory that is no link: for a store and a staging
directory that are plain directories at absolute locations, neither the keg nor the staging directory lying in the other, a valid name and
version, where the name is free in the store or a directory: `Install` returns no error,
and afterwards every regular file of the staging tree lies in the keg at the same relative
path with the same content, every directory of the staging tree is a directory of the keg,
what lies in the keg is the copy of what lies at the same relative path of the staging
tree, so that nothing lies in the keg at a path at which nothing lies in the staging tree,
whatever lay at the path of the keg before. -/
theorem install_mirrors_staging (fs : FS) (Cl S : List String) (name version : String)
    (hpCl : ∀ x ∈ Cl, Proper x) (hpS : ∀ x ∈ S, Proper x)
    (hn : Validation.IsValidName name = true) (hv : Validation.IsValidVersion version = true)
    (hnames : fs.ProperNames) (hCl : fs.PlainDir Cl)
    (hkeg : fs.find (Cl ++ [name]) = none ∨ fs.isDirAt (Cl ++ [name]) = true)
    (hS : fs.PlainDir S) (hKS : ¬ (Cl ++ [name] ++ [version]) <+: S)
    (hSK : ¬ S <+: (Cl ++ [name] ++ [version])) :
    ∃ fs2, Install (FS.pathOf Cl) name version (FS.pathOf S) fs = .ok fs2 ∧
      (∀ r perm data, fs.PlainDir (S ++ r.dropLast) → fs.find (S ++ r) = some (.file perm data) →
        ∃ perm2, fs2.find (Cl ++ [name] ++ [version] ++ r) = some (.file perm2 data)) ∧
      (∀ r perm, fs.PlainDir (S ++ r.dropLast) → fs.find (S ++ r) = some (.dir perm) →
        fs2.isDirAt (Cl ++ [name] ++ [version] ++ r) = true) ∧
      (∀ r, fs2.find (Cl ++ [name] ++ [version] ++ r) =
        Fsutil.mirror fs S (Cl ++ [name] ++ [version]) r) ∧
      (∀ r node, fs2.find (Cl ++ [name] ++ [version] ++ r) = some node →
        fs.PlainDir (S ++ r.dropLast) ∧
        ∃ staged, fs.find (S ++ r) = some staged ∧
          Fsutil.copyOf (Cl ++ [name] ++ [version]) r staged = some node) ∧
      (∀ r, fs.find (S ++ r) = none → fs2.find (Cl ++ [name] ++ [version] ++ r) = none) := by
  obtain ⟨fs2, hok, hmir, _, _⟩ :=
    Install_mirror fs Cl S name version hpCl hpS hn hv hnames hCl hkeg hS hKS hSK
  refine ⟨fs2, hok, ?_, ?_, hmir, ?_, ?_⟩
  · intro r perm data hp hf
    rw [hmir r]
    unfold Fsutil.mirror
    rw [if_pos hp, hf]
    exact ⟨_, rfl⟩
  · intro r perm hp hf
    unfold FS.isDirAt
    rw [hmir r]
    unfold Fsutil.mirror
    rw [if_pos hp, hf]
    rfl
  · intro r node hnode
    rw [hmir r] at hnode
    unfold Fsutil.mirror at hnode
    by_cases hp : fs.PlainDir (S ++ r.dropLast)
    · rw [if_pos hp] at hnode
      refine ⟨hp, ?_⟩
      cases hf : fs.find (S ++ r) with
      | none =>
        rw [hf] at hnode
        cases hnode
      | some staged =>
        rw [hf] at hnode
        exact ⟨staged, rfl, hnode⟩
    · rw [if_neg hp] at hnode
      cases hnode
  · intro r hf
    rw [hmir r]
    unfold Fsutil.mirror
    rw [hf]
    split <;> rfl

/-- An instance: in the prefix `/r`, where the keg of `foo` 1.0 holds `bin/foo`,
`bin/bar` and `lib/libfoo.a`, `Install` from the staging directory `/r/tmp/stage` gives a
keg with the new `bin/foo` and the directory `share`, and nothing else. -/
theorem install_mirrors_staging_witness :
    (∃ fs2, Install (FS.pathOf ["r", "Cellar"]) "foo" "1.0" (FS.pathOf ["r", "tmp", "stage"])
        stagedFS = .ok fs2 ∧
      (∀ r perm data, stagedFS.PlainDir (["r", "tmp", "stage"] ++ r.dropLast) →
        stagedFS.find (["r", "tmp", "stage"] ++ r) = some (.file perm data) →
        ∃ perm2, fs2.find (["r", "Cellar"] ++ ["foo"] ++ ["1.0"] ++ r) =
          some (.file perm2 data)) ∧
      (∀ r perm, stagedFS.PlainDir (["r", "tmp", "stage"] ++ r.dropLast) →
        stagedFS.find (["r", "tmp", "stage"] ++ r) = some (.dir perm) →
        fs2.isDirAt (["r", "Cellar"] ++ ["foo"] ++ ["1.0"] ++ r) = true) ∧
      (∀ r, fs2.find (["r", "Cellar"] ++ ["foo"] ++ ["1.0"] ++ r) =
        Fsutil.mirror stagedFS ["r", "tmp", "stage"] (["r", "Cellar"] ++ ["foo"] ++ ["1.0"]) r) ∧
      (∀ r node, fs2.find (["r", "Cellar"] ++ ["foo"] ++ ["1.0"] ++ r) = some node →
        stagedFS.PlainDir (["r", "tmp", "stage"] ++ r.dropLast) ∧
        ∃ staged, stagedFS.find (["r", "tmp", "stage"] ++ r) = some staged ∧
          Fsutil.copyOf (["r", "Cellar"] ++ ["foo"] ++ ["1.0"]) r staged = some node) ∧
      (∀ r, stagedFS.find (["r", "tmp", "stage"] ++ r) = none →
        fs2.find (["r", "Cellar"] ++ ["foo"] ++ ["1.0"] ++ r) = none)) ∧
    FS.pathOf ["r", "Cellar"] = "/r/Cellar" ∧ FS.pathOf ["r", "tmp", "stage"] = "/r/tmp/stage" ∧
    stagedFS.find ["r", "Cellar", "foo", "1.0", "bin", "bar"] = some (.file 0o755 "y") ∧
    (Install "/r/Cellar" "foo" "1.0" "/r/tmp/stage" stagedFS).toOption.map
      (fun fs2 => (fs2.find ["r", "Cellar", "foo", "1.0", "bin", "foo"],
        fs2.find ["r", "Cellar", "foo", "1.0", "bin", "bar"],
        fs2.find ["r", "Cellar", "foo", "1.0", "lib"],
        fs2.find ["r", "Cellar", "foo", "1.0", "share"])) =
      some (some (.file 0o755 "new"), none, none, some (.dir 0o755)) :=
  ⟨install_mirrors_staging stagedFS ["r", "Cellar"] ["r", "tmp", "stage"] "foo" "1.0"
    (by decide) (by decide) (by decide) (by decide) (by decide) (by decide) (by decide)
    (by decide) (by decide) (by decide), by decide, by decide, by decide, by decide⟩

/-- C22, violated by the code.  The staging directory is given by the path `/r/tmp/cur`, a
link to the directory `/r/tmp/stage` that holds `bin/foo` and `share`.  `Install` of `foo`
1.0 from it returns no error, but the keg holds nothing of the staging tree: the earlier
keg is removed and no new one is made, nothing lies at `Cellar/foo/1.0` afterwards.
`filepath.Walk` does not follow the link at its root (it uses `os.Lstat`), so the function
of `CopyTree` is called once, for the link, and skips it as a link that leads out of the
destination (line 47), although the comments say that `Walk` follows links (line 30) and
that `CopyTree` copies a directory tree from `src` (line 11).  From `/r/tmp/stage` itself
the tree is copied. -/
theorem install_from_linked_staging_copies_nothing :
    Stat curFS "/r/tmp/cur" = .ok (.dir 0o700) ∧
    Open curFS "/r/tmp/cur/bin/foo" = .ok (some "new") ∧
    curFS.find ["r", "Cellar", "foo", "1.0", "bin", "foo"] = some (.file 0o755 "x") ∧
    Install "/r/Cellar" "foo" "1.0" "/r/tmp/cur" curFS =
      .ok (curFS.prune ["r", "Cellar", "foo", "1.0"]) ∧
    (curFS.prune ["r", "Cellar", "foo", "1.0"]).find ["r", "Cellar", "foo", "1.0"] = none ∧
    (curFS.prune ["r", "Cellar", "foo", "1.0"]).find
      ["r", "Cellar", "foo", "1.0", "bin", "foo"] = none ∧
    (Install "/r/Cellar" "foo" "1.0" "/r/tmp/stage" curFS).toOption.map
      (fun fs => fs.find ["r", "Cellar", "foo", "1.0", "bin", "foo"]) =
      some (some (.file 0o755 "new")) := by
  decide

/-- C23: when the directory of the package was made and the copy of the staging tree
into the emptied path of the keg fails, at the first entry or part-way, in a state in
which the directory of the package is still a plain directory: `Install` returns the
error of the copy, in the state without what lay at or below the path of the keg, where
`os.Stat` of the path of the keg finds nothing, and nothing else is changed after the
failure. -/
theorem failed_copy_removes_keg (fs fs1 fs2 : FS) (Cl : List String)
    (name version staging : String) (e : Fsutil.CopyError)
    (hpCl : ∀ x ∈ Cl, Proper x) (hn : Validation.IsValidName name = true)
    (hv : Validation.IsValidVersion version = true)
    (hmk : MkdirAll fs (FS.pathOf (Cl ++ [name])) 0o755 = .ok fs1)
    (hcopy : Fsutil.CopyTree staging (FS.pathOf (Cl ++ [name] ++ [version]))
      (removeAllIgnoringError fs1 (FS.pathOf (Cl ++ [name] ++ [version]))) = .error (e, fs2))
    (hdir : fs2.PlainDir (Cl ++ [name])) :
    Install (FS.pathOf Cl) name version staging fs =
        .error (.copy e, fs2.prune (Cl ++ [name] ++ [version])) ∧
      (∀ r, (fs2.prune (Cl ++ [name] ++ [version])).find (Cl ++ [name] ++ [version] ++ r) = none) ∧
      Stat (fs2.prune (Cl ++ [name] ++ [version])) (FS.pathOf (Cl ++ [name] ++ [version])) =
        .error .ENOENT ∧
      (∀ loc, ¬ (Cl ++ [name] ++ [version]) <+: loc →
        (fs2.prune (Cl ++ [name] ++ [version])).find loc = fs2.find loc) := by
  have hpn := proper_of_validName hn
  have hpv := proper_of_validVersion hv
  have hpD : ∀ x ∈ Cl ++ [name], Proper x := proper_append hpCl hpn
  have hjoin : Join [FS.pathOf Cl, name, version] = FS.pathOf (Cl ++ [name] ++ [version]) := by
    rw [Join3_pathOf Cl name version hpCl hpn hpv, List.append_assoc]
    rfl
  have hbelow : ∀ r, (fs2.prune (Cl ++ [name] ++ [version])).find
      (Cl ++ [name] ++ [version] ++ r) = none :=
    fun r => FS.find_prune_below _ _ _ (List.prefix_append _ _) (by simp)
  refine ⟨?_, hbelow, ?_, fun loc hloc => FS.find_prune_other _ _ _ hloc⟩
  · unfold Install
    rw [if_neg (by simp [hn, hv])]
    simp only
    rw [hjoin, Dir_pathOf _ _ hpD hpv, hmk]
    simp only
    rw [hcopy]
    simp only
    rw [removeAll_child fs2 (Cl ++ [name]) version hdir hpD hpv]
  · apply Stat_child_none _ (Cl ++ [name]) version (hdir.prune _ (not_prefix_child _ _)) hpD hpv
    have := hbelow []
    rwa [List.append_nil] at this

/-- Witness of C23: with a staging directory that does not exist the copy fails at the
first entry; with a staging directory in which the store lies it fails part-way, when the
keg holds copies of itself. In both cases nothing lies at the path of the keg afterwards. -/
theorem failed_copy_removes_keg_witness :
    (Install (FS.pathOf ["r", "Cellar"]) "foo" "1.0" "/r/tmp/missing" Cmd.prefixFS =
        .error (.copy (.os .ENOENT),
          (Cmd.prefixFS.put ["r", "Cellar", "foo"] (.dir 0o755)).prune
            (["r", "Cellar"] ++ ["foo"] ++ ["1.0"])) ∧
      (∀ r, ((Cmd.prefixFS.put ["r", "Cellar", "foo"] (.dir 0o755)).prune
        (["r", "Cellar"] ++ ["foo"] ++ ["1.0"])).find
          (["r", "Cellar"] ++ ["foo"] ++ ["1.0"] ++ r) = none) ∧
      Stat ((Cmd.prefixFS.put ["r", "Cellar", "foo"] (.dir 0o755)).prune
        (["r", "Cellar"] ++ ["foo"] ++ ["1.0"]))
          (FS.pathOf (["r", "Cellar"] ++ ["foo"] ++ ["1.0"])) = .error .ENOENT ∧
      (∀ loc, ¬ (["r", "Cellar"] ++ ["foo"] ++ ["1.0"]) <+: loc →
        ((Cmd.prefixFS.put ["r", "Cellar", "foo"] (.dir 0o755)).prune
          (["r", "Cellar"] ++ ["foo"] ++ ["1.0"])).find loc =
        (Cmd.prefixFS.put ["r", "Cellar", "foo"] (.dir 0o755)).find loc)) ∧
    (Install (FS.pathOf ["s", "c"]) "foo" "1.0" "/s" nestedFS =
        .error (.copy (.os .ENAMETOOLONG), nestedFailFS.prune (["s", "c"] ++ ["foo"] ++ ["1.0"])) ∧
      (∀ r, (nestedFailFS.prune (["s", "c"] ++ ["foo"] ++ ["1.0"])).find
          (["s", "c"] ++ ["foo"] ++ ["1.0"] ++ r) = none) ∧
      Stat (nestedFailFS.prune (["s", "c"] ++ ["foo"] ++ ["1.0"]))
          (FS.pathOf (["s", "c"] ++ ["foo"] ++ ["1.0"])) = .error .ENOENT ∧
      (∀ loc, ¬ (["s", "c"] ++ ["foo"] ++ ["1.0"]) <+: loc →
        (nestedFailFS.prune (["s", "c"] ++ ["foo"] ++ ["1.0"])).find loc =
          nestedFailFS.find loc)) ∧
    nestedFailFS.find ["s", "c", "foo", "1.0", "c", "foo", "1.0", "a"] = some (.file 0o644 "a") :=
  ⟨failed_copy_removes_keg Cmd.prefixFS (Cmd.prefixFS.put ["r", "Cellar", "foo"] (.dir 0o755))
      (Cmd.prefixFS.put ["r", "Cellar", "foo"] (.dir 0o755)) ["r", "Cellar"] "foo" "1.0"
      "/r/tmp/missing" (.os .ENOENT) (by decide) (by decide) (by decide) (by decide) (by decide)
      (by decide),
    failed_copy_removes_keg nestedFS (nestedFS.put ["s", "c", "foo"] (.dir 0o755)) nestedFailFS
      ["s", "c"] "foo" "1.0" "/s" (.os .ENAMETOOLONG) (by decide) (by decide) (by decide)
      (by decide) (by decide) (by decide), by decide⟩

end Cellar

end Grew
